import Mathlib

/-! # Merge-and-shrink: the factored transition system

A shallow embedding of `search/merge_and_shrink/factored_transition_system.cc`.

* The three parallel vectors of `unique_ptr`s become three lists of `Option`s
  (`none` is the null pointer).
* The classes `Labels`, `TransitionSystem`, `HeuristicRepresentation` and
  `Distances` are declared in headers that are not part of the sources at hand;
  their member functions are taken as parameters, bundled in `Components`.
  A `Distances` object holds a reference to its transition system, so the
  member functions of `Distances` receive the current transition system
  explicitly.
* A failed `assert`, a null dereference and an out-of-range vector access all
  make an operation return `none`.
* Component indices and abstract states are natural numbers; `final_index`
  and the argument of `finalize` are integers because of the sentinel `-1`.
-/

set_option autoImplicit false

namespace MergeAndShrink

/-- A state equivalence class: `forward_list<int>` of abstract states. -/
abbrev StateEquivalenceClass := List Nat

/-- A state equivalence relation: `vector<StateEquivalenceClass>`. -/
abbrev StateEquivalenceRelation := List StateEquivalenceClass

/-- A label mapping: `vector<pair<int, vector<int>>>`, each entry a new label
number together with the old label numbers reduced to it. -/
abbrev LabelMapping := List (Int × List Nat)

/-- The member functions of the component classes that
`factored_transition_system.cc` calls. `State` is the type of concrete states,
`L` of `Labels`, `TS` of `TransitionSystem`, `HR` of `HeuristicRepresentation`
and `D` of `Distances`. The `Bool` arguments named `silent` only steer logging
in the source. -/
structure Components (State L TS HR D : Type) where
  /-- The constant `TransitionSystem::PRUNED_STATE`. -/
  PRUNED_STATE : Int
  /-- The constant `INF`. -/
  INF : Int
  /-- Member `Labels::get_size`. -/
  labels_get_size : L → Int
  /-- Member `Labels::reduce_labels`. -/
  labels_reduce_labels : L → List Nat → L
  /-- Member `TransitionSystem::get_size`. -/
  ts_get_size : TS → Nat
  /-- Member `TransitionSystem::is_solvable`. -/
  ts_is_solvable : TS → Bool
  /-- Member `TransitionSystem::are_transitions_sorted_unique`. -/
  ts_are_transitions_sorted_unique : TS → Bool
  /-- Member `TransitionSystem::apply_abstraction` with arguments relation,
  abstraction mapping and `silent`: the new object and the returned flag. -/
  ts_apply_abstraction : TS → StateEquivalenceRelation → List Int → Bool → TS × Bool
  /-- Member `TransitionSystem::apply_label_reduction`. -/
  ts_apply_label_reduction : TS → LabelMapping → Bool → TS
  /-- Static member `TransitionSystem::merge`. -/
  ts_merge : L → TS → TS → Bool → TS
  /-- Copy constructor of `TransitionSystem`. -/
  ts_copy : TS → TS
  /-- Member `HeuristicRepresentation::get_abstract_state`. -/
  hr_get_abstract_state : HR → State → Int
  /-- Member `HeuristicRepresentation::apply_abstraction_to_lookup_table`. -/
  hr_apply_abstraction_to_lookup_table : HR → List Int → HR
  /-- Constructor of `HeuristicRepresentationMerge` from two children. -/
  hr_merge : HR → HR → HR
  /-- The cloning constructors of `HeuristicRepresentationLeaf` and
  `HeuristicRepresentationMerge` (selected by `dynamic_cast` in the source). -/
  hr_clone : HR → HR
  /-- Constructor `Distances(const TransitionSystem &)`. -/
  dist_new : TS → D
  /-- Constructor `Distances(const TransitionSystem &, const Distances &)`. -/
  dist_copy : TS → D → D
  /-- Member `Distances::are_distances_computed`. -/
  dist_are_distances_computed : D → Bool
  /-- Member `Distances::compute_distances`: the new object and the returned
  vector of states to prune. -/
  dist_compute_distances : D → TS → Bool → D × List Bool
  /-- Member `Distances::apply_abstraction`: the new object and the returned
  flag (f-preserving). -/
  dist_apply_abstraction : D → TS → StateEquivalenceRelation → Bool → D × Bool
  /-- Member `Distances::get_goal_distance`. -/
  dist_get_goal_distance : D → Int → Int

/-- The data members of `FactoredTransitionSystem`. An entry of
`relative_pruning_per_iteration` records the pair `(new_size, num_states)` from
which the source computes the double `1 - new_size / num_states`. -/
structure FactoredTransitionSystem (L TS HR D : Type) where
  labels : L
  transition_systems : List (Option TS)
  heuristic_representations : List (Option HR)
  distances : List (Option D)
  final_index : Int
  solvable : Bool
  relative_pruning_per_iteration : List (Nat × Nat)
deriving DecidableEq

/-- An `assert`: continue only when the condition holds. -/
def check (b : Bool) : Option Unit := if b then some () else none

/-- Dereference of the pointer stored at a position of a vector: `none` when
the position is out of range or holds the null pointer. -/
def deref {α : Type} (xs : List (Option α)) (i : Nat) : Option α := xs[i]?.join

/-- Assignment `xs[i] = v`: `none` when the position is out of range. -/
def assign {α : Type} (xs : List α) (i : Nat) (v : α) : Option (List α) :=
  if i < xs.length then some (xs.set i v) else none

/-- The inner loop of `apply_abstraction` over one equivalence class: every
state of the class must still map to `PRUNED_STATE` (the `assert`) and is then
mapped to `class_no`. -/
def assign_class (pruned : Int) (class_no : Nat) : List Int → StateEquivalenceClass → Option (List Int)
  | m, [] => some m
  | m, state :: rest =>
    match m[state]? with
    | none => none
    | some v => if v = pruned then assign_class pruned class_no (m.set state (class_no : Int)) rest else none

/-- The outer loop of `apply_abstraction` over the classes, starting at class
number `class_no`. -/
def assign_classes (pruned : Int) : Nat → List Int → StateEquivalenceRelation → Option (List Int)
  | _, m, [] => some m
  | class_no, m, c :: cs =>
    (assign_class pruned class_no m c).bind (fun m' => assign_classes pruned (class_no + 1) m' cs)

/-- The vector `abstraction_mapping` that `apply_abstraction` builds for a
component with `size` states (lines 124-135). -/
def build_abstraction_mapping (pruned : Int) (size : Nat) (rel : StateEquivalenceRelation) :
    Option (List Int) :=
  assign_classes pruned 0 (List.replicate size pruned) rel

/-- The loop of `discard_states` (lines 63-69) from state `state` on, `mask`
being the rest of `to_be_pruned_states`: one singleton class per state that is
not to be pruned. -/
def discard_relation_from : Nat → List Bool → StateEquivalenceRelation
  | _, [] => []
  | state, b :: rest =>
    if b then discard_relation_from (state + 1) rest
    else [state] :: discard_relation_from (state + 1) rest

/-- The relation `state_equivalence_relation` that `discard_states` builds. -/
def discard_relation (to_be_pruned_states : List Bool) : StateEquivalenceRelation :=
  discard_relation_from 0 to_be_pruned_states

namespace FactoredTransitionSystem

variable {State L TS HR D : Type}

/-- Number of slots of the transition system vector (`get_size`). -/
def size (fts : FactoredTransitionSystem L TS HR D) : Nat := fts.transition_systems.length

/-- Function `FactoredTransitionSystem::is_index_valid` (lines 78-86). The
conjunction is short-circuited as in the source. -/
def is_index_valid (fts : FactoredTransitionSystem L TS HR D) (index : Nat) : Option Bool :=
  if fts.transition_systems.length ≤ index then
    (check (decide (fts.heuristic_representations.length ≤ index))).bind fun _ =>
    (check (decide (fts.distances.length ≤ index))).bind fun _ =>
    some false
  else
    match fts.transition_systems[index]? with
    | none => none
    | some none => some false
    | some (some _) =>
      match fts.heuristic_representations[index]? with
      | none => none
      | some none => some false
      | some (some _) =>
        match fts.distances[index]? with
        | none => none
        | some none => some false
        | some (some _) => some true

/-- Modelled from the spec: `is_active`, declared in the absent header
`factored_transition_system.h`; a component is active exactly when all three of
its slots are populated, which is what `is_index_valid` tests. -/
def is_active (fts : FactoredTransitionSystem L TS HR D) (index : Nat) : Option Bool :=
  fts.is_index_valid index

/-- Modelled from the spec: `is_finalized`, declared in the absent header
`factored_transition_system.h`; `final_index` is `-1` from construction until
`finalize` sets it. -/
def is_finalized (fts : FactoredTransitionSystem L TS HR D) : Bool :=
  decide (fts.final_index ≠ -1)

/-- Function `FactoredTransitionSystem::is_component_valid` (lines 88-92). -/
def is_component_valid (ops : Components State L TS HR D)
    (fts : FactoredTransitionSystem L TS HR D) (index : Nat) : Option Bool :=
  (fts.is_index_valid index).bind fun v =>
  (check v).bind fun _ =>
  (deref fts.distances index).bind fun d =>
  (deref fts.transition_systems index).bind fun ts =>
  some (ops.dist_are_distances_computed d && ops.ts_are_transitions_sorted_unique ts)

/-- Lines 137-150 of `apply_abstraction`: everything after the abstraction
mapping has been built. -/
def apply_abstraction_with (ops : Components State L TS HR D)
    (fts : FactoredTransitionSystem L TS HR D) (index : Nat)
    (rel : StateEquivalenceRelation) (abstraction_mapping : List Int) (silent : Bool) :
    Option (FactoredTransitionSystem L TS HR D × Bool) :=
  (deref fts.transition_systems index).bind fun ts =>
  let r := ops.ts_apply_abstraction ts rel abstraction_mapping silent
  (assign fts.transition_systems index (some r.1)).bind fun tss =>
  let fts1 : FactoredTransitionSystem L TS HR D := { fts with transition_systems := tss }
  (if r.2 then
    (deref fts1.distances index).bind fun d =>
    (assign fts1.distances index (some (ops.dist_apply_abstraction d r.1 rel silent).1)).bind fun ds =>
    (deref fts1.heuristic_representations index).bind fun h =>
    (assign fts1.heuristic_representations index
      (some (ops.hr_apply_abstraction_to_lookup_table h abstraction_mapping))).bind fun hs =>
    some { fts1 with distances := ds, heuristic_representations := hs }
  else some fts1).bind fun fts2 =>
  (is_component_valid ops fts2 index).bind fun v =>
  (check v).bind fun _ =>
  some (fts2, r.2)

/-- Function `FactoredTransitionSystem::apply_abstraction` (lines 120-151). -/
def apply_abstraction (ops : Components State L TS HR D)
    (fts : FactoredTransitionSystem L TS HR D) (index : Nat)
    (rel : StateEquivalenceRelation) (silent : Bool) :
    Option (FactoredTransitionSystem L TS HR D × Bool) :=
  (fts.is_index_valid index).bind fun v =>
  (check v).bind fun _ =>
  (deref fts.transition_systems index).bind fun ts =>
  (build_abstraction_mapping ops.PRUNED_STATE (ops.ts_get_size ts) rel).bind fun m =>
  apply_abstraction_with ops fts index rel m silent

/-- Lines 71-75 of `discard_states`: unless `silent`, the size after the
abstraction is compared with the size before and the pruning statistic gets a
new entry. -/
def record_pruning (ops : Components State L TS HR D) (index num_states : Nat) (silent : Bool)
    (r : FactoredTransitionSystem L TS HR D × Bool) :
    Option (FactoredTransitionSystem L TS HR D) :=
  if silent then some r.1
  else
    (deref r.1.transition_systems index).bind fun ts' =>
    let new_size := ops.ts_get_size ts'
    (check (decide (new_size ≤ num_states))).bind fun _ =>
    some { r.1 with
      relative_pruning_per_iteration := r.1.relative_pruning_per_iteration ++ [(new_size, num_states)] }

/-- Function `FactoredTransitionSystem::discard_states` (lines 56-76). -/
def discard_states (ops : Components State L TS HR D)
    (fts : FactoredTransitionSystem L TS HR D) (index : Nat)
    (to_be_pruned_states : List Bool) (silent : Bool) :
    Option (FactoredTransitionSystem L TS HR D) :=
  (fts.is_index_valid index).bind fun v =>
  (check v).bind fun _ =>
  (deref fts.transition_systems index).bind fun ts =>
  let num_states := ops.ts_get_size ts
  (check (decide (to_be_pruned_states.length = num_states))).bind fun _ =>
  (apply_abstraction ops fts index (discard_relation to_be_pruned_states) silent).bind
    (record_pruning ops index num_states silent)

/-- Function `FactoredTransitionSystem::compute_distances_and_prune`
(lines 94-103). -/
def compute_distances_and_prune (ops : Components State L TS HR D)
    (fts : FactoredTransitionSystem L TS HR D) (index : Nat) (silent : Bool) :
    Option (FactoredTransitionSystem L TS HR D) :=
  (fts.is_index_valid index).bind fun v =>
  (check v).bind fun _ =>
  (deref fts.distances index).bind fun d =>
  (deref fts.transition_systems index).bind fun ts =>
  let r := ops.dist_compute_distances d ts silent
  (assign fts.distances index (some r.1)).bind fun ds =>
  (discard_states ops { fts with distances := ds } index r.2 silent).bind fun fts1 =>
  (is_component_valid ops fts1 index).bind fun v1 =>
  (check v1).bind fun _ =>
  some fts1

/-- The first loop of `apply_label_reduction` (lines 108-111): every entry's
new label number must equal `labels->get_size()` at that moment (the `assert`),
then the entry's old labels are reduced. -/
def reduce_all (ops : Components State L TS HR D) : L → LabelMapping → Option L
  | l, [] => some l
  | l, e :: es =>
    (check (decide (e.1 = ops.labels_get_size l))).bind fun _ =>
    reduce_all ops (ops.labels_reduce_labels l e.2) es

/-- The second loop of `apply_label_reduction` (lines 112-117) from position
`i` on: every non-null transition system is relabelled, with the flag
`i != combinable_index`. -/
def relabel_from (ops : Components State L TS HR D) (label_mapping : LabelMapping)
    (combinable_index : Int) : Nat → List (Option TS) → List (Option TS)
  | _, [] => []
  | i, t :: rest =>
    (t.map fun ts => ops.ts_apply_label_reduction ts label_mapping (decide ((i : Int) ≠ combinable_index)))
      :: relabel_from ops label_mapping combinable_index (i + 1) rest

/-- Function `FactoredTransitionSystem::apply_label_reduction` (lines 105-118). -/
def apply_label_reduction (ops : Components State L TS HR D)
    (fts : FactoredTransitionSystem L TS HR D) (label_mapping : LabelMapping)
    (combinable_index : Int) : Option (FactoredTransitionSystem L TS HR D) :=
  (reduce_all ops fts.labels label_mapping).bind fun l =>
  some { fts with
    labels := l,
    transition_systems := relabel_from ops label_mapping combinable_index 0 fts.transition_systems }

/-- Function `FactoredTransitionSystem::get_num_labels` (lines 285-287). -/
def get_num_labels (ops : Components State L TS HR D)
    (fts : FactoredTransitionSystem L TS HR D) : Int :=
  ops.labels_get_size fts.labels

/-- The `assert`s of the regular branch of `finalize` (lines 223-226), for the
positions `i, i+1, ...` below `bound`: the transition system and the distances
stored there must be null. `tss` is the rest of the transition system vector
from position `i` on. -/
def all_consumed_from (bound : Nat) (ds : List (Option D)) : Nat → List (Option TS) → Option Unit
  | _, [] => some ()
  | i, t :: rest =>
    if i < bound then
      (check t.isNone).bind fun _ =>
      match ds[i]? with
      | none => none
      | some d => (check d.isNone).bind fun _ => all_consumed_from bound ds (i + 1) rest
    else some ()

/-- The loop of the second branch of `finalize` (lines 236-241) on the
distances, from position `i` on: `distances[i] = nullptr` unless `i` is
`index`. `tss` is the rest of the transition system vector, which bounds the
loop. -/
def drop_other_distances (index : Int) : Nat → List (Option TS) → List (Option D) → Option (List (Option D))
  | _, [], ds => some ds
  | i, _ :: rest, ds =>
    (if (i : Int) = index then some ds else assign ds i none).bind fun ds' =>
    drop_other_distances index (i + 1) rest ds'

/-- Function `FactoredTransitionSystem::finalize` (lines 214-244). Every
transition system is set to null and the vector is cleared in the end, so the
resulting vector is empty in both branches. -/
def finalize (fts : FactoredTransitionSystem L TS HR D) (index : Int) :
    Option (FactoredTransitionSystem L TS HR D) :=
  if index = -1 then
    (check fts.solvable).bind fun _ =>
    match fts.transition_systems.length with
    | 0 => none
    | last + 1 =>
      (all_consumed_from last fts.distances 0 fts.transition_systems).bind fun _ =>
      some { fts with final_index := (last : Int), transition_systems := [] }
  else
    (check (!fts.solvable)).bind fun _ =>
    (drop_other_distances index 0 fts.transition_systems fts.distances).bind fun ds =>
    some { fts with final_index := index, distances := ds, transition_systems := [] }

/-- Function `FactoredTransitionSystem::get_cost` (lines 246-256). -/
def get_cost (ops : Components State L TS HR D)
    (fts : FactoredTransitionSystem L TS HR D) (state : State) : Option Int :=
  (check fts.is_finalized).bind fun _ =>
  if fts.final_index < 0 then none
  else
    (deref fts.distances fts.final_index.toNat).bind fun d =>
    (check (ops.dist_are_distances_computed d)).bind fun _ =>
    (deref fts.heuristic_representations fts.final_index.toNat).bind fun h =>
    let abs_state := ops.hr_get_abstract_state h state
    if abs_state = ops.PRUNED_STATE then some (-1)
    else
      let cost := ops.dist_get_goal_distance d abs_state
      (check (decide (cost ≠ ops.INF))).bind fun _ => some cost

/-- Lines 153-201 of `merge`: the product transition system, the merged
heuristic representation and fresh distances are appended; an invalidating
merge nulls the slots of both inputs. In the invalidating branch the first
child is moved out of its slot before the second one is taken. -/
def merge_append (ops : Components State L TS HR D)
    (fts : FactoredTransitionSystem L TS HR D) (index1 index2 : Nat)
    (invalidating_merge finalize_if_unsolvable : Bool) :
    Option (FactoredTransitionSystem L TS HR D) :=
  let silent := !invalidating_merge || !finalize_if_unsolvable
  (fts.is_index_valid index1).bind fun v1 =>
  (check v1).bind fun _ =>
  (fts.is_index_valid index2).bind fun v2 =>
  (check v2).bind fun _ =>
  (deref fts.transition_systems index1).bind fun ts1 =>
  (deref fts.transition_systems index2).bind fun ts2 =>
  let new_ts := ops.ts_merge fts.labels ts1 ts2 silent
  let tss := fts.transition_systems ++ [some new_ts]
  (if invalidating_merge then
    (assign fts.distances index1 none).bind fun ds1 =>
    (assign ds1 index2 none).bind fun ds2 =>
    (assign tss index1 none).bind fun tss1 =>
    (assign tss1 index2 none).bind fun tss2 =>
    (deref fts.heuristic_representations index1).bind fun h1 =>
    (assign fts.heuristic_representations index1 none).bind fun hrs0 =>
    (deref hrs0 index2).bind fun h2 =>
    (assign hrs0 index2 none).bind fun hrs1 =>
    some ({ fts with
      transition_systems := tss2,
      heuristic_representations := hrs1 ++ [some (ops.hr_merge h1 h2)],
      distances := ds2 } : FactoredTransitionSystem L TS HR D)
  else
    (deref fts.heuristic_representations index1).bind fun h1 =>
    (deref fts.heuristic_representations index2).bind fun h2 =>
    some { fts with
      transition_systems := tss,
      heuristic_representations :=
        fts.heuristic_representations ++ [some (ops.hr_merge (ops.hr_clone h1) (ops.hr_clone h2))] }).bind fun fts1 =>
  some { fts1 with distances := fts1.distances ++ [some (ops.dist_new new_ts)] }

/-- Lines 153-204 of `merge`: after the product has been appended, its
distances are computed and pruned; the result is the system just before the
test of `finalize_if_unsolvable`, together with `new_index`. -/
def merge_product (ops : Components State L TS HR D)
    (fts : FactoredTransitionSystem L TS HR D) (index1 index2 : Nat)
    (invalidating_merge finalize_if_unsolvable : Bool) :
    Option (FactoredTransitionSystem L TS HR D × Nat) :=
  let silent := !invalidating_merge || !finalize_if_unsolvable
  (merge_append ops fts index1 index2 invalidating_merge finalize_if_unsolvable).bind fun fts2 =>
  let new_index := fts2.transition_systems.length - 1
  (compute_distances_and_prune ops fts2 new_index silent).bind fun fts3 =>
  (is_component_valid ops fts3 new_index).bind fun v =>
  (check v).bind fun _ =>
  some (fts3, new_index)

/-- Function `FactoredTransitionSystem::merge` (lines 153-212). -/
def merge (ops : Components State L TS HR D)
    (fts : FactoredTransitionSystem L TS HR D) (index1 index2 : Nat)
    (invalidating_merge finalize_if_unsolvable : Bool) :
    Option (FactoredTransitionSystem L TS HR D × Nat) :=
  (merge_product ops fts index1 index2 invalidating_merge finalize_if_unsolvable).bind fun r =>
  if finalize_if_unsolvable then
    (deref r.1.transition_systems r.2).bind fun new_ts =>
    if !ops.ts_is_solvable new_ts then
      (finalize { r.1 with solvable := false } (r.2 : Int)).bind fun fts' => some (fts', r.2)
    else some r
  else some r

/-- Function `FactoredTransitionSystem::copy` (lines 293-314). -/
def copy (ops : Components State L TS HR D)
    (fts : FactoredTransitionSystem L TS HR D) (index : Nat) :
    Option (FactoredTransitionSystem L TS HR D × Nat) :=
  (fts.is_active index).bind fun v =>
  (check v).bind fun _ =>
  let new_index := fts.transition_systems.length
  (deref fts.transition_systems index).bind fun ts =>
  let ts_new := ops.ts_copy ts
  (deref fts.heuristic_representations index).bind fun h =>
  (deref fts.distances index).bind fun d =>
  some ({ fts with
    transition_systems := fts.transition_systems ++ [some ts_new],
    heuristic_representations := fts.heuristic_representations ++ [some (ops.hr_clone h)],
    distances := fts.distances ++ [some (ops.dist_copy ts_new d)] }, new_index)

/-- Member `pop_back` of a vector: undefined on the empty vector. -/
def pop_back {α : Type} : List α → Option (List α)
  | [] => none
  | x :: xs => some (x :: xs).dropLast

/-- The test `assert(!v.back())`: the last element exists and is null. -/
def back_is_null {α : Type} (xs : List (Option α)) : Option Unit :=
  match xs.getLast? with
  | some none => some ()
  | _ => none

/-- Lines 318-323 and 328-333 of `release_copies`, for one of the vectors
`transition_systems` and `distances`: the last entry is reset and three entries
are popped; the two entries below the last one are asserted to be null. -/
def pop_three_null_tested {α : Type} (xs : List (Option α)) (last_index : Nat) :
    Option (List (Option α)) :=
  (assign xs last_index none).bind fun x0 =>
  (pop_back x0).bind fun x1 =>
  (back_is_null x1).bind fun _ =>
  (pop_back x1).bind fun x2 =>
  (back_is_null x2).bind fun _ =>
  pop_back x2

/-- Lines 324-327 of `release_copies`: the last entry of
`heuristic_representations` is reset and three entries are popped. -/
def pop_three {α : Type} (xs : List (Option α)) (last_index : Nat) :
    Option (List (Option α)) :=
  (assign xs last_index none).bind fun x0 =>
  (pop_back x0).bind fun x1 =>
  (pop_back x1).bind fun x2 =>
  pop_back x2

/-- Function `FactoredTransitionSystem::release_copies` (lines 316-334). -/
def release_copies (fts : FactoredTransitionSystem L TS HR D) :
    Option (FactoredTransitionSystem L TS HR D) :=
  match fts.transition_systems.length with
  | 0 => none
  | last_index + 1 =>
    (pop_three_null_tested fts.transition_systems last_index).bind fun t3 =>
    (pop_three fts.heuristic_representations last_index).bind fun h3 =>
    (pop_three_null_tested fts.distances last_index).bind fun d3 =>
    some { fts with transition_systems := t3, heuristic_representations := h3, distances := d3 }

/-- Function `FactoredTransitionSystem::remove` (lines 336-342). -/
def remove (fts : FactoredTransitionSystem L TS HR D) (index : Nat) :
    Option (FactoredTransitionSystem L TS HR D) :=
  (fts.is_active index).bind fun v =>
  (check v).bind fun _ =>
  (assign fts.transition_systems index none).bind fun t0 =>
  (assign t0 index none).bind fun t1 =>
  (assign fts.heuristic_representations index none).bind fun h1 =>
  (assign fts.distances index none).bind fun d1 =>
  some { fts with transition_systems := t1, heuristic_representations := h1, distances := d1 }

/-- The loop of the constructor (lines 29-36) from position `i` on, with
`n` iterations left (`compute_distances_and_prune` keeps the number of slots,
so `n` is `size - i`). `silent` is the default argument of
`compute_distances_and_prune`, declared in the absent header. -/
def construct_from (ops : Components State L TS HR D) (finalize_if_unsolvable silent : Bool) :
    Nat → Nat → FactoredTransitionSystem L TS HR D → Option (FactoredTransitionSystem L TS HR D)
  | 0, _, fts => some fts
  | n + 1, i, fts =>
    (compute_distances_and_prune ops fts i silent).bind fun fts1 =>
    (deref fts1.transition_systems i).bind fun ts =>
    if finalize_if_unsolvable && !ops.ts_is_solvable ts then
      finalize { fts1 with solvable := false } (i : Int)
    else construct_from ops finalize_if_unsolvable silent n (i + 1) fts1

/-- The member initializers of the constructor (lines 23-28). -/
def initial_system (labels : L) (transition_systems : List (Option TS))
    (heuristic_representations : List (Option HR)) (distances : List (Option D)) :
    FactoredTransitionSystem L TS HR D :=
  { labels := labels,
    transition_systems := transition_systems,
    heuristic_representations := heuristic_representations,
    distances := distances,
    final_index := -1,
    solvable := true,
    relative_pruning_per_iteration := [] }

/-- The constructor `FactoredTransitionSystem::FactoredTransitionSystem`
(lines 17-37). -/
def construct (ops : Components State L TS HR D) (labels : L)
    (transition_systems : List (Option TS)) (heuristic_representations : List (Option HR))
    (distances : List (Option D)) (finalize_if_unsolvable silent : Bool) :
    Option (FactoredTransitionSystem L TS HR D) :=
  construct_from ops finalize_if_unsolvable silent transition_systems.length 0
    (initial_system labels transition_systems heuristic_representations distances)

end FactoredTransitionSystem

/-! ## A concrete instance of the component interface

The operations are evaluated on concrete systems over the following small
instance. Labels are a table of label slots; a transition system records, per
abstract state, its goal distance (absent for a state that is unreachable or
irrelevant) and its initial state; a heuristic representation is a lookup table
from concrete states (numbered) to abstract states. -/

/-- Modelled from the spec: `Labels` (header `labels.h` is absent). A label is
a slot that holds its cost while the label is active and is empty once the
label has been reduced into another one; label numbers are positions. -/
abbrev LabelTable := List (Option Nat)

/-- Modelled from the spec: `Labels::get_size`, the number that
`apply_label_reduction` requires the next new label to carry: the number of
label slots handed out so far, reduced labels included (`compute_label_ranks`
sizes its vector, which has entries for reduced labels, with it). -/
def LabelTable.get_size (l : LabelTable) : Int := (l.length : Int)

/-- Modelled from the spec: `Labels::compute_number_active_labels`, the number
of labels that have not been reduced into another label. -/
def LabelTable.compute_number_active_labels (l : LabelTable) : Nat :=
  (l.filter Option.isSome).length

/-- Modelled from the spec: part of `Labels::reduce_labels`; the old labels
become inactive, that is, their slots are emptied. -/
def LabelTable.deactivate : LabelTable → List Nat → LabelTable
  | l, [] => l
  | l, old :: rest => LabelTable.deactivate (l.set old none) rest

/-- Modelled from the spec: part of `Labels::reduce_labels`; the cost that the
new label inherits, here the least cost among the old labels that are active
(0 if there is none). -/
def LabelTable.min_cost (l : LabelTable) (old_labels : List Nat) : Nat :=
  ((old_labels.filterMap fun old => (l[old]?).join).min?).getD 0

/-- Modelled from the spec: `Labels::reduce_labels`: the old labels become
inactive and one new label, which inherits a cost from them, is created with the
next label number. -/
def LabelTable.reduce_labels (l : LabelTable) (old_labels : List Nat) : LabelTable :=
  LabelTable.deactivate l old_labels ++ [some (LabelTable.min_cost l old_labels)]

/-- Whether every entry of a label mapping, at the moment it is processed,
names at least one old label that is still active. -/
def LabelTable.reduces_active_labels : LabelTable → LabelMapping → Bool
  | _, [] => true
  | l, e :: es =>
    e.2.any (fun old => ((l[old]?).join).isSome) &&
      LabelTable.reduces_active_labels (LabelTable.reduce_labels l e.2) es

/-- Transition systems of the sample instance. -/
structure SampleTS where
  goal_distance : List (Option Nat)
  init : Option Nat
deriving DecidableEq

/-- Distances of the sample instance. -/
structure SampleDist where
  computed : Bool
  h : List Int
deriving DecidableEq

/-- Heuristic representations of the sample instance. -/
structure SampleHR where
  lookup : List Int
  num_states : Nat
deriving DecidableEq

/-- The least of two optional goal distances, absent counting as infinite. -/
def opt_min : Option Nat → Option Nat → Option Nat
  | none, b => b
  | a, none => a
  | some a, some b => some (min a b)

/-- Goal distances of the states of a transition system as integers. -/
def SampleTS.distances (inf : Int) (ts : SampleTS) : List Int :=
  ts.goal_distance.map fun g => match g with
    | none => inf
    | some k => (k : Int)

/-- The sample instance of the component interface. -/
def sampleComponents : Components Nat LabelTable SampleTS SampleHR SampleDist where
  PRUNED_STATE := -1
  INF := 2147483647
  labels_get_size := LabelTable.get_size
  labels_reduce_labels := LabelTable.reduce_labels
  ts_get_size := fun ts => ts.goal_distance.length
  ts_is_solvable := fun ts => ts.init.isSome
  ts_are_transitions_sorted_unique := fun _ => true
  ts_apply_abstraction := fun ts rel m _ =>
    ({ goal_distance := rel.map fun c => c.foldl (fun acc s => opt_min acc (ts.goal_distance[s]?).join) none,
       init := ts.init.bind fun s => match m[s]? with
         | some v => if v < 0 then none else some v.toNat
         | none => none },
     decide (rel.length < ts.goal_distance.length))
  ts_apply_label_reduction := fun ts _ _ => ts
  ts_merge := fun _ a b _ =>
    { goal_distance := a.goal_distance.flatMap fun x => b.goal_distance.map fun y =>
        x.bind fun u => y.map fun v => u + v,
      init := a.init.bind fun i => b.init.map fun j => i * b.goal_distance.length + j }
  ts_copy := fun ts => ts
  hr_get_abstract_state := fun h state => (h.lookup[state]?).getD (-1)
  hr_apply_abstraction_to_lookup_table := fun h m =>
    { lookup := h.lookup.map fun v => if v < 0 then -1 else (m[v.toNat]?).getD (-1),
      num_states := ((m.foldl max (-1)) + 1).toNat }
  hr_merge := fun a b =>
    { lookup := List.zipWith (fun x y => if x < 0 ∨ y < 0 then -1 else x * (b.num_states : Int) + y)
        a.lookup b.lookup,
      num_states := a.num_states * b.num_states }
  hr_clone := fun h => h
  dist_new := fun _ => { computed := false, h := [] }
  dist_copy := fun _ d => d
  dist_are_distances_computed := fun d => d.computed
  dist_compute_distances := fun _ ts _ =>
    ({ computed := true, h := ts.distances 2147483647 }, ts.goal_distance.map Option.isNone)
  dist_apply_abstraction := fun _ ts _ _ => ({ computed := true, h := ts.distances 2147483647 }, true)
  dist_get_goal_distance := fun d s => if s < 0 then 2147483647 else (d.h[s.toNat]?).getD 2147483647

/-- The system type of the sample instance. -/
abbrev SampleFTS := FactoredTransitionSystem LabelTable SampleTS SampleHR SampleDist

/-- Two atomic components over four concrete states (two binary variables):
the goal is reached from every state in at most one step per variable. -/
def sampleAtomic : SampleFTS where
  labels := [some 1, some 1]
  transition_systems :=
    [some { goal_distance := [some 1, some 0], init := some 0 },
     some { goal_distance := [some 1, some 0], init := some 0 }]
  heuristic_representations :=
    [some { lookup := [0, 0, 1, 1], num_states := 2 },
     some { lookup := [0, 1, 0, 1], num_states := 2 }]
  distances := [some { computed := false, h := [] }, some { computed := false, h := [] }]
  final_index := -1
  solvable := true
  relative_pruning_per_iteration := []

/-- Like `sampleAtomic`, but no state of the second component can reach its
goal, and its initial state is therefore pruned. -/
def sampleUnsolvable : SampleFTS :=
  { sampleAtomic with
    transition_systems :=
      [some { goal_distance := [some 1, some 0], init := some 0 },
       some { goal_distance := [none, none], init := some 0 }] }

/-- The system that the constructor makes of `sampleAtomic`: distances are
computed, nothing is pruned. -/
def sampleConstructed : SampleFTS :=
  { sampleAtomic with
    distances := [some { computed := true, h := [1, 0] }, some { computed := true, h := [1, 0] }],
    relative_pruning_per_iteration := [(2, 2), (2, 2)] }

/-- The system reached from `sampleAtomic` by the constructor followed by
`merge(0, 1, true, true)`. -/
def sampleMerged : SampleFTS where
  labels := [some 1, some 1]
  transition_systems :=
    [none, none, some { goal_distance := [some 2, some 1, some 1, some 0], init := some 0 }]
  heuristic_representations := [none, none, some { lookup := [0, 1, 2, 3], num_states := 4 }]
  distances := [none, none, some { computed := true, h := [2, 1, 1, 0] }]
  final_index := -1
  solvable := true
  relative_pruning_per_iteration := [(2, 2), (2, 2), (4, 4)]

/-- The system reached from `sampleMerged` by `finalize()`. -/
def sampleFinal : SampleFTS :=
  { sampleMerged with transition_systems := [], final_index := 2 }

/-- The system that the constructor has reached on `sampleUnsolvable` when it
calls `finalize(1)`: both components are pruned, the second one has lost all
its states, and `solvable` has just been set to false. -/
def samplePruned : SampleFTS where
  labels := [some 1, some 1]
  transition_systems :=
    [some { goal_distance := [some 1, some 0], init := some 0 },
     some { goal_distance := [], init := none }]
  heuristic_representations :=
    [some { lookup := [0, 0, 1, 1], num_states := 2 },
     some { lookup := [-1, -1, -1, -1], num_states := 0 }]
  distances := [some { computed := true, h := [1, 0] }, some { computed := true, h := [] }]
  final_index := -1
  solvable := false
  relative_pruning_per_iteration := [(2, 2), (0, 2)]

/-- The system that `finalize(1)` makes of `samplePruned`, which is also what
the constructor returns on `sampleUnsolvable`. -/
def samplePrunedFinal : SampleFTS :=
  { samplePruned with
    transition_systems := [],
    distances := [none, some { computed := true, h := [] }],
    final_index := 1 }

/-- The system that the constructor makes of `sampleUnsolvable` when it is
called without `finalize_if_unsolvable`. -/
def samplePrunedOpen : SampleFTS :=
  { samplePruned with solvable := true }

/-- The system that `merge(0, 1, true, true)` has reached on `samplePrunedOpen`
when it tests the new component, which has no states left. -/
def sampleDeadProduct : SampleFTS where
  labels := [some 1, some 1]
  transition_systems := [none, none, some { goal_distance := [], init := none }]
  heuristic_representations :=
    [none, none, some { lookup := [-1, -1, -1, -1], num_states := 0 }]
  distances := [none, none, some { computed := true, h := [] }]
  final_index := -1
  solvable := true
  relative_pruning_per_iteration := [(2, 2), (0, 2), (0, 0)]

/-- The system that `merge(0, 1, true, true)` returns on `samplePrunedOpen`. -/
def sampleDeadFinal : SampleFTS :=
  { sampleDeadProduct with transition_systems := [], final_index := 2, solvable := false }

/-- The system that `apply_label_reduction` makes of `sampleConstructed` when
labels 0 and 1 are reduced to the new label 2. -/
def sampleReduced : SampleFTS :=
  { sampleConstructed with labels := [none, none, some 1] }

/-- The system `sampleMerged` marked unsolvable. -/
def sampleMergedUnsolvable : SampleFTS :=
  { sampleMerged with solvable := false }

/-! ## The effect of the operations on a single component

`apply_abstraction`, `discard_states` and `compute_distances_and_prune` read
and write the three slots of one index only. The following definitions state
what they compute on that component; the theorems `apply_abstraction_eq`,
`discard_states_eq` and `compute_distances_and_prune_eq` below relate them to
the operations on the whole system. -/

/-- The three objects stored for a live index. -/
structure Component (TS HR D : Type) where
  ts : TS
  hr : HR
  dist : D

namespace Component

variable {State L TS HR D : Type}

/-- The condition of `is_component_valid` on the objects of a component. -/
def is_valid (ops : Components State L TS HR D) (c : Component TS HR D) : Bool :=
  ops.dist_are_distances_computed c.dist && ops.ts_are_transitions_sorted_unique c.ts

/-- What lines 137-150 of `apply_abstraction` compute on the component. -/
def apply_abstraction_with (ops : Components State L TS HR D) (c : Component TS HR D)
    (rel : StateEquivalenceRelation) (abstraction_mapping : List Int) (silent : Bool) :
    Option (Component TS HR D × Bool) :=
  let r := ops.ts_apply_abstraction c.ts rel abstraction_mapping silent
  let c' : Component TS HR D :=
    if r.2 then
      { ts := r.1,
        hr := ops.hr_apply_abstraction_to_lookup_table c.hr abstraction_mapping,
        dist := (ops.dist_apply_abstraction c.dist r.1 rel silent).1 }
    else { c with ts := r.1 }
  (check (is_valid ops c')).bind fun _ => some (c', r.2)

/-- What `apply_abstraction` computes on the component. -/
def apply_abstraction (ops : Components State L TS HR D) (c : Component TS HR D)
    (rel : StateEquivalenceRelation) (silent : Bool) : Option (Component TS HR D × Bool) :=
  (build_abstraction_mapping ops.PRUNED_STATE (ops.ts_get_size c.ts) rel).bind fun m =>
  apply_abstraction_with ops c rel m silent

/-- What `discard_states` computes on the component, together with the entries
it appends to the pruning statistic. -/
def discard_states (ops : Components State L TS HR D) (c : Component TS HR D)
    (to_be_pruned_states : List Bool) (silent : Bool) :
    Option (Component TS HR D × List (Nat × Nat)) :=
  (check (decide (to_be_pruned_states.length = ops.ts_get_size c.ts))).bind fun _ =>
  (apply_abstraction ops c (discard_relation to_be_pruned_states) silent).bind fun r =>
  if silent then some (r.1, [])
  else
    (check (decide (ops.ts_get_size r.1.ts ≤ ops.ts_get_size c.ts))).bind fun _ =>
    some (r.1, [(ops.ts_get_size r.1.ts, ops.ts_get_size c.ts)])

/-- What `compute_distances_and_prune` computes on the component, together
with the entries it appends to the pruning statistic. -/
def compute_distances_and_prune (ops : Components State L TS HR D) (c : Component TS HR D)
    (silent : Bool) : Option (Component TS HR D × List (Nat × Nat)) :=
  let r := ops.dist_compute_distances c.dist c.ts silent
  (discard_states ops { c with dist := r.1 } r.2 silent).bind fun r' =>
  (check (is_valid ops r'.1)).bind fun _ => some r'

end Component

namespace FactoredTransitionSystem

variable {State L TS HR D : Type}

/-- The component stored at an index, when all three slots are populated. -/
def get_component (fts : FactoredTransitionSystem L TS HR D) (index : Nat) :
    Option (Component TS HR D) :=
  match fts.transition_systems[index]?, fts.heuristic_representations[index]?,
    fts.distances[index]? with
  | some (some t), some (some h), some (some d) => some { ts := t, hr := h, dist := d }
  | _, _, _ => none

/-- The system with the three slots of an index overwritten by a component,
and with entries appended to the pruning statistic. -/
def put_component (fts : FactoredTransitionSystem L TS HR D) (index : Nat)
    (c : Component TS HR D) (stat : List (Nat × Nat)) : FactoredTransitionSystem L TS HR D :=
  { fts with
    transition_systems := fts.transition_systems.set index (some c.ts),
    heuristic_representations := fts.heuristic_representations.set index (some c.hr),
    distances := fts.distances.set index (some c.dist),
    relative_pruning_per_iteration := fts.relative_pruning_per_iteration ++ stat }

/-- Whether the slot at a position of a vector holds an object: false for the
null pointer and for a position beyond the end. -/
def populated {α : Type} (xs : List (Option α)) (i : Nat) : Bool := (deref xs i).isSome

/-- The invariant on slots: at every index the three slots are all populated
or all empty. -/
def SlotsInLockstep (fts : FactoredTransitionSystem L TS HR D) : Prop :=
  ∀ i, populated fts.transition_systems i = populated fts.heuristic_representations i ∧
    populated fts.heuristic_representations i = populated fts.distances i

/-- The three vectors have the same number of slots. -/
def SameNumberOfSlots (fts : FactoredTransitionSystem L TS HR D) : Prop :=
  fts.transition_systems.length = fts.heuristic_representations.length ∧
    fts.heuristic_representations.length = fts.distances.length

/-- The set of live indices: those for which `is_index_valid` holds. -/
def live_indices (fts : FactoredTransitionSystem L TS HR D) : Finset Nat :=
  (Finset.range fts.transition_systems.length).filter fun i => fts.is_index_valid i = some true

/-- The number of live components. -/
def num_live (fts : FactoredTransitionSystem L TS HR D) : Nat := fts.live_indices.card

/-- Whether the component at `index` is solvable once its distances have been
computed and its dead states pruned, as the constructor tests it: `none` when
`compute_distances_and_prune` fails. -/
def solvable_after_pruning (ops : Components State L TS HR D)
    (fts : FactoredTransitionSystem L TS HR D) (index : Nat) (silent : Bool) : Option Bool :=
  (compute_distances_and_prune ops fts index silent).bind fun fts1 =>
  (deref fts1.transition_systems index).map ops.ts_is_solvable

end FactoredTransitionSystem

/-- The value of `is_index_valid` as a function of what the three vectors hold
at the index (`none` for a position beyond the end). -/
def slot_valid {TS HR D : Type} :
    Option (Option TS) → Option (Option HR) → Option (Option D) → Option Bool
  | none, none, none => some false
  | none, _, _ => none
  | some none, _, _ => some false
  | some (some _), none, _ => none
  | some (some _), some none, _ => some false
  | some (some _), some (some _), none => none
  | some (some _), some (some _), some none => some false
  | some (some _), some (some _), some (some _) => some true

/-- The invariant of the three vectors: the same number of slots, and slots in
lockstep. -/
def Lockstep {L TS HR D : Type} (fts : FactoredTransitionSystem L TS HR D) : Prop :=
  fts.SameNumberOfSlots ∧ fts.SlotsInLockstep

/-- The vector that `merge` leaves of a vector before it appends the new
entry: both input slots nulled by an invalidating merge, untouched otherwise. -/
def consumed {α : Type} (xs : List (Option α)) (index1 index2 : Nat) (invalidating_merge : Bool) :
    List (Option α) :=
  if invalidating_merge then (xs.set index1 none).set index2 none else xs

/-- The system that lines 153-201 of `merge` produce from the components `c1`
and `c2` found at the two indices (see `merge_append_eq_some`). -/
def appended_system {State L TS HR D : Type} (ops : Components State L TS HR D)
    (fts : FactoredTransitionSystem L TS HR D) (index1 index2 : Nat)
    (invalidating_merge finalize_if_unsolvable : Bool) (c1 c2 : Component TS HR D) :
    FactoredTransitionSystem L TS HR D :=
  { fts with
    transition_systems :=
      consumed fts.transition_systems index1 index2 invalidating_merge ++
        [some (ops.ts_merge fts.labels c1.ts c2.ts (!invalidating_merge || !finalize_if_unsolvable))],
    heuristic_representations :=
      consumed fts.heuristic_representations index1 index2 invalidating_merge ++
        [some (if invalidating_merge then ops.hr_merge c1.hr c2.hr
          else ops.hr_merge (ops.hr_clone c1.hr) (ops.hr_clone c2.hr))],
    distances :=
      consumed fts.distances index1 index2 invalidating_merge ++
        [some (ops.dist_new
          (ops.ts_merge fts.labels c1.ts c2.ts (!invalidating_merge || !finalize_if_unsolvable)))] }

/-- For every slot of a vector, whether it is populated. -/
def shape {α : Type} (xs : List (Option α)) : List Bool := xs.map Option.isSome

/-- A call of one of the operations that change the set of components or
their contents. -/
inductive Operation where
  | merge (index1 index2 : Nat) (invalidating_merge finalize_if_unsolvable : Bool)
  | copy (index : Nat)
  | release_copies
  | remove (index : Nat)
  | apply_abstraction (index : Nat) (rel : StateEquivalenceRelation) (silent : Bool)
  | apply_label_reduction (label_mapping : LabelMapping) (combinable_index : Int)

/-- The effect of one call: the new system, and the index given to the new
component when the call creates one (`merge` and `copy` return it). -/
def Operation.run {State L TS HR D : Type} (ops : Components State L TS HR D)
    (fts : FactoredTransitionSystem L TS HR D) :
    Operation → Option (FactoredTransitionSystem L TS HR D × Option Nat)
  | .merge index1 index2 invalidating_merge finalize_if_unsolvable =>
    (FactoredTransitionSystem.merge ops fts index1 index2 invalidating_merge
      finalize_if_unsolvable).map fun r => (r.1, some r.2)
  | .copy index => (FactoredTransitionSystem.copy ops fts index).map fun r => (r.1, some r.2)
  | .release_copies => (FactoredTransitionSystem.release_copies fts).map fun f => (f, none)
  | .remove index => (FactoredTransitionSystem.remove fts index).map fun f => (f, none)
  | .apply_abstraction index rel silent =>
    (FactoredTransitionSystem.apply_abstraction ops fts index rel silent).map fun r => (r.1, none)
  | .apply_label_reduction label_mapping combinable_index =>
    (FactoredTransitionSystem.apply_label_reduction ops fts label_mapping combinable_index).map
      fun f => (f, none)

/-- The effect of a sequence of calls: the final system and the indices given
to new components, in the order of their creation. -/
def run_all {State L TS HR D : Type} (ops : Components State L TS HR D) :
    List Operation → FactoredTransitionSystem L TS HR D →
      Option (FactoredTransitionSystem L TS HR D × List Nat)
  | [], fts => some (fts, [])
  | op :: rest, fts =>
    (op.run ops fts).bind fun r =>
    (run_all ops rest r.1).map fun r' => (r'.1, r.2.toList ++ r'.2)

/-! ## MergeDFP

A shallow embedding of `search/merge_and_shrink/merge_dfp.cc`. The strategy
reads the factored transition system through accessors that are declared in
absent headers: `get_size` is the number of slots, `get_ts` and `get_dist`
dereference a slot, and the label groups of a transition system with their
labels and transitions are what `TSConstIterator` enumerates. -/

/-- A transition of a label group: `Transition` with its members `src` and
`target`. -/
structure Transition where
  src : Nat
  target : Nat
deriving DecidableEq

/-- A label group as `TSConstIterator` presents it: the labels of the group,
the transitions they share, and their cost. -/
structure LabelGroup where
  labels : List Nat
  transitions : List Transition
  cost : Nat
deriving DecidableEq

/-- The members of `TransitionSystem` that `merge_dfp.cc` calls in addition to
those of `Components`. -/
structure GroupAccess (TS : Type) where
  /-- Member `TransitionSystem::is_goal_relevant`. -/
  ts_is_goal_relevant : TS → Bool
  /-- The label groups from `ts.begin()` to `ts.end()`. -/
  ts_label_groups : TS → List LabelGroup

/-- The enumeration `Order` of `MergeDFP`. -/
inductive Order where
  | DFP
  | REGULAR
  | INVERSE
deriving DecidableEq

/-- The data members of `MergeDFP`, those inherited from `MergeStrategy`
included. -/
structure MergeDFP where
  order : Order
  is_ready : Bool
  remaining_merges : Int
  border_atomics_composites : Int
deriving DecidableEq

namespace MergeDFP

variable {State L TS HR D : Type}

/-- Modelled from the spec: `MergeStrategy::initialized`, declared in an absent
header; true once `initialize` has run. -/
def initialized (dfp : MergeDFP) : Bool := dfp.is_ready

/-- Modelled from the spec: `MergeStrategy::done`, declared in an absent
header; true once `num_variables - 1` merges have been handed out, that is,
when no merges remain. -/
def done (dfp : MergeDFP) : Bool := decide (dfp.remaining_merges = 0)

/-- Modelled from the spec: `MergeStrategy::initialize`, defined in an absent
file; a task with `n` variables needs `n - 1` merges (the comment in
`MergeDFP::initialize` says the same: `remaining_merges + 1` is the number of
variables). -/
def base_setup (dfp : MergeDFP) (num_variables : Nat) : MergeDFP :=
  { dfp with is_ready := true, remaining_merges := (num_variables : Int) - 1 }

/-- Function `MergeDFP::initialize` (lines 22-31), for a task with
`num_variables` variables. -/
def init (dfp : MergeDFP) (num_variables : Nat) : MergeDFP :=
  let dfp1 := base_setup dfp num_variables
  { dfp1 with border_atomics_composites := dfp1.remaining_merges + 1 }

/-- Function `MergeDFP::get_corrected_index` (lines 33-53). -/
def get_corrected_index (dfp : MergeDFP) (index : Int) : Option Int :=
  (check (decide (dfp.order ≠ Order.REGULAR))).bind fun _ =>
  if dfp.order = Order.INVERSE then some index
  else
    (check (decide (0 ≤ index))).bind fun _ =>
    if dfp.border_atomics_composites ≤ index then some index
    else some (dfp.border_atomics_composites - 1 - index)

/-- Member `resize(n, value)` of a vector of integers. -/
def resize (xs : List Int) (n : Nat) (value : Int) : List Int :=
  xs.take n ++ List.replicate (n - xs.length) value

/-- Lines 67-91 of `compute_label_ranks`: the rank of one label group of a
transition system with `size` states. -/
def group_rank (ops : Components State L TS HR D) (d : D) (size : Nat) (g : LabelGroup) : Int :=
  let group_relevant :=
    if g.transitions.length = size then g.transitions.any fun t => decide (t.target ≠ t.src)
    else true
  if !group_relevant then -1
  else g.transitions.foldl
    (fun label_rank t => min label_rank (ops.dist_get_goal_distance d (t.target : Int))) ops.INF

/-- Lines 92-96 of `compute_label_ranks`: every label of the group gets the
rank of the group. -/
def assign_rank (label_rank : Int) : List Int → List Nat → Option (List Int)
  | ranks, [] => some ranks
  | ranks, label_no :: rest =>
    (assign ranks label_no label_rank).bind fun ranks' => assign_rank label_rank ranks' rest

/-- The loop of `compute_label_ranks` over the label groups (lines 64-97). -/
def rank_groups (ops : Components State L TS HR D) (d : D) (size : Nat) :
    List LabelGroup → List Int → Option (List Int)
  | [], ranks => some ranks
  | g :: rest, ranks =>
    (assign_rank (group_rank ops d size g) ranks g.labels).bind fun ranks' =>
    rank_groups ops d size rest ranks'

/-- Function `MergeDFP::compute_label_ranks` (lines 55-98); the result is the
vector `label_ranks` after the call. -/
def compute_label_ranks (ops : Components State L TS HR D) (acc : GroupAccess TS)
    (fts : FactoredTransitionSystem L TS HR D) (index : Nat) (label_ranks : List Int) :
    Option (List Int) :=
  (deref fts.transition_systems index).bind fun ts =>
  (deref fts.distances index).bind fun distances =>
  let num_labels := FactoredTransitionSystem.get_num_labels ops fts
  rank_groups ops distances (ops.ts_get_size ts) (acc.ts_label_groups ts)
    (resize label_ranks num_labels.toNat (-1))

/-- The call `fts->is_active(ts_index)` with an `int` argument. -/
def is_active_at (fts : FactoredTransitionSystem L TS HR D) (ts_index : Int) : Option Bool :=
  if ts_index < 0 then none else fts.is_active ts_index.toNat

/-- The body of both loops that fill `sorted_active_ts_indices` and
`transition_system_label_ranks` (lines 114-119 and 132-137), for the indices
in the order in which the loop visits them. An entry pairs a transition system
index with its label ranks. -/
def collect_active (ops : Components State L TS HR D) (acc : GroupAccess TS)
    (fts : FactoredTransitionSystem L TS HR D) : List Int → Option (List (Int × List Int))
  | [] => some []
  | ts_index :: rest =>
    (is_active_at fts ts_index).bind fun active =>
    if active then
      (compute_label_ranks ops acc fts ts_index.toNat []).bind fun label_ranks =>
      (collect_active ops acc fts rest).map fun entries => (ts_index, label_ranks) :: entries
    else collect_active ops acc fts rest

/-- The calls `get_corrected_index(i)` of the loop of lines 122-138 for the
given values of `i`, in that order. -/
def corrected_indices (dfp : MergeDFP) : List Nat → Option (List Int)
  | [] => some []
  | i :: rest =>
    (dfp.get_corrected_index (i : Int)).bind fun ts_index =>
    (corrected_indices dfp rest).map fun indices => ts_index :: indices

/-- The indices in the order in which lines 111-139 visit them: ascending for
`REGULAR`, otherwise `get_corrected_index(i)` for `i` from the last slot down
to 0. -/
def visiting_order (dfp : MergeDFP) (num_transition_systems : Nat) : Option (List Int) :=
  if dfp.order = Order.REGULAR then
    some ((List.range num_transition_systems).map fun (i : Nat) => Int.ofNat i)
  else dfp.corrected_indices (List.range num_transition_systems).reverse

/-- Lines 108-139 of `get_next`: the vectors `sorted_active_ts_indices` and
`transition_system_label_ranks`, zipped. -/
def sorted_active_entries (ops : Components State L TS HR D) (acc : GroupAccess TS)
    (dfp : MergeDFP) (fts : FactoredTransitionSystem L TS HR D) :
    Option (List (Int × List Int)) :=
  (dfp.visiting_order fts.size).bind fun order => collect_active ops acc fts order

/-- The local variables of the search in `get_next` (lines 141-145). -/
structure Search where
  next_index1 : Int
  next_index2 : Int
  first_valid_pair_index1 : Int
  first_valid_pair_index2 : Int
  minimum_weight : Int
deriving DecidableEq

/-- Lines 172-179 of `get_next`: the weight of a pair, from its two vectors of
label ranks (of the same length), starting from `pair_weight`. -/
def pair_weight_from : Int → List Int → List Int → Int
  | pair_weight, r1 :: rest1, r2 :: rest2 =>
    pair_weight_from (if r1 ≠ -1 ∧ r2 ≠ -1 then min pair_weight (max r1 r2) else pair_weight)
      rest1 rest2
  | pair_weight, _, _ => pair_weight

/-- Lines 164-184 of `get_next`: what is done for a pair of which at least one
component is goal relevant. -/
def record_pair (inf : Int) (e1 e2 : Int × List Int) (s : Search) : Search :=
  let s1 : Search :=
    { s with first_valid_pair_index1 := e1.1, first_valid_pair_index2 := e2.1 }
  let pair_weight := pair_weight_from inf e1.2 e2.2
  if pair_weight < s1.minimum_weight then
    { s1 with minimum_weight := pair_weight, next_index1 := e1.1, next_index2 := e2.1 }
  else s1

/-- The call `fts->get_ts(ts_index).is_goal_relevant()`. -/
def is_goal_relevant_at (acc : GroupAccess TS) (fts : FactoredTransitionSystem L TS HR D)
    (ts_index : Int) : Option Bool :=
  if ts_index < 0 then none
  else (deref fts.transition_systems ts_index.toNat).map acc.ts_is_goal_relevant

/-- The body of the inner loop of `get_next` (lines 152-185). -/
def consider_pair (acc : GroupAccess TS) (fts : FactoredTransitionSystem L TS HR D) (inf : Int)
    (e1 e2 : Int × List Int) (s : Search) : Option Search :=
  (is_goal_relevant_at acc fts e1.1).bind fun relevant1 =>
  (if relevant1 then some true else is_goal_relevant_at acc fts e2.1).bind fun relevant =>
  if relevant then
    (check (!e2.2.isEmpty)).bind fun _ =>
    (check (decide (e1.2.length = e2.2.length))).bind fun _ =>
    some (record_pair inf e1 e2 s)
  else some s

/-- The inner loop of `get_next` (lines 151-186) for the entry `e1` and the
entries behind it. -/
def inner_loop (acc : GroupAccess TS) (fts : FactoredTransitionSystem L TS HR D) (inf : Int)
    (e1 : Int × List Int) : List (Int × List Int) → Search → Option Search
  | [], s => some s
  | e2 :: rest, s =>
    (consider_pair acc fts inf e1 e2 s).bind fun s' => inner_loop acc fts inf e1 rest s'

/-- The outer loop of `get_next` (lines 147-187). -/
def outer_loop (acc : GroupAccess TS) (fts : FactoredTransitionSystem L TS HR D) (inf : Int) :
    List (Int × List Int) → Search → Option Search
  | [], s => some s
  | e1 :: rest, s =>
    (check (!e1.2.isEmpty)).bind fun _ =>
    (inner_loop acc fts inf e1 rest s).bind fun s' => outer_loop acc fts inf rest s'

/-- Lines 189-220 of `get_next`: the fall-back when no pair of finite weight
was found, and the final assertions. -/
def choose_pair (inf : Int) (entries : List (Int × List Int)) (s : Search) : Option (Int × Int) :=
  (if s.next_index1 = -1 then
    (check (decide (s.next_index2 = -1))).bind fun _ =>
    (check (decide (s.minimum_weight = inf))).bind fun _ =>
    (check (decide (s.first_valid_pair_index1 ≠ -1))).bind fun _ =>
    (check (decide (s.first_valid_pair_index2 ≠ -1))).bind fun _ =>
    some (s.first_valid_pair_index1, s.first_valid_pair_index2)
  else some (s.next_index1, s.next_index2)).bind fun next =>
  (if next.1 = -1 ∨ next.2 = -1 then
    (check (decide (next.1 = -1 ∧ next.2 = -1))).bind fun _ =>
    (check (decide (s.minimum_weight = inf))).bind fun _ =>
    (entries[0]?).bind fun e0 =>
    (entries[1]?).bind fun e1 =>
    some (e0.1, e1.1)
  else some next).bind fun next' =>
  (check (decide (next'.1 ≠ -1))).bind fun _ =>
  (check (decide (next'.2 ≠ -1))).bind fun _ =>
  some next'

/-- Function `MergeDFP::get_next` (lines 100-224): the pair of indices and the
strategy with one merge less remaining. -/
def get_next (ops : Components State L TS HR D) (acc : GroupAccess TS) (dfp : MergeDFP)
    (fts : FactoredTransitionSystem L TS HR D) : Option ((Int × Int) × MergeDFP) :=
  (check dfp.initialized).bind fun _ =>
  (check (!dfp.done)).bind fun _ =>
  (sorted_active_entries ops acc dfp fts).bind fun entries =>
  (outer_loop acc fts ops.INF entries
    { next_index1 := -1, next_index2 := -1, first_valid_pair_index1 := -1,
      first_valid_pair_index2 := -1, minimum_weight := ops.INF }).bind fun s =>
  (choose_pair ops.INF entries s).bind fun next =>
  some (next, { dfp with remaining_merges := dfp.remaining_merges - 1 })

end MergeDFP

/-! ## The component classes, modelled from the spec

`TransitionSystem`, `Distances` and `HeuristicRepresentation` are declared and
defined in files that are not among the sources at hand. The following model
follows the spec's description of them; together with `LabelTable` it
instantiates `Components` (`specComponents`) and `GroupAccess`
(`specAccess`). -/

/-- Modelled from the spec: the constant `PRUNED_STATE`, the sentinel for a
pruned (unreachable or irrelevant) state. -/
def PRUNED_STATE : Int := -1

/-- Modelled from the spec: the constant `INF`, the infinite distance. -/
def INF : Int := 2147483647

/-- Modelled from the spec: the order in which the transitions of a label
group are sorted, by source and then by target. -/
def Transition.lt (t u : Transition) : Bool :=
  decide (t.src < u.src) || (decide (t.src = u.src) && decide (t.target < u.target))

/-- Modelled from the spec: insertion of a transition into a sorted,
duplicate-free list of transitions. -/
def insert_transition (t : Transition) : List Transition → List Transition
  | [] => [t]
  | u :: rest =>
    if t.lt u then t :: u :: rest
    else if t = u then u :: rest
    else u :: insert_transition t rest

/-- Modelled from the spec: sorting and deduplication of the transitions of a
label group. -/
def sort_unique (transitions : List Transition) : List Transition :=
  transitions.foldr insert_transition []

/-- Modelled from the spec: whether a list of transitions is sorted and
duplicate-free. -/
def is_sorted_unique : List Transition → Bool
  | [] => true
  | [_] => true
  | t :: u :: rest => t.lt u && is_sorted_unique (u :: rest)

/-- Modelled from the spec: `TransitionSystem`: the number of abstract states
(a dense range from 0), the label groups with their transitions, the goal
states (one flag per state), and the initial abstract state (`PRUNED_STATE`
once it has been pruned, which makes the system unsolvable). -/
structure TransitionSystem where
  num_states : Nat
  label_groups : List LabelGroup
  goal_states : List Bool
  init_state : Int
deriving DecidableEq

namespace TransitionSystem

/-- Modelled from the spec: `TransitionSystem::get_size`. -/
def get_size (ts : TransitionSystem) : Nat := ts.num_states

/-- Modelled from the spec: `TransitionSystem::is_solvable`. -/
def is_solvable (ts : TransitionSystem) : Bool := decide (ts.init_state ≠ PRUNED_STATE)

/-- Modelled from the spec: `TransitionSystem::is_goal_relevant`: the system
contains at least one distinguished goal state. -/
def is_goal_relevant (ts : TransitionSystem) : Bool := ts.goal_states.any id

/-- Modelled from the spec: `TransitionSystem::are_transitions_sorted_unique`. -/
def are_transitions_sorted_unique (ts : TransitionSystem) : Bool :=
  ts.label_groups.all fun g => is_sorted_unique g.transitions

/-- Modelled from the spec: a transition relabelled through an abstraction
mapping; it disappears when one of its ends is pruned. -/
def map_transition (abstraction_mapping : List Int) (t : Transition) : Option Transition :=
  match abstraction_mapping[t.src]?, abstraction_mapping[t.target]? with
  | some a, some b => if a < 0 ∨ b < 0 then none else some { src := a.toNat, target := b.toNat }
  | _, _ => none

/-- Modelled from the spec: a state of an abstraction mapping, for the initial
state. -/
def map_state (abstraction_mapping : List Int) (state : Int) : Int :=
  if state < 0 then PRUNED_STATE
  else match abstraction_mapping[state.toNat]? with
    | some a => if a < 0 then PRUNED_STATE else a
    | none => PRUNED_STATE

/-- Modelled from the spec: `TransitionSystem::apply_abstraction`: every
transition is relabelled through the mapping and the transitions of every
group are sorted and deduplicated; the result says whether the size has
strictly decreased, and a relation with as many classes as there are states
causes no change. -/
def apply_abstraction (ts : TransitionSystem) (rel : StateEquivalenceRelation)
    (abstraction_mapping : List Int) (_silent : Bool) : TransitionSystem × Bool :=
  if rel.length < ts.num_states then
    ({ num_states := rel.length,
       label_groups := ts.label_groups.map fun g =>
         { g with transitions := sort_unique (g.transitions.filterMap (map_transition abstraction_mapping)) },
       goal_states := rel.map fun c => c.any fun s => (ts.goal_states[s]?).getD false,
       init_state := map_state abstraction_mapping ts.init_state }, true)
  else (ts, false)

/-- Modelled from the spec: the product of two lists of transitions, a pair
`(a, b)` of states being numbered `a * n2 + b`. -/
def product_transitions (n2 : Nat) (t1 t2 : List Transition) : List Transition :=
  t1.flatMap fun x => t2.map fun y =>
    { src := x.src * n2 + y.src, target := x.target * n2 + y.target }

/-- Modelled from the spec: `TransitionSystem::merge`, the synchronized
product: one state per pair of states; for every pair of a group of the first
and a group of the second system that share labels, a group with the shared
labels whose transitions are the pairs of transitions of the two groups. -/
def merge (_labels : LabelTable) (ts1 ts2 : TransitionSystem) (_silent : Bool) :
    TransitionSystem :=
  { num_states := ts1.num_states * ts2.num_states,
    label_groups := ts1.label_groups.flatMap fun g1 => ts2.label_groups.filterMap fun g2 =>
      let common := g1.labels.filter fun l => g2.labels.contains l
      if common.isEmpty then none
      else some
        { labels := common,
          transitions := sort_unique (product_transitions ts2.num_states g1.transitions g2.transitions),
          cost := g1.cost },
    goal_states := (List.range ts1.num_states).flatMap fun a =>
      (List.range ts2.num_states).map fun b =>
        (ts1.goal_states[a]?).getD false && (ts2.goal_states[b]?).getD false,
    init_state :=
      if ts1.init_state < 0 ∨ ts2.init_state < 0 then PRUNED_STATE
      else ts1.init_state * (ts2.num_states : Int) + ts2.init_state }

/-- Modelled from the spec: one entry of a label reduction applied to the
label groups: the old labels leave their groups, and the new label forms a
group with the transitions of the groups the old labels came from. -/
def reduce_entry (groups : List LabelGroup) (entry : Int × List Nat) : List LabelGroup :=
  let touched := groups.filter fun g => g.labels.any fun l => entry.2.contains l
  let remaining := (groups.map fun g =>
    { g with labels := g.labels.filter fun l => !entry.2.contains l }).filter
      fun g => !g.labels.isEmpty
  if touched.isEmpty then remaining
  else remaining ++
    [{ labels := [entry.1.toNat],
       transitions := sort_unique (touched.flatMap fun g => g.transitions),
       cost := ((touched.map fun g => g.cost).min?).getD 0 }]

/-- Modelled from the spec: `TransitionSystem::apply_label_reduction`. -/
def apply_label_reduction (ts : TransitionSystem) (label_mapping : LabelMapping)
    (_only_equivalent_labels : Bool) : TransitionSystem :=
  { ts with label_groups := label_mapping.foldl reduce_entry ts.label_groups }

end TransitionSystem

/-- Modelled from the spec: `Distances`: per abstract state the forward
distance g from the initial state and the goal distance h (`INF` for
infinite), and the flag that says whether they have been computed. -/
structure Distances where
  init_distances : List Int
  goal_distances : List Int
  computed : Bool
deriving DecidableEq

namespace Distances

/-- Modelled from the spec: an edge of the graph in which shortest paths are
computed: source, target and cost. -/
structure Edge where
  src : Nat
  target : Nat
  cost : Nat
deriving DecidableEq

/-- Modelled from the spec: the edges of a transition system, every
transition with the cost of its label group. -/
def edges (ts : TransitionSystem) : List Edge :=
  ts.label_groups.flatMap fun g => g.transitions.map fun t =>
    { src := t.src, target := t.target, cost := g.cost }

/-- Modelled from the spec: the same edges reversed, for the distances to the
goal. -/
def reversed (es : List Edge) : List Edge :=
  es.map fun e => { src := e.target, target := e.src, cost := e.cost }

/-- Modelled from the spec: relaxation of one edge in a vector of tentative
distances (`none` is infinite). -/
def relax (d : List (Option Nat)) (e : Edge) : List (Option Nat) :=
  match (d[e.src]?).join, d[e.target]? with
  | some ds, some none => d.set e.target (some (ds + e.cost))
  | some ds, some (some dt) => if ds + e.cost < dt then d.set e.target (some (ds + e.cost)) else d
  | _, _ => d

/-- Modelled from the spec: one round of relaxation over all edges. -/
def relax_round (es : List Edge) (d : List (Option Nat)) : List (Option Nat) :=
  es.foldl relax d

/-- Modelled from the spec: shortest paths by `rounds` rounds of relaxation. -/
def shortest_paths (es : List Edge) : Nat → List (Option Nat) → List (Option Nat)
  | 0, d => d
  | rounds + 1, d => shortest_paths es rounds (relax_round es d)

/-- Modelled from the spec: a distance as an integer, `INF` when infinite. -/
def to_int : Option Nat → Int
  | none => INF
  | some k => (k : Int)

/-- Modelled from the spec: the forward distances g of a transition system:
shortest paths from the initial state. -/
def forward_distances (ts : TransitionSystem) : List (Option Nat) :=
  shortest_paths (edges ts) ts.num_states
    ((List.range ts.num_states).map fun (s : Nat) =>
      if (s : Int) = ts.init_state then some 0 else none)

/-- Modelled from the spec: the goal distances h of a transition system:
shortest paths to a goal state. -/
def backward_distances (ts : TransitionSystem) : List (Option Nat) :=
  shortest_paths (reversed (edges ts)) ts.num_states
    ((List.range ts.num_states).map fun s =>
      if (ts.goal_states[s]?).getD false then some 0 else none)

/-- Modelled from the spec: the constructor `Distances(const TransitionSystem &)`:
nothing computed yet. -/
def create (_ts : TransitionSystem) : Distances :=
  { init_distances := [], goal_distances := [], computed := false }

/-- Modelled from the spec: the distances of a transition system. -/
def of_transition_system (ts : TransitionSystem) : Distances :=
  { init_distances := (forward_distances ts).map to_int,
    goal_distances := (backward_distances ts).map to_int,
    computed := true }

/-- Modelled from the spec: `Distances::compute_distances`: computes g and h
and returns, for every state, whether it is to be pruned: unreachable (g
infinite) or irrelevant (h infinite). -/
def compute_distances (_d : Distances) (ts : TransitionSystem) (_silent : Bool) :
    Distances × List Bool :=
  (of_transition_system ts,
    List.zipWith (fun g h => g.isNone || h.isNone) (forward_distances ts) (backward_distances ts))

/-- Modelled from the spec: the maximum of g + h over the states with finite
g and h. -/
def max_f (d : Distances) : Int :=
  (List.zipWith (fun g h => if g = INF ∨ h = INF then 0 else g + h)
    d.init_distances d.goal_distances).foldl max 0

/-- Modelled from the spec: `Distances::apply_abstraction`: the distances are
recomputed for the quotient, that is, for the transition system after the
abstraction; the result says whether the maximal f value was preserved. -/
def apply_abstraction (d : Distances) (ts : TransitionSystem) (_rel : StateEquivalenceRelation)
    (_silent : Bool) : Distances × Bool :=
  (of_transition_system ts, decide (max_f (of_transition_system ts) = max_f d))

/-- Modelled from the spec: `Distances::get_goal_distance`. -/
def get_goal_distance (d : Distances) (state : Int) : Int :=
  if state < 0 then INF else (d.goal_distances[state.toNat]?).getD INF

/-- Modelled from the spec: the forward distance g of a state. -/
def get_init_distance (d : Distances) (state : Int) : Int :=
  if state < 0 then INF else (d.init_distances[state.toNat]?).getD INF

end Distances

/-- Modelled from the spec: `HeuristicRepresentation`, a binary tree: a leaf
maps the value of one task variable to an abstract state through its lookup
table; a merge node owns two children and maps the pair of their abstract
states through its product table. `domain_size` is the number of abstract
states the node maps to. -/
inductive HeuristicRepresentation where
  | leaf (var_id : Nat) (domain_size : Nat) (lookup_table : List Int)
  | node (left right : HeuristicRepresentation) (domain_size : Nat)
      (lookup_table : List (List Int))
deriving DecidableEq

namespace HeuristicRepresentation

/-- Modelled from the spec: `HeuristicRepresentation::get_domain_size`. -/
def get_domain_size : HeuristicRepresentation → Nat
  | leaf _ n _ => n
  | node _ _ n _ => n

/-- Modelled from the spec: the constructor of `HeuristicRepresentationLeaf`
for a variable with `domain_size` values: every value is its own abstract
state. -/
def new_leaf (var_id domain_size : Nat) : HeuristicRepresentation :=
  leaf var_id domain_size ((List.range domain_size).map fun (v : Nat) => (v : Int))

/-- Modelled from the spec: the constructor of `HeuristicRepresentationMerge`:
the product table numbers the pair `(a, b)` as `a * n2 + b`. -/
def new_merge (left right : HeuristicRepresentation) : HeuristicRepresentation :=
  node left right (left.get_domain_size * right.get_domain_size)
    ((List.range left.get_domain_size).map fun a =>
      (List.range right.get_domain_size).map fun b => ((a * right.get_domain_size + b : Nat) : Int))

/-- Modelled from the spec: an entry of a lookup table after an abstraction. -/
def map_entry (abstraction_mapping : List Int) (entry : Int) : Int :=
  if entry < 0 then PRUNED_STATE else (abstraction_mapping[entry.toNat]?).getD PRUNED_STATE

/-- Modelled from the spec: the number of abstract states that an abstraction
mapping maps to. -/
def image_size (abstraction_mapping : List Int) : Nat :=
  (abstraction_mapping.foldl (fun m a => max m (a + 1)) 0).toNat

/-- Modelled from the spec:
`HeuristicRepresentation::apply_abstraction_to_lookup_table`: the entries of
the lookup table of the node are mapped; the children stay as they are. -/
def apply_abstraction_to_lookup_table (h : HeuristicRepresentation)
    (abstraction_mapping : List Int) : HeuristicRepresentation :=
  match h with
  | leaf v _ table => leaf v (image_size abstraction_mapping) (table.map (map_entry abstraction_mapping))
  | node l r _ table =>
    node l r (image_size abstraction_mapping)
      (table.map fun row => row.map (map_entry abstraction_mapping))

/-- Modelled from the spec: `HeuristicRepresentation::get_abstract_state`, a
concrete state giving the value of every variable. -/
def get_abstract_state : HeuristicRepresentation → List Nat → Int
  | leaf v _ table, state =>
    match state[v]? with
    | some value => (table[value]?).getD PRUNED_STATE
    | none => PRUNED_STATE
  | node l r _ table, state =>
    let a := l.get_abstract_state state
    let b := r.get_abstract_state state
    if a < 0 ∨ b < 0 then PRUNED_STATE
    else (((table[a.toNat]?).getD [])[b.toNat]?).getD PRUNED_STATE

/-- The task variables at the leaves of a heuristic representation, from left
to right. -/
def leaves : HeuristicRepresentation → List Nat
  | leaf v _ _ => [v]
  | node l r _ _ => l.leaves ++ r.leaves

end HeuristicRepresentation

/-- The components modelled from the spec, as an instance of the component
interface; a concrete state is the list of the values of the task variables. -/
def specComponents :
    Components (List Nat) LabelTable TransitionSystem HeuristicRepresentation Distances where
  PRUNED_STATE := PRUNED_STATE
  INF := INF
  labels_get_size := LabelTable.get_size
  labels_reduce_labels := LabelTable.reduce_labels
  ts_get_size := TransitionSystem.get_size
  ts_is_solvable := TransitionSystem.is_solvable
  ts_are_transitions_sorted_unique := TransitionSystem.are_transitions_sorted_unique
  ts_apply_abstraction := TransitionSystem.apply_abstraction
  ts_apply_label_reduction := TransitionSystem.apply_label_reduction
  ts_merge := TransitionSystem.merge
  ts_copy := fun ts => ts
  hr_get_abstract_state := HeuristicRepresentation.get_abstract_state
  hr_apply_abstraction_to_lookup_table := HeuristicRepresentation.apply_abstraction_to_lookup_table
  hr_merge := HeuristicRepresentation.new_merge
  hr_clone := fun h => h
  dist_new := Distances.create
  dist_copy := fun _ d => d
  dist_are_distances_computed := fun d => d.computed
  dist_compute_distances := Distances.compute_distances
  dist_apply_abstraction := Distances.apply_abstraction
  dist_get_goal_distance := Distances.get_goal_distance

/-- The access of `MergeDFP` to the transition systems modelled from the spec. -/
def specAccess : GroupAccess TransitionSystem where
  ts_is_goal_relevant := TransitionSystem.is_goal_relevant
  ts_label_groups := fun ts => ts.label_groups

/-- The system type over the components modelled from the spec. -/
abbrev SpecFTS :=
  FactoredTransitionSystem LabelTable TransitionSystem HeuristicRepresentation Distances

/-- The atomic transition system of a binary variable that starts at 0 and has
goal value 1: the label `own` switches it from 0 to 1, every other label of
the `num_labels` labels leaves it as it is. -/
def binary_atom (num_labels own : Nat) : TransitionSystem :=
  { num_states := 2,
    label_groups :=
      [{ labels := [own], transitions := [{ src := 0, target := 1 }], cost := 1 },
       { labels := (List.range num_labels).filter fun l => l ≠ own,
         transitions := [{ src := 0, target := 0 }, { src := 1, target := 1 }], cost := 1 }],
    goal_states := [false, true],
    init_state := 0 }

/-- The task with `n` binary variables, all 0 initially and 1 in the goal, and
one operator per variable that sets it to 1: the atomic components before the
constructor has run. -/
def independent_atoms (n : Nat) : SpecFTS :=
  FactoredTransitionSystem.initial_system (List.replicate n (some 1))
    ((List.range n).map fun v => some (binary_atom n v))
    ((List.range n).map fun v => some (HeuristicRepresentation.new_leaf v 2))
    ((List.range n).map fun v => some (Distances.create (binary_atom n v)))

/-- The order of the traversal list as the claim describes it, for `n` slots:
for `DFP` the composite indices (those not below the border) in decreasing
order followed by the atomic indices in increasing order, for `REGULAR`
increasing order, for `INVERSE` decreasing order. -/
def MergeDFP.described_order (order : Order) (border : Int) (n : Nat) : List Nat :=
  match order with
  | Order.DFP =>
    (List.filter (fun (i : Nat) => decide (border ≤ Int.ofNat i)) (List.range n)).reverse ++
      List.filter (fun (i : Nat) => decide (Int.ofNat i < border)) (List.range n)
  | Order.REGULAR => List.range n
  | Order.INVERSE => (List.range n).reverse

/-- The three atomic components of `independent_atoms 3` after the constructor
has run on them. -/
def specAtoms : SpecFTS :=
  (FactoredTransitionSystem.construct_from specComponents true true 3 0
    (independent_atoms 3)).getD (independent_atoms 3)

/-- The system reached from `specAtoms` by `merge(1, 2, true, true)`: slots 0
and 3 are live. -/
def specAtomsMerged : SpecFTS :=
  ((FactoredTransitionSystem.merge specComponents specAtoms 1 2 true true).map Prod.fst).getD
    specAtoms

/-- The merge strategy with order `DFP` after `initialize` for three
variables. -/
def dfpThree : MergeDFP := MergeDFP.init ⟨Order.DFP, false, -1, -1⟩ 3

/-- A label group is irrelevant for a transition system with `size` states when
"it has exactly a self loop transition for every state" (comment in
`compute_label_ranks`): it has as many transitions as there are states, and all
of them are self-loops. -/
def MergeDFP.irrelevant (size : Nat) (g : LabelGroup) : Bool :=
  decide (g.transitions.length = size) && g.transitions.all fun t => decide (t.target = t.src)

/-- The atomic transition system of a binary variable whose goal value 1 cannot
be reached: its only label 0 loops at both values. -/
def stuck_atom : TransitionSystem :=
  { num_states := 2,
    label_groups :=
      [{ labels := [0], transitions := [{ src := 0, target := 0 }, { src := 1, target := 1 }],
         cost := 1 }],
    goal_states := [false, true],
    init_state := 0 }

/-- The system that the constructor, called without `finalize_if_unsolvable`,
makes of the single component `stuck_atom`: both states are pruned, and the
component stays live with no states. -/
def specStuck : SpecFTS :=
  (FactoredTransitionSystem.construct specComponents [some 1] [some stuck_atom]
    [some (HeuristicRepresentation.new_leaf 0 2)] [some (Distances.create stuck_atom)]
    false true).getD (independent_atoms 0)

namespace MergeDFP

variable {L TS HR D : Type}

/-- The pairs of positions `i < j` of a list in lexicographic order of
`(i, j)`, as pairs of the elements at these positions. -/
def ordered_pairs {α : Type} : List α → List (α × α)
  | [] => []
  | a :: rest => (rest.map fun b => (a, b)) ++ ordered_pairs rest

/-- Whether the component at a transition system index is goal relevant. -/
def goal_relevant (acc : GroupAccess TS) (fts : FactoredTransitionSystem L TS HR D)
    (ts_index : Int) : Bool :=
  decide (is_goal_relevant_at acc fts ts_index = some true)

/-- A pair of entries of the traversal list is a candidate when at least one
of its two components is goal relevant. -/
def candidate (acc : GroupAccess TS) (fts : FactoredTransitionSystem L TS HR D)
    (p : (Int × List Int) × (Int × List Int)) : Bool :=
  goal_relevant acc fts p.1.1 || goal_relevant acc fts p.2.1

/-- The candidates among the pairs of positions `i < j` of the traversal list,
in traversal order. -/
def candidates (acc : GroupAccess TS) (fts : FactoredTransitionSystem L TS HR D)
    (entries : List (Int × List Int)) : List ((Int × List Int) × (Int × List Int)) :=
  (ordered_pairs entries).filter (candidate acc fts)

/-- The values `max(rank_a[k], rank_b[k])` for the labels `k` with
`rank_a[k] != -1` and `rank_b[k] != -1`. -/
def common_ranks (rank_a rank_b : List Int) : List Int :=
  ((List.zip rank_a rank_b).filter fun p => decide (p.1 ≠ -1 ∧ p.2 ≠ -1)).map
    fun p => max p.1 p.2

/-- The weight of a pair as the claim defines it: the minimum over all labels
`k` with `rank_a[k] != -1` and `rank_b[k] != -1` of
`max(rank_a[k], rank_b[k])`, and `inf` when there is no such label. -/
def weight (inf : Int) (rank_a rank_b : List Int) : Int :=
  match (common_ranks rank_a rank_b).min? with
  | none => inf
  | some w => w

/-- The weight of a pair of entries of the traversal list. -/
def entry_weight (inf : Int) (p : (Int × List Int) × (Int × List Int)) : Int :=
  weight inf p.1.2 p.2.2

end MergeDFP

/-- The atomic transition system of a binary variable that starts at 0 and has
goal value 1: each of the labels `own` switches it from 0 to 1, every other
label of the `num_labels` labels leaves it as it is. -/
def shared_atom (num_labels : Nat) (own : List Nat) : TransitionSystem :=
  { num_states := 2,
    label_groups :=
      [{ labels := own, transitions := [{ src := 0, target := 1 }], cost := 1 },
       { labels := (List.range num_labels).filter fun l => !own.contains l,
         transitions := [{ src := 0, target := 0 }, { src := 1, target := 1 }], cost := 1 }],
    goal_states := [false, true],
    init_state := 0 }

/-- A task with three binary variables and three operators: operator 0 sets
variable 0, operator 1 sets variables 1 and 2, operator 2 sets variable 1; the
system after the constructor has run. -/
def specCoupled : SpecFTS :=
  (FactoredTransitionSystem.construct specComponents [some 1, some 1, some 1]
    [some (shared_atom 3 [0]), some (shared_atom 3 [1, 2]), some (shared_atom 3 [1])]
    ((List.range 3).map fun v => some (HeuristicRepresentation.new_leaf v 2))
    [some (Distances.create (shared_atom 3 [0])), some (Distances.create (shared_atom 3 [1, 2])),
      some (Distances.create (shared_atom 3 [1]))]
    true true).getD (independent_atoms 0)

/-! ## The loop of `build_transition_system`

`MergeAndShrinkHeuristic::build_transition_system`
(`merge_and_shrink_heuristic.cc`, lines 104-168) drives the merge strategy, the
label reduction, the shrink strategy and `merge`. `Labels::reduce` and
`ShrinkStrategy::shrink` are defined in files that are not among the sources at
hand; they act on the factored transition system through
`apply_label_reduction` and `apply_abstraction`, so they are taken as
parameters that say which of these calls they make. The calls to `statistics`
and the bookkeeping for the output do not change the system and are left
out. -/

/-- A call that `Labels::reduce` or `ShrinkStrategy::shrink` makes on the
factored transition system. -/
inductive Adjustment where
  | apply_abstraction (index : Nat) (rel : StateEquivalenceRelation) (silent : Bool)
  | apply_label_reduction (label_mapping : LabelMapping) (combinable_index : Int)

/-- The effect of one such call on the system. -/
def Adjustment.run {State L TS HR D : Type} (ops : Components State L TS HR D)
    (fts : FactoredTransitionSystem L TS HR D) :
    Adjustment → Option (FactoredTransitionSystem L TS HR D)
  | .apply_abstraction index rel silent =>
    (FactoredTransitionSystem.apply_abstraction ops fts index rel silent).map Prod.fst
  | .apply_label_reduction label_mapping combinable_index =>
    FactoredTransitionSystem.apply_label_reduction ops fts label_mapping combinable_index

/-- The effect of a sequence of such calls. -/
def adjust {State L TS HR D : Type} (ops : Components State L TS HR D) :
    List Adjustment → FactoredTransitionSystem L TS HR D →
      Option (FactoredTransitionSystem L TS HR D)
  | [], fts => some fts
  | a :: rest, fts => (a.run ops fts).bind fun fts' => adjust ops rest fts'

/-- The label reduction and the shrink strategy that `build_transition_system`
uses: the options `reduce_before_shrinking` and `reduce_before_merging`, and
the calls that `labels->reduce(merge_indices, fts)` and
`shrink_strategy->shrink(fts, merge_index1, merge_index2)` make on the
system. -/
structure Strategies (L TS HR D : Type) where
  reduce_before_shrinking : Bool
  reduce_before_merging : Bool
  reduce : FactoredTransitionSystem L TS HR D → Int × Int → List Adjustment
  shrink : FactoredTransitionSystem L TS HR D → Int → Int → List Adjustment

/-- How a run of the loop ends: an assertion failed, the fuel of the model was
used up, or the loop was left with a result. -/
inductive Outcome (α : Type) where
  | failed
  | out_of_fuel
  | finished (result : α)

/-- The call `fts->merge(...)` of the loop (line 145) with `int` arguments: the
merge consumes its two inputs and finalizes on an unsolvable product (the test
`!fts->is_solvable()` that follows relies on it). -/
def merge_at {State L TS HR D : Type} (ops : Components State L TS HR D)
    (fts : FactoredTransitionSystem L TS HR D) (merge_index1 merge_index2 : Int) :
    Option (FactoredTransitionSystem L TS HR D × Nat) :=
  if merge_index1 < 0 ∨ merge_index2 < 0 then none
  else FactoredTransitionSystem.merge ops fts merge_index1.toNat merge_index2.toNat true true

/-- One pass through the body of the loop up to and including the merge (lines
106-145): the system and the merge strategy afterwards. -/
def build_iteration {State L TS HR D : Type} (ops : Components State L TS HR D)
    (acc : GroupAccess TS) (st : Strategies L TS HR D)
    (fts : FactoredTransitionSystem L TS HR D) (dfp : MergeDFP) :
    Option (FactoredTransitionSystem L TS HR D × MergeDFP) :=
  (MergeDFP.get_next ops acc dfp fts).bind fun next =>
  (check (decide (next.1.1 ≠ next.1.2))).bind fun _ =>
  (if st.reduce_before_shrinking then adjust ops (st.reduce fts next.1) fts
    else some fts).bind fun fts1 =>
  (adjust ops (st.shrink fts1 next.1.1 next.1.2) fts1).bind fun fts2 =>
  (if st.reduce_before_merging then adjust ops (st.reduce fts2 next.1) fts2
    else some fts2).bind fun fts3 =>
  (merge_at ops fts3 next.1.1 next.1.2).bind fun merged =>
  some (merged.1, next.2)

/-- The loop `while (!merge_strategy->done())` (lines 105-167), with the
`break` on an unsolvable system; the result is the system, the merge strategy
and `iteration_counter` when the loop is left. -/
def build_loop {State L TS HR D : Type} (ops : Components State L TS HR D)
    (acc : GroupAccess TS) (st : Strategies L TS HR D) :
    Nat → FactoredTransitionSystem L TS HR D → MergeDFP → Nat →
      Outcome (FactoredTransitionSystem L TS HR D × MergeDFP × Nat)
  | fuel, fts, dfp, iteration_counter =>
    if dfp.done then Outcome.finished (fts, dfp, iteration_counter)
    else
      match fuel with
      | 0 => Outcome.out_of_fuel
      | fuel' + 1 =>
        match build_iteration ops acc st fts dfp with
        | none => Outcome.failed
        | some (fts', dfp') =>
          if !fts'.solvable then Outcome.finished (fts', dfp', iteration_counter)
          else build_loop ops acc st fuel' fts' dfp' (iteration_counter + 1)

/-- Lines 104-168 of `build_transition_system`: the loop is entered when all
atomic transition systems are solvable. -/
def build_transition_system_loop {State L TS HR D : Type} (ops : Components State L TS HR D)
    (acc : GroupAccess TS) (st : Strategies L TS HR D) (fuel : Nat)
    (fts : FactoredTransitionSystem L TS HR D) (dfp : MergeDFP) :
    Outcome (FactoredTransitionSystem L TS HR D × MergeDFP × Nat) :=
  if fts.solvable then build_loop ops acc st fuel fts dfp 0
  else Outcome.finished (fts, dfp, 0)

/-- The strategies that neither reduce labels nor shrink. -/
def idleStrategies (L TS HR D : Type) : Strategies L TS HR D where
  reduce_before_shrinking := false
  reduce_before_merging := false
  reduce := fun _ _ => []
  shrink := fun _ _ _ => []

/-- Two systems have the same slots when their three vectors have the same
lengths, the same indices are live, and `solvable` is the same. -/
def SameLiveSlots {L TS HR D : Type} (fts fts' : FactoredTransitionSystem L TS HR D) : Prop :=
  fts'.transition_systems.length = fts.transition_systems.length ∧
  fts'.heuristic_representations.length = fts.heuristic_representations.length ∧
  fts'.distances.length = fts.distances.length ∧
  fts'.solvable = fts.solvable ∧
  ∀ j, fts'.is_index_valid j = fts.is_index_valid j

/-- The two atomic components of `independent_atoms 2` after the constructor
has run on them. -/
def specPair : SpecFTS :=
  (FactoredTransitionSystem.construct_from specComponents true true 2 0
    (independent_atoms 2)).getD (independent_atoms 2)

/-- The merge strategy with order `DFP` after `initialize` for two variables. -/
def dfpTwo : MergeDFP := MergeDFP.init ⟨Order.DFP, false, -1, -1⟩ 2

/-- The task variables at the leaves of the tree stored in a slot of
`heuristic_representations`; none for the null pointer. -/
def slot_leaves : Option HeuristicRepresentation → List Nat
  | none => []
  | some h => h.leaves

/-- The task variables at the leaves of all trees stored in
`heuristic_representations`, slot by slot, with repetitions. -/
def covered_variables (hrs : List (Option HeuristicRepresentation)) : List Nat :=
  hrs.flatMap slot_leaves

/-- The calls that neither copy nor drop a heuristic representation:
invalidating merges, abstractions and label reductions. -/
def Operation.keeps_variables : Operation → Bool
  | .merge _ _ invalidating_merge _ => invalidating_merge
  | .apply_abstraction _ _ _ => true
  | .apply_label_reduction _ _ => true
  | .copy _ => false
  | .release_copies => false
  | .remove _ => false

/-- The identity relation on `size` states: one singleton class per state, in
state order. -/
def identity_relation (size : Nat) : StateEquivalenceRelation :=
  (List.range size).map fun s => [s]

namespace Distances

/-- The states with a finite tentative distance in a vector of distances. -/
def finite_states (d : List (Option Nat)) : Finset Nat :=
  (Finset.range d.length).filter fun s => ((d[s]?).join).isSome

/-- What the relaxation of one edge does to the set of states with a finite
distance, among `n` states: the target joins the set when the source is in
it. -/
def reach_step (n : Nat) (S : Finset Nat) (e : Edge) : Finset Nat :=
  if e.src ∈ S ∧ e.target < n then insert e.target S else S

/-- What one round of relaxation does to the set of states with a finite
distance. -/
def reach_round (n : Nat) (es : List Edge) (S : Finset Nat) : Finset Nat :=
  es.foldl (reach_step n) S

/-- What `rounds` rounds of relaxation do to the set of states with a finite
distance. -/
def reach (n : Nat) (es : List Edge) : Nat → Finset Nat → Finset Nat
  | 0, S => S
  | rounds + 1, S => reach n es rounds (reach_round n es S)

/-- A set of states is closed under the edges when it holds the target of
every edge, among `n` states, whose source it holds. -/
def closed_under (n : Nat) (es : List Edge) (C : Nat → Prop) : Prop :=
  ∀ e ∈ es, C e.src → e.target < n → C e.target

end Distances

/-- A transition system with three states of which state 2 cannot be reached
from the initial state 0; state 1 is the goal. -/
def dangling_atom : TransitionSystem :=
  { num_states := 3,
    label_groups :=
      [{ labels := [0], transitions := [{ src := 0, target := 1 }, { src := 2, target := 1 }],
         cost := 1 }],
    goal_states := [false, true, false],
    init_state := 0 }

/-- The system with the single component `dangling_atom`, before distances
have been computed. -/
def specDangling : SpecFTS :=
  FactoredTransitionSystem.initial_system [some 1] [some dangling_atom]
    [some (HeuristicRepresentation.new_leaf 0 3)] [some (Distances.create dangling_atom)]

/-! ## The heuristic interface

`Heuristic` (file `heuristic.cc`) stores the last computed value and, when
caching is on, one evaluation per state. The derived class supplies
`compute_heuristic`; for the merge-and-shrink heuristic it reads the cost from
the factored transition system. -/

/-- The constant `DEAD_END` of `heuristic.h`; its value is the one named by the
comment in `Heuristic::get_heuristic` ("The -1 value for dead ends"). -/
def DEAD_END : Int := -1

namespace MergeAndShrinkHeuristic

/-- Function `MergeAndShrinkHeuristic::compute_heuristic` (lines 221-227);
`convert_global_state` is a member of the base class. -/
def compute_heuristic {GlobalState State L TS HR D : Type} (ops : Components State L TS HR D)
    (convert_global_state : GlobalState → State)
    (fts : FactoredTransitionSystem L TS HR D) (global_state : GlobalState) : Option Int :=
  let state := convert_global_state global_state
  (FactoredTransitionSystem.get_cost ops fts state).bind fun cost =>
  if cost = -1 then some DEAD_END else some cost

end MergeAndShrinkHeuristic

/-- Class `EvaluationInfo`: the cached result of one evaluation. -/
structure EvaluationInfo (Op : Type) where
  heuristic : Int
  preferred_operators : List Op

/-- Class `Heuristic`: the data members that `heuristic.cc` reads and writes,
and the data of the derived class. -/
structure Heuristic (S State Op : Type) where
  derived : S
  use_cache : Bool
  heuristic : Int
  preferred_operators : List Op
  state_cache : List (State × EvaluationInfo Op)

/-- The constant and the members that `heuristic.cc` uses without defining
them. -/
structure HeuristicMembers (S State Op : Type) where
  /-- The constant `NOT_INITIALIZED` of `heuristic.h`. -/
  NOT_INITIALIZED : Int
  /-- The virtual member `initialize` of the derived class. -/
  setup : S → S
  /-- The virtual member `compute_heuristic` of the derived class: the value it
  returns, the operators it passes to `set_preferred`, and the data of the
  derived class afterwards; `none` when an assertion of it fails. -/
  compute_heuristic : S → State → Option (Int × List Op × S)
  /-- Member `Operator::is_applicable`. -/
  is_applicable : Op → State → Bool

namespace Heuristic

variable {S State Op : Type}

/-- The constructor `Heuristic::Heuristic` (lines 10-13). -/
def create (members : HeuristicMembers S State Op) (derived : S) (use_caching : Bool) :
    Heuristic S State Op :=
  { derived := derived, use_cache := use_caching, heuristic := members.NOT_INITIALIZED,
    preferred_operators := [], state_cache := [] }

/-- Member `find` of the state cache. -/
def cache_find [DecidableEq State] :
    List (State × EvaluationInfo Op) → State → Option (EvaluationInfo Op)
  | [], _ => none
  | e :: rest, state => if e.1 = state then some e.2 else cache_find rest state

/-- The assignment `state_cache[state] = info`. -/
def cache_store [DecidableEq State] :
    List (State × EvaluationInfo Op) → State → EvaluationInfo Op →
      List (State × EvaluationInfo Op)
  | [], state, info => [(state, info)]
  | e :: rest, state, info =>
    if e.1 = state then (state, info) :: rest else e :: cache_store rest state info

/-- Lines 37-61 of `Heuristic::evaluate`: the value is computed, tested by the
assertion and stored. -/
def evaluate_fresh [DecidableEq State] (members : HeuristicMembers S State Op)
    (h : Heuristic S State Op) (state : State) : Option (Heuristic S State Op) :=
  let derived := if h.heuristic = members.NOT_INITIALIZED then members.setup h.derived
    else h.derived
  (members.compute_heuristic derived state).bind fun r =>
  let heuristic := r.1
  (check (decide (heuristic = DEAD_END ∨ 0 ≤ heuristic))).bind fun _ =>
  let preferred_operators := if heuristic = DEAD_END then [] else r.2.1
  let state_cache := if h.use_cache
    then cache_store h.state_cache state ⟨heuristic, preferred_operators⟩
    else h.state_cache
  (check (decide (heuristic = DEAD_END) ||
      preferred_operators.all fun op => members.is_applicable op state)).bind fun _ =>
  some { derived := r.2.2, use_cache := h.use_cache, heuristic := heuristic,
         preferred_operators := preferred_operators, state_cache := state_cache }

/-- Function `Heuristic::evaluate(const State &)` (lines 26-62). -/
def evaluate [DecidableEq State] (members : HeuristicMembers S State Op)
    (h : Heuristic S State Op) (state : State) : Option (Heuristic S State Op) :=
  match (if h.use_cache then cache_find h.state_cache state else none) with
  | some info =>
    some { h with heuristic := info.heuristic, preferred_operators := info.preferred_operators }
  | none => evaluate_fresh members h state

/-- Function `Heuristic::is_dead_end` (lines 98-100). -/
def is_dead_end (h : Heuristic S State Op) : Bool := decide (h.heuristic = DEAD_END)

/-- Function `Heuristic::get_heuristic` (lines 102-108). -/
def get_heuristic (h : Heuristic S State Op) : Option Int :=
  (check (decide (0 ≤ h.heuristic))).bind fun _ => some h.heuristic

/-- A sequence of calls of `evaluate`, one per state of the list. -/
def evaluate_all [DecidableEq State] (members : HeuristicMembers S State Op) :
    Heuristic S State Op → List State → Option (Heuristic S State Op)
  | h, [] => some h
  | h, state :: rest => (evaluate members h state).bind fun h1 => evaluate_all members h1 rest

/-- Every value in the cache is `DEAD_END` or not negative. -/
def CacheInRange (h : Heuristic S State Op) : Prop :=
  ∀ e ∈ h.state_cache, e.2.heuristic = DEAD_END ∨ 0 ≤ e.2.heuristic

end Heuristic

/-- The merge-and-shrink heuristic over the sample instance as a derived class
of `Heuristic`: the data is the finalized system, states are converted by the
identity, and no operator is preferred. -/
def sampleHeuristic : HeuristicMembers SampleFTS Nat Nat where
  NOT_INITIALIZED := -2
  setup := fun fts => fts
  compute_heuristic := fun fts state =>
    (MergeAndShrinkHeuristic.compute_heuristic sampleComponents (fun s => s) fts state).map
      fun v => (v, [], fts)
  is_applicable := fun _ _ => true

/-! ## The symmetry graph

`GraphCreator::create_bliss_graph` (file `symmetries/graph_creator.cc`) gives
one vertex to every abstraction and one to every abstract state, and records
in `symmetry_generator_info` how vertex ids and abstract states correspond.
The graph class of the bliss library, the class `Abstraction` and the colour
constants are parameters. -/

/-- Class `SymmetryGeneratorInfo`: the data members that `create_bliss_graph`
writes. -/
structure SymmetryGeneratorInfo where
  num_abstractions : Nat
  num_abs_and_states : Nat
  length : Nat
  dom_sum_by_var : List Nat
  var_by_val : List Nat
deriving DecidableEq

/-- The members of `bliss::Digraph` that `create_bliss_graph` calls, with two
observations of a graph: its number of vertices and the edges added to it, in
the order of the calls of `add_edge`. -/
structure Digraph (G : Type) where
  /-- The constructor `bliss::Digraph()`. -/
  empty : G
  /-- Member `add_vertex(color)`: the new graph and the id of the new vertex. -/
  add_vertex : G → Nat → G × Nat
  /-- Member `add_edge(source, target)`. -/
  add_edge : G → Nat → Nat → G
  /-- Member `get_nof_vertices`. -/
  get_nof_vertices : G → Nat
  /-- The edges of the graph. -/
  edges : G → List (Nat × Nat)

/-- Vertex ids are handed out consecutively from 0, and the graph records the
edges it is given. -/
structure Digraph.ConsecutiveIds {G : Type} (dg : Digraph G) : Prop where
  empty_vertices : dg.get_nof_vertices dg.empty = 0
  empty_edges : dg.edges dg.empty = []
  add_vertex_id : ∀ g c, (dg.add_vertex g c).2 = dg.get_nof_vertices g
  add_vertex_count : ∀ g c, dg.get_nof_vertices (dg.add_vertex g c).1 = dg.get_nof_vertices g + 1
  add_vertex_edges : ∀ g c, dg.edges (dg.add_vertex g c).1 = dg.edges g
  add_edge_count : ∀ g a b, dg.get_nof_vertices (dg.add_edge g a b) = dg.get_nof_vertices g
  add_edge_edges : ∀ g a b, dg.edges (dg.add_edge g a b) = dg.edges g ++ [(a, b)]

/-- The colour constants of `graph_creator.h` and the member `size` of
`Abstraction`. -/
structure GraphMembers (A : Type) where
  ABSTRACTION_VERTEX : Nat
  ABS_STATE_VERTEX : Nat
  size : A → Nat

namespace GraphCreator

variable {G A : Type}

/-- The local variables of `create_bliss_graph` and `symmetry_generator_info`. -/
structure Progress (G : Type) where
  g : G
  idx : Nat
  num_of_nodes : Nat
  node_color_added_val : Nat
  symmetry_generator_info : SymmetryGeneratorInfo

/-- Lines 155-158: the number of abstract states of an entry of the vector,
0 for a null pointer. -/
def abs_states (members : GraphMembers A) (abstraction : Option A) : Nat :=
  match abstraction with
  | some a => members.size a
  | none => 0

/-- The body of the first loop of `create_bliss_graph` (lines 131-162) for the
abstraction at index `abs_ind`, with the assertion `abs_ind == idx`. -/
def add_abstraction_vertex (dg : Digraph G) (members : GraphMembers A)
    (build_stabilized_pdg : Bool) (abs_ind : Nat) (abstraction : Option A) (p : Progress G) :
    Option (Progress G) :=
  let node_color_added_val :=
    if build_stabilized_pdg || abstraction.isNone then p.node_color_added_val + 1
    else p.node_color_added_val
  let r :=
    if build_stabilized_pdg || abstraction.isNone
    then dg.add_vertex p.g (members.ABSTRACTION_VERTEX + node_color_added_val)
    else dg.add_vertex p.g members.ABSTRACTION_VERTEX
  (check (decide (abs_ind = r.2))).bind fun _ =>
  let dom_sum_by_var := p.symmetry_generator_info.dom_sum_by_var ++ [p.num_of_nodes]
  let var_by_val := (List.range (abs_states members abstraction)).foldl
    (fun v _ => v ++ [abs_ind]) p.symmetry_generator_info.var_by_val
  some
    { g := r.1, idx := r.2,
      num_of_nodes := p.num_of_nodes + abs_states members abstraction,
      node_color_added_val := node_color_added_val,
      symmetry_generator_info :=
        { p.symmetry_generator_info with
          dom_sum_by_var := dom_sum_by_var, var_by_val := var_by_val } }

/-- The first loop of `create_bliss_graph` (lines 130-163) from index
`abs_ind` on. -/
def add_abstraction_vertices (dg : Digraph G) (members : GraphMembers A)
    (build_stabilized_pdg : Bool) : Nat → List (Option A) → Progress G → Option (Progress G)
  | _, [], p => some p
  | abs_ind, abstraction :: rest, p =>
    (add_abstraction_vertex dg members build_stabilized_pdg abs_ind abstraction p).bind fun p1 =>
    add_abstraction_vertices dg members build_stabilized_pdg (abs_ind + 1) rest p1

/-- The inner loop of lines 182-194: one vertex per abstract state, with an
edge from the vertex of the abstraction. -/
def add_state_vertices (dg : Digraph G) (color abs_ind num_states : Nat) (p : G × Nat) : G × Nat :=
  (List.range num_states).foldl
    (fun q _ =>
      let r := dg.add_vertex q.1 color
      (dg.add_edge r.1 abs_ind r.2, r.2)) p

/-- The second loop of `create_bliss_graph` (lines 173-195) from index
`abs_ind` on; null abstractions are skipped. -/
def add_all_state_vertices (dg : Digraph G) (members : GraphMembers A) (color : Nat) :
    Nat → List (Option A) → G × Nat → G × Nat
  | _, [], p => p
  | abs_ind, none :: rest, p => add_all_state_vertices dg members color (abs_ind + 1) rest p
  | abs_ind, some a :: rest, p =>
    add_all_state_vertices dg members color (abs_ind + 1) rest
      (add_state_vertices dg color abs_ind (members.size a) p)

/-- Lines 112-196 of `GraphCreator::create_bliss_graph`: the vertices of the
abstractions and of the abstract states. The rest of the function adds the
vertices of labels, transitions and the goal and does not write
`symmetry_generator_info`. -/
def create_bliss_graph (dg : Digraph G) (members : GraphMembers A) (build_stabilized_pdg : Bool)
    (abstractions : List (Option A)) (symmetry_generator_info : SymmetryGeneratorInfo) :
    Option (Progress G) :=
  let p0 : Progress G :=
    { g := dg.empty, idx := 0, num_of_nodes := abstractions.length, node_color_added_val := 0,
      symmetry_generator_info :=
        { symmetry_generator_info with num_abstractions := abstractions.length } }
  (add_abstraction_vertices dg members build_stabilized_pdg 0 abstractions p0).bind fun p1 =>
  let r := add_all_state_vertices dg members (members.ABS_STATE_VERTEX + p1.node_color_added_val)
    0 abstractions (p1.g, p1.idx)
  some { p1 with
    g := r.1, idx := r.2,
    symmetry_generator_info :=
      { p1.symmetry_generator_info with
        num_abs_and_states := p1.num_of_nodes, length := p1.num_of_nodes } }

end GraphCreator

/-- A graph as the list of the colours of its vertices, the id of a vertex
being its position, and the list of its edges. -/
structure ListGraph where
  colors : List Nat
  edges : List (Nat × Nat)
deriving DecidableEq

/-- The graph operations on `ListGraph`. -/
def listDigraph : Digraph ListGraph where
  empty := { colors := [], edges := [] }
  add_vertex := fun g c => ({ g with colors := g.colors ++ [c] }, g.colors.length)
  add_edge := fun g a b => { g with edges := g.edges ++ [(a, b)] }
  get_nof_vertices := fun g => g.colors.length
  edges := fun g => g.edges

/-- Abstractions given by their number of states, with colour constants 0
and 1. -/
def sizeMembers : GraphMembers Nat where
  ABSTRACTION_VERTEX := 0
  ABS_STATE_VERTEX := 1
  size := fun n => n

/-- The data of `symmetry_generator_info` after `reset`. -/
def emptyInfo : SymmetryGeneratorInfo :=
  { num_abstractions := 0, num_abs_and_states := 0, length := 0, dom_sum_by_var := [],
    var_by_val := [] }

/-- Modelled from the spec: whether a transition system has a transition from
`src` to `target` under a label: some label group holds both the label and the
transition. -/
def TransitionSystem.has_transition (ts : TransitionSystem) (label src target : Nat) : Bool :=
  ts.label_groups.any fun g =>
    g.labels.contains label && g.transitions.contains { src := src, target := target }

/-! ## The index of the final transition system

`build_transition_system` keeps in `final_index` the index that the last merge
returned and reads the transition system at that index after the loop. -/

/-- One pass through the body of the loop (lines 106-145), as
`build_iteration`, together with the value that line 145 assigns to
`final_index`. -/
def build_iteration_index {State L TS HR D : Type} (ops : Components State L TS HR D)
    (acc : GroupAccess TS) (st : Strategies L TS HR D)
    (fts : FactoredTransitionSystem L TS HR D) (dfp : MergeDFP) :
    Option (FactoredTransitionSystem L TS HR D × MergeDFP × Int) :=
  (MergeDFP.get_next ops acc dfp fts).bind fun next =>
  (check (decide (next.1.1 ≠ next.1.2))).bind fun _ =>
  (if st.reduce_before_shrinking then adjust ops (st.reduce fts next.1) fts
    else some fts).bind fun fts1 =>
  (adjust ops (st.shrink fts1 next.1.1 next.1.2) fts1).bind fun fts2 =>
  (if st.reduce_before_merging then adjust ops (st.reduce fts2 next.1) fts2
    else some fts2).bind fun fts3 =>
  (merge_at ops fts3 next.1.1 next.1.2).bind fun merged =>
  some (merged.1, next.2, (merged.2 : Int))

/-- The loop `while (!merge_strategy->done())` (lines 105-167) with the local
variable `final_index`: the result is the system, the merge strategy and
`final_index` when the loop is left. -/
def build_loop_index {State L TS HR D : Type} (ops : Components State L TS HR D)
    (acc : GroupAccess TS) (st : Strategies L TS HR D) :
    Nat → FactoredTransitionSystem L TS HR D → MergeDFP → Int →
      Outcome (FactoredTransitionSystem L TS HR D × MergeDFP × Int)
  | fuel, fts, dfp, final_index =>
    if dfp.done then Outcome.finished (fts, dfp, final_index)
    else
      match fuel with
      | 0 => Outcome.out_of_fuel
      | fuel' + 1 =>
        match build_iteration_index ops acc st fts dfp with
        | none => Outcome.failed
        | some (fts', dfp', index) =>
          if !fts'.solvable then Outcome.finished (fts', dfp', index)
          else build_loop_index ops acc st fuel' fts' dfp' index

/-- The call `fts->get_ts(index)` with an `int` argument: the transition
system in the slot, none for an index outside the vector or a null pointer. -/
def get_ts_at {L TS HR D : Type} (fts : FactoredTransitionSystem L TS HR D) (index : Int) :
    Option TS :=
  if index < 0 then none else deref fts.transition_systems index.toNat

/-- Lines 103-172 of `build_transition_system`: `final_index` starts as -1, the
loop runs when the system is solvable, and for a solvable system the size of
`fts->get_ts(final_index)` is reported afterwards. The result holds the system
and `final_index` after the loop and the size reported, none when nothing is
reported. -/
def build_transition_system_size {State L TS HR D : Type} (ops : Components State L TS HR D)
    (acc : GroupAccess TS) (st : Strategies L TS HR D) (fuel : Nat)
    (fts : FactoredTransitionSystem L TS HR D) (dfp : MergeDFP) :
    Outcome (FactoredTransitionSystem L TS HR D × Int × Option Nat) :=
  match (if fts.solvable then build_loop_index ops acc st fuel fts dfp (-1)
    else Outcome.finished (fts, dfp, -1)) with
  | Outcome.failed => Outcome.failed
  | Outcome.out_of_fuel => Outcome.out_of_fuel
  | Outcome.finished (fts', _, final_index) =>
    if fts'.solvable then
      match get_ts_at fts' final_index with
      | none => Outcome.failed
      | some ts => Outcome.finished (fts', final_index, some (ops.ts_get_size ts))
    else Outcome.finished (fts', final_index, none)

/-- The single atomic component of `independent_atoms 1` after the constructor
has run on it: a solvable task with one variable. -/
def specSingle : SpecFTS :=
  (FactoredTransitionSystem.construct_from specComponents true true 1 0
    (independent_atoms 1)).getD (independent_atoms 1)

/-- The merge strategy with order `DFP` after `initialize` for one variable. -/
def dfpOne : MergeDFP := MergeDFP.init ⟨Order.DFP, false, -1, -1⟩ 1

/-- The atomic transition system of a binary variable in a task without
operators whose initial value 0 is the goal value: no label group at all. -/
def idle_atom : TransitionSystem :=
  { num_states := 2, label_groups := [], goal_states := [true, false], init_state := 0 }

/-- The system that the constructor makes of two such components in a task
with no labels: both components are solvable and stay live. -/
def specIdle : SpecFTS :=
  (FactoredTransitionSystem.construct specComponents [] [some idle_atom, some idle_atom]
    [some (HeuristicRepresentation.new_leaf 0 2), some (HeuristicRepresentation.new_leaf 1 2)]
    [some (Distances.create idle_atom), some (Distances.create idle_atom)]
    true true).getD (independent_atoms 0)

/-! # Theorems -/

/-! ## Basic facts about assertions, slots and assignments -/

theorem check_eq_some_iff (b : Bool) (u : Unit) : check b = some u ↔ b = true := by
  cases b <;> simp [check]

theorem check_true : check true = some () := rfl

theorem check_false : check false = none := rfl

theorem deref_eq_some_iff {α : Type} (xs : List (Option α)) (i : Nat) (a : α) :
    deref xs i = some a ↔ xs[i]? = some (some a) := by
  unfold deref
  cases h : xs[i]? with
  | none => simp
  | some o => cases o <;> simp

theorem deref_eq_none_iff {α : Type} (xs : List (Option α)) (i : Nat) :
    deref xs i = none ↔ xs[i]? = none ∨ xs[i]? = some none := by
  unfold deref
  cases h : xs[i]? with
  | none => simp
  | some o => cases o <;> simp

theorem assign_eq_some_iff {α : Type} (xs ys : List α) (i : Nat) (v : α) :
    assign xs i v = some ys ↔ i < xs.length ∧ ys = xs.set i v := by
  unfold assign
  split <;> simp_all [eq_comm]

theorem assign_of_getElem? {α : Type} (xs : List α) (i : Nat) (v w : α) (h : xs[i]? = some w) :
    assign xs i v = some (xs.set i v) := by
  have hlt : i < xs.length := by
    by_contra hc
    rw [List.getElem?_eq_none (by omega)] at h
    cases h
  simp [assign, hlt]

theorem set_eq_self_of_getElem? {α : Type} (xs : List α) (i : Nat) (v : α) (h : xs[i]? = some v) :
    xs.set i v = xs := by
  apply List.ext_getElem?
  intro j
  by_cases hij : i = j
  · subst hij
    have hlt : i < xs.length := by
      by_contra hc
      rw [List.getElem?_eq_none (by omega)] at h
      cases h
    simp [hlt, h]
  · simp [List.getElem?_set_ne hij]

theorem getElem?_set_self_of_getElem? {α : Type} (xs : List α) (i : Nat) (v w : α)
    (h : xs[i]? = some w) : (xs.set i v)[i]? = some v := by
  have hlt : i < xs.length := by
    by_contra hc
    rw [List.getElem?_eq_none (by omega)] at h
    cases h
  simp [hlt]


namespace FactoredTransitionSystem

variable {State L TS HR D : Type}

theorem get_component_eq_some_iff (fts : FactoredTransitionSystem L TS HR D) (i : Nat)
    (c : Component TS HR D) :
    fts.get_component i = some c ↔
      fts.transition_systems[i]? = some (some c.ts) ∧
      fts.heuristic_representations[i]? = some (some c.hr) ∧
      fts.distances[i]? = some (some c.dist) := by
  unfold get_component
  rcases c with ⟨t, h, d⟩
  rcases h1 : fts.transition_systems[i]? with _ | _ | t1 <;>
  rcases h2 : fts.heuristic_representations[i]? with _ | _ | t2 <;>
  rcases h3 : fts.distances[i]? with _ | _ | t3 <;> simp

theorem is_index_valid_eq_true_iff (fts : FactoredTransitionSystem L TS HR D) (i : Nat) :
    fts.is_index_valid i = some true ↔ ∃ c, fts.get_component i = some c := by
  unfold is_index_valid get_component
  by_cases hlen : fts.transition_systems.length ≤ i
  · have h0 : fts.transition_systems[i]? = none := List.getElem?_eq_none hlen
    simp only [hlen, if_true, h0]
    constructor
    · intro h
      by_cases c1 : fts.heuristic_representations.length ≤ i <;>
      by_cases c2 : fts.distances.length ≤ i <;> simp [check, c1, c2] at h
    · rintro ⟨c, hc⟩
      cases hc
  · simp only [hlen, if_false]
    rcases h1 : fts.transition_systems[i]? with _ | _ | t1 <;>
    rcases h2 : fts.heuristic_representations[i]? with _ | _ | t2 <;>
    rcases h3 : fts.distances[i]? with _ | _ | t3 <;> simp

theorem is_index_valid_of_get_component (fts : FactoredTransitionSystem L TS HR D) (i : Nat)
    (c : Component TS HR D) (h : fts.get_component i = some c) :
    fts.is_index_valid i = some true :=
  (is_index_valid_eq_true_iff fts i).2 ⟨c, h⟩

theorem get_component_put_component (fts : FactoredTransitionSystem L TS HR D) (i : Nat)
    (c c' : Component TS HR D) (stat : List (Nat × Nat)) (h : fts.get_component i = some c) :
    (fts.put_component i c' stat).get_component i = some c' := by
  rw [get_component_eq_some_iff] at h ⊢
  obtain ⟨h1, h2, h3⟩ := h
  exact ⟨getElem?_set_self_of_getElem? _ _ _ _ h1, getElem?_set_self_of_getElem? _ _ _ _ h2,
    getElem?_set_self_of_getElem? _ _ _ _ h3⟩

theorem is_component_valid_of_get_component (ops : Components State L TS HR D)
    (fts : FactoredTransitionSystem L TS HR D) (i : Nat) (c : Component TS HR D)
    (h : fts.get_component i = some c) :
    is_component_valid ops fts i = some (c.is_valid ops) := by
  have hv := is_index_valid_of_get_component fts i c h
  rw [get_component_eq_some_iff] at h
  obtain ⟨h1, h2, h3⟩ := h
  simp [is_component_valid, hv, check, deref, h1, h3, Component.is_valid]

theorem put_component_self (fts : FactoredTransitionSystem L TS HR D) (i : Nat)
    (c : Component TS HR D) (h : fts.get_component i = some c) :
    fts.put_component i c [] = fts := by
  rw [get_component_eq_some_iff] at h
  obtain ⟨h1, h2, h3⟩ := h
  simp [put_component, set_eq_self_of_getElem? _ _ _ h1, set_eq_self_of_getElem? _ _ _ h2,
    set_eq_self_of_getElem? _ _ _ h3]

/-- On a live index, lines 137-150 of `apply_abstraction` compute what
`Component.apply_abstraction_with` computes on the component, and write the
result back to the three slots of that index. -/
theorem apply_abstraction_with_eq (ops : Components State L TS HR D)
    (fts : FactoredTransitionSystem L TS HR D) (i : Nat) (c : Component TS HR D)
    (rel : StateEquivalenceRelation) (m : List Int) (silent : Bool)
    (h : fts.get_component i = some c) :
    apply_abstraction_with ops fts i rel m silent =
      (c.apply_abstraction_with ops rel m silent).map fun r => (fts.put_component i r.1 [], r.2) := by
  have hc := h
  rw [get_component_eq_some_iff] at h
  obtain ⟨h1, h2, h3⟩ := h
  have hd1 : deref fts.transition_systems i = some c.ts := (deref_eq_some_iff _ _ _).2 h1
  have hd2 : deref fts.heuristic_representations i = some c.hr := (deref_eq_some_iff _ _ _).2 h2
  have hd3 : deref fts.distances i = some c.dist := (deref_eq_some_iff _ _ _).2 h3
  unfold apply_abstraction_with Component.apply_abstraction_with
  simp only [hd1, hd2, hd3, Option.some_bind, assign_of_getElem? _ _ _ _ h1,
    assign_of_getElem? _ _ _ _ h2, assign_of_getElem? _ _ _ _ h3]
  generalize ops.ts_apply_abstraction c.ts rel m silent = r
  rcases r with ⟨t', b⟩
  cases b
  · have e : ({ fts with transition_systems := fts.transition_systems.set i (some t') } :
        FactoredTransitionSystem L TS HR D) =
        fts.put_component i { ts := t', hr := c.hr, dist := c.dist } [] := by
      simp [put_component, set_eq_self_of_getElem? _ _ _ h2, set_eq_self_of_getElem? _ _ _ h3]
    simp only [Bool.false_eq_true, if_false, Option.some_bind, e,
      is_component_valid_of_get_component ops _ i _ (get_component_put_component fts i c _ [] hc)]
    cases Component.is_valid ops { ts := t', hr := c.hr, dist := c.dist } <;> simp [check]
  · have e : ({ fts with
          transition_systems := fts.transition_systems.set i (some t'),
          distances := fts.distances.set i (some (ops.dist_apply_abstraction c.dist t' rel silent).1),
          heuristic_representations := fts.heuristic_representations.set i
            (some (ops.hr_apply_abstraction_to_lookup_table c.hr m)) } :
        FactoredTransitionSystem L TS HR D) =
        fts.put_component i
          { ts := t',
            hr := ops.hr_apply_abstraction_to_lookup_table c.hr m,
            dist := (ops.dist_apply_abstraction c.dist t' rel silent).1 } [] := by
      simp [put_component]
    simp only [if_true, Option.some_bind, e,
      is_component_valid_of_get_component ops _ i _ (get_component_put_component fts i c _ [] hc)]
    cases Component.is_valid ops
      { ts := t',
        hr := ops.hr_apply_abstraction_to_lookup_table c.hr m,
        dist := (ops.dist_apply_abstraction c.dist t' rel silent).1 } <;> simp [check]

end FactoredTransitionSystem

namespace FactoredTransitionSystem

variable {State L TS HR D : Type}

theorem assert_valid_eq_none {β : Type} (fts : FactoredTransitionSystem L TS HR D) (i : Nat)
    (f : Unit → Option β) (h : fts.get_component i = none) :
    ((fts.is_index_valid i).bind fun v => (check v).bind f) = none := by
  have hv : fts.is_index_valid i ≠ some true := by
    intro hc
    obtain ⟨c, hc'⟩ := (is_index_valid_eq_true_iff fts i).1 hc
    rw [h] at hc'
    cases hc'
  rcases hiv : fts.is_index_valid i with _ | b
  · rfl
  · cases b
    · rfl
    · exact absurd hiv hv

theorem assert_valid_eq_some {β : Type} (fts : FactoredTransitionSystem L TS HR D) (i : Nat)
    (f : Unit → Option β) (c : Component TS HR D) (h : fts.get_component i = some c) :
    ((fts.is_index_valid i).bind fun v => (check v).bind f) = f () := by
  rw [is_index_valid_of_get_component fts i c h]
  rfl

/-- The operation `apply_abstraction` works on the component at `index` alone:
it fails on a dead index, and on a live one it replaces the component by what
`Component.apply_abstraction` computes. -/
theorem apply_abstraction_eq (ops : Components State L TS HR D)
    (fts : FactoredTransitionSystem L TS HR D) (i : Nat)
    (rel : StateEquivalenceRelation) (silent : Bool) :
    apply_abstraction ops fts i rel silent =
      (fts.get_component i).bind fun c =>
        (c.apply_abstraction ops rel silent).map fun r => (fts.put_component i r.1 [], r.2) := by
  unfold apply_abstraction
  rcases h : fts.get_component i with _ | c
  · rw [assert_valid_eq_none fts i _ h]
    rfl
  · rw [assert_valid_eq_some fts i _ c h]
    have h1 := ((get_component_eq_some_iff fts i c).1 h).1
    have hd1 : deref fts.transition_systems i = some c.ts := (deref_eq_some_iff _ _ _).2 h1
    simp only [hd1, Option.some_bind, Component.apply_abstraction]
    rcases build_abstraction_mapping ops.PRUNED_STATE (ops.ts_get_size c.ts) rel with _ | m
    · rfl
    · simp only [Option.some_bind]
      exact apply_abstraction_with_eq ops fts i c rel m silent h

/-- The operation `discard_states` works on the component at `index` alone. -/
theorem discard_states_eq (ops : Components State L TS HR D)
    (fts : FactoredTransitionSystem L TS HR D) (i : Nat)
    (mask : List Bool) (silent : Bool) :
    discard_states ops fts i mask silent =
      (fts.get_component i).bind fun c =>
        (c.discard_states ops mask silent).map fun r => fts.put_component i r.1 r.2 := by
  unfold discard_states
  rcases h : fts.get_component i with _ | c
  · rw [assert_valid_eq_none fts i _ h]
    rfl
  · rw [assert_valid_eq_some fts i _ c h]
    have h1 := ((get_component_eq_some_iff fts i c).1 h).1
    have hd1 : deref fts.transition_systems i = some c.ts := (deref_eq_some_iff _ _ _).2 h1
    simp only [hd1, Option.some_bind, Component.discard_states, apply_abstraction_eq, h]
    rcases check (decide (mask.length = ops.ts_get_size c.ts)) with _ | u
    · rfl
    · simp only [Option.some_bind]
      rcases c.apply_abstraction ops (discard_relation mask) silent with _ | r
      · rfl
      · have hput := get_component_put_component fts i c r.1 [] h
        have h1' := ((get_component_eq_some_iff _ i r.1).1 hput).1
        have hd1' : deref (fts.put_component i r.1 []).transition_systems i = some r.1.ts :=
          (deref_eq_some_iff _ _ _).2 h1'
        simp only [Option.map_some', Option.some_bind, record_pruning]
        cases silent
        · simp only [Bool.false_eq_true, if_false, hd1', Option.some_bind]
          rcases check (decide (ops.ts_get_size r.1.ts ≤ ops.ts_get_size c.ts)) with _ | u'
          · rfl
          · simp [put_component]
        · simp [put_component]

/-- The operation `compute_distances_and_prune` works on the component at
`index` alone. -/
theorem compute_distances_and_prune_eq (ops : Components State L TS HR D)
    (fts : FactoredTransitionSystem L TS HR D) (i : Nat) (silent : Bool) :
    compute_distances_and_prune ops fts i silent =
      (fts.get_component i).bind fun c =>
        (c.compute_distances_and_prune ops silent).map fun r => fts.put_component i r.1 r.2 := by
  unfold compute_distances_and_prune
  rcases h : fts.get_component i with _ | c
  · rw [assert_valid_eq_none fts i _ h]
    rfl
  · rw [assert_valid_eq_some fts i _ c h]
    obtain ⟨h1, h2, h3⟩ := (get_component_eq_some_iff fts i c).1 h
    have hd1 : deref fts.transition_systems i = some c.ts := (deref_eq_some_iff _ _ _).2 h1
    have hd3 : deref fts.distances i = some c.dist := (deref_eq_some_iff _ _ _).2 h3
    have hg : ({ fts with
          distances := fts.distances.set i (some (ops.dist_compute_distances c.dist c.ts silent).1) } :
        FactoredTransitionSystem L TS HR D).get_component i =
        some { c with dist := (ops.dist_compute_distances c.dist c.ts silent).1 } := by
      rw [get_component_eq_some_iff]
      exact ⟨h1, h2, getElem?_set_self_of_getElem? _ _ _ _ h3⟩
    simp only [hd1, hd3, Option.some_bind, assign_of_getElem? _ _ _ _ h3, discard_states_eq, hg,
      Component.compute_distances_and_prune]
    rcases Component.discard_states ops
      { c with dist := (ops.dist_compute_distances c.dist c.ts silent).1 }
      (ops.dist_compute_distances c.dist c.ts silent).2 silent with _ | r
    · rfl
    · have e : put_component ({ fts with
            distances := fts.distances.set i (some (ops.dist_compute_distances c.dist c.ts silent).1) } :
          FactoredTransitionSystem L TS HR D) i r.1 r.2 = fts.put_component i r.1 r.2 := by
        simp [put_component]
      simp only [Option.map_some', Option.some_bind, e,
        is_component_valid_of_get_component ops _ i _ (get_component_put_component fts i c _ _ h)]
      cases Component.is_valid ops r.1 <;> simp [check]

end FactoredTransitionSystem

/-! ## The abstraction mapping -/

theorem assign_class_eq (pruned : Int) (k : Nat) (c : StateEquivalenceClass) :
    ∀ m : List Int, c.Nodup → (∀ s ∈ c, m[s]? = some pruned) →
      ∃ m', assign_class pruned k m c = some m' ∧ m'.length = m.length ∧
        ∀ s, m'[s]? = if s ∈ c then some (k : Int) else m[s]? := by
  induction c with
  | nil =>
    intro m _ _
    exact ⟨m, rfl, rfl, fun s => by simp⟩
  | cons s rest ih =>
    intro m hnd hp
    have hs : m[s]? = some pruned := hp s (List.mem_cons_self _ _)
    have hsr : s ∉ rest := (List.nodup_cons.1 hnd).1
    have hp' : ∀ t ∈ rest, (m.set s (k : Int))[t]? = some pruned := by
      intro t ht
      have hne : s ≠ t := fun e => hsr (e ▸ ht)
      rw [List.getElem?_set_ne hne]
      exact hp t (List.mem_cons_of_mem _ ht)
    obtain ⟨m', hm', hlen, hget⟩ := ih (m.set s (k : Int)) (List.nodup_cons.1 hnd).2 hp'
    refine ⟨m', ?_, ?_, ?_⟩
    · simp only [assign_class, hs, if_true]
      exact hm'
    · simpa using hlen
    · intro t
      rw [hget t]
      by_cases ht : t ∈ rest
      · simp [ht]
      · by_cases hst : s = t
        · subst hst
          simp [ht, getElem?_set_self_of_getElem? m s (k : Int) pruned hs]
        · have hts : ¬ t = s := fun e => hst e.symm
          simp [ht, hts, List.getElem?_set_ne hst]

theorem assign_classes_eq (pruned : Int) (rel : StateEquivalenceRelation) :
    ∀ (k : Nat) (m : List Int), (∀ c ∈ rel, c.Nodup) → rel.Pairwise List.Disjoint →
      (∀ c ∈ rel, ∀ s ∈ c, m[s]? = some pruned) →
      ∃ m', assign_classes pruned k m rel = some m' ∧ m'.length = m.length ∧
        (∀ j (hj : j < rel.length), ∀ s ∈ rel[j], m'[s]? = some ((k + j : Nat) : Int)) ∧
        (∀ s, (∀ c ∈ rel, s ∉ c) → m'[s]? = m[s]?) := by
  induction rel with
  | nil =>
    intro k m _ _ _
    exact ⟨m, rfl, rfl, fun j hj => absurd hj (by simp), fun s _ => rfl⟩
  | cons c cs ih =>
    intro k m hnd hdisj hp
    obtain ⟨m1, hm1, hlen1, hget1⟩ :=
      assign_class_eq pruned k c m (hnd c (List.mem_cons_self _ _)) (hp c (List.mem_cons_self _ _))
    have hd := List.pairwise_cons.1 hdisj
    have hp1 : ∀ c' ∈ cs, ∀ s ∈ c', m1[s]? = some pruned := by
      intro c' hc' s hs
      have hsc : s ∉ c := fun h => (hd.1 c' hc') h hs
      rw [hget1 s, if_neg hsc]
      exact hp c' (List.mem_cons_of_mem _ hc') s hs
    obtain ⟨m', hm', hlen, hin, hout⟩ :=
      ih (k + 1) m1 (fun c' hc' => hnd c' (List.mem_cons_of_mem _ hc')) hd.2 hp1
    refine ⟨m', ?_, ?_, ?_, ?_⟩
    · simp only [assign_classes, hm1, Option.some_bind]
      exact hm'
    · rw [hlen, hlen1]
    · intro j hj s hs
      cases j with
      | zero =>
        have hs' : s ∈ c := by simpa using hs
        have hnot : ∀ c' ∈ cs, s ∉ c' := fun c' hc' h => (hd.1 c' hc') hs' h
        rw [hout s hnot, hget1 s, if_pos hs']
        simp
      | succ j =>
        have hj' : j < cs.length := by simpa using hj
        have hs' : s ∈ cs[j] := by simpa using hs
        rw [hin j hj' s hs']
        congr 1
        omega
    · intro s hs
      have hnot : ∀ c' ∈ cs, s ∉ c' := fun c' hc' => hs c' (List.mem_cons_of_mem _ hc')
      rw [hout s hnot, hget1 s, if_neg (hs c (List.mem_cons_self _ _))]

theorem discard_relation_from_eq (mask : List Bool) :
    ∀ i0 : Nat, discard_relation_from i0 mask =
      ((List.range mask.length).filter fun j => mask[j]? = some false).map fun j => [i0 + j] := by
  induction mask with
  | nil => intro i0; rfl
  | cons b rest ih =>
    intro i0
    have hr : List.range (rest.length + 1) = 0 :: (List.range rest.length).map Nat.succ :=
      List.range_succ_eq_map rest.length
    simp only [discard_relation_from, List.length_cons, hr, ih (i0 + 1)]
    cases b
    · simp [List.filter_cons, List.filter_map, Function.comp_def, Nat.add_assoc, Nat.add_comm 1]
    · simp [List.filter_cons, List.filter_map, Function.comp_def, Nat.add_assoc, Nat.add_comm 1]

theorem assign_classes_discard_relation_from (pruned : Int) (mask : List Bool) :
    ∀ (i0 k : Nat) (m : List Int), (∀ j, j < mask.length → m[i0 + j]? = some pruned) →
      ∃ m', assign_classes pruned k m (discard_relation_from i0 mask) = some m' ∧
        m'.length = m.length ∧
        (∀ j (hj : j < mask.length), m'[i0 + j]? =
          some (if mask[j] then pruned else ((k + (mask.take j).count false : Nat) : Int))) ∧
        (∀ s, s < i0 → m'[s]? = m[s]?) := by
  induction mask with
  | nil =>
    intro i0 k m _
    exact ⟨m, rfl, rfl, fun j hj => absurd hj (by simp), fun s _ => rfl⟩
  | cons b rest ih =>
    intro i0 k m hp
    have h0 : m[i0]? = some pruned := by simpa using hp 0 (by simp)
    cases b
    · have hp' : ∀ j, j < rest.length → (m.set i0 (k : Int))[i0 + 1 + j]? = some pruned := by
        intro j hj
        rw [List.getElem?_set_ne (by omega)]
        have := hp (j + 1) (by simpa using hj)
        rwa [show i0 + 1 + j = i0 + (j + 1) by omega]
      obtain ⟨m', hm', hlen, hin, hout⟩ := ih (i0 + 1) (k + 1) (m.set i0 (k : Int)) hp'
      refine ⟨m', ?_, ?_, ?_, ?_⟩
      · simp only [discard_relation_from, Bool.false_eq_true, if_false, assign_classes,
          assign_class, h0, if_true, Option.some_bind]
        exact hm'
      · simpa using hlen
      · intro j hj
        cases j with
        | zero =>
          rw [Nat.add_zero, hout i0 (by omega), getElem?_set_self_of_getElem? m i0 _ _ h0]
          simp
        | succ j =>
          have hj' : j < rest.length := by simpa using hj
          have := hin j hj'
          rw [show i0 + (j + 1) = i0 + 1 + j by omega, this]
          simp only [List.getElem_cons_succ, List.take_succ_cons, List.count_cons_self]
          congr 2
          congr 1
          omega
      · intro s hs
        rw [hout s (by omega), List.getElem?_set_ne (by omega)]
    · have hp' : ∀ j, j < rest.length → m[i0 + 1 + j]? = some pruned := by
        intro j hj
        have := hp (j + 1) (by simpa using hj)
        rwa [show i0 + 1 + j = i0 + (j + 1) by omega]
      obtain ⟨m', hm', hlen, hin, hout⟩ := ih (i0 + 1) k m hp'
      refine ⟨m', ?_, hlen, ?_, ?_⟩
      · simp only [discard_relation_from, if_true]
        exact hm'
      · intro j hj
        cases j with
        | zero =>
          rw [Nat.add_zero, hout i0 (by omega), h0]
          simp
        | succ j =>
          have hj' : j < rest.length := by simpa using hj
          have := hin j hj'
          rw [show i0 + (j + 1) = i0 + 1 + j by omega, this]
          simp
      · intro s hs
        exact hout s (by omega)

namespace FactoredTransitionSystem

variable {State L TS HR D : Type}

/-- C4: for a valid index and a relation whose classes are pairwise disjoint
sets of states of the component, `apply_abstraction` builds an abstraction
mapping that sends every state of the `k`-th class to `k` and every state in no
class to `PRUNED_STATE`, and hands exactly that mapping on (to the transition
system, and after a shrink to the heuristic representation). -/
theorem apply_abstraction_maps_class_to_its_position (ops : Components State L TS HR D)
    (fts : FactoredTransitionSystem L TS HR D) (index : Nat) (ts : TS)
    (rel : StateEquivalenceRelation) (silent : Bool)
    (hvalid : fts.is_index_valid index = some true)
    (hts : deref fts.transition_systems index = some ts)
    (hsets : ∀ c ∈ rel, c.Nodup)
    (hdisjoint : rel.Pairwise List.Disjoint)
    (hstates : ∀ c ∈ rel, ∀ s ∈ c, s < ops.ts_get_size ts) :
    ∃ m, build_abstraction_mapping ops.PRUNED_STATE (ops.ts_get_size ts) rel = some m ∧
      m.length = ops.ts_get_size ts ∧
      (∀ k (hk : k < rel.length), ∀ s ∈ rel[k], m[s]? = some (k : Int)) ∧
      (∀ s, s < ops.ts_get_size ts → (∀ c ∈ rel, s ∉ c) → m[s]? = some ops.PRUNED_STATE) ∧
      apply_abstraction ops fts index rel silent =
        apply_abstraction_with ops fts index rel m silent := by
  have hinit : ∀ c ∈ rel, ∀ s ∈ c,
      (List.replicate (ops.ts_get_size ts) ops.PRUNED_STATE)[s]? = some ops.PRUNED_STATE := by
    intro c hc s hs
    simp [List.getElem?_replicate, hstates c hc s hs]
  obtain ⟨m, hm, hlen, hin, hout⟩ :=
    assign_classes_eq ops.PRUNED_STATE rel 0 _ hsets hdisjoint hinit
  refine ⟨m, hm, by simpa using hlen, ?_, ?_, ?_⟩
  · intro k hk s hs
    simpa using hin k hk s hs
  · intro s hs hnot
    rw [hout s hnot]
    simp [List.getElem?_replicate, hs]
  · have hm' : build_abstraction_mapping ops.PRUNED_STATE (ops.ts_get_size ts) rel = some m := hm
    simp [apply_abstraction, hvalid, check, hts, hm']

theorem apply_abstraction_maps_class_to_its_position_witness :
    sampleAtomic.is_index_valid 0 = some true ∧
    deref sampleAtomic.transition_systems 0
      = some { goal_distance := [some 1, some 0], init := some 0 } ∧
    (∀ c ∈ ([[1], [0]] : StateEquivalenceRelation), c.Nodup) ∧
    ([[1], [0]] : StateEquivalenceRelation).Pairwise List.Disjoint ∧
    ∃ m, build_abstraction_mapping sampleComponents.PRUNED_STATE 2 [[1], [0]] = some m ∧
      m.length = 2 ∧
      (∀ k (hk : k < 2), ∀ s ∈ ([[1], [0]] : StateEquivalenceRelation)[k], m[s]? = some (k : Int)) ∧
      (∀ s, s < 2 → (∀ c ∈ ([[1], [0]] : StateEquivalenceRelation), s ∉ c) →
        m[s]? = some sampleComponents.PRUNED_STATE) ∧
      apply_abstraction sampleComponents sampleAtomic 0 [[1], [0]] false =
        apply_abstraction_with sampleComponents sampleAtomic 0 [[1], [0]] m false :=
  ⟨by decide, by rfl, by decide, by simp [List.Disjoint],
   apply_abstraction_maps_class_to_its_position sampleComponents sampleAtomic 0
    { goal_distance := [some 1, some 0], init := some 0 } [[1], [0]] false
    (by decide) (by rfl) (by decide) (by simp [List.Disjoint]) (by decide)⟩

/-- C5: for a valid index and a mask as long as the component is large,
`discard_states` applies the relation that has one singleton class for every
state that is not to be pruned, in increasing order of the states, and no other
class; the abstraction mapping built from it sends every kept state to the
number of kept states below it and every pruned state to `PRUNED_STATE`. -/
theorem discard_states_keeps_singletons (ops : Components State L TS HR D)
    (fts : FactoredTransitionSystem L TS HR D) (index : Nat) (ts : TS)
    (to_be_pruned : List Bool) (silent : Bool)
    (hvalid : fts.is_index_valid index = some true)
    (hts : deref fts.transition_systems index = some ts)
    (hlen : to_be_pruned.length = ops.ts_get_size ts) :
    discard_relation to_be_pruned =
      ((List.range to_be_pruned.length).filter fun s => to_be_pruned[s]? = some false).map
        (fun s => [s]) ∧
    ∃ m, build_abstraction_mapping ops.PRUNED_STATE (ops.ts_get_size ts)
        (discard_relation to_be_pruned) = some m ∧
      m.length = to_be_pruned.length ∧
      (∀ s (hs : s < to_be_pruned.length), m[s]? =
        some (if to_be_pruned[s] then ops.PRUNED_STATE
          else (((to_be_pruned.take s).count false : Nat) : Int))) ∧
      discard_states ops fts index to_be_pruned silent =
        (apply_abstraction_with ops fts index (discard_relation to_be_pruned) m silent).bind
          (record_pruning ops index (ops.ts_get_size ts) silent) := by
  constructor
  · simpa using discard_relation_from_eq to_be_pruned 0
  · have hinit : ∀ j, j < to_be_pruned.length →
        (List.replicate (ops.ts_get_size ts) ops.PRUNED_STATE)[0 + j]? = some ops.PRUNED_STATE := by
      intro j hj
      simp [List.getElem?_replicate, ← hlen, hj]
    obtain ⟨m, hm, hlen', hin, _⟩ :=
      assign_classes_discard_relation_from ops.PRUNED_STATE to_be_pruned 0 0 _ hinit
    refine ⟨m, hm, by simpa [hlen] using hlen', ?_, ?_⟩
    · intro s hs
      simpa using hin s hs
    · have hm' : build_abstraction_mapping ops.PRUNED_STATE (ops.ts_get_size ts)
          (discard_relation to_be_pruned) = some m := hm
      simp [discard_states, apply_abstraction, hvalid, check, hts, hm', hlen]

theorem discard_states_keeps_singletons_witness :
    sampleAtomic.is_index_valid 0 = some true ∧
    deref sampleAtomic.transition_systems 0
      = some { goal_distance := [some 1, some 0], init := some 0 } ∧
    [true, false].length = 2 ∧
    (discard_relation [true, false] =
      ((List.range [true, false].length).filter fun s => [true, false][s]? = some false).map
        (fun s => [s]) ∧
    ∃ m, build_abstraction_mapping sampleComponents.PRUNED_STATE 2
        (discard_relation [true, false]) = some m ∧
      m.length = [true, false].length ∧
      (∀ s (hs : s < [true, false].length), m[s]? =
        some (if [true, false][s] then sampleComponents.PRUNED_STATE
          else (((([true, false] : List Bool).take s).count false : Nat) : Int))) ∧
      discard_states sampleComponents sampleAtomic 0 [true, false] false =
        (apply_abstraction_with sampleComponents sampleAtomic 0
          (discard_relation [true, false]) m false).bind
          (record_pruning sampleComponents 0 2 false)) :=
  ⟨by decide, by rfl, by rfl,
   discard_states_keeps_singletons sampleComponents sampleAtomic 0
    { goal_distance := [some 1, some 0], init := some 0 } [true, false] false
    (by decide) (by rfl) (by rfl)⟩

end FactoredTransitionSystem

/-! ## Finalization and cost lookup -/

namespace FactoredTransitionSystem

variable {State L TS HR D : Type}

theorem all_consumed_from_eq_some (bound : Nat) (ds : List (Option D)) :
    ∀ (tss : List (Option TS)) (i : Nat),
      (∀ j (hj : j < tss.length), i + j < bound → tss[j] = none ∧ ds[i + j]? = some none) →
      all_consumed_from bound ds i tss = some () := by
  intro tss
  induction tss with
  | nil => intro i _; rfl
  | cons t rest ih =>
    intro i h
    unfold all_consumed_from
    by_cases hi : i < bound
    · have h0 := h 0 (by simp) (by simpa using hi)
      have ht : t = none := by simpa using h0.1
      have hd : ds[i]? = some none := by simpa using h0.2
      have hrest : all_consumed_from bound ds (i + 1) rest = some () := by
        apply ih
        intro j hj hb
        have := h (j + 1) (by simpa using hj) (by omega)
        rw [show i + 1 + j = i + (j + 1) by omega]
        simpa using this
      simp [hi, ht, hd, check, hrest]
    · simp [hi]

theorem drop_other_distances_eq (index : Int) :
    ∀ (tss : List (Option TS)) (i : Nat) (ds : List (Option D)),
      (∀ j, j < tss.length → i + j < ds.length) →
      ∃ ds', drop_other_distances index i tss ds = some ds' ∧ ds'.length = ds.length ∧
        ∀ s, ds'[s]? =
          if i ≤ s ∧ s < i + tss.length ∧ (s : Int) ≠ index then some none else ds[s]? := by
  intro tss
  induction tss with
  | nil =>
    intro i ds _
    refine ⟨ds, rfl, rfl, fun s => ?_⟩
    have hno : ¬ (i ≤ s ∧ s < i + ([] : List (Option TS)).length ∧ (s : Int) ≠ index) := by
      simp only [List.length_nil]
      omega
    rw [if_neg hno]
  | cons t rest ih =>
    intro i ds h
    have hi : i < ds.length := by simpa using h 0 (by simp)
    by_cases hidx : (i : Int) = index
    · have hrest : ∀ j, j < rest.length → i + 1 + j < ds.length := by
        intro j hj
        have := h (j + 1) (by simpa using hj)
        omega
      obtain ⟨ds', hds', hlen, hget⟩ := ih (i + 1) ds hrest
      refine ⟨ds', ?_, hlen, ?_⟩
      · simp only [drop_other_distances, hidx, if_true, Option.some_bind]
        exact hds'
      · intro s
        rw [hget s]
        by_cases hs : s = i
        · subst hs
          have h1 : ¬ (s + 1 ≤ s ∧ s < s + 1 + rest.length ∧ (s : Int) ≠ index) := by omega
          have h2 : ¬ (s ≤ s ∧ s < s + (t :: rest).length ∧ (s : Int) ≠ index) := by
            intro hc
            exact hc.2.2 hidx
          rw [if_neg h1, if_neg h2]
        · have hiff : (i + 1 ≤ s ∧ s < i + 1 + rest.length ∧ (s : Int) ≠ index) ↔
              (i ≤ s ∧ s < i + (t :: rest).length ∧ (s : Int) ≠ index) := by
            simp only [List.length_cons]
            omega
          simp only [hiff]
    · have hrest : ∀ j, j < rest.length → i + 1 + j < (ds.set i none).length := by
        intro j hj
        have := h (j + 1) (by simpa using hj)
        simp only [List.length_set]
        omega
      obtain ⟨ds', hds', hlen, hget⟩ := ih (i + 1) (ds.set i none) hrest
      refine ⟨ds', ?_, by simpa using hlen, ?_⟩
      · simp only [drop_other_distances, hidx, if_false, assign, hi, if_true, Option.some_bind]
        exact hds'
      · intro s
        rw [hget s]
        by_cases hs : s = i
        · subst hs
          have h1 : ¬ (s + 1 ≤ s ∧ s < s + 1 + rest.length ∧ (s : Int) ≠ index) := by omega
          have h2 : (s ≤ s ∧ s < s + (t :: rest).length ∧ (s : Int) ≠ index) := by
            refine ⟨le_refl _, ?_, hidx⟩
            simp
          rw [if_neg h1, if_pos h2]
          simp [hi]
        · have hiff : (i + 1 ≤ s ∧ s < i + 1 + rest.length ∧ (s : Int) ≠ index) ↔
              (i ≤ s ∧ s < i + (t :: rest).length ∧ (s : Int) ≠ index) := by
            simp only [List.length_cons]
            omega
          have hne : i ≠ s := fun e => hs e.symm
          simp only [hiff, List.getElem?_set_ne hne]

end FactoredTransitionSystem

namespace FactoredTransitionSystem

variable {State L TS HR D : Type}

theorem populated_eq_true_iff {α : Type} (xs : List (Option α)) (i : Nat) :
    populated xs i = true ↔ ∃ a, xs[i]? = some (some a) := by
  unfold populated
  rw [Option.isSome_iff_exists]
  exact exists_congr fun a => deref_eq_some_iff xs i a

theorem populated_eq_false_iff {α : Type} (xs : List (Option α)) (i : Nat) :
    populated xs i = false ↔ deref xs i = none := by
  unfold populated
  cases deref xs i <;> simp

theorem getElem?_eq_some_none_of_not_populated {α : Type} (xs : List (Option α)) (i : Nat)
    (hi : i < xs.length) (h : populated xs i = false) : xs[i]? = some none := by
  rw [populated_eq_false_iff, deref_eq_none_iff] at h
  rcases h with h | h
  · rw [List.getElem?_eq_none_iff] at h
    omega
  · exact h

/-- In a system whose slots are in lockstep, all three slots of an index that
is in range and not live hold the null pointer. -/
theorem dead_slots_of_lockstep (fts : FactoredTransitionSystem L TS HR D)
    (hslots : fts.SameNumberOfSlots) (hlock : fts.SlotsInLockstep) (i : Nat)
    (hi : i < fts.transition_systems.length) (hdead : fts.is_index_valid i ≠ some true) :
    fts.transition_systems[i]? = some none ∧ fts.heuristic_representations[i]? = some none ∧
      fts.distances[i]? = some none := by
  obtain ⟨e1, e2⟩ := hlock i
  have hfalse : populated fts.transition_systems i = false := by
    by_contra hc
    have ht : populated fts.transition_systems i = true := by simpa using hc
    have hh : populated fts.heuristic_representations i = true := by rw [← e1]; exact ht
    have hd : populated fts.distances i = true := by rw [← e2]; exact hh
    obtain ⟨t, ht'⟩ := (populated_eq_true_iff _ _).1 ht
    obtain ⟨h, hh'⟩ := (populated_eq_true_iff _ _).1 hh
    obtain ⟨d, hd'⟩ := (populated_eq_true_iff _ _).1 hd
    exact hdead (is_index_valid_of_get_component fts i { ts := t, hr := h, dist := d }
      ((get_component_eq_some_iff fts i _).2 ⟨ht', hh', hd'⟩))
  have hh : populated fts.heuristic_representations i = false := by rw [← e1]; exact hfalse
  have hd : populated fts.distances i = false := by rw [← e2]; exact hh
  exact ⟨getElem?_eq_some_none_of_not_populated _ i hi hfalse,
    getElem?_eq_some_none_of_not_populated _ i (by rw [← hslots.1]; exact hi) hh,
    getElem?_eq_some_none_of_not_populated _ i (by rw [← hslots.2, ← hslots.1]; exact hi) hd⟩

/-- C3: on a finalized system, `get_cost` returns `-1` exactly when the
heuristic representation at `final_index` maps the state to `PRUNED_STATE`,
and otherwise the goal distance that the distances at `final_index` store for
the abstract state. Goal distances are lengths of shortest paths, hence never
negative, and the final component has no state at distance `INF` (the
assertion of `get_cost`). -/
theorem get_cost_is_pruned_or_goal_distance (ops : Components State L TS HR D)
    (fts : FactoredTransitionSystem L TS HR D) (state : State) (d : D) (h : HR)
    (hfinalized : fts.is_finalized = true)
    (hindex : 0 ≤ fts.final_index)
    (hdist : deref fts.distances fts.final_index.toNat = some d)
    (hcomputed : ops.dist_are_distances_computed d = true)
    (hrep : deref fts.heuristic_representations fts.final_index.toNat = some h)
    (hnonneg : ∀ s, 0 ≤ ops.dist_get_goal_distance d s)
    (hfinite : ops.hr_get_abstract_state h state ≠ ops.PRUNED_STATE →
      ops.dist_get_goal_distance d (ops.hr_get_abstract_state h state) ≠ ops.INF) :
    (get_cost ops fts state = some (-1) ↔ ops.hr_get_abstract_state h state = ops.PRUNED_STATE) ∧
    (ops.hr_get_abstract_state h state ≠ ops.PRUNED_STATE →
      get_cost ops fts state =
        some (ops.dist_get_goal_distance d (ops.hr_get_abstract_state h state))) := by
  have hlt : ¬ fts.final_index < 0 := by omega
  have hcost : get_cost ops fts state =
      if ops.hr_get_abstract_state h state = ops.PRUNED_STATE then some (-1)
      else some (ops.dist_get_goal_distance d (ops.hr_get_abstract_state h state)) := by
    unfold get_cost
    simp only [hfinalized, check_true, Option.some_bind, hlt, if_false, hdist, hcomputed, hrep]
    split
    · rfl
    · rename_i hne
      simp [check, hfinite hne]
  constructor
  · constructor
    · intro hret
      by_contra hne
      rw [hcost, if_neg hne] at hret
      have h0 := hnonneg (ops.hr_get_abstract_state h state)
      have h1 : ops.dist_get_goal_distance d (ops.hr_get_abstract_state h state) = -1 := by
        simpa using hret
      omega
    · intro hp
      rw [hcost, if_pos hp]
  · intro hne
    rw [hcost, if_neg hne]

theorem get_cost_is_pruned_or_goal_distance_witness :
    sampleFinal.is_finalized = true ∧ 0 ≤ sampleFinal.final_index ∧
    deref sampleFinal.distances sampleFinal.final_index.toNat
      = some { computed := true, h := [2, 1, 1, 0] } ∧
    deref sampleFinal.heuristic_representations sampleFinal.final_index.toNat
      = some { lookup := [0, 1, 2, 3], num_states := 4 } ∧
    get_cost sampleComponents sampleFinal 0 = some 2 ∧
    ((get_cost sampleComponents sampleFinal 0 = some (-1) ↔
        sampleComponents.hr_get_abstract_state
          ({ lookup := [0, 1, 2, 3], num_states := 4 } : SampleHR) 0
          = sampleComponents.PRUNED_STATE) ∧
      (sampleComponents.hr_get_abstract_state
          ({ lookup := [0, 1, 2, 3], num_states := 4 } : SampleHR) 0
          ≠ sampleComponents.PRUNED_STATE →
        get_cost sampleComponents sampleFinal 0 =
          some (sampleComponents.dist_get_goal_distance
            ({ computed := true, h := [2, 1, 1, 0] } : SampleDist)
            (sampleComponents.hr_get_abstract_state
              ({ lookup := [0, 1, 2, 3], num_states := 4 } : SampleHR) 0)))) :=
  ⟨by decide, by decide, by rfl, by rfl, by rfl,
   get_cost_is_pruned_or_goal_distance sampleComponents sampleFinal 0
    { computed := true, h := [2, 1, 1, 0] } { lookup := [0, 1, 2, 3], num_states := 4 }
    (by decide) (by decide) (by rfl) (by rfl) (by rfl)
    (by
      intro s
      show 0 ≤ (if s < 0 then (2147483647 : Int) else (([2, 1, 1, 0] : List Int)[s.toNat]?).getD 2147483647)
      split
      · decide
      · rcases hs : s.toNat with _ | _ | _ | _ | _ | k <;> simp)
    (by decide)⟩

/-- C7: `finalize()` with the default index on a solvable system whose only
live component sits at the last index makes that index the `final_index`,
leaves the system finalized, releases every transition system, and keeps the
distances and the heuristic representation of that index as they are. -/
theorem finalize_regular_keeps_last_component (fts : FactoredTransitionSystem L TS HR D) (n : Nat)
    (hsolvable : fts.solvable = true)
    (hsize : fts.transition_systems.length = n + 1)
    (hslots : fts.SameNumberOfSlots) (hlock : fts.SlotsInLockstep)
    (honly : ∀ i, fts.is_index_valid i = some true ↔ i = n) :
    ∃ fts' c, fts.get_component n = some c ∧ finalize fts (-1) = some fts' ∧
      fts'.final_index = (n : Int) ∧ fts'.is_finalized = true ∧
      fts'.transition_systems = [] ∧
      fts'.distances = fts.distances ∧
      fts'.heuristic_representations = fts.heuristic_representations ∧
      deref fts'.distances n = some c.dist ∧
      deref fts'.heuristic_representations n = some c.hr ∧
      fts'.solvable = true ∧ fts'.labels = fts.labels := by
  obtain ⟨c, hc⟩ := (is_index_valid_eq_true_iff fts n).1 ((honly n).2 rfl)
  obtain ⟨_, hc2, hc3⟩ := (get_component_eq_some_iff fts n c).1 hc
  have hcons : all_consumed_from n fts.distances 0 fts.transition_systems = some () := by
    apply all_consumed_from_eq_some
    intro j hj hb
    have hjn : j ≠ n := by omega
    have hdead : fts.is_index_valid j ≠ some true := fun hv => hjn ((honly j).1 hv)
    obtain ⟨h1, _, h3⟩ := dead_slots_of_lockstep fts hslots hlock j hj hdead
    constructor
    · rw [List.getElem?_eq_getElem hj] at h1
      exact Option.some.inj h1
    · simpa using h3
  refine ⟨{ fts with final_index := (n : Int), transition_systems := [] }, c, hc, ?_, rfl, ?_,
    rfl, rfl, rfl, (deref_eq_some_iff _ _ _).2 hc3, (deref_eq_some_iff _ _ _).2 hc2,
    hsolvable, rfl⟩
  · unfold finalize
    simp only [if_true, hsolvable, check_true, Option.some_bind]
    rw [hsize]
    simp only [hcons, Option.some_bind]
  · simp only [is_finalized, decide_eq_true_eq]
    omega

theorem finalize_regular_keeps_last_component_witness :
    sampleMerged.solvable = true ∧ sampleMerged.transition_systems.length = 2 + 1 ∧
    sampleMerged.SameNumberOfSlots ∧ sampleMerged.SlotsInLockstep ∧
    finalize sampleMerged (-1) = some sampleFinal ∧
    ∃ fts' c, sampleMerged.get_component 2 = some c ∧ finalize sampleMerged (-1) = some fts' ∧
      fts'.final_index = ((2 : Nat) : Int) ∧ fts'.is_finalized = true ∧
      fts'.transition_systems = [] ∧
      fts'.distances = sampleMerged.distances ∧
      fts'.heuristic_representations = sampleMerged.heuristic_representations ∧
      deref fts'.distances 2 = some c.dist ∧
      deref fts'.heuristic_representations 2 = some c.hr ∧
      fts'.solvable = true ∧ fts'.labels = sampleMerged.labels :=
  have hlock : sampleMerged.SlotsInLockstep := by
    intro i
    rcases i with _ | _ | _ | i <;> exact ⟨rfl, rfl⟩
  have honly : ∀ i, sampleMerged.is_index_valid i = some true ↔ i = 2 := by
    intro i
    rcases i with _ | _ | _ | i
    · decide
    · decide
    · decide
    · have hge : sampleMerged.transition_systems.length ≤ i + 1 + 1 + 1 := by
        show 3 ≤ i + 1 + 1 + 1
        omega
      have hge2 : sampleMerged.heuristic_representations.length ≤ i + 1 + 1 + 1 := hge
      have hge3 : sampleMerged.distances.length ≤ i + 1 + 1 + 1 := hge
      simp [is_index_valid, hge, hge2, hge3, check]
  ⟨rfl, rfl, ⟨rfl, rfl⟩, hlock, by rfl,
   finalize_regular_keeps_last_component sampleMerged 2 rfl rfl ⟨rfl, rfl⟩ hlock honly⟩

end FactoredTransitionSystem

namespace FactoredTransitionSystem

variable {State L TS HR D : Type}

/-- C8, counterexample: `finalize(1)` on a system whose component 1 is
unsolvable leaves both heuristic representations in place; the same system is
what the constructor returns for the unsolvable sample task. -/
theorem finalize_unsolvable_leaves_representations :
    finalize samplePruned 1 = some samplePrunedFinal ∧
    construct sampleComponents sampleUnsolvable.labels sampleUnsolvable.transition_systems
      sampleUnsolvable.heuristic_representations sampleUnsolvable.distances true false
      = some samplePrunedFinal ∧
    samplePrunedFinal.final_index = 1 ∧
    populated samplePrunedFinal.heuristic_representations 0 = true ∧
    populated samplePrunedFinal.heuristic_representations 1 = true :=
  ⟨by rfl, by rfl, by rfl, by rfl, by rfl⟩

/-- C8, amended: `finalize(index)` with the index of a live component of a
system marked unsolvable sets `final_index` to that index, keeps the distances
of that index, empties the transition system vector and the distances of every
other index, and leaves all heuristic representations as they are. -/
theorem finalize_unsolvable_keeps_distances_and_representations
    (fts : FactoredTransitionSystem L TS HR D) (k : Nat)
    (hunsolvable : fts.solvable = false)
    (hslots : fts.SameNumberOfSlots)
    (hvalid : fts.is_index_valid k = some true) :
    ∃ fts' c, fts.get_component k = some c ∧ finalize fts (k : Int) = some fts' ∧
      fts'.final_index = (k : Int) ∧ fts'.is_finalized = true ∧
      deref fts'.distances k = some c.dist ∧
      fts'.transition_systems = [] ∧
      (∀ i, i ≠ k → deref fts'.distances i = none) ∧
      fts'.heuristic_representations = fts.heuristic_representations := by
  obtain ⟨c, hc⟩ := (is_index_valid_eq_true_iff fts k).1 hvalid
  obtain ⟨_, _, hc3⟩ := (get_component_eq_some_iff fts k c).1 hc
  have hrange : ∀ j, j < fts.transition_systems.length → 0 + j < fts.distances.length := by
    intro j hj
    rw [← hslots.2, ← hslots.1]
    omega
  obtain ⟨ds, hds, hlen, hget⟩ :=
    drop_other_distances_eq (k : Int) fts.transition_systems 0 fts.distances hrange
  have hk : (k : Int) ≠ -1 := by omega
  refine ⟨{ fts with final_index := (k : Int), distances := ds, transition_systems := [] }, c, hc,
    ?_, rfl, ?_, ?_, rfl, ?_, rfl⟩
  · unfold finalize
    simp only [hk, if_false, hunsolvable, Bool.not_false, check_true, Option.some_bind, hds]
  · simp only [is_finalized, decide_eq_true_eq]
    omega
  · rw [deref_eq_some_iff]
    show ds[k]? = some (some c.dist)
    rw [hget k, if_neg (by simp), hc3]
  · intro i hi
    show deref ds i = none
    rw [deref_eq_none_iff, hget i]
    by_cases hin : i < fts.transition_systems.length
    · right
      have hne : (i : Int) ≠ (k : Int) := by omega
      rw [if_pos ⟨Nat.zero_le _, by omega, hne⟩]
    · left
      have hno : ¬ (0 ≤ i ∧ i < 0 + fts.transition_systems.length ∧ (i : Int) ≠ (k : Int)) := by
        omega
      rw [if_neg hno, List.getElem?_eq_none_iff, ← hslots.2, ← hslots.1]
      omega

theorem finalize_unsolvable_keeps_distances_and_representations_witness :
    samplePruned.solvable = false ∧ samplePruned.SameNumberOfSlots ∧
    samplePruned.is_index_valid 1 = some true ∧
    ∃ fts' c, samplePruned.get_component 1 = some c ∧
      finalize samplePruned ((1 : Nat) : Int) = some fts' ∧
      fts'.final_index = ((1 : Nat) : Int) ∧ fts'.is_finalized = true ∧
      deref fts'.distances 1 = some c.dist ∧
      fts'.transition_systems = [] ∧
      (∀ i, i ≠ 1 → deref fts'.distances i = none) ∧
      fts'.heuristic_representations = samplePruned.heuristic_representations :=
  ⟨rfl, ⟨rfl, rfl⟩, by decide,
   finalize_unsolvable_keeps_distances_and_representations samplePruned 1 rfl ⟨rfl, rfl⟩
    (by decide)⟩

end FactoredTransitionSystem

/-! ## Frame facts -/

namespace FactoredTransitionSystem

variable {State L TS HR D : Type}

theorem is_index_valid_eq_slot_valid (fts : FactoredTransitionSystem L TS HR D) (j : Nat) :
    fts.is_index_valid j =
      slot_valid fts.transition_systems[j]? fts.heuristic_representations[j]? fts.distances[j]? := by
  unfold is_index_valid
  by_cases hlen : fts.transition_systems.length ≤ j
  · have h0 : fts.transition_systems[j]? = none := List.getElem?_eq_none hlen
    simp only [hlen, if_true, h0]
    by_cases c1 : fts.heuristic_representations.length ≤ j
    · have h1 : fts.heuristic_representations[j]? = none := List.getElem?_eq_none c1
      by_cases c2 : fts.distances.length ≤ j
      · have h2 : fts.distances[j]? = none := List.getElem?_eq_none c2
        simp [c1, c2, h1, h2, check, slot_valid]
      · obtain ⟨d, hd⟩ : ∃ d, fts.distances[j]? = some d :=
          ⟨_, List.getElem?_eq_getElem (by omega)⟩
        simp [c1, c2, h1, hd, check, slot_valid]
    · obtain ⟨h, hh⟩ : ∃ h, fts.heuristic_representations[j]? = some h :=
        ⟨_, List.getElem?_eq_getElem (by omega)⟩
      simp [c1, hh, check, slot_valid]
  · simp only [hlen, if_false]
    rcases h1 : fts.transition_systems[j]? with _ | _ | t1
    · rw [List.getElem?_eq_none_iff] at h1
      omega
    · rfl
    · rcases h2 : fts.heuristic_representations[j]? with _ | _ | t2 <;>
      rcases h3 : fts.distances[j]? with _ | _ | t3 <;> rfl

theorem is_index_valid_congr (fts fts' : FactoredTransitionSystem L TS HR D) (j : Nat)
    (h1 : fts'.transition_systems[j]? = fts.transition_systems[j]?)
    (h2 : fts'.heuristic_representations[j]? = fts.heuristic_representations[j]?)
    (h3 : fts'.distances[j]? = fts.distances[j]?) :
    fts'.is_index_valid j = fts.is_index_valid j := by
  rw [is_index_valid_eq_slot_valid, is_index_valid_eq_slot_valid, h1, h2, h3]

theorem get_component_congr (fts fts' : FactoredTransitionSystem L TS HR D) (j : Nat)
    (h1 : fts'.transition_systems[j]? = fts.transition_systems[j]?)
    (h2 : fts'.heuristic_representations[j]? = fts.heuristic_representations[j]?)
    (h3 : fts'.distances[j]? = fts.distances[j]?) :
    fts'.get_component j = fts.get_component j := by
  unfold get_component
  rw [h1, h2, h3]

theorem populated_set_some {α : Type} (xs : List (Option α)) (i j : Nat) (a b : α)
    (h : xs[i]? = some (some b)) : populated (xs.set i (some a)) j = populated xs j := by
  unfold populated deref
  by_cases hij : i = j
  · subst hij
    rw [getElem?_set_self_of_getElem? xs i (some a) (some b) h, h]
    rfl
  · rw [List.getElem?_set_ne hij]

/-- Overwriting a live component keeps the number of slots and the set of
populated slots. -/
theorem lockstep_put_component (fts : FactoredTransitionSystem L TS HR D) (i : Nat)
    (c c' : Component TS HR D) (stat : List (Nat × Nat)) (h : fts.get_component i = some c)
    (hl : Lockstep fts) : Lockstep (fts.put_component i c' stat) := by
  obtain ⟨h1, h2, h3⟩ := (get_component_eq_some_iff fts i c).1 h
  obtain ⟨⟨e1, e2⟩, hs⟩ := hl
  refine ⟨⟨?_, ?_⟩, fun j => ?_⟩
  · simpa [put_component] using e1
  · simpa [put_component] using e2
  · show populated (fts.transition_systems.set i (some c'.ts)) j
        = populated (fts.heuristic_representations.set i (some c'.hr)) j ∧
      populated (fts.heuristic_representations.set i (some c'.hr)) j
        = populated (fts.distances.set i (some c'.dist)) j
    rw [populated_set_some _ i j _ _ h1, populated_set_some _ i j _ _ h2,
      populated_set_some _ i j _ _ h3]
    exact hs j

theorem is_index_valid_put_component (fts : FactoredTransitionSystem L TS HR D) (i j : Nat)
    (c c' : Component TS HR D) (stat : List (Nat × Nat)) (h : fts.get_component i = some c) :
    (fts.put_component i c' stat).is_index_valid j = fts.is_index_valid j := by
  by_cases hij : i = j
  · subst hij
    rw [is_index_valid_of_get_component _ i c' (get_component_put_component fts i c c' stat h),
      is_index_valid_of_get_component _ i c h]
  · apply is_index_valid_congr <;> simp [put_component, List.getElem?_set_ne hij]

theorem get_component_put_component_ne (fts : FactoredTransitionSystem L TS HR D) (i j : Nat)
    (c' : Component TS HR D) (stat : List (Nat × Nat)) (hij : i ≠ j) :
    (fts.put_component i c' stat).get_component j = fts.get_component j := by
  apply get_component_congr <;> simp [put_component, List.getElem?_set_ne hij]

/-- What a successful `compute_distances_and_prune` does to the system. -/
theorem compute_distances_and_prune_eq_some (ops : Components State L TS HR D)
    (fts fts' : FactoredTransitionSystem L TS HR D) (i : Nat) (silent : Bool)
    (h : compute_distances_and_prune ops fts i silent = some fts') :
    ∃ c r, fts.get_component i = some c ∧
      c.compute_distances_and_prune ops silent = some r ∧ fts' = fts.put_component i r.1 r.2 := by
  rw [compute_distances_and_prune_eq] at h
  rcases hc : fts.get_component i with _ | c
  · rw [hc] at h
    cases h
  · rw [hc] at h
    simp only [Option.some_bind] at h
    rcases hr : c.compute_distances_and_prune ops silent with _ | r
    · rw [hr] at h
      cases h
    · rw [hr] at h
      exact ⟨c, r, rfl, hr, (Option.some.inj h).symm⟩

/-- What a successful `discard_states` does to the system. -/
theorem discard_states_eq_some (ops : Components State L TS HR D)
    (fts fts' : FactoredTransitionSystem L TS HR D) (i : Nat) (mask : List Bool) (silent : Bool)
    (h : discard_states ops fts i mask silent = some fts') :
    ∃ c r, fts.get_component i = some c ∧
      c.discard_states ops mask silent = some r ∧ fts' = fts.put_component i r.1 r.2 := by
  rw [discard_states_eq] at h
  rcases hc : fts.get_component i with _ | c
  · rw [hc] at h
    cases h
  · rw [hc] at h
    simp only [Option.some_bind] at h
    rcases hr : c.discard_states ops mask silent with _ | r
    · rw [hr] at h
      cases h
    · rw [hr] at h
      exact ⟨c, r, rfl, hr, (Option.some.inj h).symm⟩

/-- What a successful `apply_abstraction` does to the system. -/
theorem apply_abstraction_eq_some (ops : Components State L TS HR D)
    (fts fts' : FactoredTransitionSystem L TS HR D) (i : Nat) (rel : StateEquivalenceRelation)
    (silent b : Bool) (h : apply_abstraction ops fts i rel silent = some (fts', b)) :
    ∃ c r, fts.get_component i = some c ∧
      c.apply_abstraction ops rel silent = some r ∧ fts' = fts.put_component i r.1 [] ∧
      b = r.2 := by
  rw [apply_abstraction_eq] at h
  rcases hc : fts.get_component i with _ | c
  · rw [hc] at h
    cases h
  · rw [hc] at h
    simp only [Option.some_bind] at h
    rcases hr : c.apply_abstraction ops rel silent with _ | r
    · rw [hr] at h
      cases h
    · rw [hr] at h
      have := Option.some.inj h
      exact ⟨c, r, rfl, hr, (congrArg Prod.fst this).symm, (congrArg Prod.snd this).symm⟩

end FactoredTransitionSystem

/-! ## Merging -/

namespace FactoredTransitionSystem

variable {State L TS HR D : Type}

theorem lt_length_of_getElem?_eq_some {α : Type} (xs : List α) (i : Nat) (a : α)
    (h : xs[i]? = some a) : i < xs.length := by
  by_contra hc
  rw [List.getElem?_eq_none (by omega)] at h
  cases h

/-- What a successful run of lines 153-201 of `merge` produces. -/
theorem merge_append_eq_some (ops : Components State L TS HR D)
    (fts fts2 : FactoredTransitionSystem L TS HR D) (i1 i2 : Nat) (inv fin : Bool)
    (h : merge_append ops fts i1 i2 inv fin = some fts2) :
    ∃ c1 c2, fts.get_component i1 = some c1 ∧ fts.get_component i2 = some c2 ∧
      (inv = true → i1 ≠ i2) ∧ fts2 = appended_system ops fts i1 i2 inv fin c1 c2 := by
  unfold merge_append at h
  rcases hc1 : fts.get_component i1 with _ | c1
  · rw [assert_valid_eq_none fts i1 _ hc1] at h
    cases h
  rw [assert_valid_eq_some fts i1 _ c1 hc1] at h
  rcases hc2 : fts.get_component i2 with _ | c2
  · rw [assert_valid_eq_none fts i2 _ hc2] at h
    cases h
  rw [assert_valid_eq_some fts i2 _ c2 hc2] at h
  obtain ⟨a1, a2, a3⟩ := (get_component_eq_some_iff fts i1 c1).1 hc1
  obtain ⟨b1, b2, b3⟩ := (get_component_eq_some_iff fts i2 c2).1 hc2
  have l1 := lt_length_of_getElem?_eq_some _ _ _ a1
  have l2 := lt_length_of_getElem?_eq_some _ _ _ a2
  have l3 := lt_length_of_getElem?_eq_some _ _ _ a3
  have m1 := lt_length_of_getElem?_eq_some _ _ _ b1
  have m2 := lt_length_of_getElem?_eq_some _ _ _ b2
  have m3 := lt_length_of_getElem?_eq_some _ _ _ b3
  simp only [(deref_eq_some_iff _ _ _).2 a1, (deref_eq_some_iff _ _ _).2 b1,
    (deref_eq_some_iff _ _ _).2 a2, Option.some_bind] at h
  refine ⟨c1, c2, rfl, rfl, ?_⟩
  cases inv
  · simp only [Bool.false_eq_true, if_false, (deref_eq_some_iff _ _ _).2 b2,
      Option.some_bind] at h
    refine ⟨fun hc => Bool.noConfusion hc, ?_⟩
    rw [← Option.some.inj h]
    simp [appended_system, consumed]
  · by_cases hne : i1 = i2
    · exfalso
      subst hne
      have hnone : deref (fts.heuristic_representations.set i1 none) i1 = none := by
        rw [deref_eq_none_iff]
        right
        simp [l2]
      simp [assign, l1, l2, l3, Nat.lt_succ_of_lt l1, hnone] at h
    · refine ⟨fun _ => hne, ?_⟩
      have hd : deref (fts.heuristic_representations.set i1 none) i2 = some c2.hr := by
        rw [deref_eq_some_iff, List.getElem?_set_ne hne]
        exact b2
      simp only [if_true, assign, l1, l2, l3, m1, m2, m3, List.length_set, List.length_append,
        List.length_singleton, Nat.lt_succ_of_lt l1, Nat.lt_succ_of_lt m1, hd,
        Option.some_bind] at h
      rw [← Option.some.inj h]
      simp [appended_system, consumed, List.set_append_left, l1, m1]

theorem getElem?_consumed_of_ne {α : Type} (xs : List (Option α)) (i1 i2 j : Nat) (inv : Bool)
    (h1 : j ≠ i1) (h2 : j ≠ i2) : (consumed xs i1 i2 inv)[j]? = xs[j]? := by
  unfold consumed
  cases inv
  · rfl
  · simp [List.getElem?_set_ne (Ne.symm h2), List.getElem?_set_ne (Ne.symm h1)]

theorem length_consumed {α : Type} (xs : List (Option α)) (i1 i2 : Nat) (inv : Bool) :
    (consumed xs i1 i2 inv).length = xs.length := by
  unfold consumed
  cases inv <;> simp

theorem getElem?_consumed_left {α : Type} (xs : List (Option α)) (i1 i2 : Nat)
    (h : i1 < xs.length) : (consumed xs i1 i2 true)[i1]? = some none := by
  unfold consumed
  by_cases e : i2 = i1
  · subst e
    simp [h]
  · simp [List.getElem?_set_ne e, h]

theorem getElem?_consumed_right {α : Type} (xs : List (Option α)) (i1 i2 : Nat)
    (h : i2 < xs.length) : (consumed xs i1 i2 true)[i2]? = some none := by
  unfold consumed
  simp [h]

/-- What a successful run of lines 153-204 of `merge` produces: the new index
is the old number of slots, and the system is the appended one with the
component at the new index pruned. -/
theorem merge_product_eq_some (ops : Components State L TS HR D)
    (fts mid : FactoredTransitionSystem L TS HR D) (i1 i2 k : Nat) (inv fin : Bool)
    (h : merge_product ops fts i1 i2 inv fin = some (mid, k)) :
    k = fts.transition_systems.length ∧
    ∃ (c1 c2 c : Component TS HR D) (r : Component TS HR D × List (Nat × Nat)),
      fts.get_component i1 = some c1 ∧ fts.get_component i2 = some c2 ∧
      (inv = true → i1 ≠ i2) ∧
      (appended_system ops fts i1 i2 inv fin c1 c2).get_component k = some c ∧
      mid = (appended_system ops fts i1 i2 inv fin c1 c2).put_component k r.1 r.2 := by
  unfold merge_product at h
  rcases ha : merge_append ops fts i1 i2 inv fin with _ | fts2
  · rw [ha] at h
    cases h
  rw [ha] at h
  obtain ⟨c1, c2, hc1, hc2, hne, rfl⟩ := merge_append_eq_some ops fts _ i1 i2 inv fin ha
  have hlen : (appended_system ops fts i1 i2 inv fin c1 c2).transition_systems.length - 1
      = fts.transition_systems.length := by
    simp [appended_system, length_consumed]
  simp only [Option.some_bind, hlen] at h
  rcases hcdp : compute_distances_and_prune ops (appended_system ops fts i1 i2 inv fin c1 c2)
      fts.transition_systems.length (!inv || !fin) with _ | fts3
  · rw [hcdp] at h
    cases h
  rw [hcdp] at h
  obtain ⟨c, r, hc, _, rfl⟩ := compute_distances_and_prune_eq_some ops _ _ _ _ hcdp
  simp only [Option.some_bind] at h
  rcases hv : is_component_valid ops
      ((appended_system ops fts i1 i2 inv fin c1 c2).put_component fts.transition_systems.length
        r.1 r.2) fts.transition_systems.length with _ | v
  · rw [hv] at h
    cases h
  rw [hv] at h
  cases v
  · simp [check] at h
  · simp only [check_true, Option.some_bind, Option.some.injEq, Prod.mk.injEq] at h
    obtain ⟨rfl, rfl⟩ := h
    exact ⟨rfl, c1, c2, c, r, hc1, hc2, hne, hc, rfl⟩

end FactoredTransitionSystem

namespace FactoredTransitionSystem

variable {State L TS HR D : Type}

theorem getElem?_set_append_singleton {α : Type} (xs : List α) (a b : α) (n j : Nat)
    (hn : xs.length = n) :
    ((xs ++ [a]).set n b)[j]? = if j = n then some b else xs[j]? := by
  subst hn
  by_cases hj : j = xs.length
  · subst hj
    simp
  · rw [if_neg hj, List.getElem?_set_ne (Ne.symm hj)]
    by_cases hlt : j < xs.length
    · rw [List.getElem?_append_left hlt]
    · rw [List.getElem?_eq_none (by simp; omega), List.getElem?_eq_none (by omega)]

/-- The slots of the system that a successful `merge_product` returns, on a
system with the same number `n` of slots in each vector. -/
theorem merge_product_slots (ops : Components State L TS HR D)
    (fts mid : FactoredTransitionSystem L TS HR D) (i1 i2 k n : Nat) (inv fin : Bool)
    (hslots : fts.SameNumberOfSlots) (hsize : fts.transition_systems.length = n)
    (h : merge_product ops fts i1 i2 inv fin = some (mid, k)) :
    k = n ∧ (inv = true → i1 ≠ i2) ∧ i1 < n ∧ i2 < n ∧
    fts.is_index_valid i1 = some true ∧ fts.is_index_valid i2 = some true ∧
    mid.labels = fts.labels ∧ mid.final_index = fts.final_index ∧ mid.solvable = fts.solvable ∧
    mid.transition_systems.length = n + 1 ∧ mid.heuristic_representations.length = n + 1 ∧
    mid.distances.length = n + 1 ∧
    ∃ c : Component TS HR D, mid.get_component n = some c ∧
      (∀ j, mid.transition_systems[j]? =
        if j = n then some (some c.ts) else (consumed fts.transition_systems i1 i2 inv)[j]?) ∧
      (∀ j, mid.heuristic_representations[j]? =
        if j = n then some (some c.hr) else (consumed fts.heuristic_representations i1 i2 inv)[j]?) ∧
      (∀ j, mid.distances[j]? =
        if j = n then some (some c.dist) else (consumed fts.distances i1 i2 inv)[j]?) := by
  obtain ⟨hk, c1, c2, c, r, hc1, hc2, hne, hc, rfl⟩ := merge_product_eq_some ops fts mid i1 i2 k inv fin h
  have hn2 : fts.heuristic_representations.length = n := by rw [← hslots.1]; exact hsize
  have hn3 : fts.distances.length = n := by rw [← hslots.2]; exact hn2
  have hkn : k = n := by rw [hk, hsize]
  subst hkn
  obtain ⟨a1, _, _⟩ := (get_component_eq_some_iff fts i1 c1).1 hc1
  obtain ⟨b1, _, _⟩ := (get_component_eq_some_iff fts i2 c2).1 hc2
  have l1 := lt_length_of_getElem?_eq_some _ _ _ a1
  have m1 := lt_length_of_getElem?_eq_some _ _ _ b1
  refine ⟨rfl, hne, by omega, by omega, is_index_valid_of_get_component fts i1 c1 hc1,
    is_index_valid_of_get_component fts i2 c2 hc2, rfl, rfl, rfl, ?_, ?_, ?_, r.1,
    get_component_put_component _ _ c r.1 r.2 hc, ?_, ?_, ?_⟩
  · simp [put_component, appended_system, length_consumed, hsize]
  · simp [put_component, appended_system, length_consumed, hn2]
  · simp [put_component, appended_system, length_consumed, hn3]
  · intro j
    exact getElem?_set_append_singleton _ _ _ k j (by rw [length_consumed, hsize])
  · intro j
    exact getElem?_set_append_singleton _ _ _ k j (by rw [length_consumed, hn2])
  · intro j
    exact getElem?_set_append_singleton _ _ _ k j (by rw [length_consumed, hn3])

end FactoredTransitionSystem

namespace FactoredTransitionSystem

variable {State L TS HR D : Type}

theorem mem_live_indices (fts : FactoredTransitionSystem L TS HR D) (j : Nat) :
    j ∈ fts.live_indices ↔ fts.is_index_valid j = some true := by
  unfold live_indices
  rw [Finset.mem_filter, Finset.mem_range]
  constructor
  · exact fun h => h.2
  · intro h
    refine ⟨?_, h⟩
    obtain ⟨c, hc⟩ := (is_index_valid_eq_true_iff fts j).1 h
    exact lt_length_of_getElem?_eq_some _ _ _ ((get_component_eq_some_iff fts j c).1 hc).1

theorem is_index_valid_of_slots_none (fts : FactoredTransitionSystem L TS HR D) (j : Nat)
    (h1 : fts.transition_systems[j]? = some none) : fts.is_index_valid j = some false := by
  rw [is_index_valid_eq_slot_valid, h1]
  rfl

/-- C2: an invalidating merge of two valid, distinct indices of a system with
`n` slots whose product is solvable returns `n`, makes `n` a valid index,
empties all three slots of both inputs, leaves the validity of every other
index as it was, and so lowers the number of live components by one. -/
theorem merge_invalidating_consumes_inputs (ops : Components State L TS HR D)
    (fts mid : FactoredTransitionSystem L TS HR D) (index1 index2 k n : Nat) (fin : Bool)
    (hslots : fts.SameNumberOfSlots) (hsize : fts.transition_systems.length = n)
    (hdistinct : index1 ≠ index2)
    (hproduct : merge_product ops fts index1 index2 true fin = some (mid, k))
    (hsolvable : (deref mid.transition_systems k).map ops.ts_is_solvable = some true) :
    fts.is_index_valid index1 = some true ∧ fts.is_index_valid index2 = some true ∧
    merge ops fts index1 index2 true fin = some (mid, n) ∧
    mid.is_index_valid n = some true ∧
    mid.is_index_valid index1 = some false ∧ mid.is_index_valid index2 = some false ∧
    (deref mid.transition_systems index1 = none ∧
      deref mid.heuristic_representations index1 = none ∧ deref mid.distances index1 = none) ∧
    (deref mid.transition_systems index2 = none ∧
      deref mid.heuristic_representations index2 = none ∧ deref mid.distances index2 = none) ∧
    (∀ j, j ≠ index1 → j ≠ index2 → j ≠ n → mid.is_index_valid j = fts.is_index_valid j) ∧
    mid.num_live + 1 = fts.num_live := by
  obtain ⟨hk, _, l1, l2, hv1, hv2, _, _, _, _, _, _, c, hc, g1, g2, g3⟩ :=
    merge_product_slots ops fts mid index1 index2 k n true fin hslots hsize hproduct
  subst hk
  have hn2 : fts.heuristic_representations.length = k := by rw [← hslots.1]; exact hsize
  have hn3 : fts.distances.length = k := by rw [← hslots.2]; exact hn2
  have e11 : mid.transition_systems[index1]? = some none := by
    rw [g1, if_neg (by omega), getElem?_consumed_left _ _ _ (by omega)]
  have e12 : mid.heuristic_representations[index1]? = some none := by
    rw [g2, if_neg (by omega), getElem?_consumed_left _ _ _ (by omega)]
  have e13 : mid.distances[index1]? = some none := by
    rw [g3, if_neg (by omega), getElem?_consumed_left _ _ _ (by omega)]
  have e21 : mid.transition_systems[index2]? = some none := by
    rw [g1, if_neg (by omega), getElem?_consumed_right _ _ _ (by omega)]
  have e22 : mid.heuristic_representations[index2]? = some none := by
    rw [g2, if_neg (by omega), getElem?_consumed_right _ _ _ (by omega)]
  have e23 : mid.distances[index2]? = some none := by
    rw [g3, if_neg (by omega), getElem?_consumed_right _ _ _ (by omega)]
  have hvn := is_index_valid_of_get_component mid k c hc
  have hd1 := is_index_valid_of_slots_none mid index1 e11
  have hd2 := is_index_valid_of_slots_none mid index2 e21
  have hother : ∀ j, j ≠ index1 → j ≠ index2 → j ≠ k →
      mid.is_index_valid j = fts.is_index_valid j := by
    intro j h1 h2 h3
    apply is_index_valid_congr
    · rw [g1, if_neg h3, getElem?_consumed_of_ne _ _ _ _ _ h1 h2]
    · rw [g2, if_neg h3, getElem?_consumed_of_ne _ _ _ _ _ h1 h2]
    · rw [g3, if_neg h3, getElem?_consumed_of_ne _ _ _ _ _ h1 h2]
  refine ⟨hv1, hv2, ?_, hvn, hd1, hd2,
    ⟨(deref_eq_none_iff _ _).2 (Or.inr e11), (deref_eq_none_iff _ _).2 (Or.inr e12),
      (deref_eq_none_iff _ _).2 (Or.inr e13)⟩,
    ⟨(deref_eq_none_iff _ _).2 (Or.inr e21), (deref_eq_none_iff _ _).2 (Or.inr e22),
      (deref_eq_none_iff _ _).2 (Or.inr e23)⟩, hother, ?_⟩
  · unfold merge
    rw [hproduct]
    simp only [Option.some_bind]
    cases fin
    · rfl
    · rcases hd : deref mid.transition_systems k with _ | t
      · rw [hd] at hsolvable
        cases hsolvable
      · rw [hd] at hsolvable
        have ht : ops.ts_is_solvable t = true := by simpa using hsolvable
        simp [ht]
  · have hlive : mid.live_indices = insert k ((fts.live_indices.erase index1).erase index2) := by
      ext j
      rw [mem_live_indices, Finset.mem_insert, Finset.mem_erase, Finset.mem_erase,
        mem_live_indices]
      by_cases hjk : j = k
      · subst hjk
        simp [hvn]
      · by_cases hj1 : j = index1
        · subst hj1
          simp [hd1, hjk]
        · by_cases hj2 : j = index2
          · subst hj2
            simp [hd2, hjk]
          · simp [hother j hj1 hj2 hjk, hjk, hj1, hj2]
    have hk : k ∉ (fts.live_indices.erase index1).erase index2 := by
      intro hmem
      have := (Finset.mem_erase.1 (Finset.mem_erase.1 hmem).2).2
      unfold live_indices at this
      rw [Finset.mem_filter, Finset.mem_range] at this
      omega
    have hm1 : index1 ∈ fts.live_indices := (mem_live_indices fts index1).2 hv1
    have hm2 : index2 ∈ fts.live_indices.erase index1 :=
      Finset.mem_erase.2 ⟨Ne.symm hdistinct, (mem_live_indices fts index2).2 hv2⟩
    unfold num_live
    rw [hlive, Finset.card_insert_of_not_mem hk]
    have c2 := Finset.card_erase_add_one hm2
    have c1 := Finset.card_erase_add_one hm1
    omega

theorem merge_invalidating_consumes_inputs_witness :
    sampleConstructed.SameNumberOfSlots ∧ sampleConstructed.transition_systems.length = 2 ∧
    (0 : Nat) ≠ 1 ∧
    merge_product sampleComponents sampleConstructed 0 1 true true = some (sampleMerged, 2) ∧
    (deref sampleMerged.transition_systems 2).map sampleComponents.ts_is_solvable = some true ∧
    (sampleConstructed.is_index_valid 0 = some true ∧
    sampleConstructed.is_index_valid 1 = some true ∧
    merge sampleComponents sampleConstructed 0 1 true true = some (sampleMerged, 2) ∧
    sampleMerged.is_index_valid 2 = some true ∧
    sampleMerged.is_index_valid 0 = some false ∧ sampleMerged.is_index_valid 1 = some false ∧
    (deref sampleMerged.transition_systems 0 = none ∧
      deref sampleMerged.heuristic_representations 0 = none ∧
      deref sampleMerged.distances 0 = none) ∧
    (deref sampleMerged.transition_systems 1 = none ∧
      deref sampleMerged.heuristic_representations 1 = none ∧
      deref sampleMerged.distances 1 = none) ∧
    (∀ j, j ≠ 0 → j ≠ 1 → j ≠ 2 →
      sampleMerged.is_index_valid j = sampleConstructed.is_index_valid j) ∧
    sampleMerged.num_live + 1 = sampleConstructed.num_live) :=
  ⟨⟨rfl, rfl⟩, rfl, by decide, by rfl, by rfl,
   merge_invalidating_consumes_inputs sampleComponents sampleConstructed sampleMerged 0 1 2 2 true
    ⟨rfl, rfl⟩ rfl (by decide) (by rfl) (by rfl)⟩

end FactoredTransitionSystem

/-! ## The lockstep invariant -/

namespace FactoredTransitionSystem

variable {State L TS HR D : Type}

theorem populated_eq_shape {α : Type} (xs : List (Option α)) (i : Nat) :
    populated xs i = ((shape xs)[i]?).getD false := by
  unfold populated deref shape
  rw [List.getElem?_map]
  rcases xs[i]? with _ | _ | a <;> rfl

theorem shape_eq_of_populated {α β : Type} (xs : List (Option α)) (ys : List (Option β))
    (hlen : xs.length = ys.length) (h : ∀ i, populated xs i = populated ys i) :
    shape xs = shape ys := by
  apply List.ext_getElem?
  intro i
  have hi := h i
  rw [populated_eq_shape, populated_eq_shape] at hi
  by_cases hlt : i < xs.length
  · have h1 : i < (shape xs).length := by simpa [shape] using hlt
    have h2 : i < (shape ys).length := by simpa [shape, ← hlen] using hlt
    rw [List.getElem?_eq_getElem h1, List.getElem?_eq_getElem h2] at hi ⊢
    simpa using hi
  · rw [List.getElem?_eq_none (by simpa [shape] using hlt),
      List.getElem?_eq_none (by simpa [shape, ← hlen] using hlt)]

theorem lockstep_iff_shape (fts : FactoredTransitionSystem L TS HR D) :
    Lockstep fts ↔ shape fts.transition_systems = shape fts.heuristic_representations ∧
      shape fts.heuristic_representations = shape fts.distances := by
  constructor
  · rintro ⟨⟨e1, e2⟩, hs⟩
    exact ⟨shape_eq_of_populated _ _ e1 fun i => (hs i).1,
      shape_eq_of_populated _ _ e2 fun i => (hs i).2⟩
  · rintro ⟨s1, s2⟩
    refine ⟨⟨?_, ?_⟩, fun i => ⟨?_, ?_⟩⟩
    · simpa [shape] using congrArg List.length s1
    · simpa [shape] using congrArg List.length s2
    · rw [populated_eq_shape, populated_eq_shape, s1]
    · rw [populated_eq_shape, populated_eq_shape, s2]

theorem shape_relabel_from (ops : Components State L TS HR D) (lm : LabelMapping) (ci : Int) :
    ∀ (tss : List (Option TS)) (k : Nat), shape (relabel_from ops lm ci k tss) = shape tss := by
  intro tss
  induction tss with
  | nil => intro k; rfl
  | cons t rest ih =>
    intro k
    have := ih (k + 1)
    unfold shape at this ⊢
    cases t <;> simp [relabel_from, this]

theorem length_relabel_from (ops : Components State L TS HR D) (lm : LabelMapping) (ci : Int)
    (tss : List (Option TS)) (k : Nat) : (relabel_from ops lm ci k tss).length = tss.length := by
  have := congrArg List.length (shape_relabel_from ops lm ci tss k)
  simpa [shape] using this

theorem shape_consumed {α : Type} (xs : List (Option α)) (i1 i2 : Nat) (inv : Bool) :
    shape (consumed xs i1 i2 inv) =
      if inv then ((shape xs).set i1 false).set i2 false else shape xs := by
  unfold consumed shape
  cases inv <;> simp

theorem pop_back_eq_some {α : Type} (xs ys : List α) (h : pop_back xs = some ys) :
    ys = xs.dropLast := by
  cases xs with
  | nil => cases h
  | cons x rest => exact (Option.some.inj h).symm

theorem lockstep_apply_label_reduction (ops : Components State L TS HR D)
    (fts fts' : FactoredTransitionSystem L TS HR D) (lm : LabelMapping) (ci : Int)
    (hl : Lockstep fts) (h : apply_label_reduction ops fts lm ci = some fts') : Lockstep fts' := by
  unfold apply_label_reduction at h
  rcases hr : reduce_all ops fts.labels lm with _ | l
  · rw [hr] at h
    cases h
  · rw [hr] at h
    rw [lockstep_iff_shape] at hl ⊢
    rw [← Option.some.inj h]
    simpa [shape_relabel_from] using hl

theorem lockstep_appended_system (ops : Components State L TS HR D)
    (fts : FactoredTransitionSystem L TS HR D) (i1 i2 : Nat) (inv fin : Bool)
    (c1 c2 : Component TS HR D) (hl : Lockstep fts) :
    Lockstep (appended_system ops fts i1 i2 inv fin c1 c2) := by
  rw [lockstep_iff_shape] at hl ⊢
  obtain ⟨s1, s2⟩ := hl
  have a1 : shape (appended_system ops fts i1 i2 inv fin c1 c2).transition_systems
      = (if inv then ((shape fts.transition_systems).set i1 false).set i2 false
          else shape fts.transition_systems) ++ [true] := by
    rw [← shape_consumed]
    simp [appended_system, shape]
  have a2 : shape (appended_system ops fts i1 i2 inv fin c1 c2).heuristic_representations
      = (if inv then ((shape fts.heuristic_representations).set i1 false).set i2 false
          else shape fts.heuristic_representations) ++ [true] := by
    rw [← shape_consumed]
    simp [appended_system, shape]
  have a3 : shape (appended_system ops fts i1 i2 inv fin c1 c2).distances
      = (if inv then ((shape fts.distances).set i1 false).set i2 false
          else shape fts.distances) ++ [true] := by
    rw [← shape_consumed]
    simp [appended_system, shape]
  rw [a1, a2, a3, s1, s2]
  exact ⟨rfl, rfl⟩

theorem lockstep_merge_product (ops : Components State L TS HR D)
    (fts mid : FactoredTransitionSystem L TS HR D) (i1 i2 k : Nat) (inv fin : Bool)
    (hl : Lockstep fts) (h : merge_product ops fts i1 i2 inv fin = some (mid, k)) :
    Lockstep mid := by
  obtain ⟨_, c1, c2, c, r, _, _, _, hc, rfl⟩ := merge_product_eq_some ops fts mid i1 i2 k inv fin h
  exact lockstep_put_component _ k c r.1 r.2 hc (lockstep_appended_system ops fts i1 i2 inv fin c1 c2 hl)

theorem lockstep_copy (ops : Components State L TS HR D)
    (fts fts' : FactoredTransitionSystem L TS HR D) (i k : Nat)
    (hl : Lockstep fts) (h : copy ops fts i = some (fts', k)) : Lockstep fts' := by
  unfold copy is_active at h
  simp only [Option.bind_eq_some] at h
  obtain ⟨_, _, _, _, t, _, hh, _, d, _, hfts⟩ := h
  rw [lockstep_iff_shape] at hl ⊢
  have e := congrArg Prod.fst (Option.some.inj hfts)
  simp only at e
  rw [← e]
  simp only [shape, List.map_append, List.map_cons, List.map_nil, Option.isSome_some]
  unfold shape at hl
  rw [hl.1, hl.2]
  exact ⟨rfl, rfl⟩

theorem lockstep_remove (fts fts' : FactoredTransitionSystem L TS HR D) (i : Nat)
    (hl : Lockstep fts) (h : remove fts i = some fts') : Lockstep fts' := by
  unfold remove is_active at h
  simp only [Option.bind_eq_some, assign_eq_some_iff] at h
  obtain ⟨_, _, _, _, t0, ⟨_, rfl⟩, t1, ⟨_, rfl⟩, h1, ⟨_, rfl⟩, d1, ⟨_, rfl⟩, hfts⟩ := h
  rw [lockstep_iff_shape] at hl ⊢
  rw [← Option.some.inj hfts]
  unfold shape at hl ⊢
  simp only [List.map_set, Option.isSome_none, List.set_set]
  rw [hl.1, hl.2]
  exact ⟨rfl, rfl⟩

theorem lockstep_release_copies (fts fts' : FactoredTransitionSystem L TS HR D)
    (hl : Lockstep fts) (h : release_copies fts = some fts') : Lockstep fts' := by
  unfold release_copies pop_three_null_tested pop_three at h
  rcases hlen : fts.transition_systems.length with _ | last
  · rw [hlen] at h
    cases h
  · rw [hlen] at h
    simp only [Option.bind_eq_some, assign_eq_some_iff] at h
    obtain ⟨t3, ⟨t0, ⟨_, rfl⟩, t1, ht1, _, _, t2, ht2, _, _, ht3⟩,
      h3, ⟨h0, ⟨_, rfl⟩, h1, hh1, h2, hh2, hh3⟩,
      d3, ⟨d0, ⟨_, rfl⟩, d1, hd1, _, _, d2, hd2, _, _, hd3⟩, hfts⟩ := h
    have e1 := pop_back_eq_some _ _ ht1
    have e2 := pop_back_eq_some _ _ ht2
    have e3 := pop_back_eq_some _ _ ht3
    have f1 := pop_back_eq_some _ _ hh1
    have f2 := pop_back_eq_some _ _ hh2
    have f3 := pop_back_eq_some _ _ hh3
    have g1 := pop_back_eq_some _ _ hd1
    have g2 := pop_back_eq_some _ _ hd2
    have g3 := pop_back_eq_some _ _ hd3
    subst e1 e2 e3 f1 f2 f3 g1 g2 g3
    rw [lockstep_iff_shape] at hl ⊢
    rw [← Option.some.inj hfts]
    unfold shape at hl ⊢
    simp only [List.map_dropLast, List.map_set, Option.isSome_none]
    rw [hl.1, hl.2]
    exact ⟨rfl, rfl⟩

end FactoredTransitionSystem

/-! ## Unsolvable components -/

namespace FactoredTransitionSystem

variable {State L TS HR D : Type}

/-- What a successful `finalize` leaves of the system. -/
theorem finalize_eq_some (fts fts' : FactoredTransitionSystem L TS HR D) (index : Int)
    (h : finalize fts index = some fts') :
    fts'.transition_systems = [] ∧
    fts'.heuristic_representations = fts.heuristic_representations ∧
    fts'.labels = fts.labels ∧ fts'.solvable = fts.solvable ∧
    fts'.relative_pruning_per_iteration = fts.relative_pruning_per_iteration ∧
    (index = -1 → fts.solvable = true ∧ fts'.distances = fts.distances ∧
      fts'.final_index = (fts.transition_systems.length : Int) - 1) ∧
    (index ≠ -1 → fts.solvable = false ∧ fts'.final_index = index) := by
  unfold finalize at h
  by_cases hidx : index = -1
  · simp only [hidx, if_true, Option.bind_eq_some, check_eq_some_iff] at h
    obtain ⟨_, hs, h⟩ := h
    rcases hlen : fts.transition_systems.length with _ | last
    · rw [hlen] at h
      cases h
    · rw [hlen] at h
      simp only [Option.bind_eq_some] at h
      obtain ⟨_, _, h⟩ := h
      rw [← Option.some.inj h]
      refine ⟨rfl, rfl, rfl, rfl, rfl, fun _ => ⟨hs, rfl, ?_⟩, fun hc => absurd hidx hc⟩
      show (last : Int) = ((last + 1 : Nat) : Int) - 1
      omega
  · simp only [hidx, if_false, Option.bind_eq_some, check_eq_some_iff] at h
    obtain ⟨_, hs, ds, _, h⟩ := h
    rw [← Option.some.inj h]
    refine ⟨rfl, rfl, rfl, rfl, rfl, fun hc => absurd hc hidx, fun _ => ⟨?_, rfl⟩⟩
    simpa using hs

/-- An explicit `finalize` succeeds on a system marked unsolvable whose
distances vector is at least as long as its transition system vector. -/
theorem finalize_explicit_succeeds (fts : FactoredTransitionSystem L TS HR D) (k : Nat)
    (hs : fts.solvable = false)
    (hlen : fts.transition_systems.length ≤ fts.distances.length) :
    ∃ fts', finalize fts (k : Int) = some fts' := by
  obtain ⟨ds, hds, _, _⟩ := drop_other_distances_eq (k : Int) fts.transition_systems 0
    fts.distances (fun j hj => by omega)
  have hk : (k : Int) ≠ -1 := by omega
  refine ⟨{ fts with final_index := (k : Int), distances := ds, transition_systems := [] }, ?_⟩
  unfold finalize
  simp only [hk, if_false, hs, Bool.not_false, check_true, Option.some_bind, hds]

/-- Whether a component is solvable after pruning depends on that component
alone. -/
theorem solvable_after_pruning_eq (ops : Components State L TS HR D)
    (fts : FactoredTransitionSystem L TS HR D) (i : Nat) (silent : Bool) :
    solvable_after_pruning ops fts i silent =
      (fts.get_component i).bind fun c =>
        (c.compute_distances_and_prune ops silent).map fun r => ops.ts_is_solvable r.1.ts := by
  unfold solvable_after_pruning
  rw [compute_distances_and_prune_eq]
  rcases hc : fts.get_component i with _ | c
  · rfl
  · simp only [Option.some_bind]
    rcases c.compute_distances_and_prune ops silent with _ | r
    · rfl
    · have hput := get_component_put_component fts i c r.1 r.2 hc
      have h1 := ((get_component_eq_some_iff _ i r.1).1 hput).1
      simp [(deref_eq_some_iff _ _ _).2 h1]

/-- The loop of the constructor with `finalize_if_unsolvable`: it stops at the
first component from position `i` on that is unsolvable after pruning and
finalizes there, leaving the heuristic representations behind that position
untouched; if there is none, it runs to the end and leaves `solvable` and
`final_index` as they are. -/
theorem construct_from_eq_some (ops : Components State L TS HR D) (silent : Bool) :
    ∀ (n i : Nat) (fts fts' : FactoredTransitionSystem L TS HR D),
      construct_from ops true silent n i fts = some fts' →
      (∃ k, i ≤ k ∧ k < i + n ∧ solvable_after_pruning ops fts k silent = some false ∧
        (∀ j, i ≤ j → j < k → solvable_after_pruning ops fts j silent = some true) ∧
        fts'.solvable = false ∧ fts'.final_index = (k : Int) ∧
        ∀ j, k < j → fts'.heuristic_representations[j]? = fts.heuristic_representations[j]?) ∨
      ((∀ j, i ≤ j → j < i + n → solvable_after_pruning ops fts j silent = some true) ∧
        fts'.solvable = fts.solvable ∧ fts'.final_index = fts.final_index) := by
  intro n
  induction n with
  | zero =>
    intro i fts fts' h
    right
    have e : fts = fts' := Option.some.inj h
    subst e
    exact ⟨fun j h1 h2 => absurd h2 (by omega), rfl, rfl⟩
  | succ n ih =>
    intro i fts fts' h
    unfold construct_from at h
    rcases hcdp : compute_distances_and_prune ops fts i silent with _ | fts1
    · rw [hcdp] at h
      cases h
    rw [hcdp] at h
    obtain ⟨c, r, hc, hr, rfl⟩ := compute_distances_and_prune_eq_some ops fts _ i silent hcdp
    have hput := get_component_put_component fts i c r.1 r.2 hc
    have h1 := ((get_component_eq_some_iff _ i r.1).1 hput).1
    have hsap : solvable_after_pruning ops fts i silent = some (ops.ts_is_solvable r.1.ts) := by
      rw [solvable_after_pruning_eq, hc]
      simp [hr]
    have hsame : ∀ j, i < j → solvable_after_pruning ops (fts.put_component i r.1 r.2) j silent
        = solvable_after_pruning ops fts j silent := by
      intro j hj
      rw [solvable_after_pruning_eq, solvable_after_pruning_eq,
        get_component_put_component_ne fts i j r.1 r.2 (by omega)]
    simp only [Option.some_bind, (deref_eq_some_iff _ _ _).2 h1, Bool.true_and] at h
    rcases hsolv : ops.ts_is_solvable r.1.ts with _ | _
    · left
      rw [hsolv] at h hsap
      simp only [Bool.not_false, if_true] at h
      obtain ⟨_, hhr, _, hs, _, _, hfi⟩ := finalize_eq_some _ _ _ h
      refine ⟨i, le_refl _, by omega, hsap, fun j h1 h2 => absurd h2 (by omega), ?_, ?_, ?_⟩
      · rw [hs]
      · exact (hfi (by omega)).2
      · intro j hj
        rw [hhr]
        show (fts.heuristic_representations.set i (some r.1.hr))[j]? = _
        rw [List.getElem?_set_ne (by omega)]
    · rw [hsolv] at h hsap
      simp only [Bool.not_true, Bool.false_eq_true, if_false] at h
      rcases ih (i + 1) _ fts' h with ⟨k, hk1, hk2, hk3, hk4, hk5, hk6, hk7⟩ | ⟨hall, hs, hf⟩
      · left
        refine ⟨k, by omega, by omega, ?_, ?_, hk5, hk6, ?_⟩
        · rw [← hsame k (by omega)]
          exact hk3
        · intro j hj1 hj2
          by_cases hji : j = i
          · subst hji
            exact hsap
          · rw [← hsame j (by omega)]
            exact hk4 j (by omega) hj2
        · intro j hj
          rw [hk7 j hj]
          show (fts.heuristic_representations.set i (some r.1.hr))[j]? = _
          rw [List.getElem?_set_ne (by omega)]
      · right
        refine ⟨?_, hs, hf⟩
        intro j hj1 hj2
        by_cases hji : j = i
        · subst hji
          exact hsap
        · rw [← hsame j (by omega)]
          exact hall j (by omega) (by omega)

/-- The loop of the constructor without `finalize_if_unsolvable` never touches
`solvable` and `final_index`. -/
theorem construct_from_no_finalize (ops : Components State L TS HR D) (silent : Bool) :
    ∀ (n i : Nat) (fts fts' : FactoredTransitionSystem L TS HR D),
      construct_from ops false silent n i fts = some fts' →
      fts'.solvable = fts.solvable ∧ fts'.final_index = fts.final_index := by
  intro n
  induction n with
  | zero =>
    intro i fts fts' h
    have e : fts = fts' := Option.some.inj h
    subst e
    exact ⟨rfl, rfl⟩
  | succ n ih =>
    intro i fts fts' h
    unfold construct_from at h
    rcases hcdp : compute_distances_and_prune ops fts i silent with _ | fts1
    · rw [hcdp] at h
      cases h
    rw [hcdp] at h
    obtain ⟨c, r, hc, hr, rfl⟩ := compute_distances_and_prune_eq_some ops fts _ i silent hcdp
    have hput := get_component_put_component fts i c r.1 r.2 hc
    have h1 := ((get_component_eq_some_iff _ i r.1).1 hput).1
    simp only [Option.some_bind, (deref_eq_some_iff _ _ _).2 h1, Bool.false_and,
      Bool.false_eq_true, if_false] at h
    have hrec := ih (i + 1) (fts.put_component i r.1 r.2) fts' h
    exact hrec

end FactoredTransitionSystem

namespace FactoredTransitionSystem

variable {State L TS HR D : Type}

/-- C6: when the constructor, called with `finalize_if_unsolvable`, finds a
component unsolvable after computing its distances, it returns a system with
`solvable = false` that is finalized on the smallest such index, the components
behind it not being processed; `merge`, called with `finalize_if_unsolvable`,
does the same on the new component. When no component is unsolvable, `solvable`
and `final_index` stay as they are: `true` and `-1` after the constructor. -/
theorem unsolvable_component_finalizes (ops : Components State L TS HR D)
    (labels : L) (tss : List (Option TS)) (hrs : List (Option HR)) (ds : List (Option D))
    (silent : Bool) (constructed fts mid : FactoredTransitionSystem L TS HR D)
    (index1 index2 k : Nat) (invalidating_merge : Bool)
    (hconstruct : construct ops labels tss hrs ds true silent = some constructed)
    (hslots : fts.SameNumberOfSlots)
    (hproduct : merge_product ops fts index1 index2 invalidating_merge true = some (mid, k)) :
    ((∃ u, u < tss.length ∧
        solvable_after_pruning ops (initial_system labels tss hrs ds) u silent = some false ∧
        (∀ j, j < u →
          solvable_after_pruning ops (initial_system labels tss hrs ds) j silent = some true) ∧
        constructed.solvable = false ∧ constructed.is_finalized = true ∧
        constructed.final_index = (u : Int) ∧
        ∀ j, u < j → constructed.heuristic_representations[j]? = hrs[j]?) ∨
      ((∀ j, j < tss.length →
          solvable_after_pruning ops (initial_system labels tss hrs ds) j silent = some true) ∧
        constructed.solvable = true ∧ constructed.is_finalized = false)) ∧
    ((deref mid.transition_systems k).map ops.ts_is_solvable = some false →
      ∃ fts', merge ops fts index1 index2 invalidating_merge true = some (fts', k) ∧
        fts'.solvable = false ∧ fts'.is_finalized = true ∧ fts'.final_index = (k : Int)) ∧
    ((deref mid.transition_systems k).map ops.ts_is_solvable = some true →
      merge ops fts index1 index2 invalidating_merge true = some (mid, k) ∧
        mid.solvable = fts.solvable ∧ mid.final_index = fts.final_index) := by
  refine ⟨?_, ?_, ?_⟩
  · unfold construct at hconstruct
    rcases construct_from_eq_some ops silent tss.length 0 _ constructed hconstruct with
      ⟨u, _, hu2, hu3, hu4, hu5, hu6, hu7⟩ | ⟨hall, hs, hf⟩
    · left
      refine ⟨u, by omega, hu3, fun j hj => hu4 j (Nat.zero_le _) hj, hu5, ?_, hu6, hu7⟩
      simp only [is_finalized, decide_eq_true_eq, hu6]
      omega
    · right
      refine ⟨fun j hj => hall j (Nat.zero_le _) (by omega), hs, ?_⟩
      simp only [is_finalized, hf, initial_system]
      decide
  · intro hdead
    obtain ⟨_, _, _, _, _, _, _, _, _, hl1, _, hl3, _⟩ :=
      merge_product_slots ops fts mid index1 index2 k _ invalidating_merge true hslots rfl hproduct
    obtain ⟨fts', hfin⟩ := finalize_explicit_succeeds ({ mid with solvable := false }) k rfl
      (by show mid.transition_systems.length ≤ mid.distances.length; omega)
    obtain ⟨_, _, _, hs, _, _, hfi⟩ := finalize_eq_some _ _ _ hfin
    have hk : (k : Int) ≠ -1 := by omega
    refine ⟨fts', ?_, hs, ?_, (hfi hk).2⟩
    · unfold merge
      rw [hproduct]
      simp only [Option.some_bind, if_true]
      rcases hd : deref mid.transition_systems k with _ | t
      · rw [hd] at hdead
        cases hdead
      · rw [hd] at hdead
        have ht : ops.ts_is_solvable t = false := by simpa using hdead
        simp [ht, hfin]
    · simp only [is_finalized, decide_eq_true_eq, (hfi hk).2]
      omega
  · intro hlive
    obtain ⟨_, _, _, _, _, _, _, hf, hs, _⟩ :=
      merge_product_slots ops fts mid index1 index2 k _ invalidating_merge true hslots rfl hproduct
    refine ⟨?_, hs, hf⟩
    unfold merge
    rw [hproduct]
    simp only [Option.some_bind, if_true]
    rcases hd : deref mid.transition_systems k with _ | t
    · rw [hd] at hlive
      cases hlive
    · rw [hd] at hlive
      have ht : ops.ts_is_solvable t = true := by simpa using hlive
      simp [ht]

theorem unsolvable_component_finalizes_witness :
    construct sampleComponents sampleUnsolvable.labels sampleUnsolvable.transition_systems
      sampleUnsolvable.heuristic_representations sampleUnsolvable.distances true false
      = some samplePrunedFinal ∧
    samplePrunedOpen.SameNumberOfSlots ∧
    merge_product sampleComponents samplePrunedOpen 0 1 true true = some (sampleDeadProduct, 2) ∧
    merge sampleComponents samplePrunedOpen 0 1 true true = some (sampleDeadFinal, 2) ∧
    (((∃ u, u < sampleUnsolvable.transition_systems.length ∧
        solvable_after_pruning sampleComponents
          (initial_system sampleUnsolvable.labels sampleUnsolvable.transition_systems
            sampleUnsolvable.heuristic_representations sampleUnsolvable.distances) u false
          = some false ∧
        (∀ j, j < u →
          solvable_after_pruning sampleComponents
            (initial_system sampleUnsolvable.labels sampleUnsolvable.transition_systems
              sampleUnsolvable.heuristic_representations sampleUnsolvable.distances) j false
            = some true) ∧
        samplePrunedFinal.solvable = false ∧ samplePrunedFinal.is_finalized = true ∧
        samplePrunedFinal.final_index = (u : Int) ∧
        ∀ j, u < j → samplePrunedFinal.heuristic_representations[j]?
          = sampleUnsolvable.heuristic_representations[j]?) ∨
      ((∀ j, j < sampleUnsolvable.transition_systems.length →
          solvable_after_pruning sampleComponents
            (initial_system sampleUnsolvable.labels sampleUnsolvable.transition_systems
              sampleUnsolvable.heuristic_representations sampleUnsolvable.distances) j false
            = some true) ∧
        samplePrunedFinal.solvable = true ∧ samplePrunedFinal.is_finalized = false)) ∧
    ((deref sampleDeadProduct.transition_systems 2).map sampleComponents.ts_is_solvable
        = some false →
      ∃ fts', merge sampleComponents samplePrunedOpen 0 1 true true = some (fts', 2) ∧
        fts'.solvable = false ∧ fts'.is_finalized = true ∧ fts'.final_index = ((2 : Nat) : Int)) ∧
    ((deref sampleDeadProduct.transition_systems 2).map sampleComponents.ts_is_solvable
        = some true →
      merge sampleComponents samplePrunedOpen 0 1 true true = some (sampleDeadProduct, 2) ∧
        sampleDeadProduct.solvable = samplePrunedOpen.solvable ∧
        sampleDeadProduct.final_index = samplePrunedOpen.final_index)) :=
  ⟨by rfl, ⟨rfl, rfl⟩, by rfl, by rfl,
   unsolvable_component_finalizes sampleComponents sampleUnsolvable.labels
    sampleUnsolvable.transition_systems sampleUnsolvable.heuristic_representations
    sampleUnsolvable.distances false samplePrunedFinal samplePrunedOpen sampleDeadProduct 0 1 2 true
    (by rfl) ⟨rfl, rfl⟩ (by rfl)⟩

end FactoredTransitionSystem

namespace FactoredTransitionSystem

variable {State L TS HR D : Type}

theorem is_finalized_of_final_index (fts : FactoredTransitionSystem L TS HR D) (k : Nat)
    (h : fts.final_index = (k : Int)) : fts.is_finalized = true := by
  simp only [is_finalized, decide_eq_true_eq, h]
  omega

theorem lockstep_merge (ops : Components State L TS HR D)
    (fts fts' : FactoredTransitionSystem L TS HR D) (i1 i2 k : Nat) (inv fin : Bool)
    (hl : Lockstep fts) (h : merge ops fts i1 i2 inv fin = some (fts', k))
    (hopen : fts'.is_finalized = false) : Lockstep fts' := by
  unfold merge at h
  rcases hp : merge_product ops fts i1 i2 inv fin with _ | ⟨mid, k'⟩
  · rw [hp] at h
    cases h
  rw [hp] at h
  have hmid := lockstep_merge_product ops fts mid i1 i2 k' inv fin hl hp
  simp only [Option.some_bind] at h
  cases fin
  · simp only [Bool.false_eq_true, if_false, Option.some.injEq, Prod.mk.injEq] at h
    rw [← h.1]
    exact hmid
  · simp only [if_true, Option.bind_eq_some] at h
    obtain ⟨t, _, h⟩ := h
    rcases hsolv : ops.ts_is_solvable t with _ | _
    · rw [hsolv] at h
      simp only [Bool.not_false, if_true, Option.bind_eq_some, Option.some.injEq,
        Prod.mk.injEq] at h
      obtain ⟨f, hf, rfl, _⟩ := h
      have hk : (k' : Int) ≠ -1 := by omega
      have hfi := ((finalize_eq_some _ _ _ hf).2.2.2.2.2.2 hk).2
      rw [is_finalized_of_final_index f k' hfi] at hopen
      cases hopen
    · rw [hsolv] at h
      simp only [Bool.not_true, Bool.false_eq_true, if_false, Option.some.injEq,
        Prod.mk.injEq] at h
      rw [← h.1]
      exact hmid

theorem lockstep_construct_from (ops : Components State L TS HR D) (fin silent : Bool) :
    ∀ (n i : Nat) (fts fts' : FactoredTransitionSystem L TS HR D), Lockstep fts →
      construct_from ops fin silent n i fts = some fts' → fts'.is_finalized = false →
      Lockstep fts' := by
  intro n
  induction n with
  | zero =>
    intro i fts fts' hl h _
    have e : fts = fts' := Option.some.inj h
    subst e
    exact hl
  | succ n ih =>
    intro i fts fts' hl h hopen
    unfold construct_from at h
    rcases hcdp : compute_distances_and_prune ops fts i silent with _ | fts1
    · rw [hcdp] at h
      cases h
    rw [hcdp] at h
    obtain ⟨c, r, hc, hr, rfl⟩ := compute_distances_and_prune_eq_some ops fts _ i silent hcdp
    have hl1 := lockstep_put_component fts i c r.1 r.2 hc hl
    simp only [Option.some_bind] at h
    simp only [Option.bind_eq_some] at h
    obtain ⟨t, _, h⟩ := h
    by_cases hb : (fin && !ops.ts_is_solvable t) = true
    · rw [if_pos hb] at h
      have hk : (i : Int) ≠ -1 := by omega
      have hfi := ((finalize_eq_some _ _ _ h).2.2.2.2.2.2 hk).2
      rw [is_finalized_of_final_index fts' i hfi] at hopen
      cases hopen
    · rw [if_neg hb] at h
      exact ih (i + 1) _ fts' hl1 h hopen

/-- C1, counterexample: the regular `finalize()` at the end of a construction
(constructor, then one merge) releases the transition system of the final
component but keeps its heuristic representation and its distances, so index 2
is left in a partial state. -/
theorem finalize_breaks_lockstep :
    construct sampleComponents sampleAtomic.labels sampleAtomic.transition_systems
      sampleAtomic.heuristic_representations sampleAtomic.distances true false
      = some sampleConstructed ∧
    merge sampleComponents sampleConstructed 0 1 true true = some (sampleMerged, 2) ∧
    Lockstep sampleMerged ∧
    finalize sampleMerged (-1) = some sampleFinal ∧
    populated sampleFinal.transition_systems 2 = false ∧
    populated sampleFinal.heuristic_representations 2 = true ∧
    populated sampleFinal.distances 2 = true ∧
    ¬ sampleFinal.SlotsInLockstep := by
  refine ⟨by rfl, by rfl, ?_, by rfl, by rfl, by rfl, by rfl, ?_⟩
  · rw [lockstep_iff_shape]
    exact ⟨by rfl, by rfl⟩
  · intro h
    have h2 := (h 2).1
    have e1 : populated sampleFinal.transition_systems 2 = false := by rfl
    have e2 : populated sampleFinal.heuristic_representations 2 = true := by rfl
    rw [e1, e2] at h2
    cases h2

/-- C1, amended: on a system whose three vectors have the same number of slots
and whose slots are in lockstep, every mutating operation other than `finalize`
returns a system with the same two properties, the constructor and `merge` as
long as they do not finalize; `finalize` empties the transition system vector
and keeps the heuristic representations (and, in the regular case, the
distances). -/
theorem lockstep_kept_until_finalize (ops : Components State L TS HR D)
    (fts fts' : FactoredTransitionSystem L TS HR D) (hl : Lockstep fts) :
    (∀ fin silent, construct ops fts.labels fts.transition_systems fts.heuristic_representations
        fts.distances fin silent = some fts' → fts'.is_finalized = false → Lockstep fts') ∧
    (∀ index rel silent b,
      apply_abstraction ops fts index rel silent = some (fts', b) → Lockstep fts') ∧
    (∀ index mask silent, discard_states ops fts index mask silent = some fts' → Lockstep fts') ∧
    (∀ index silent,
      compute_distances_and_prune ops fts index silent = some fts' → Lockstep fts') ∧
    (∀ label_mapping combinable_index,
      apply_label_reduction ops fts label_mapping combinable_index = some fts' → Lockstep fts') ∧
    (∀ index1 index2 inv fin k, merge ops fts index1 index2 inv fin = some (fts', k) →
      fts'.is_finalized = false → Lockstep fts') ∧
    (∀ index k, copy ops fts index = some (fts', k) → Lockstep fts') ∧
    (release_copies fts = some fts' → Lockstep fts') ∧
    (∀ index, remove fts index = some fts' → Lockstep fts') ∧
    (∀ index, finalize fts index = some fts' →
      fts'.transition_systems = [] ∧
      fts'.heuristic_representations = fts.heuristic_representations ∧
      (index = -1 → fts'.distances = fts.distances)) := by
  refine ⟨?_, ?_, ?_, ?_, ?_, ?_, ?_, ?_, ?_, ?_⟩
  · intro fin silent h hopen
    exact lockstep_construct_from ops fin silent fts.transition_systems.length 0
      (initial_system fts.labels fts.transition_systems fts.heuristic_representations
        fts.distances) fts' hl h hopen
  · intro index rel silent b h
    obtain ⟨c, r, hc, _, rfl, _⟩ := apply_abstraction_eq_some ops fts fts' index rel silent b h
    exact lockstep_put_component fts index c r.1 [] hc hl
  · intro index mask silent h
    obtain ⟨c, r, hc, _, rfl⟩ := discard_states_eq_some ops fts fts' index mask silent h
    exact lockstep_put_component fts index c r.1 r.2 hc hl
  · intro index silent h
    obtain ⟨c, r, hc, _, rfl⟩ := compute_distances_and_prune_eq_some ops fts fts' index silent h
    exact lockstep_put_component fts index c r.1 r.2 hc hl
  · intro lm ci h
    exact lockstep_apply_label_reduction ops fts fts' lm ci hl h
  · intro i1 i2 inv fin k h hopen
    exact lockstep_merge ops fts fts' i1 i2 k inv fin hl h hopen
  · intro index k h
    exact lockstep_copy ops fts fts' index k hl h
  · intro h
    exact lockstep_release_copies fts fts' hl h
  · intro index h
    exact lockstep_remove fts fts' index hl h
  · intro index h
    obtain ⟨h1, h2, _, _, _, h3, _⟩ := finalize_eq_some fts fts' index h
    exact ⟨h1, h2, fun hi => (h3 hi).2.1⟩

theorem lockstep_kept_until_finalize_witness :
    Lockstep sampleConstructed ∧
    merge sampleComponents sampleConstructed 0 1 true true = some (sampleMerged, 2) ∧
    sampleMerged.is_finalized = false ∧
    Lockstep sampleMerged :=
  have hl : Lockstep sampleConstructed :=
    (lockstep_iff_shape sampleConstructed).2 ⟨by rfl, by rfl⟩
  ⟨hl, by rfl, by rfl,
   (lockstep_kept_until_finalize sampleComponents sampleConstructed sampleMerged hl).2.2.2.2.2.1
    0 1 true true 2 (by rfl) (by rfl)⟩

end FactoredTransitionSystem

/-! ## Component indices -/

namespace FactoredTransitionSystem

variable {State L TS HR D : Type}

theorem merge_length (ops : Components State L TS HR D)
    (fts fts' : FactoredTransitionSystem L TS HR D) (i1 i2 k : Nat) (inv fin : Bool)
    (h : merge ops fts i1 i2 inv fin = some (fts', k)) :
    k = fts.transition_systems.length ∧
      (fts'.transition_systems.length = k + 1 ∨ fts'.transition_systems = []) := by
  unfold merge at h
  rcases hp : merge_product ops fts i1 i2 inv fin with _ | ⟨mid, k'⟩
  · rw [hp] at h
    cases h
  rw [hp] at h
  obtain ⟨hk, c1, c2, c, r, _, _, _, _, hmid⟩ := merge_product_eq_some ops fts mid i1 i2 k' inv fin hp
  have hlen : mid.transition_systems.length = k' + 1 := by
    rw [hmid, hk]
    simp [put_component, appended_system, length_consumed]
  simp only [Option.some_bind] at h
  cases fin
  · simp only [Bool.false_eq_true, if_false, Option.some.injEq, Prod.mk.injEq] at h
    obtain ⟨rfl, rfl⟩ := h
    exact ⟨hk, Or.inl hlen⟩
  · simp only [if_true, Option.bind_eq_some] at h
    obtain ⟨t, _, h⟩ := h
    rcases hsolv : ops.ts_is_solvable t with _ | _
    · rw [hsolv] at h
      simp only [Bool.not_false, if_true, Option.bind_eq_some, Option.some.injEq,
        Prod.mk.injEq] at h
      obtain ⟨f, hf, rfl, rfl⟩ := h
      exact ⟨hk, Or.inr (finalize_eq_some _ _ _ hf).1⟩
    · rw [hsolv] at h
      simp only [Bool.not_true, Bool.false_eq_true, if_false, Option.some.injEq,
        Prod.mk.injEq] at h
      obtain ⟨rfl, rfl⟩ := h
      exact ⟨hk, Or.inl hlen⟩

theorem merge_needs_slots (ops : Components State L TS HR D)
    (fts fts' : FactoredTransitionSystem L TS HR D) (i1 i2 k : Nat) (inv fin : Bool)
    (h : merge ops fts i1 i2 inv fin = some (fts', k)) : fts.transition_systems ≠ [] := by
  unfold merge at h
  rcases hp : merge_product ops fts i1 i2 inv fin with _ | ⟨mid, k'⟩
  · rw [hp] at h
    cases h
  obtain ⟨_, c1, _, _, _, hc1, _⟩ := merge_product_eq_some ops fts mid i1 i2 k' inv fin hp
  have := lt_length_of_getElem?_eq_some _ _ _ ((get_component_eq_some_iff fts i1 c1).1 hc1).1
  intro he
  rw [he] at this
  simp at this

theorem copy_length (ops : Components State L TS HR D)
    (fts fts' : FactoredTransitionSystem L TS HR D) (i k : Nat)
    (h : copy ops fts i = some (fts', k)) :
    k = fts.transition_systems.length ∧ fts'.transition_systems.length = k + 1 ∧
      fts.transition_systems ≠ [] := by
  unfold copy is_active at h
  simp only [Option.bind_eq_some] at h
  obtain ⟨_, _, _, _, t, ht, _, _, _, _, hfts⟩ := h
  have e := Option.some.inj hfts
  have e1 := congrArg Prod.fst e
  have e2 := congrArg Prod.snd e
  simp only at e1 e2
  refine ⟨e2.symm, ?_, ?_⟩
  · rw [← e1, ← e2]
    simp
  · intro he
    rw [he] at ht
    simp [deref] at ht

theorem remove_length (fts fts' : FactoredTransitionSystem L TS HR D) (i : Nat)
    (h : remove fts i = some fts') :
    fts'.transition_systems.length = fts.transition_systems.length := by
  unfold remove is_active at h
  simp only [Option.bind_eq_some, assign_eq_some_iff] at h
  obtain ⟨_, _, _, _, t0, ⟨_, rfl⟩, t1, ⟨_, rfl⟩, h1, ⟨_, rfl⟩, d1, ⟨_, rfl⟩, hfts⟩ := h
  rw [← Option.some.inj hfts]
  simp

theorem apply_abstraction_length (ops : Components State L TS HR D)
    (fts fts' : FactoredTransitionSystem L TS HR D) (i : Nat) (rel : StateEquivalenceRelation)
    (silent b : Bool) (h : apply_abstraction ops fts i rel silent = some (fts', b)) :
    fts'.transition_systems.length = fts.transition_systems.length := by
  obtain ⟨c, r, _, _, rfl, _⟩ := apply_abstraction_eq_some ops fts fts' i rel silent b h
  simp [put_component]

theorem apply_label_reduction_length (ops : Components State L TS HR D)
    (fts fts' : FactoredTransitionSystem L TS HR D) (lm : LabelMapping) (ci : Int)
    (h : apply_label_reduction ops fts lm ci = some fts') :
    fts'.transition_systems.length = fts.transition_systems.length := by
  unfold apply_label_reduction at h
  simp only [Option.bind_eq_some] at h
  obtain ⟨l, _, h⟩ := h
  rw [← Option.some.inj h]
  exact length_relabel_from ops lm ci _ 0

theorem release_copies_length (fts fts' : FactoredTransitionSystem L TS HR D)
    (h : release_copies fts = some fts') :
    fts'.transition_systems.length + 3 = fts.transition_systems.length := by
  unfold release_copies pop_three_null_tested pop_three at h
  rcases hlen : fts.transition_systems.length with _ | last
  · rw [hlen] at h
    cases h
  · rw [hlen] at h
    simp only [Option.bind_eq_some, assign_eq_some_iff] at h
    obtain ⟨t3, ⟨t0, ⟨_, rfl⟩, t1, ht1, _, _, t2, ht2, _, _, ht3⟩, _, _, _, _, hfts⟩ := h
    have e1 := pop_back_eq_some _ _ ht1
    have e2 := pop_back_eq_some _ _ ht2
    have e3 := pop_back_eq_some _ _ ht3
    subst e1 e2 e3
    have n1 : (fts.transition_systems.set last none).dropLast ≠ [] := by
      intro he
      rw [he] at ht2
      cases ht2
    have n2 : (fts.transition_systems.set last none).dropLast.dropLast ≠ [] := by
      intro he
      rw [he] at ht3
      cases ht3
    have l1 := List.length_pos.2 n1
    have l2 := List.length_pos.2 n2
    rw [← Option.some.inj hfts]
    simp only [List.length_dropLast, List.length_set] at l1 l2 ⊢
    omega

/-- Along a run without `release_copies`, the indices given to new components
increase strictly and lie beyond the slots that existed before the run; on a
system without slots no component can be created. -/
theorem run_all_assigns_fresh (ops : Components State L TS HR D) :
    ∀ (seq : List Operation) (fts fts' : FactoredTransitionSystem L TS HR D) (assigned : List Nat),
      Operation.release_copies ∉ seq → run_all ops seq fts = some (fts', assigned) →
      assigned.Pairwise (fun a b => a < b) ∧
      (∀ i ∈ assigned, fts.transition_systems.length ≤ i) ∧
      (fts.transition_systems = [] → assigned = []) := by
  intro seq
  induction seq with
  | nil =>
    intro fts fts' assigned _ h
    have e := Option.some.inj h
    have e2 : assigned = [] := (congrArg Prod.snd e).symm
    subst e2
    exact ⟨List.Pairwise.nil, fun i hi => absurd hi (by simp), fun _ => rfl⟩
  | cons op rest ih =>
    intro fts fts' assigned hno h
    have hno' : Operation.release_copies ∉ rest := fun hm => hno (List.mem_cons_of_mem _ hm)
    have hop : op ≠ Operation.release_copies := fun he => hno (he ▸ List.mem_cons_self _ _)
    unfold run_all at h
    simp only [Option.bind_eq_some, Option.map_eq_some'] at h
    obtain ⟨⟨fts1, o⟩, hrun, ⟨fts2, as'⟩, hrest, hres⟩ := h
    simp only [Prod.mk.injEq] at hres
    obtain ⟨_, rfl⟩ := hres
    obtain ⟨hp, hge, hemp⟩ := ih fts1 fts2 as' hno' hrest
    have hfresh : ∀ k, o = some k → k = fts.transition_systems.length ∧
        fts.transition_systems ≠ [] ∧
        (fts1.transition_systems.length = k + 1 ∨ fts1.transition_systems = []) := by
      intro k hk
      subst hk
      cases op with
      | merge i1 i2 inv fin =>
        simp only [Operation.run, Option.map_eq_some', Prod.mk.injEq, Option.some.injEq] at hrun
        obtain ⟨⟨f, k'⟩, hm, rfl, rfl⟩ := hrun
        exact ⟨(merge_length ops fts _ i1 i2 _ inv fin hm).1,
          merge_needs_slots ops fts _ i1 i2 _ inv fin hm,
          (merge_length ops fts _ i1 i2 _ inv fin hm).2⟩
      | copy i =>
        simp only [Operation.run, Option.map_eq_some', Prod.mk.injEq, Option.some.injEq] at hrun
        obtain ⟨⟨f, k'⟩, hm, rfl, rfl⟩ := hrun
        obtain ⟨a, b, c⟩ := copy_length ops fts _ i _ hm
        exact ⟨a, c, Or.inl b⟩
      | release_copies => exact absurd rfl hop
      | remove i =>
        simp only [Operation.run, Option.map_eq_some', Prod.mk.injEq] at hrun
        obtain ⟨_, _, _, hc⟩ := hrun
        cases hc
      | apply_abstraction i rel silent =>
        simp only [Operation.run, Option.map_eq_some', Prod.mk.injEq] at hrun
        obtain ⟨_, _, _, hc⟩ := hrun
        cases hc
      | apply_label_reduction lm ci =>
        simp only [Operation.run, Option.map_eq_some', Prod.mk.injEq] at hrun
        obtain ⟨_, _, _, hc⟩ := hrun
        cases hc
    have hkeep : o = none → fts1.transition_systems.length = fts.transition_systems.length := by
      intro hk
      subst hk
      cases op with
      | merge i1 i2 inv fin =>
        simp only [Operation.run, Option.map_eq_some', Prod.mk.injEq] at hrun
        obtain ⟨_, _, _, hc⟩ := hrun
        cases hc
      | copy i =>
        simp only [Operation.run, Option.map_eq_some', Prod.mk.injEq] at hrun
        obtain ⟨_, _, _, hc⟩ := hrun
        cases hc
      | release_copies => exact absurd rfl hop
      | remove i =>
        simp only [Operation.run, Option.map_eq_some', Prod.mk.injEq] at hrun
        obtain ⟨f, hm, rfl, _⟩ := hrun
        exact remove_length fts _ i hm
      | apply_abstraction i rel silent =>
        simp only [Operation.run, Option.map_eq_some', Prod.mk.injEq] at hrun
        obtain ⟨⟨f, b⟩, hm, rfl, _⟩ := hrun
        exact apply_abstraction_length ops fts _ i rel silent b hm
      | apply_label_reduction lm ci =>
        simp only [Operation.run, Option.map_eq_some', Prod.mk.injEq] at hrun
        obtain ⟨f, hm, rfl, _⟩ := hrun
        exact apply_label_reduction_length ops fts _ lm ci hm
    cases o with
    | none =>
      have hlen := hkeep rfl
      refine ⟨by simpa using hp, ?_, ?_⟩
      · intro i hi
        have := hge i (by simpa using hi)
        omega
      · intro he
        have h0 : fts1.transition_systems = [] := by
          apply List.eq_nil_of_length_eq_zero
          rw [hlen, he]
          rfl
        simpa using hemp h0
    | some k =>
      obtain ⟨hk, hne, hlen⟩ := hfresh k rfl
      refine ⟨?_, ?_, fun he => absurd he hne⟩
      · show List.Pairwise (fun a b => a < b) (k :: as')
        rw [List.pairwise_cons]
        refine ⟨?_, hp⟩
        intro i hi
        rcases hlen with hlen | hlen
        · have := hge i hi
          omega
        · rw [hemp hlen] at hi
          cases hi
      · intro i hi
        have hi' : i = k ∨ i ∈ as' := by simpa using hi
        rcases hi' with rfl | hi'
        · omega
        · rcases hlen with hlen | hlen
          · have := hge i hi'
            omega
          · rw [hemp hlen] at hi'
            cases hi'

end FactoredTransitionSystem

namespace FactoredTransitionSystem

variable {State L TS HR D : Type}

/-- C9, counterexample: after two copies and a merge of the copies (indices 2,
3 and 4), `release_copies` removes the three slots again, and the next merge
gives index 2 to its product: the index that the first copy had. -/
theorem release_copies_makes_indices_reusable :
    run_all sampleComponents
      [Operation.copy 0, Operation.copy 1, Operation.merge 2 3 true false,
        Operation.release_copies, Operation.merge 0 1 true true] sampleConstructed
      = some (sampleMerged, [2, 3, 4, 2]) ∧
    ¬ ([2, 3, 4, 2] : List Nat).Pairwise (fun a b => a < b) :=
  ⟨by rfl, by decide⟩

/-- C9, amended: along any sequence of `merge`, `copy`, `remove`,
`apply_abstraction` and `apply_label_reduction` calls, every new component gets
an index that is greater than every index given out before and not below the
number of slots at the start; `release_copies` shortens the vectors by three
slots (whose indices are then given out again). -/
theorem indices_fresh_without_release_copies (ops : Components State L TS HR D)
    (seq : List Operation) (fts fts' : FactoredTransitionSystem L TS HR D) (assigned : List Nat)
    (hnorelease : Operation.release_copies ∉ seq)
    (hrun : run_all ops seq fts = some (fts', assigned)) :
    assigned.Pairwise (fun a b => a < b) ∧
    (∀ i ∈ assigned, fts.transition_systems.length ≤ i) ∧
    (∀ f f' : FactoredTransitionSystem L TS HR D, release_copies f = some f' →
      f'.transition_systems.length + 3 = f.transition_systems.length) := by
  obtain ⟨h1, h2, _⟩ := run_all_assigns_fresh ops seq fts fts' assigned hnorelease hrun
  exact ⟨h1, h2, fun f f' h => release_copies_length f f' h⟩

theorem indices_fresh_without_release_copies_witness :
    Operation.release_copies ∉
      [Operation.copy 0, Operation.remove 0, Operation.merge 1 2 true true] ∧
    ∃ fts' : SampleFTS,
      run_all sampleComponents
        [Operation.copy 0, Operation.remove 0, Operation.merge 1 2 true true] sampleConstructed
        = some (fts', [2, 3]) ∧
      (([2, 3] : List Nat).Pairwise (fun a b => a < b) ∧
      (∀ i ∈ ([2, 3] : List Nat), sampleConstructed.transition_systems.length ≤ i) ∧
      (∀ f f' : SampleFTS, release_copies f = some f' →
        f'.transition_systems.length + 3 = f.transition_systems.length)) :=
  have hno : Operation.release_copies ∉
      [Operation.copy 0, Operation.remove 0, Operation.merge 1 2 true true] := by simp
  have hrun : ∃ fts' : SampleFTS,
      run_all sampleComponents
        [Operation.copy 0, Operation.remove 0, Operation.merge 1 2 true true] sampleConstructed
        = some (fts', [2, 3]) := ⟨_, rfl⟩
  ⟨hno, hrun.elim fun fts' h =>
    ⟨fts', h, indices_fresh_without_release_copies sampleComponents _ sampleConstructed fts'
      [2, 3] hno h⟩⟩

/-! ## Labels -/

theorem reduce_all_get_size {TS HR D : Type} (ops : Components State LabelTable TS HR D)
    (hreduce : ops.labels_reduce_labels = LabelTable.reduce_labels) :
    ∀ (lm : LabelMapping) (l l' : LabelTable), reduce_all ops l lm = some l' →
      LabelTable.get_size l' = LabelTable.get_size l + (lm.length : Int) := by
  intro lm
  induction lm with
  | nil =>
    intro l l' h
    rw [← Option.some.inj h]
    simp
  | cons e es ih =>
    intro l l' h
    unfold reduce_all at h
    simp only [Option.bind_eq_some] at h
    obtain ⟨_, _, h⟩ := h
    rw [ih _ l' h, hreduce]
    have hlen : ∀ (old : List Nat) (t : LabelTable),
        (LabelTable.deactivate t old).length = t.length := by
      intro old
      induction old with
      | nil => intro t; rfl
      | cons o rest ih' =>
        intro t
        simp [LabelTable.deactivate, ih']
    simp only [LabelTable.get_size, LabelTable.reduce_labels, List.length_append, hlen,
      List.length_singleton, List.length_cons, List.length_nil]
    push_cast
    ring

theorem active_set_none (l : LabelTable) :
    ∀ old : Nat, LabelTable.compute_number_active_labels (l.set old none)
        ≤ LabelTable.compute_number_active_labels l ∧
      (((l[old]?).join).isSome = true →
        LabelTable.compute_number_active_labels (l.set old none) + 1
          = LabelTable.compute_number_active_labels l) := by
  induction l with
  | nil =>
    intro old
    simp [LabelTable.compute_number_active_labels]
  | cons x xs ih =>
    intro old
    cases old with
    | zero =>
      cases x <;> simp [LabelTable.compute_number_active_labels, List.filter_cons]
    | succ o =>
      have := ih o
      unfold LabelTable.compute_number_active_labels at this ⊢
      cases x <;> simpa [List.filter_cons] using this

theorem active_deactivate (old : List Nat) :
    ∀ l : LabelTable, LabelTable.compute_number_active_labels (LabelTable.deactivate l old)
        ≤ LabelTable.compute_number_active_labels l ∧
      (old.any (fun o => ((l[o]?).join).isSome) = true →
        LabelTable.compute_number_active_labels (LabelTable.deactivate l old) + 1
          ≤ LabelTable.compute_number_active_labels l) := by
  induction old with
  | nil =>
    intro l
    simp [LabelTable.deactivate]
  | cons o rest ih =>
    intro l
    obtain ⟨hle, hstep⟩ := active_set_none l o
    obtain ⟨ihle, ihstep⟩ := ih (l.set o none)
    refine ⟨le_trans ihle hle, ?_⟩
    intro hany
    by_cases ho : ((l[o]?).join).isSome = true
    · have := hstep ho
      show LabelTable.compute_number_active_labels (LabelTable.deactivate (l.set o none) rest) + 1
        ≤ LabelTable.compute_number_active_labels l
      omega
    · have hrest : rest.any (fun o' => (((l.set o none)[o']?).join).isSome) = true := by
        simp only [List.any_cons, Bool.or_eq_true] at hany
        rcases hany with hfirst | hany
        · exact absurd hfirst ho
        rw [List.any_eq_true] at hany ⊢
        obtain ⟨p, hp, hact⟩ := hany
        refine ⟨p, hp, ?_⟩
        have hne : o ≠ p := by
          intro e
          subst e
          exact ho hact
        rw [List.getElem?_set_ne hne]
        exact hact
      have := ihstep hrest
      show LabelTable.compute_number_active_labels (LabelTable.deactivate (l.set o none) rest) + 1
        ≤ LabelTable.compute_number_active_labels l
      omega

theorem reduce_all_active {TS HR D : Type} (ops : Components State LabelTable TS HR D)
    (hreduce : ops.labels_reduce_labels = LabelTable.reduce_labels) :
    ∀ (lm : LabelMapping) (l l' : LabelTable), reduce_all ops l lm = some l' →
      LabelTable.reduces_active_labels l lm = true →
      LabelTable.compute_number_active_labels l' ≤ LabelTable.compute_number_active_labels l := by
  intro lm
  induction lm with
  | nil =>
    intro l l' h _
    rw [← Option.some.inj h]
  | cons e es ih =>
    intro l l' h hact
    unfold reduce_all at h
    simp only [Option.bind_eq_some] at h
    obtain ⟨_, _, h⟩ := h
    rw [hreduce] at h
    simp only [LabelTable.reduces_active_labels, Bool.and_eq_true] at hact
    have h1 := ih _ l' h hact.2
    have h2 := (active_deactivate e.2 l).2 hact.1
    have h3 : LabelTable.compute_number_active_labels (LabelTable.reduce_labels l e.2)
        = LabelTable.compute_number_active_labels (LabelTable.deactivate l e.2) + 1 := by
      simp [LabelTable.reduce_labels, LabelTable.compute_number_active_labels, List.filter_append]
    omega

end FactoredTransitionSystem

namespace FactoredTransitionSystem

variable {State L TS HR D : Type}

/-- C10, counterexample: reducing labels 0 and 1 to the new label 2 raises
`get_num_labels` from 2 to 3 (the number of active labels falls from 2 to 1). -/
theorem label_reduction_raises_num_labels :
    apply_label_reduction sampleComponents sampleConstructed [(2, [0, 1])] (-1)
      = some sampleReduced ∧
    get_num_labels sampleComponents sampleConstructed = 2 ∧
    get_num_labels sampleComponents sampleReduced = 3 ∧
    ¬ (get_num_labels sampleComponents sampleReduced
        ≤ get_num_labels sampleComponents sampleConstructed) ∧
    sampleConstructed.labels.compute_number_active_labels = 2 ∧
    sampleReduced.labels.compute_number_active_labels = 1 :=
  ⟨by rfl, by rfl, by rfl, by decide, by rfl, by rfl⟩

/-- C10, amended: with labels kept as a table of label slots, every entry of
an accepted label mapping adds one label number, so `get_num_labels` grows by
the number of entries; the number of active labels does not grow when every
entry reduces at least one label that is active at that moment. -/
theorem label_reduction_counts {TS HR D : Type} (ops : Components State LabelTable TS HR D)
    (fts fts' : FactoredTransitionSystem LabelTable TS HR D) (label_mapping : LabelMapping)
    (combinable_index : Int)
    (hsize : ops.labels_get_size = LabelTable.get_size)
    (hreduce : ops.labels_reduce_labels = LabelTable.reduce_labels)
    (haccepted : apply_label_reduction ops fts label_mapping combinable_index = some fts') :
    get_num_labels ops fts' = get_num_labels ops fts + (label_mapping.length : Int) ∧
    (LabelTable.reduces_active_labels fts.labels label_mapping = true →
      LabelTable.compute_number_active_labels fts'.labels
        ≤ LabelTable.compute_number_active_labels fts.labels) := by
  unfold apply_label_reduction at haccepted
  simp only [Option.bind_eq_some] at haccepted
  obtain ⟨l, hl, h⟩ := haccepted
  have e : fts'.labels = l := by rw [← Option.some.inj h]
  constructor
  · unfold get_num_labels
    rw [e, hsize]
    exact reduce_all_get_size ops hreduce label_mapping fts.labels l hl
  · intro hact
    rw [e]
    exact reduce_all_active ops hreduce label_mapping fts.labels l hl hact

theorem label_reduction_counts_witness :
    sampleComponents.labels_get_size = LabelTable.get_size ∧
    sampleComponents.labels_reduce_labels = LabelTable.reduce_labels ∧
    apply_label_reduction sampleComponents sampleConstructed [(2, [0, 1])] (-1)
      = some sampleReduced ∧
    LabelTable.reduces_active_labels sampleConstructed.labels [(2, [0, 1])] = true ∧
    (get_num_labels sampleComponents sampleReduced
      = get_num_labels sampleComponents sampleConstructed
        + (([(2, [0, 1])] : LabelMapping).length : Int) ∧
    (LabelTable.reduces_active_labels sampleConstructed.labels [(2, [0, 1])] = true →
      LabelTable.compute_number_active_labels sampleReduced.labels
        ≤ LabelTable.compute_number_active_labels sampleConstructed.labels)) :=
  ⟨rfl, rfl, by rfl, by rfl,
   label_reduction_counts sampleComponents sampleConstructed sampleReduced [(2, [0, 1])] (-1)
    rfl rfl (by rfl)⟩

end FactoredTransitionSystem

namespace FactoredTransitionSystem

variable {State L TS HR D : Type}

/-- A silent `compute_distances_and_prune` appends nothing to the pruning
statistic. -/
theorem Component_compute_distances_and_prune_silent (ops : Components State L TS HR D)
    (c : Component TS HR D) (r : Component TS HR D × List (Nat × Nat))
    (h : c.compute_distances_and_prune ops true = some r) : r.2 = [] := by
  unfold Component.compute_distances_and_prune Component.discard_states at h
  simp only [Option.bind_eq_some, if_true, Option.some.injEq] at h
  obtain ⟨r', ⟨_, _, a, _, ha⟩, _, _, hr⟩ := h
  rw [← hr, ← ha]

/-- Like `merge_product_eq_some`, with the link between the component found at
the new index and the pruned component written back. -/
theorem merge_product_eq_some_pruned (ops : Components State L TS HR D)
    (fts mid : FactoredTransitionSystem L TS HR D) (i1 i2 k : Nat) (inv fin : Bool)
    (h : merge_product ops fts i1 i2 inv fin = some (mid, k)) :
    k = fts.transition_systems.length ∧
    ∃ (c1 c2 c : Component TS HR D) (r : Component TS HR D × List (Nat × Nat)),
      fts.get_component i1 = some c1 ∧ fts.get_component i2 = some c2 ∧
      (inv = true → i1 ≠ i2) ∧
      (appended_system ops fts i1 i2 inv fin c1 c2).get_component k = some c ∧
      c.compute_distances_and_prune ops (!inv || !fin) = some r ∧
      mid = (appended_system ops fts i1 i2 inv fin c1 c2).put_component k r.1 r.2 := by
  unfold merge_product at h
  rcases ha : merge_append ops fts i1 i2 inv fin with _ | fts2
  · rw [ha] at h
    cases h
  rw [ha] at h
  obtain ⟨c1, c2, hc1, hc2, hne, rfl⟩ := merge_append_eq_some ops fts _ i1 i2 inv fin ha
  have hlen : (appended_system ops fts i1 i2 inv fin c1 c2).transition_systems.length - 1
      = fts.transition_systems.length := by
    simp [appended_system, length_consumed]
  simp only [Option.some_bind, hlen] at h
  rcases hcdp : compute_distances_and_prune ops (appended_system ops fts i1 i2 inv fin c1 c2)
      fts.transition_systems.length (!inv || !fin) with _ | fts3
  · rw [hcdp] at h
    cases h
  rw [hcdp] at h
  obtain ⟨c, r, hc, hr, rfl⟩ := compute_distances_and_prune_eq_some ops _ _ _ _ hcdp
  simp only [Option.bind_eq_some, Option.some.injEq, Prod.mk.injEq] at h
  obtain ⟨w, hw, _, _, _, _, hmid, hk⟩ := h
  subst hw hmid hk
  exact ⟨rfl, c1, c2, c, r, hc1, hc2, hne, hc, hr, rfl⟩

theorem consumed_append_pair {α : Type} (xs : List (Option α)) (a b : Option α) :
    consumed (xs ++ [a, b]) xs.length (xs.length + 1) true = xs ++ [none, none] := by
  unfold consumed
  simp [List.set_append_right]

theorem release_copies_of_three {L TS HR D : Type} (fts base : FactoredTransitionSystem L TS HR D)
    (t : Option TS) (h : Option HR) (d : Option D)
    (hn2 : base.heuristic_representations.length = base.transition_systems.length)
    (hn3 : base.distances.length = base.transition_systems.length)
    (e1 : fts.transition_systems = base.transition_systems ++ [none, none, t])
    (e2 : fts.heuristic_representations = base.heuristic_representations ++ [none, none, h])
    (e3 : fts.distances = base.distances ++ [none, none, d])
    (e4 : fts.labels = base.labels) (e5 : fts.final_index = base.final_index)
    (e6 : fts.solvable = base.solvable)
    (e7 : fts.relative_pruning_per_iteration = base.relative_pruning_per_iteration) :
    release_copies fts = some base := by
  have hlen : fts.transition_systems.length = (base.transition_systems.length + 2) + 1 := by
    rw [e1]
    simp
  have s1 : (base.transition_systems ++ [none, none, t]).set (base.transition_systems.length + 2) none
      = base.transition_systems ++ [none, none, none] := by
    simp [List.set_append_right]
  have s2 : (base.heuristic_representations ++ [none, none, h]).set
      (base.transition_systems.length + 2) none
      = base.heuristic_representations ++ [none, none, none] := by
    rw [← hn2]
    simp [List.set_append_right]
  have s3 : (base.distances ++ [none, none, d]).set (base.transition_systems.length + 2) none
      = base.distances ++ [none, none, none] := by
    rw [← hn3]
    simp [List.set_append_right]
  have pop : ∀ {α : Type} (xs : List (Option α)) (a : Option α),
      pop_back (xs ++ [a]) = some xs := by
    intro α xs a
    cases hx : xs ++ [a] with
    | nil => simp at hx
    | cons y ys =>
      show some (y :: ys).dropLast = some xs
      rw [← hx]
      simp
  have bk : ∀ {α : Type} (xs : List (Option α)), back_is_null (xs ++ [none]) = some () := by
    intro α xs
    unfold back_is_null
    simp
  have a3 : ∀ {α : Type} (xs : List (Option α)) (x y z : Option α),
      xs ++ [x, y, z] = (xs ++ [x, y]) ++ [z] := by
    intro α xs x y z
    simp
  have a2 : ∀ {α : Type} (xs : List (Option α)) (x y : Option α),
      xs ++ [x, y] = (xs ++ [x]) ++ [y] := by
    intro α xs x y
    simp
  unfold release_copies pop_three_null_tested pop_three
  rw [hlen]
  simp only [e1, e2, e3, assign, List.length_append, List.length_cons, List.length_nil, hn2, hn3,
    Nat.lt_succ_self, if_true, Option.some_bind, s1, s2, s3]
  have p3 : ∀ {α : Type} (xs : List (Option α)) (x y z : Option α),
      pop_back (xs ++ [x, y, z]) = some (xs ++ [x, y]) := by
    intro α xs x y z
    rw [a3]
    exact pop _ _
  have p2 : ∀ {α : Type} (xs : List (Option α)) (x y : Option α),
      pop_back (xs ++ [x, y]) = some (xs ++ [x]) := by
    intro α xs x y
    rw [a2]
    exact pop _ _
  have b2 : ∀ {α : Type} (xs : List (Option α)) (x : Option α),
      back_is_null (xs ++ [x, none]) = some () := by
    intro α xs x
    rw [a2]
    exact bk _
  clear a3 a2
  simp only [p3, p2, pop, b2, bk, Option.some_bind]
  rw [e4, e5, e6, e7]

end FactoredTransitionSystem

namespace FactoredTransitionSystem

variable {State L TS HR D : Type}

/-- What a successful `copy` produces. -/
theorem copy_eq_some (ops : Components State L TS HR D)
    (fts fts' : FactoredTransitionSystem L TS HR D) (i k : Nat)
    (h : copy ops fts i = some (fts', k)) :
    ∃ c, fts.get_component i = some c ∧ k = fts.transition_systems.length ∧
      fts'.transition_systems = fts.transition_systems ++ [some (ops.ts_copy c.ts)] ∧
      fts'.heuristic_representations =
        fts.heuristic_representations ++ [some (ops.hr_clone c.hr)] ∧
      fts'.distances = fts.distances ++ [some (ops.dist_copy (ops.ts_copy c.ts) c.dist)] ∧
      fts'.labels = fts.labels ∧ fts'.final_index = fts.final_index ∧
      fts'.solvable = fts.solvable ∧
      fts'.relative_pruning_per_iteration = fts.relative_pruning_per_iteration := by
  unfold copy is_active at h
  rcases hc : fts.get_component i with _ | c
  · rw [assert_valid_eq_none fts i _ hc] at h
    cases h
  rw [assert_valid_eq_some fts i _ c hc] at h
  obtain ⟨h1, h2, h3⟩ := (get_component_eq_some_iff fts i c).1 hc
  simp only [(deref_eq_some_iff _ _ _).2 h1, (deref_eq_some_iff _ _ _).2 h2,
    (deref_eq_some_iff _ _ _).2 h3, Option.some_bind, Option.some.injEq, Prod.mk.injEq] at h
  obtain ⟨hf, hk⟩ := h
  subst hf
  exact ⟨c, rfl, hk.symm, rfl, rfl, rfl, rfl, rfl, rfl, rfl⟩

/-- C13: try-before-commit round trip. On a system with `n` slots in each
vector, copying two components, merging the copies with an invalidating merge
that does not finalize, and calling `release_copies` gives back exactly the
system one started with: the same `n` slots in all three vectors, the same
labels, `solvable`, `final_index` and pruning statistic. -/
theorem copy_merge_release_restores_system (ops : Components State L TS HR D)
    (fts f1 f2 f3 : FactoredTransitionSystem L TS HR D) (i j ci cj k n : Nat)
    (hslots : fts.SameNumberOfSlots) (hsize : fts.transition_systems.length = n)
    (hcopy1 : copy ops fts i = some (f1, ci))
    (hcopy2 : copy ops f1 j = some (f2, cj))
    (hmerge : merge ops f2 ci cj true false = some (f3, k)) :
    ci = n ∧ cj = n + 1 ∧ k = n + 2 ∧ release_copies f3 = some fts := by
  obtain ⟨a, _, hci, a1, a2, a3, a4, a5, a6, a7⟩ := copy_eq_some ops fts f1 i ci hcopy1
  obtain ⟨b, _, hcj, b1, b2, b3, b4, b5, b6, b7⟩ := copy_eq_some ops f1 f2 j cj hcopy2
  have hn2 : fts.heuristic_representations.length = fts.transition_systems.length := hslots.1.symm
  have hn3 : fts.distances.length = fts.transition_systems.length := by
    rw [← hslots.2]
    exact hn2
  have hcj' : cj = fts.transition_systems.length + 1 := by
    rw [hcj, a1]
    simp
  have hprod : merge_product ops f2 ci cj true false = some (f3, k) := by
    unfold merge at hmerge
    simpa using hmerge
  obtain ⟨hk, c1, c2, c, r, _, _, _, _, hr, hf3⟩ :=
    merge_product_eq_some_pruned ops f2 f3 ci cj k true false hprod
  have hr2 : r.2 = [] := Component_compute_distances_and_prune_silent ops c r hr
  have hk' : k = fts.transition_systems.length + 2 := by
    rw [hk, b1, a1]
    simp
  subst hci hcj' hk'
  refine ⟨hsize, by rw [hsize], by rw [hsize], ?_⟩
  apply release_copies_of_three f3 fts (some r.1.ts) (some r.1.hr) (some r.1.dist) hn2 hn3
  · have e := consumed_append_pair fts.transition_systems (some (ops.ts_copy a.ts))
      (some (ops.ts_copy b.ts))
    rw [hf3]
    simp only [put_component, appended_system, b1, a1, List.append_assoc, List.singleton_append, e]
    rw [List.set_append_right _ _ (by simp)]
    simp
  · have e := consumed_append_pair fts.heuristic_representations (some (ops.hr_clone a.hr))
      (some (ops.hr_clone b.hr))
    rw [hn2] at e
    rw [hf3]
    simp only [put_component, appended_system, b2, a2, List.append_assoc, List.singleton_append, e]
    rw [List.set_append_right _ _ (by simp [hn2])]
    simp [hn2]
  · have e := consumed_append_pair fts.distances (some (ops.dist_copy (ops.ts_copy a.ts) a.dist))
      (some (ops.dist_copy (ops.ts_copy b.ts) b.dist))
    rw [hn3] at e
    rw [hf3]
    simp only [put_component, appended_system, b3, a3, List.append_assoc, List.singleton_append, e]
    rw [List.set_append_right _ _ (by simp [hn3])]
    simp [hn3]
  · rw [hf3]
    show f2.labels = fts.labels
    rw [b4, a4]
  · rw [hf3]
    show f2.final_index = fts.final_index
    rw [b5, a5]
  · rw [hf3]
    show f2.solvable = fts.solvable
    rw [b6, a6]
  · rw [hf3]
    show f2.relative_pruning_per_iteration ++ r.2 = fts.relative_pruning_per_iteration
    rw [hr2, b7, a7]
    simp

theorem copy_merge_release_restores_system_witness :
    sampleConstructed.SameNumberOfSlots ∧ sampleConstructed.transition_systems.length = 2 ∧
    ∃ f1 f2 f3 : SampleFTS,
      copy sampleComponents sampleConstructed 0 = some (f1, 2) ∧
      copy sampleComponents f1 1 = some (f2, 3) ∧
      merge sampleComponents f2 2 3 true false = some (f3, 4) ∧
      ((2 : Nat) = 2 ∧ (3 : Nat) = 2 + 1 ∧ (4 : Nat) = 2 + 2 ∧
        release_copies f3 = some sampleConstructed) := by
  have h : ∃ f1 f2 f3 : SampleFTS,
      copy sampleComponents sampleConstructed 0 = some (f1, 2) ∧
      copy sampleComponents f1 1 = some (f2, 3) ∧
      merge sampleComponents f2 2 3 true false = some (f3, 4) := ⟨_, _, _, rfl, rfl, rfl⟩
  obtain ⟨f1, f2, f3, e1, e2, e3⟩ := h
  exact ⟨⟨rfl, rfl⟩, rfl, f1, f2, f3, e1, e2, e3,
    copy_merge_release_restores_system sampleComponents sampleConstructed f1 f2 f3
      0 1 2 3 4 2 ⟨rfl, rfl⟩ rfl e1 e2 e3⟩

end FactoredTransitionSystem

namespace FactoredTransitionSystem

variable {State L TS HR D : Type}

theorem get_component_eq_none_of_dead (fts : FactoredTransitionSystem L TS HR D) (i : Nat)
    (h : fts.is_index_valid i ≠ some true) : fts.get_component i = none := by
  rcases hc : fts.get_component i with _ | c
  · rfl
  · exact absurd (is_index_valid_of_get_component fts i c hc) h

theorem merge_append_dead_left (ops : Components State L TS HR D)
    (fts : FactoredTransitionSystem L TS HR D) (i1 i2 : Nat) (inv fin : Bool)
    (h : fts.get_component i1 = none) : merge_append ops fts i1 i2 inv fin = none := by
  unfold merge_append
  exact assert_valid_eq_none fts i1 _ h

theorem merge_append_dead_right (ops : Components State L TS HR D)
    (fts : FactoredTransitionSystem L TS HR D) (i1 i2 : Nat) (inv fin : Bool)
    (h : fts.get_component i2 = none) : merge_append ops fts i1 i2 inv fin = none := by
  unfold merge_append
  rcases hc : fts.get_component i1 with _ | c
  · exact assert_valid_eq_none fts i1 _ hc
  · rw [assert_valid_eq_some fts i1 _ c hc]
    exact assert_valid_eq_none fts i2 _ h

/-- C14, counterexample: `apply_label_reduction` takes a `combinable_index`
that denotes no live component (`-1`, or `7` on a system with two slots) and
changes the labels; `finalize` takes the index of a dead slot (0 after the
merge of components 0 and 1) or an index beyond the end (7) and drops all
transition systems and distances. Neither checks the validity of its index. -/
theorem label_reduction_and_finalize_accept_dead_index :
    sampleConstructed.is_index_valid 7 = some false ∧
    apply_label_reduction sampleComponents sampleConstructed [(2, [0, 1])] 7
      = some sampleReduced ∧
    apply_label_reduction sampleComponents sampleConstructed [(2, [0, 1])] (-1)
      = some sampleReduced ∧
    sampleReduced.labels ≠ sampleConstructed.labels ∧
    sampleMergedUnsolvable.is_index_valid 0 = some false ∧
    finalize sampleMergedUnsolvable 0
      = some { sampleMergedUnsolvable with
          transition_systems := [], distances := [none, none, none], final_index := 0 } ∧
    sampleMergedUnsolvable.is_index_valid 7 = some false ∧
    finalize sampleMergedUnsolvable 7
      = some { sampleMergedUnsolvable with
          transition_systems := [], distances := [none, none, none], final_index := 7 } :=
  ⟨by decide, by rfl, by rfl, by decide, by decide, by rfl, by decide, by rfl⟩

/-- C14, amended: the operations that work on a component, `apply_abstraction`,
`discard_states`, `compute_distances_and_prune`, `merge` (for either index),
`copy` and `remove`, fail their validity assertion, and so return nothing,
when the index is at or beyond the end of the vectors or denotes a dead slot.
(`apply_label_reduction` and `finalize` do not check their index, and
`release_copies` takes none.) -/
theorem dead_index_fails_validity_assertion (ops : Components State L TS HR D)
    (fts : FactoredTransitionSystem L TS HR D) (index : Nat)
    (hdead : fts.is_index_valid index ≠ some true) :
    (∀ rel silent, apply_abstraction ops fts index rel silent = none) ∧
    (∀ mask silent, discard_states ops fts index mask silent = none) ∧
    (∀ silent, compute_distances_and_prune ops fts index silent = none) ∧
    (∀ other inv fin, merge ops fts index other inv fin = none ∧
      merge ops fts other index inv fin = none) ∧
    copy ops fts index = none ∧
    remove fts index = none := by
  have hc := get_component_eq_none_of_dead fts index hdead
  refine ⟨?_, ?_, ?_, ?_, ?_, ?_⟩
  · intro rel silent
    rw [apply_abstraction_eq, hc]
    rfl
  · intro mask silent
    rw [discard_states_eq, hc]
    rfl
  · intro silent
    rw [compute_distances_and_prune_eq, hc]
    rfl
  · intro other inv fin
    constructor
    · unfold merge merge_product
      rw [merge_append_dead_left ops fts index other inv fin hc]
      rfl
    · unfold merge merge_product
      rw [merge_append_dead_right ops fts other index inv fin hc]
      rfl
  · unfold copy is_active
    exact assert_valid_eq_none fts index _ hc
  · unfold remove is_active
    exact assert_valid_eq_none fts index _ hc

theorem dead_index_fails_validity_assertion_witness :
    sampleMerged.is_index_valid 0 ≠ some true ∧
    ((∀ rel silent, apply_abstraction sampleComponents sampleMerged 0 rel silent = none) ∧
    (∀ mask silent, discard_states sampleComponents sampleMerged 0 mask silent = none) ∧
    (∀ silent, compute_distances_and_prune sampleComponents sampleMerged 0 silent = none) ∧
    (∀ other inv fin, merge sampleComponents sampleMerged 0 other inv fin = none ∧
      merge sampleComponents sampleMerged other 0 inv fin = none) ∧
    copy sampleComponents sampleMerged 0 = none ∧
    remove sampleMerged 0 = none) :=
  ⟨by decide, dead_index_fails_validity_assertion sampleComponents sampleMerged 0 (by decide)⟩

end FactoredTransitionSystem

/-! ## MergeDFP: the traversal list -/

namespace MergeDFP

variable {State L TS HR D : Type}

theorem corrected_indices_inverse (dfp : MergeDFP) (h : dfp.order = Order.INVERSE) :
    ∀ l : List Nat, dfp.corrected_indices l = some (l.map Int.ofNat) := by
  intro l
  induction l with
  | nil => rfl
  | cons i rest ih =>
    simp [corrected_indices, get_corrected_index, h, check, ih]

theorem corrected_indices_dfp (dfp : MergeDFP) (h : dfp.order = Order.DFP) :
    ∀ l : List Nat, dfp.corrected_indices l = some (l.map fun i =>
      if dfp.border_atomics_composites ≤ Int.ofNat i then Int.ofNat i
      else dfp.border_atomics_composites - 1 - Int.ofNat i) := by
  intro l
  induction l with
  | nil => rfl
  | cons i rest ih =>
    have h0 : (0 : Int) ≤ (i : Int) := Int.ofNat_nonneg i
    by_cases hb : dfp.border_atomics_composites ≤ (i : Int) <;>
      simp [corrected_indices, get_corrected_index, h, check, ih, hb, h0]

theorem reverse_range_flip (b : Nat) :
    (List.range b).reverse.map (fun i => b - 1 - i) = List.range b := by
  apply List.ext_getElem
  · simp
  · intro j h1 h2
    simp only [List.length_map, List.length_reverse, List.length_range] at h1
    simp only [List.getElem_map, List.getElem_reverse, List.getElem_range, List.length_range]
    omega

theorem described_order_dfp_step (border : Int) (n : Nat) (h : border ≤ (n : Int)) :
    described_order Order.DFP border (n + 1) = n :: described_order Order.DFP border n := by
  have h1 : decide (border ≤ Int.ofNat n) = true := by simpa using h
  have h2 : decide (Int.ofNat n < border) = false := by
    simp only [decide_eq_false_iff_not, not_lt]
    exact h
  simp only [described_order, List.range_succ, List.filter_append, List.filter_cons, h1, h2,
    List.filter_nil, List.reverse_append, List.append_nil, if_true, List.reverse_cons,
    List.reverse_nil, List.nil_append, List.singleton_append, List.cons_append]
  simp

theorem described_order_dfp_base (b : Nat) :
    described_order Order.DFP (b : Int) b = List.range b := by
  have e1 : List.filter (fun (i : Nat) => decide ((b : Int) ≤ Int.ofNat i)) (List.range b) = [] := by
    rw [List.filter_eq_nil_iff]
    intro i hi
    have := List.mem_range.1 hi
    simp only [decide_eq_true_eq, not_le]
    exact Int.ofNat_lt.2 this
  have e2 : List.filter (fun (i : Nat) => decide (Int.ofNat i < (b : Int))) (List.range b)
      = List.range b := by
    rw [List.filter_eq_self]
    intro i hi
    have := List.mem_range.1 hi
    simp only [decide_eq_true_eq]
    exact Int.ofNat_lt.2 this
  simp only [described_order, e1, e2, List.reverse_nil, List.nil_append]

theorem visit_dfp (b : Nat) : ∀ k : Nat,
    (List.range (b + k)).reverse.map (fun i =>
      if (b : Int) ≤ Int.ofNat i then Int.ofNat i else (b : Int) - 1 - Int.ofNat i)
    = (described_order Order.DFP (b : Int) (b + k)).map Int.ofNat := by
  intro k
  induction k with
  | zero =>
    rw [Nat.add_zero, described_order_dfp_base]
    conv_rhs => rw [← reverse_range_flip b]
    rw [List.map_map]
    apply List.map_congr_left
    intro i hi
    have hlt : i < b := List.mem_range.1 (List.mem_reverse.1 hi)
    have hnot : ¬ ((b : Int) ≤ Int.ofNat i) := by
      simp only [not_le]
      exact Int.ofNat_lt.2 hlt
    simp only [hnot, if_false, Function.comp]
    show (b : Int) - 1 - (i : Int) = ((b - 1 - i : Nat) : Int)
    omega
  | succ k ih =>
    have hle : (b : Int) ≤ ((b + k : Nat) : Int) := by
      push_cast
      omega
    rw [show b + (k + 1) = (b + k) + 1 by omega, described_order_dfp_step _ _ hle,
      List.range_succ, List.reverse_append, List.map_append, ih]
    have hle' : (b : Int) ≤ Int.ofNat (b + k) := hle
    simp [hle']

/-- The order in which `get_next` visits the slots is the described one. -/
theorem visiting_order_eq (dfp : MergeDFP) (n : Nat)
    (h0 : 0 ≤ dfp.border_atomics_composites) (hn : dfp.border_atomics_composites ≤ (n : Int)) :
    dfp.visiting_order n
      = some ((described_order dfp.order dfp.border_atomics_composites n).map Int.ofNat) := by
  unfold visiting_order
  rcases ho : dfp.order with _ | _ | _
  · simp only [reduceCtorEq, if_false]
    rw [corrected_indices_dfp dfp ho]
    obtain ⟨b, hb⟩ : ∃ b : Nat, dfp.border_atomics_composites = (b : Int) :=
      ⟨dfp.border_atomics_composites.toNat, (Int.toNat_of_nonneg h0).symm⟩
    rw [hb] at hn ⊢
    have hbn : b ≤ n := by omega
    obtain ⟨k, rfl⟩ : ∃ k, n = b + k := ⟨n - b, by omega⟩
    rw [visit_dfp b k]
  · simp only [if_true]
    rfl
  · simp only [reduceCtorEq, if_false]
    rw [corrected_indices_inverse dfp ho]
    rfl

theorem mem_described_order (order : Order) (border : Int) (n i : Nat) :
    i ∈ described_order order border n ↔ i < n := by
  cases order
  · simp only [described_order, List.mem_append, List.mem_reverse, List.mem_filter,
      List.mem_range, decide_eq_true_eq]
    constructor
    · rintro (h | h) <;> exact h.1
    · intro h
      by_cases hb : border ≤ Int.ofNat i
      · exact Or.inl ⟨h, hb⟩
      · exact Or.inr ⟨h, not_le.1 hb⟩
  · simp [described_order]
  · simp [described_order]

theorem nodup_described_order (order : Order) (border : Int) (n : Nat) :
    (described_order order border n).Nodup := by
  cases order
  · simp only [described_order]
    rw [List.nodup_append]
    refine ⟨?_, ?_, ?_⟩
    · rw [List.nodup_reverse]
      exact (List.nodup_range n).filter _
    · exact (List.nodup_range n).filter _
    · intro i h1 h2
      simp only [List.mem_reverse, List.mem_filter, decide_eq_true_eq] at h1 h2
      omega
  · exact List.nodup_range n
  · simp only [described_order]
    rw [List.nodup_reverse]
    exact List.nodup_range n

theorem collect_active_indices (ops : Components State L TS HR D) (acc : GroupAccess TS)
    (fts : FactoredTransitionSystem L TS HR D) :
    ∀ (l : List Nat) (entries : List (Int × List Int)),
      collect_active ops acc fts (l.map Int.ofNat) = some entries →
      entries.map Prod.fst
        = (l.filter fun i => decide (fts.is_index_valid i = some true)).map Int.ofNat := by
  intro l
  induction l with
  | nil =>
    intro entries h
    rw [← Option.some.inj h]
    rfl
  | cons i rest ih =>
    intro entries h
    have hnn : ¬ (Int.ofNat i < 0) := not_lt.2 (Int.ofNat_nonneg i)
    simp only [List.map_cons, collect_active, is_active_at, hnn, if_false,
      FactoredTransitionSystem.is_active, Int.toNat_ofNat, Option.bind_eq_some] at h
    obtain ⟨active, hact, h⟩ := h
    have htn : (Int.ofNat i).toNat = i := rfl
    rw [htn] at hact
    cases active
    · simp only [Bool.false_eq_true, if_false] at h
      rw [ih entries h, List.filter_cons]
      simp [hact]
    · simp only [if_true, Option.bind_eq_some, Option.map_eq_some'] at h
      obtain ⟨ranks, _, es, hes, rfl⟩ := h
      rw [List.map_cons, ih es hes, List.filter_cons]
      simp [hact]

/-- C18: the traversal list that `get_next` builds holds every active index
exactly once and no inactive one, in this order: for `DFP` the composite
indices in decreasing order followed by the atomic ones in increasing order,
for `REGULAR` in increasing and for `INVERSE` in decreasing order. (The border
between atomic and composite indices lies within the slots.) -/
theorem traversal_list_is_described_order (ops : Components State L TS HR D)
    (acc : GroupAccess TS) (dfp : MergeDFP) (fts : FactoredTransitionSystem L TS HR D)
    (entries : List (Int × List Int))
    (hborder0 : 0 ≤ dfp.border_atomics_composites)
    (hborder : dfp.border_atomics_composites ≤ (fts.size : Int))
    (hentries : sorted_active_entries ops acc dfp fts = some entries) :
    entries.map Prod.fst
      = ((described_order dfp.order dfp.border_atomics_composites fts.size).filter
          fun i => decide (fts.is_index_valid i = some true)).map Int.ofNat ∧
    (entries.map Prod.fst).Nodup ∧
    (∀ i : Nat, Int.ofNat i ∈ entries.map Prod.fst ↔ fts.is_active i = some true) := by
  unfold sorted_active_entries at hentries
  rw [visiting_order_eq dfp fts.size hborder0 hborder] at hentries
  have hmap := collect_active_indices ops acc fts _ entries hentries
  refine ⟨hmap, ?_, ?_⟩
  · rw [hmap]
    apply List.Nodup.map
    · intro a b hab
      exact Int.ofNat.inj hab
    · exact (nodup_described_order _ _ _).filter _
  · intro i
    rw [hmap, List.mem_map]
    constructor
    · rintro ⟨j, hj, hji⟩
      have : j = i := Int.ofNat.inj hji
      subst this
      simpa using (List.mem_filter.1 hj).2
    · intro h
      refine ⟨i, ?_, rfl⟩
      rw [List.mem_filter, mem_described_order]
      refine ⟨?_, by simpa using h⟩
      exact (Finset.mem_range.1 (Finset.mem_filter.1
        ((FactoredTransitionSystem.mem_live_indices fts i).2 h)).1)

end MergeDFP

namespace MergeDFP

set_option maxRecDepth 100000 in
theorem traversal_list_is_described_order_witness :
    (0 ≤ dfpThree.border_atomics_composites ∧
      dfpThree.border_atomics_composites ≤ (specAtomsMerged.size : Int) ∧
      sorted_active_entries specComponents specAccess dfpThree specAtomsMerged
        = some [(3, [-1, 0, 0]), (0, [0, -1, -1])]) ∧
    (([(3, [-1, 0, 0]), (0, [0, -1, -1])] : List (Int × List Int)).map Prod.fst
      = ((described_order dfpThree.order dfpThree.border_atomics_composites
          specAtomsMerged.size).filter
          fun i => decide (specAtomsMerged.is_index_valid i = some true)).map Int.ofNat ∧
    (([(3, [-1, 0, 0]), (0, [0, -1, -1])] : List (Int × List Int)).map Prod.fst).Nodup ∧
    (∀ i : Nat, Int.ofNat i ∈
        ([(3, [-1, 0, 0]), (0, [0, -1, -1])] : List (Int × List Int)).map Prod.fst ↔
      specAtomsMerged.is_active i = some true)) :=
  ⟨⟨by decide, by decide, by rfl⟩,
    traversal_list_is_described_order specComponents specAccess dfpThree specAtomsMerged
      [(3, [-1, 0, 0]), (0, [0, -1, -1])] (by decide) (by decide) (by rfl)⟩

end MergeDFP

/-! ## MergeDFP: label ranks -/

namespace MergeDFP

variable {State L TS HR D : Type}

theorem assign_rank_spec (r : Int) : ∀ (ls : List Nat) (ranks : List Int),
    (∀ l ∈ ls, l < ranks.length) →
    ∃ ranks', assign_rank r ranks ls = some ranks' ∧ ranks'.length = ranks.length ∧
      (∀ l ∈ ls, ranks'[l]? = some r) ∧ (∀ i, i ∉ ls → ranks'[i]? = ranks[i]?) := by
  intro ls
  induction ls with
  | nil =>
    intro ranks _
    exact ⟨ranks, rfl, rfl, fun l hl => absurd hl (List.not_mem_nil l), fun _ _ => rfl⟩
  | cons l rest ih =>
    intro ranks hlt
    have hl : l < ranks.length := hlt l (List.mem_cons_self _ _)
    have hrest : ∀ k ∈ rest, k < (ranks.set l r).length := by
      intro k hk
      rw [List.length_set]
      exact hlt k (List.mem_cons_of_mem _ hk)
    obtain ⟨ranks', h1, h2, h3, h4⟩ := ih (ranks.set l r) hrest
    refine ⟨ranks', ?_, ?_, ?_, ?_⟩
    · simp only [assign_rank, assign, hl, if_true, Option.some_bind]
      exact h1
    · rw [h2, List.length_set]
    · intro k hk
      by_cases hkr : k ∈ rest
      · exact h3 k hkr
      · have hkl : k = l := by
          rcases List.mem_cons.1 hk with h | h
          · exact h
          · exact absurd h hkr
        subst hkl
        rw [h4 k hkr, List.getElem?_set]
        simp [hl]
    · intro i hi
      have hir : i ∉ rest := fun h => hi (List.mem_cons_of_mem _ h)
      have hil : l ≠ i := fun h => hi (h ▸ List.mem_cons_self _ _)
      rw [h4 i hir, List.getElem?_set]
      simp [hil]

theorem rank_groups_spec (ops : Components State L TS HR D) (d : D) (size : Nat) :
    ∀ (groups : List LabelGroup) (ranks : List Int),
    (∀ g ∈ groups, ∀ l ∈ g.labels, l < ranks.length) →
    (groups.flatMap LabelGroup.labels).Nodup →
    ∃ ranks', rank_groups ops d size groups ranks = some ranks' ∧
      ranks'.length = ranks.length ∧
      (∀ g ∈ groups, ∀ l ∈ g.labels, ranks'[l]? = some (group_rank ops d size g)) ∧
      (∀ i, (∀ g ∈ groups, i ∉ g.labels) → ranks'[i]? = ranks[i]?) := by
  intro groups
  induction groups with
  | nil =>
    intro ranks _ _
    exact ⟨ranks, rfl, rfl, fun g hg => absurd hg (List.not_mem_nil g), fun _ _ => rfl⟩
  | cons g rest ih =>
    intro ranks hlt hnd
    rw [List.flatMap_cons, List.nodup_append] at hnd
    obtain ⟨_, hndrest, hdisj⟩ := hnd
    obtain ⟨ranks1, a1, a2, a3, a4⟩ :=
      assign_rank_spec (group_rank ops d size g) g.labels ranks (hlt g (List.mem_cons_self _ _))
    have hrest : ∀ g' ∈ rest, ∀ l ∈ g'.labels, l < ranks1.length := by
      intro g' hg' l hl
      rw [a2]
      exact hlt g' (List.mem_cons_of_mem _ hg') l hl
    obtain ⟨ranks', h1, h2, h3, h4⟩ := ih ranks1 hrest hndrest
    refine ⟨ranks', ?_, ?_, ?_, ?_⟩
    · simp only [rank_groups, a1, Option.some_bind]
      exact h1
    · rw [h2, a2]
    · intro g' hg' l hl
      rcases List.mem_cons.1 hg' with h | h
      · subst h
        have hnot : ∀ g'' ∈ rest, l ∉ g''.labels := by
          intro g'' hg'' hl''
          exact hdisj hl (List.mem_flatMap.2 ⟨g'', hg'', hl''⟩)
        rw [h4 l hnot]
        exact a3 l hl
      · exact h3 g' h l hl
    · intro i hi
      rw [h4 i (fun g' hg' => hi g' (List.mem_cons_of_mem _ hg'))]
      exact a4 i (hi g (List.mem_cons_self _ _))

theorem foldl_min_spec (f : Transition → Int) : ∀ (ts : List Transition) (start : Int),
    ts.foldl (fun r t => min r (f t)) start ≤ start ∧
    (∀ t ∈ ts, ts.foldl (fun r t => min r (f t)) start ≤ f t) ∧
    (ts.foldl (fun r t => min r (f t)) start = start ∨
      ∃ t ∈ ts, ts.foldl (fun r t => min r (f t)) start = f t) := by
  intro ts
  induction ts with
  | nil =>
    intro start
    exact ⟨le_refl _, fun t ht => absurd ht (List.not_mem_nil t), Or.inl rfl⟩
  | cons t rest ih =>
    intro start
    obtain ⟨h1, h2, h3⟩ := ih (min start (f t))
    simp only [List.foldl_cons]
    refine ⟨le_trans h1 (min_le_left _ _), ?_, ?_⟩
    · intro u hu
      rcases List.mem_cons.1 hu with h | h
      · subst h
        exact le_trans h1 (min_le_right _ _)
      · exact h2 u h
    · rcases h3 with h | ⟨u, hu, h⟩
      · rcases min_choice start (f t) with hm | hm
        · exact Or.inl (h.trans hm)
        · exact Or.inr ⟨t, List.mem_cons_self _ _, h.trans hm⟩
      · exact Or.inr ⟨u, List.mem_cons_of_mem _ hu, h⟩

theorem group_rank_of_irrelevant (ops : Components State L TS HR D) (d : D) (size : Nat)
    (g : LabelGroup) (h : irrelevant size g = true) : group_rank ops d size g = -1 := by
  unfold irrelevant at h
  simp only [Bool.and_eq_true, decide_eq_true_eq, List.all_eq_true] at h
  have hany : (g.transitions.any fun t => decide (t.target ≠ t.src)) = false := by
    rw [List.any_eq_false]
    intro t ht
    simpa using h.2 t ht
  unfold group_rank
  simp only [h.1, if_true, hany]
  rfl

theorem group_rank_of_relevant (ops : Components State L TS HR D) (d : D) (size : Nat)
    (g : LabelGroup) (h : irrelevant size g = false) :
    group_rank ops d size g = g.transitions.foldl
      (fun label_rank t => min label_rank (ops.dist_get_goal_distance d (t.target : Int)))
      ops.INF := by
  unfold irrelevant at h
  unfold group_rank
  by_cases hlen : g.transitions.length = size
  · simp only [hlen, decide_True, Bool.true_and] at h
    have hany : (g.transitions.any fun t => decide (t.target ≠ t.src)) = true := by
      rw [← Bool.not_eq_false, List.any_eq_false]
      intro hall
      have : (g.transitions.all fun t => decide (t.target = t.src)) = true := by
        rw [List.all_eq_true]
        intro t ht
        simpa using hall t ht
      rw [this] at h
      cases h
    simp only [hlen, if_true, hany]
    rfl
  · simp only [hlen, if_false]
    rfl

end MergeDFP

namespace MergeDFP

variable {State L TS HR D : Type}

/-- C19, as the claim words it: on a live component with no states, the label
of a group without transitions gets the rank -1, not `INF`. The component is
the one the constructor leaves of `stuck_atom` when it does not finalize. -/
theorem label_without_transitions_ranked_irrelevant :
    specStuck.is_active 0 = some true ∧
    (specStuck.transition_systems[0]?.join.map fun ts =>
      ts.label_groups.map fun g => (g.labels, g.transitions)) = some [([0], [])] ∧
    compute_label_ranks specComponents specAccess specStuck 0 [] = some [-1] ∧
    (-1 : Int) ≠ specComponents.INF := by
  refine ⟨by rfl, by rfl, by rfl, by decide⟩

/-- C19 (amended): for a live component, `compute_label_ranks`, called on an
empty vector as `get_next` does, returns a vector with one entry per label, in
which a label of an irrelevant group has rank -1, a label of a group without
transitions has rank `INF` provided the component has at least one state, a
label of a relevant group with transitions has the least goal distance of the
targets of the group's transitions, and a label of no group has rank -1. (The
labels of the groups are label numbers, no label is in two groups, and no goal
distance exceeds `INF`.) -/
theorem compute_label_ranks_assigns_ranks (ops : Components State L TS HR D)
    (acc : GroupAccess TS) (fts : FactoredTransitionSystem L TS HR D) (index : Nat)
    (c : Component TS HR D)
    (hlive : fts.get_component index = some c)
    (hlabels : ∀ g ∈ acc.ts_label_groups c.ts, ∀ l ∈ g.labels,
      (l : Int) < FactoredTransitionSystem.get_num_labels ops fts)
    (hgroups : ((acc.ts_label_groups c.ts).flatMap LabelGroup.labels).Nodup)
    (hinf : ∀ s, ops.dist_get_goal_distance c.dist s ≤ ops.INF) :
    ∃ ranks, compute_label_ranks ops acc fts index [] = some ranks ∧
      ranks.length = (FactoredTransitionSystem.get_num_labels ops fts).toNat ∧
      (∀ g ∈ acc.ts_label_groups c.ts, ∀ l ∈ g.labels, ∃ r, ranks[l]? = some r ∧
        (irrelevant (ops.ts_get_size c.ts) g = true → r = -1) ∧
        (g.transitions = [] → 0 < ops.ts_get_size c.ts → r = ops.INF) ∧
        (irrelevant (ops.ts_get_size c.ts) g = false → g.transitions ≠ [] →
          (∃ t ∈ g.transitions, r = ops.dist_get_goal_distance c.dist (t.target : Int)) ∧
          ∀ t ∈ g.transitions, r ≤ ops.dist_get_goal_distance c.dist (t.target : Int))) ∧
      (∀ l : Nat, (l : Int) < FactoredTransitionSystem.get_num_labels ops fts →
        (∀ g ∈ acc.ts_label_groups c.ts, l ∉ g.labels) → ranks[l]? = some (-1)) := by
  obtain ⟨h1, _, h3⟩ := (FactoredTransitionSystem.get_component_eq_some_iff fts index c).1 hlive
  have hresize : resize [] (FactoredTransitionSystem.get_num_labels ops fts).toNat (-1)
      = List.replicate (FactoredTransitionSystem.get_num_labels ops fts).toNat (-1) := by
    simp [resize]
  have hlt : ∀ g ∈ acc.ts_label_groups c.ts, ∀ l ∈ g.labels,
      l < (List.replicate (FactoredTransitionSystem.get_num_labels ops fts).toNat
        (-1 : Int)).length := by
    intro g hg l hl
    have := hlabels g hg l hl
    rw [List.length_replicate]
    omega
  obtain ⟨ranks, r1, r2, r3, r4⟩ := rank_groups_spec ops c.dist (ops.ts_get_size c.ts)
    (acc.ts_label_groups c.ts) _ hlt hgroups
  refine ⟨ranks, ?_, ?_, ?_, ?_⟩
  · unfold compute_label_ranks
    rw [(deref_eq_some_iff _ _ _).2 h1, (deref_eq_some_iff _ _ _).2 h3]
    simp only [Option.some_bind, hresize]
    exact r1
  · rw [r2, List.length_replicate]
  · intro g hg l hl
    refine ⟨_, r3 g hg l hl, ?_, ?_, ?_⟩
    · exact group_rank_of_irrelevant ops c.dist _ g
    · intro hnil hpos
      have hrel : irrelevant (ops.ts_get_size c.ts) g = false := by
        unfold irrelevant
        rw [hnil]
        simp only [List.length_nil, List.all_nil, Bool.and_true, decide_eq_false_iff_not]
        omega
      rw [group_rank_of_relevant ops c.dist _ g hrel, hnil]
      rfl
    · intro hrel hne
      rw [group_rank_of_relevant ops c.dist _ g hrel]
      obtain ⟨f1, f2, f3⟩ := foldl_min_spec
        (fun t => ops.dist_get_goal_distance c.dist (t.target : Int)) g.transitions ops.INF
      refine ⟨?_, f2⟩
      rcases f3 with h | h
      · obtain ⟨t, ht⟩ := List.exists_mem_of_ne_nil _ hne
        refine ⟨t, ht, le_antisymm (f2 t ht) ?_⟩
        rw [h]
        exact hinf _
      · exact h
  · intro l hl hno
    rw [r4 l hno, List.getElem?_replicate]
    have : l < (FactoredTransitionSystem.get_num_labels ops fts).toNat := by omega
    simp [this]

end MergeDFP

theorem Distances.get_goal_distance_le_INF (d : Distances)
    (h : ∀ x ∈ d.goal_distances, x ≤ INF) (s : Int) : d.get_goal_distance s ≤ INF := by
  unfold Distances.get_goal_distance
  by_cases hs : s < 0
  · simp [hs]
  · simp only [hs, if_false]
    rcases hx : d.goal_distances[s.toNat]? with _ | x
    · exact le_refl _
    · obtain ⟨hlt, hget⟩ := List.getElem?_eq_some.1 hx
      exact h x (hget ▸ List.getElem_mem hlt)

namespace MergeDFP

theorem compute_label_ranks_assigns_ranks_witness :
    (specAtoms.get_component 0 = some ⟨binary_atom 3 0, HeuristicRepresentation.new_leaf 0 2,
        { init_distances := [0, 1], goal_distances := [1, 0], computed := true }⟩ ∧
      compute_label_ranks specComponents specAccess specAtoms 0 [] = some [0, -1, -1]) ∧
    ∃ ranks, compute_label_ranks specComponents specAccess specAtoms 0 [] = some ranks ∧
      ranks.length = (FactoredTransitionSystem.get_num_labels specComponents specAtoms).toNat ∧
      (∀ g ∈ specAccess.ts_label_groups (binary_atom 3 0), ∀ l ∈ g.labels,
        ∃ r, ranks[l]? = some r ∧
        (irrelevant (specComponents.ts_get_size (binary_atom 3 0)) g = true → r = -1) ∧
        (g.transitions = [] → 0 < specComponents.ts_get_size (binary_atom 3 0) →
          r = specComponents.INF) ∧
        (irrelevant (specComponents.ts_get_size (binary_atom 3 0)) g = false →
          g.transitions ≠ [] →
          (∃ t ∈ g.transitions, r = specComponents.dist_get_goal_distance
            { init_distances := [0, 1], goal_distances := [1, 0], computed := true }
            (t.target : Int)) ∧
          ∀ t ∈ g.transitions, r ≤ specComponents.dist_get_goal_distance
            { init_distances := [0, 1], goal_distances := [1, 0], computed := true }
            (t.target : Int))) ∧
      (∀ l : Nat, (l : Int) < FactoredTransitionSystem.get_num_labels specComponents specAtoms →
        (∀ g ∈ specAccess.ts_label_groups (binary_atom 3 0), l ∉ g.labels) →
        ranks[l]? = some (-1)) :=
  ⟨⟨by rfl, by rfl⟩,
    compute_label_ranks_assigns_ranks specComponents specAccess specAtoms 0
      ⟨binary_atom 3 0, HeuristicRepresentation.new_leaf 0 2,
        { init_distances := [0, 1], goal_distances := [1, 0], computed := true }⟩
      (by rfl) (by decide) (by decide)
      (Distances.get_goal_distance_le_INF _ (by decide))⟩

end MergeDFP

/-! ## MergeDFP: the choice of the next pair -/

namespace MergeDFP

variable {State L TS HR D : Type}

theorem common_ranks_cons (a b : Int) (r1 r2 : List Int) :
    common_ranks (a :: r1) (b :: r2)
      = if a ≠ -1 ∧ b ≠ -1 then max a b :: common_ranks r1 r2 else common_ranks r1 r2 := by
  unfold common_ranks
  by_cases h : a ≠ -1 ∧ b ≠ -1
  · simp only [List.zip_cons_cons, List.filter_cons, h, and_self, decide_True, if_true,
      List.map_cons, not_false_eq_true, ne_eq]
  · simp only [List.zip_cons_cons, List.filter_cons, h, decide_False, if_false,
      Bool.false_eq_true]

theorem pair_weight_from_eq_foldl : ∀ (r1 r2 : List Int) (w : Int),
    pair_weight_from w r1 r2 = (common_ranks r1 r2).foldl min w := by
  intro r1
  induction r1 with
  | nil =>
    intro r2 w
    cases r2 <;> rfl
  | cons a r1 ih =>
    intro r2 w
    cases r2 with
    | nil => rfl
    | cons b r2 =>
      rw [common_ranks_cons]
      unfold pair_weight_from
      rw [ih]
      by_cases h : a ≠ -1 ∧ b ≠ -1
      · simp only [if_pos h, List.foldl_cons]
      · simp only [if_neg h]

theorem foldl_min_eq_weight (inf : Int) : ∀ l : List Int, (∀ x ∈ l, x ≤ inf) →
    l.foldl min inf = (match l.min? with
      | none => inf
      | some w => w) := by
  intro l h
  cases l with
  | nil => rfl
  | cons x xs =>
    have hx : min inf x = x := min_eq_right (h x (List.mem_cons_self _ _))
    simp only [List.foldl_cons, hx]
    rfl

theorem mem_common_ranks (r1 r2 : List Int) (x : Int) (h : x ∈ common_ranks r1 r2) :
    ∃ a ∈ r1, ∃ b ∈ r2, a ≠ -1 ∧ b ≠ -1 ∧ x = max a b := by
  unfold common_ranks at h
  simp only [List.mem_map, List.mem_filter, decide_eq_true_eq] at h
  obtain ⟨p, ⟨hp, ha, hb⟩, rfl⟩ := h
  exact ⟨p.1, (List.of_mem_zip hp).1, p.2, (List.of_mem_zip hp).2, ha, hb, rfl⟩

/-- On vectors of label ranks in which every rank is -1 or at most `inf`, the
weight that the loop computes is the weight of the pair. -/
theorem pair_weight_from_eq_weight (inf : Int) (r1 r2 : List Int)
    (h1 : ∀ r ∈ r1, r = -1 ∨ r ≤ inf) (h2 : ∀ r ∈ r2, r = -1 ∨ r ≤ inf) :
    pair_weight_from inf r1 r2 = weight inf r1 r2 := by
  rw [pair_weight_from_eq_foldl]
  unfold weight
  apply foldl_min_eq_weight
  intro x hx
  obtain ⟨a, ha, b, hb, hna, hnb, rfl⟩ := mem_common_ranks r1 r2 x hx
  rcases h1 a ha with h | h
  · exact absurd h hna
  rcases h2 b hb with h' | h'
  · exact absurd h' hnb
  exact max_le h h'

theorem assign_rank_mem (r : Int) : ∀ (ls : List Nat) (ranks ranks' : List Int),
    assign_rank r ranks ls = some ranks' →
    ranks'.length = ranks.length ∧ ∀ x ∈ ranks', x ∈ ranks ∨ x = r := by
  intro ls
  induction ls with
  | nil =>
    intro ranks ranks' h
    rw [← Option.some.inj h]
    exact ⟨rfl, fun x hx => Or.inl hx⟩
  | cons l rest ih =>
    intro ranks ranks' h
    simp only [assign_rank, Option.bind_eq_some, assign_eq_some_iff] at h
    obtain ⟨ranks1, ⟨_, rfl⟩, h⟩ := h
    obtain ⟨h1, h2⟩ := ih _ _ h
    refine ⟨by rw [h1, List.length_set], ?_⟩
    intro x hx
    rcases h2 x hx with hm | hm
    · exact List.mem_or_eq_of_mem_set hm
    · exact Or.inr hm

theorem group_rank_bounded (ops : Components State L TS HR D) (d : D) (size : Nat)
    (g : LabelGroup) : group_rank ops d size g = -1 ∨ group_rank ops d size g ≤ ops.INF := by
  rcases hrel : irrelevant size g with _ | _
  · right
    rw [group_rank_of_relevant ops d size g hrel]
    exact (foldl_min_spec _ g.transitions ops.INF).1
  · left
    exact group_rank_of_irrelevant ops d size g hrel

theorem rank_groups_mem (ops : Components State L TS HR D) (d : D) (size : Nat) :
    ∀ (groups : List LabelGroup) (ranks ranks' : List Int),
    rank_groups ops d size groups ranks = some ranks' →
    ranks'.length = ranks.length ∧
      ∀ x ∈ ranks', x ∈ ranks ∨ x = -1 ∨ x ≤ ops.INF := by
  intro groups
  induction groups with
  | nil =>
    intro ranks ranks' h
    rw [← Option.some.inj h]
    exact ⟨rfl, fun x hx => Or.inl hx⟩
  | cons g rest ih =>
    intro ranks ranks' h
    simp only [rank_groups, Option.bind_eq_some] at h
    obtain ⟨ranks1, h1, h⟩ := h
    obtain ⟨a1, a2⟩ := assign_rank_mem _ _ _ _ h1
    obtain ⟨b1, b2⟩ := ih _ _ h
    refine ⟨by rw [b1, a1], ?_⟩
    intro x hx
    rcases b2 x hx with hm | hm
    · rcases a2 x hm with hm' | hm'
      · exact Or.inl hm'
      · right
        rw [hm']
        exact group_rank_bounded ops d size g
    · exact Or.inr hm

theorem compute_label_ranks_bounded (ops : Components State L TS HR D) (acc : GroupAccess TS)
    (fts : FactoredTransitionSystem L TS HR D) (index : Nat) (ranks : List Int)
    (h : compute_label_ranks ops acc fts index [] = some ranks) :
    ranks.length = (FactoredTransitionSystem.get_num_labels ops fts).toNat ∧
      ∀ r ∈ ranks, r = -1 ∨ r ≤ ops.INF := by
  unfold compute_label_ranks at h
  simp only [Option.bind_eq_some] at h
  obtain ⟨ts, _, d, _, h⟩ := h
  obtain ⟨h1, h2⟩ := rank_groups_mem ops d _ _ _ _ h
  have hresize : resize [] (FactoredTransitionSystem.get_num_labels ops fts).toNat (-1)
      = List.replicate (FactoredTransitionSystem.get_num_labels ops fts).toNat (-1) := by
    simp [resize]
  rw [hresize] at h1 h2
  refine ⟨by rw [h1, List.length_replicate], ?_⟩
  intro r hr
  rcases h2 r hr with hm | hm
  · exact Or.inl (List.eq_of_mem_replicate hm)
  · exact hm

end MergeDFP

namespace MergeDFP

variable {State L TS HR D : Type}

theorem collect_active_mem (ops : Components State L TS HR D) (acc : GroupAccess TS)
    (fts : FactoredTransitionSystem L TS HR D) :
    ∀ (l : List Int) (entries : List (Int × List Int)),
      collect_active ops acc fts l = some entries →
      ∀ e ∈ entries, 0 ≤ e.1 ∧ compute_label_ranks ops acc fts e.1.toNat [] = some e.2 := by
  intro l
  induction l with
  | nil =>
    intro entries h e he
    rw [← Option.some.inj h] at he
    exact absurd he (List.not_mem_nil e)
  | cons i rest ih =>
    intro entries h e he
    simp only [collect_active, Option.bind_eq_some] at h
    obtain ⟨active, hact, h⟩ := h
    cases active
    · simp only [Bool.false_eq_true, if_false] at h
      exact ih entries h e he
    · simp only [if_true, Option.bind_eq_some, Option.map_eq_some'] at h
      obtain ⟨ranks, hranks, es, hes, rfl⟩ := h
      rcases List.mem_cons.1 he with h1 | h1
      · subst h1
        refine ⟨?_, hranks⟩
        unfold is_active_at at hact
        by_contra hneg
        rw [if_pos (not_le.1 hneg)] at hact
        cases hact
      · exact ih es hes e h1

theorem is_goal_relevant_at_of_ranks (ops : Components State L TS HR D) (acc : GroupAccess TS)
    (fts : FactoredTransitionSystem L TS HR D) (e : Int × List Int) (h0 : 0 ≤ e.1)
    (h : compute_label_ranks ops acc fts e.1.toNat [] = some e.2) :
    ∃ r, is_goal_relevant_at acc fts e.1 = some r := by
  unfold compute_label_ranks at h
  simp only [Option.bind_eq_some] at h
  obtain ⟨ts, hts, _⟩ := h
  refine ⟨acc.ts_is_goal_relevant ts, ?_⟩
  unfold is_goal_relevant_at
  rw [if_neg (not_lt.2 h0), hts]
  rfl

theorem consider_pair_eq (acc : GroupAccess TS) (fts : FactoredTransitionSystem L TS HR D)
    (inf : Int) (n : Nat) (hn : 0 < n) (e1 e2 : Int × List Int) (s : Search)
    (h1 : ∃ r, is_goal_relevant_at acc fts e1.1 = some r) (l1 : e1.2.length = n)
    (h2 : ∃ r, is_goal_relevant_at acc fts e2.1 = some r) (l2 : e2.2.length = n) :
    consider_pair acc fts inf e1 e2 s
      = some (if candidate acc fts (e1, e2) then record_pair inf e1 e2 s else s) := by
  obtain ⟨r1, hr1⟩ := h1
  obtain ⟨r2, hr2⟩ := h2
  have hne : e2.2.isEmpty = false := by
    cases h : e2.2 with
    | nil =>
      rw [h] at l2
      simp at l2
      omega
    | cons a as => rfl
  have hlen : decide (e1.2.length = e2.2.length) = true := by
    rw [l1, l2]
    exact decide_eq_true rfl
  unfold consider_pair candidate goal_relevant
  rw [hr1, hr2]
  cases r1 <;> cases r2 <;> simp [check, hne, hlen]

theorem inner_loop_eq (acc : GroupAccess TS) (fts : FactoredTransitionSystem L TS HR D)
    (inf : Int) (n : Nat) (hn : 0 < n) (e1 : Int × List Int)
    (h1 : ∃ r, is_goal_relevant_at acc fts e1.1 = some r) (l1 : e1.2.length = n) :
    ∀ (rest : List (Int × List Int)) (s : Search),
      (∀ e ∈ rest, (∃ r, is_goal_relevant_at acc fts e.1 = some r) ∧ e.2.length = n) →
      inner_loop acc fts inf e1 rest s
        = some (((rest.map fun b => (e1, b)).filter (candidate acc fts)).foldl
            (fun s p => record_pair inf p.1 p.2 s) s) := by
  intro rest
  induction rest with
  | nil =>
    intro s _
    rfl
  | cons e2 rest ih =>
    intro s hwf
    obtain ⟨h2, l2⟩ := hwf e2 (List.mem_cons_self _ _)
    unfold inner_loop
    rw [consider_pair_eq acc fts inf n hn e1 e2 s h1 l1 h2 l2, Option.some_bind,
      ih _ (fun e he => hwf e (List.mem_cons_of_mem _ he))]
    by_cases hc : candidate acc fts (e1, e2) = true
    · simp only [hc, if_true, List.map_cons, List.filter_cons, List.foldl_cons]
    · simp only [hc, if_false, List.map_cons, List.filter_cons, Bool.false_eq_true]

theorem outer_loop_eq (acc : GroupAccess TS) (fts : FactoredTransitionSystem L TS HR D)
    (inf : Int) (n : Nat) (hn : 0 < n) :
    ∀ (entries : List (Int × List Int)) (s : Search),
      (∀ e ∈ entries, (∃ r, is_goal_relevant_at acc fts e.1 = some r) ∧ e.2.length = n) →
      outer_loop acc fts inf entries s
        = some ((candidates acc fts entries).foldl (fun s p => record_pair inf p.1 p.2 s) s) := by
  intro entries
  induction entries with
  | nil =>
    intro s _
    rfl
  | cons e1 rest ih =>
    intro s hwf
    obtain ⟨h1, l1⟩ := hwf e1 (List.mem_cons_self _ _)
    have hrest : ∀ e ∈ rest, (∃ r, is_goal_relevant_at acc fts e.1 = some r) ∧ e.2.length = n :=
      fun e he => hwf e (List.mem_cons_of_mem _ he)
    have hne : e1.2.isEmpty = false := by
      cases h : e1.2 with
      | nil =>
        rw [h] at l1
        simp at l1
        omega
      | cons a as => rfl
    unfold outer_loop
    rw [hne, inner_loop_eq acc fts inf n hn e1 h1 l1 rest s hrest]
    simp only [Bool.not_false, check, if_true, Option.some_bind]
    rw [ih _ hrest]
    unfold candidates
    simp only [ordered_pairs, List.filter_append, List.foldl_append]

theorem mem_ordered_pairs {α : Type} : ∀ (l : List α) (p : α × α),
    p ∈ ordered_pairs l → p.1 ∈ l ∧ p.2 ∈ l := by
  intro l
  induction l with
  | nil =>
    intro p hp
    exact absurd hp (List.not_mem_nil p)
  | cons a rest ih =>
    intro p hp
    simp only [ordered_pairs, List.mem_append, List.mem_map] at hp
    rcases hp with ⟨b, hb, rfl⟩ | hp
    · exact ⟨List.mem_cons_self _ _, List.mem_cons_of_mem _ hb⟩
    · exact ⟨List.mem_cons_of_mem _ (ih p hp).1, List.mem_cons_of_mem _ (ih p hp).2⟩

end MergeDFP

namespace MergeDFP

variable {State L TS HR D : Type}

theorem record_pair_improving (inf : Int) (e1 e2 : Int × List Int) (s : Search)
    (h : pair_weight_from inf e1.2 e2.2 < s.minimum_weight) :
    (record_pair inf e1 e2 s).next_index1 = e1.1 ∧
    (record_pair inf e1 e2 s).next_index2 = e2.1 ∧
    (record_pair inf e1 e2 s).minimum_weight = pair_weight_from inf e1.2 e2.2 := by
  unfold record_pair
  simp [h]

theorem record_pair_not_improving (inf : Int) (e1 e2 : Int × List Int) (s : Search)
    (h : ¬ pair_weight_from inf e1.2 e2.2 < s.minimum_weight) :
    (record_pair inf e1 e2 s).next_index1 = s.next_index1 ∧
    (record_pair inf e1 e2 s).next_index2 = s.next_index2 ∧
    (record_pair inf e1 e2 s).minimum_weight = s.minimum_weight ∧
    (record_pair inf e1 e2 s).first_valid_pair_index1 = e1.1 ∧
    (record_pair inf e1 e2 s).first_valid_pair_index2 = e2.1 := by
  unfold record_pair
  simp [h]

theorem fold_keeps (inf : Int) :
    ∀ (cs : List ((Int × List Int) × (Int × List Int))) (s : Search),
      (∀ p ∈ cs, ¬ pair_weight_from inf p.1.2 p.2.2 < s.minimum_weight) →
      (cs.foldl (fun s p => record_pair inf p.1 p.2 s) s).next_index1 = s.next_index1 ∧
      (cs.foldl (fun s p => record_pair inf p.1 p.2 s) s).next_index2 = s.next_index2 ∧
      (cs.foldl (fun s p => record_pair inf p.1 p.2 s) s).minimum_weight = s.minimum_weight := by
  intro cs
  induction cs with
  | nil =>
    intro s _
    exact ⟨rfl, rfl, rfl⟩
  | cons c rest ih =>
    intro s h
    obtain ⟨a1, a2, a3, _, _⟩ :=
      record_pair_not_improving inf c.1 c.2 s (h c (List.mem_cons_self _ _))
    have hrest : ∀ p ∈ rest, ¬ pair_weight_from inf p.1.2 p.2.2
        < (record_pair inf c.1 c.2 s).minimum_weight := by
      intro p hp
      rw [a3]
      exact h p (List.mem_cons_of_mem _ hp)
    obtain ⟨b1, b2, b3⟩ := ih _ hrest
    simp only [List.foldl_cons]
    exact ⟨b1.trans a1, b2.trans a2, b3.trans a3⟩

theorem fold_first_min (inf : Int) :
    ∀ (cs : List ((Int × List Int) × (Int × List Int))) (s : Search),
      (∃ p ∈ cs, pair_weight_from inf p.1.2 p.2.2 < s.minimum_weight) →
      ∃ pre c post, cs = pre ++ c :: post ∧
        (cs.foldl (fun s p => record_pair inf p.1 p.2 s) s).next_index1 = c.1.1 ∧
        (cs.foldl (fun s p => record_pair inf p.1 p.2 s) s).next_index2 = c.2.1 ∧
        (cs.foldl (fun s p => record_pair inf p.1 p.2 s) s).minimum_weight
          = pair_weight_from inf c.1.2 c.2.2 ∧
        pair_weight_from inf c.1.2 c.2.2 < s.minimum_weight ∧
        (∀ p ∈ pre, pair_weight_from inf c.1.2 c.2.2 < pair_weight_from inf p.1.2 p.2.2) ∧
        (∀ p ∈ post, pair_weight_from inf c.1.2 c.2.2 ≤ pair_weight_from inf p.1.2 p.2.2) := by
  intro cs
  induction cs with
  | nil =>
    rintro s ⟨p, hp, _⟩
    exact absurd hp (List.not_mem_nil p)
  | cons c rest ih =>
    intro s hex
    simp only [List.foldl_cons]
    by_cases hc : pair_weight_from inf c.1.2 c.2.2 < s.minimum_weight
    · obtain ⟨a1, a2, a3⟩ := record_pair_improving inf c.1 c.2 s hc
      by_cases hbetter : ∃ p ∈ rest, pair_weight_from inf p.1.2 p.2.2
          < (record_pair inf c.1 c.2 s).minimum_weight
      · obtain ⟨pre, c', post, e, b1, b2, b3, b4, b5, b6⟩ := ih _ hbetter
        rw [a3] at b4
        refine ⟨c :: pre, c', post, by rw [e]; rfl, b1, b2, b3, lt_trans b4 hc, ?_, b6⟩
        intro p hp
        rcases List.mem_cons.1 hp with h | h
        · rw [h]
          exact b4
        · exact b5 p h
      · have hkeep : ∀ p ∈ rest, ¬ pair_weight_from inf p.1.2 p.2.2
            < (record_pair inf c.1 c.2 s).minimum_weight :=
          fun p hp hlt => hbetter ⟨p, hp, hlt⟩
        obtain ⟨k1, k2, k3⟩ := fold_keeps inf rest _ hkeep
        refine ⟨[], c, rest, rfl, k1.trans a1, k2.trans a2, k3.trans a3, hc, ?_, ?_⟩
        · intro p hp
          exact absurd hp (List.not_mem_nil p)
        · intro p hp
          have := hkeep p hp
          rw [a3] at this
          exact not_lt.1 this
    · obtain ⟨a1, a2, a3, _, _⟩ := record_pair_not_improving inf c.1 c.2 s hc
      have hbetter : ∃ p ∈ rest, pair_weight_from inf p.1.2 p.2.2
          < (record_pair inf c.1 c.2 s).minimum_weight := by
        obtain ⟨p, hp, hlt⟩ := hex
        rcases List.mem_cons.1 hp with h | h
        · rw [h] at hlt
          exact absurd hlt hc
        · exact ⟨p, h, by rw [a3]; exact hlt⟩
      obtain ⟨pre, c', post, e, b1, b2, b3, b4, b5, b6⟩ := ih _ hbetter
      rw [a3] at b4
      refine ⟨c :: pre, c', post, by rw [e]; rfl, b1, b2, b3, b4, ?_, b6⟩
      intro p hp
      rcases List.mem_cons.1 hp with h | h
      · rw [h]
        exact lt_of_lt_of_le b4 (not_lt.1 hc)
      · exact b5 p h

theorem choose_pair_of_found (inf : Int) (entries : List (Int × List Int)) (s : Search)
    (h1 : 0 ≤ s.next_index1) (h2 : 0 ≤ s.next_index2) :
    choose_pair inf entries s = some (s.next_index1, s.next_index2) := by
  have n1 : s.next_index1 ≠ -1 := by omega
  have n2 : s.next_index2 ≠ -1 := by omega
  unfold choose_pair
  simp [n1, n2, check]

/-- What `sorted_active_entries` guarantees of every entry: its index is not
negative, the goal relevance of its component can be asked for, and its label
ranks, one per label, are -1 or at most `INF`. -/
theorem sorted_active_entries_mem (ops : Components State L TS HR D) (acc : GroupAccess TS)
    (dfp : MergeDFP) (fts : FactoredTransitionSystem L TS HR D)
    (entries : List (Int × List Int))
    (h : sorted_active_entries ops acc dfp fts = some entries) :
    ∀ e ∈ entries, 0 ≤ e.1 ∧ (∃ r, is_goal_relevant_at acc fts e.1 = some r) ∧
      e.2.length = (FactoredTransitionSystem.get_num_labels ops fts).toNat ∧
      ∀ r ∈ e.2, r = -1 ∨ r ≤ ops.INF := by
  intro e he
  unfold sorted_active_entries at h
  simp only [Option.bind_eq_some] at h
  obtain ⟨order, _, h⟩ := h
  obtain ⟨h0, hr⟩ := collect_active_mem ops acc fts order entries h e he
  obtain ⟨hl, hb⟩ := compute_label_ranks_bounded ops acc fts _ _ hr
  exact ⟨h0, is_goal_relevant_at_of_ranks ops acc fts e h0 hr, hl, hb⟩

end MergeDFP

namespace MergeDFP

variable {State L TS HR D : Type}

theorem ranks_nonempty_of_weight_lt (inf : Int) (r1 r2 : List Int)
    (h : weight inf r1 r2 < inf) : 0 < r1.length := by
  cases r1 with
  | nil =>
    have : weight inf [] r2 = inf := rfl
    rw [this] at h
    exact absurd h (lt_irrefl _)
  | cons a as => exact Nat.succ_pos _

/-- C16: in `get_next`, when some candidate (a pair of positions `i < j` of the
traversal list of which at least one component is goal relevant) has a weight
below `INF`, the pair returned is a candidate of minimum weight, and the first
such candidate in traversal order: all candidates before it are strictly
heavier, all candidates after it are at least as heavy. -/
theorem get_next_returns_first_lightest_candidate (ops : Components State L TS HR D)
    (acc : GroupAccess TS) (dfp : MergeDFP) (fts : FactoredTransitionSystem L TS HR D)
    (entries : List (Int × List Int))
    (hinit : dfp.initialized = true) (hdone : dfp.done = false)
    (hentries : sorted_active_entries ops acc dfp fts = some entries)
    (hfinite : ∃ p ∈ candidates acc fts entries, entry_weight ops.INF p < ops.INF) :
    ∃ pre c post, candidates acc fts entries = pre ++ c :: post ∧
      get_next ops acc dfp fts
        = some ((c.1.1, c.2.1), { dfp with remaining_merges := dfp.remaining_merges - 1 }) ∧
      (∀ p ∈ pre, entry_weight ops.INF c < entry_weight ops.INF p) ∧
      (∀ p ∈ post, entry_weight ops.INF c ≤ entry_weight ops.INF p) := by
  have hmem := sorted_active_entries_mem ops acc dfp fts entries hentries
  have hpair : ∀ p ∈ candidates acc fts entries, p.1 ∈ entries ∧ p.2 ∈ entries :=
    fun p hp => mem_ordered_pairs entries p (List.mem_filter.1 hp).1
  have hw : ∀ p ∈ candidates acc fts entries,
      pair_weight_from ops.INF p.1.2 p.2.2 = entry_weight ops.INF p := by
    intro p hp
    exact pair_weight_from_eq_weight ops.INF p.1.2 p.2.2 (hmem p.1 (hpair p hp).1).2.2.2
      (hmem p.2 (hpair p hp).2).2.2.2
  have hn : 0 < (FactoredTransitionSystem.get_num_labels ops fts).toNat := by
    obtain ⟨p, hp, hlt⟩ := hfinite
    rw [← (hmem p.1 (hpair p hp).1).2.2.1]
    exact ranks_nonempty_of_weight_lt ops.INF p.1.2 p.2.2 hlt
  have hwf : ∀ e ∈ entries, (∃ r, is_goal_relevant_at acc fts e.1 = some r) ∧
      e.2.length = (FactoredTransitionSystem.get_num_labels ops fts).toNat :=
    fun e he => ⟨(hmem e he).2.1, (hmem e he).2.2.1⟩
  have houter := outer_loop_eq acc fts ops.INF _ hn entries
    { next_index1 := -1, next_index2 := -1, first_valid_pair_index1 := -1,
      first_valid_pair_index2 := -1, minimum_weight := ops.INF } hwf
  have hex : ∃ p ∈ candidates acc fts entries,
      pair_weight_from ops.INF p.1.2 p.2.2 < ops.INF := by
    obtain ⟨p, hp, hlt⟩ := hfinite
    exact ⟨p, hp, by rw [hw p hp]; exact hlt⟩
  obtain ⟨pre, c, post, e, b1, b2, _, _, b5, b6⟩ :=
    fold_first_min ops.INF (candidates acc fts entries) ⟨-1, -1, -1, -1, ops.INF⟩ hex
  have hc : c ∈ candidates acc fts entries := by
    rw [e]
    exact List.mem_append_right _ (List.mem_cons_self _ _)
  refine ⟨pre, c, post, e, ?_, ?_, ?_⟩
  · have h1 : 0 ≤ c.1.1 := (hmem c.1 (hpair c hc).1).1
    have h2 : 0 ≤ c.2.1 := (hmem c.2 (hpair c hc).2).1
    unfold get_next
    rw [hinit, hentries]
    simp only [hdone, Bool.not_false, check, if_true, Option.some_bind, houter]
    rw [choose_pair_of_found ops.INF entries _ (by rw [b1]; exact h1) (by rw [b2]; exact h2),
      b1, b2]
    rfl
  · intro p hp
    have hpc : p ∈ candidates acc fts entries := by
      rw [e]
      exact List.mem_append_left _ hp
    rw [← hw c hc, ← hw p hpc]
    exact b5 p hp
  · intro p hp
    have hpc : p ∈ candidates acc fts entries := by
      rw [e]
      exact List.mem_append_right _ (List.mem_cons_of_mem _ hp)
    rw [← hw c hc, ← hw p hpc]
    exact b6 p hp

set_option maxRecDepth 100000 in
theorem get_next_returns_first_lightest_candidate_witness :
    (dfpThree.initialized = true ∧ dfpThree.done = false ∧
      sorted_active_entries specComponents specAccess dfpThree specCoupled
        = some [(0, [0, -1, -1]), (1, [-1, 0, 0]), (2, [-1, 0, -1])] ∧
      ∃ p ∈ candidates specAccess specCoupled
          [(0, [0, -1, -1]), (1, [-1, 0, 0]), (2, [-1, 0, -1])],
        entry_weight specComponents.INF p < specComponents.INF) ∧
    ∃ pre c post,
      candidates specAccess specCoupled [(0, [0, -1, -1]), (1, [-1, 0, 0]), (2, [-1, 0, -1])]
        = pre ++ c :: post ∧
      get_next specComponents specAccess dfpThree specCoupled
        = some ((c.1.1, c.2.1),
            { dfpThree with remaining_merges := dfpThree.remaining_merges - 1 }) ∧
      (∀ p ∈ pre, entry_weight specComponents.INF c < entry_weight specComponents.INF p) ∧
      (∀ p ∈ post, entry_weight specComponents.INF c ≤ entry_weight specComponents.INF p) :=
  ⟨⟨by rfl, by rfl, by rfl, ⟨((1, [-1, 0, 0]), (2, [-1, 0, -1])), by decide, by decide⟩⟩,
    get_next_returns_first_lightest_candidate specComponents specAccess dfpThree specCoupled
      [(0, [0, -1, -1]), (1, [-1, 0, 0]), (2, [-1, 0, -1])] (by rfl) (by rfl) (by rfl)
      ⟨((1, [-1, 0, 0]), (2, [-1, 0, -1])), by decide, by decide⟩⟩

/-- C17: on three independent binary variables, all of them goal relevant, no
pair has a finite weight; the candidates in traversal order are (0, 1), (0, 2)
and (1, 2), and `get_next` returns the last of them, (1, 2), not the first. -/
theorem get_next_falls_back_to_last_pair :
    sorted_active_entries specComponents specAccess dfpThree specAtoms
      = some [(0, [0, -1, -1]), (1, [-1, 0, -1]), (2, [-1, -1, 0])] ∧
    (candidates specAccess specAtoms [(0, [0, -1, -1]), (1, [-1, 0, -1]), (2, [-1, -1, 0])]).map
        (fun p => ((p.1.1, p.2.1), entry_weight specComponents.INF p))
      = [((0, 1), specComponents.INF), ((0, 2), specComponents.INF),
          ((1, 2), specComponents.INF)] ∧
    (get_next specComponents specAccess dfpThree specAtoms).map Prod.fst = some (1, 2) := by
  refine ⟨by rfl, by decide, by rfl⟩

end MergeDFP

/-! ## The loop of `build_transition_system` -/

section BuildLoop

variable {State L TS HR D : Type}

open FactoredTransitionSystem

theorem SameLiveSlots.refl (fts : FactoredTransitionSystem L TS HR D) : SameLiveSlots fts fts :=
  ⟨rfl, rfl, rfl, rfl, fun _ => rfl⟩

theorem SameLiveSlots.trans {f1 f2 f3 : FactoredTransitionSystem L TS HR D}
    (h1 : SameLiveSlots f1 f2) (h2 : SameLiveSlots f2 f3) : SameLiveSlots f1 f3 :=
  ⟨h2.1.trans h1.1, h2.2.1.trans h1.2.1, h2.2.2.1.trans h1.2.2.1, h2.2.2.2.1.trans h1.2.2.2.1,
    fun j => (h2.2.2.2.2 j).trans (h1.2.2.2.2 j)⟩

theorem slot_valid_congr {TS TS' HR D : Type} (a : Option (Option TS)) (a' : Option (Option TS'))
    (h : Option (Option HR)) (d : Option (Option D))
    (e : a'.map Option.isSome = a.map Option.isSome) :
    slot_valid a' h d = slot_valid a h d := by
  rcases a with _ | _ | t <;> rcases a' with _ | _ | t' <;> simp at e <;>
    rcases h with _ | _ | x <;> rcases d with _ | _ | y <;> rfl

theorem sameLiveSlots_apply_label_reduction (ops : Components State L TS HR D)
    (fts fts' : FactoredTransitionSystem L TS HR D) (lm : LabelMapping) (ci : Int)
    (h : apply_label_reduction ops fts lm ci = some fts') : SameLiveSlots fts fts' := by
  unfold apply_label_reduction at h
  simp only [Option.bind_eq_some] at h
  obtain ⟨l, _, h⟩ := h
  rw [← Option.some.inj h]
  refine ⟨length_relabel_from ops lm ci _ 0, rfl, rfl, rfl, ?_⟩
  intro j
  rw [is_index_valid_eq_slot_valid, is_index_valid_eq_slot_valid]
  apply slot_valid_congr
  have hs := congrArg (fun s => s[j]?) (shape_relabel_from ops lm ci fts.transition_systems 0)
  simpa [shape] using hs

theorem sameLiveSlots_apply_abstraction (ops : Components State L TS HR D)
    (fts fts' : FactoredTransitionSystem L TS HR D) (i : Nat) (rel : StateEquivalenceRelation)
    (silent shrunk : Bool)
    (h : apply_abstraction ops fts i rel silent = some (fts', shrunk)) :
    SameLiveSlots fts fts' := by
  rw [apply_abstraction_eq] at h
  simp only [Option.bind_eq_some, Option.map_eq_some'] at h
  obtain ⟨c, hc, r, _, h⟩ := h
  have e : fts' = fts.put_component i r.1 [] := (congrArg Prod.fst h).symm
  subst e
  refine ⟨?_, ?_, ?_, rfl, fun j => is_index_valid_put_component fts i j c r.1 [] hc⟩ <;>
    simp [put_component]

theorem sameLiveSlots_adjust (ops : Components State L TS HR D) :
    ∀ (as : List Adjustment) (fts fts' : FactoredTransitionSystem L TS HR D),
      adjust ops as fts = some fts' → SameLiveSlots fts fts' := by
  intro as
  induction as with
  | nil =>
    intro fts fts' h
    rw [← Option.some.inj h]
    exact SameLiveSlots.refl fts
  | cons a rest ih =>
    intro fts fts' h
    simp only [adjust, Option.bind_eq_some] at h
    obtain ⟨mid, hmid, h⟩ := h
    have h1 : SameLiveSlots fts mid := by
      cases a with
      | apply_abstraction index rel silent =>
        simp only [Adjustment.run, Option.map_eq_some'] at hmid
        obtain ⟨r, hr, rfl⟩ := hmid
        exact sameLiveSlots_apply_abstraction ops fts r.1 index rel silent r.2 hr
      | apply_label_reduction lm ci =>
        exact sameLiveSlots_apply_label_reduction ops fts mid lm ci hmid
    exact h1.trans (ih mid fts' h)

/-- An invalidating merge makes the new index live and lowers the number of
live components by one. -/
theorem merge_product_num_live (ops : Components State L TS HR D)
    (fts mid : FactoredTransitionSystem L TS HR D) (index1 index2 k n : Nat) (fin : Bool)
    (hslots : fts.SameNumberOfSlots) (hsize : fts.transition_systems.length = n)
    (hproduct : merge_product ops fts index1 index2 true fin = some (mid, k)) :
    k = n ∧ mid.SameNumberOfSlots ∧ mid.transition_systems.length = n + 1 ∧
    mid.solvable = fts.solvable ∧
    mid.is_index_valid n = some true ∧ mid.num_live + 1 = fts.num_live := by
  obtain ⟨hk, hne, l1, l2, hv1, hv2, _, _, hsol, m1, m2, m3, c, hc, g1, g2, g3⟩ :=
    merge_product_slots ops fts mid index1 index2 k n true fin hslots hsize hproduct
  have hdistinct : index1 ≠ index2 := hne rfl
  subst hk
  have e11 : mid.transition_systems[index1]? = some none := by
    rw [g1, if_neg (by omega), getElem?_consumed_left _ _ _ (by omega)]
  have e21 : mid.transition_systems[index2]? = some none := by
    rw [g1, if_neg (by omega), getElem?_consumed_right _ _ _ (by omega)]
  have hvn := is_index_valid_of_get_component mid k c hc
  have hd1 := is_index_valid_of_slots_none mid index1 e11
  have hd2 := is_index_valid_of_slots_none mid index2 e21
  have hother : ∀ j, j ≠ index1 → j ≠ index2 → j ≠ k →
      mid.is_index_valid j = fts.is_index_valid j := by
    intro j h1 h2 h3
    apply is_index_valid_congr
    · rw [g1, if_neg h3, getElem?_consumed_of_ne _ _ _ _ _ h1 h2]
    · rw [g2, if_neg h3, getElem?_consumed_of_ne _ _ _ _ _ h1 h2]
    · rw [g3, if_neg h3, getElem?_consumed_of_ne _ _ _ _ _ h1 h2]
  refine ⟨rfl, ⟨by rw [m1, m2], by rw [m2, m3]⟩, m1, hsol, hvn, ?_⟩
  have hlive : mid.live_indices = insert k ((fts.live_indices.erase index1).erase index2) := by
    ext j
    rw [mem_live_indices, Finset.mem_insert, Finset.mem_erase, Finset.mem_erase,
      mem_live_indices]
    by_cases hjk : j = k
    · subst hjk
      simp [hvn]
    · by_cases hj1 : j = index1
      · subst hj1
        simp [hd1, hjk]
      · by_cases hj2 : j = index2
        · subst hj2
          simp [hd2, hjk]
        · simp [hother j hj1 hj2 hjk, hjk, hj1, hj2]
  have hk : k ∉ (fts.live_indices.erase index1).erase index2 := by
    intro hmem
    have := (Finset.mem_erase.1 (Finset.mem_erase.1 hmem).2).2
    unfold live_indices at this
    rw [Finset.mem_filter, Finset.mem_range] at this
    omega
  have hm1 : index1 ∈ fts.live_indices := (mem_live_indices fts index1).2 hv1
  have hm2 : index2 ∈ fts.live_indices.erase index1 :=
    Finset.mem_erase.2 ⟨Ne.symm hdistinct, (mem_live_indices fts index2).2 hv2⟩
  unfold num_live
  rw [hlive, Finset.card_insert_of_not_mem hk]
  have c2 := Finset.card_erase_add_one hm2
  have c1 := Finset.card_erase_add_one hm1
  omega

end BuildLoop

section BuildLoop

variable {State L TS HR D : Type}

open FactoredTransitionSystem

theorem get_next_decrements (ops : Components State L TS HR D) (acc : GroupAccess TS)
    (dfp dfp' : MergeDFP) (fts : FactoredTransitionSystem L TS HR D) (next : Int × Int)
    (h : MergeDFP.get_next ops acc dfp fts = some (next, dfp')) :
    dfp.done = false ∧ dfp'.remaining_merges = dfp.remaining_merges - 1 := by
  unfold MergeDFP.get_next at h
  simp only [Option.bind_eq_some, check_eq_some_iff] at h
  obtain ⟨_, _, _, hd, _, _, _, _, _, _, h⟩ := h
  have e : dfp' = { dfp with remaining_merges := dfp.remaining_merges - 1 } :=
    (congrArg Prod.snd (Option.some.inj h)).symm
  refine ⟨by simpa using hd, ?_⟩
  rw [e]

/-- What a merge of the loop that leaves the system solvable does to the
slots. -/
theorem merge_at_slots (ops : Components State L TS HR D)
    (fts fts' : FactoredTransitionSystem L TS HR D) (i1 i2 : Int) (k : Nat)
    (hslots : fts.SameNumberOfSlots) (hsolvable : fts'.solvable = true)
    (h : merge_at ops fts i1 i2 = some (fts', k)) :
    fts'.SameNumberOfSlots ∧
    fts'.transition_systems.length = fts.transition_systems.length + 1 ∧
    fts'.is_index_valid fts.transition_systems.length = some true ∧
    fts'.num_live + 1 = fts.num_live := by
  unfold merge_at at h
  by_cases hneg : i1 < 0 ∨ i2 < 0
  · rw [if_pos hneg] at h
    cases h
  rw [if_neg hneg] at h
  unfold merge at h
  rcases hp : merge_product ops fts i1.toNat i2.toNat true true with _ | ⟨mid, k'⟩
  · rw [hp] at h
    cases h
  rw [hp] at h
  obtain ⟨_, a1, a2, a3, a4, a5⟩ :=
    merge_product_num_live ops fts mid i1.toNat i2.toNat k' _ true hslots rfl hp
  simp only [Option.some_bind, if_true, Option.bind_eq_some] at h
  obtain ⟨new_ts, _, h⟩ := h
  by_cases hs : ops.ts_is_solvable new_ts = true
  · simp only [hs, Bool.not_true, Bool.false_eq_true, if_false, Option.some.injEq,
      Prod.mk.injEq] at h
    obtain ⟨e, _⟩ := h
    subst e
    exact ⟨a1, a2, a4, a5⟩
  · simp only [hs, Bool.not_false, if_true, Option.bind_eq_some, Option.some.injEq,
      Prod.mk.injEq, Bool.not_eq_true] at h
    obtain ⟨f, hf, e, _⟩ := h
    subst e
    have := (finalize_eq_some _ _ _ hf).2.2.2.1
    rw [hsolvable] at this
    cases this

/-- One pass through the body of the loop that leaves the system solvable. -/
theorem build_iteration_slots (ops : Components State L TS HR D) (acc : GroupAccess TS)
    (st : Strategies L TS HR D) (fts fts' : FactoredTransitionSystem L TS HR D)
    (dfp dfp' : MergeDFP)
    (hslots : fts.SameNumberOfSlots) (hsolvable : fts'.solvable = true)
    (h : build_iteration ops acc st fts dfp = some (fts', dfp')) :
    dfp.done = false ∧ dfp'.remaining_merges = dfp.remaining_merges - 1 ∧
    fts'.SameNumberOfSlots ∧
    fts'.transition_systems.length = fts.transition_systems.length + 1 ∧
    fts'.is_index_valid fts.transition_systems.length = some true ∧
    fts'.num_live + 1 = fts.num_live := by
  unfold build_iteration at h
  simp only [Option.bind_eq_some] at h
  obtain ⟨next, hnext, _, _, fts1, h1, fts2, h2, fts3, h3, merged, hm, h⟩ := h
  obtain ⟨d1, d2⟩ := get_next_decrements ops acc dfp next.2 fts next.1 hnext
  have e := Option.some.inj h
  have ef : merged.1 = fts' := congrArg Prod.fst e
  have ed : next.2 = dfp' := congrArg Prod.snd e
  have s1 : SameLiveSlots fts fts1 := by
    by_cases hb : st.reduce_before_shrinking = true
    · rw [if_pos hb] at h1
      exact sameLiveSlots_adjust ops _ _ _ h1
    · rw [if_neg hb] at h1
      rw [← Option.some.inj h1]
      exact SameLiveSlots.refl fts
  have s2 : SameLiveSlots fts1 fts2 := sameLiveSlots_adjust ops _ _ _ h2
  have s3 : SameLiveSlots fts2 fts3 := by
    by_cases hb : st.reduce_before_merging = true
    · rw [if_pos hb] at h3
      exact sameLiveSlots_adjust ops _ _ _ h3
    · rw [if_neg hb] at h3
      rw [← Option.some.inj h3]
      exact SameLiveSlots.refl fts2
  obtain ⟨t1, t2, t3, _, t5⟩ := s1.trans (s2.trans s3)
  have hslots3 : fts3.SameNumberOfSlots := by
    refine ⟨?_, ?_⟩
    · rw [t1, t2]
      exact hslots.1
    · rw [t2, t3]
      exact hslots.2
  have hlive3 : fts3.num_live = fts.num_live := by
    unfold num_live
    congr 1
    ext j
    rw [mem_live_indices, mem_live_indices, t5 j]
  obtain ⟨m1, m2, m3, m4⟩ := merge_at_slots ops fts3 merged.1 next.1.1 next.1.2 merged.2 hslots3
    (by rw [ef]; exact hsolvable) hm
  rw [ef] at m1 m2 m3 m4
  rw [t1] at m2 m3
  rw [hlive3] at m4
  exact ⟨d1, by rw [← ed]; exact d2, m1, m2, m3, m4⟩

end BuildLoop

section BuildLoop

variable {State L TS HR D : Type}

open FactoredTransitionSystem

theorem build_iteration_decrements (ops : Components State L TS HR D) (acc : GroupAccess TS)
    (st : Strategies L TS HR D) (fts fts' : FactoredTransitionSystem L TS HR D)
    (dfp dfp' : MergeDFP) (h : build_iteration ops acc st fts dfp = some (fts', dfp')) :
    dfp.done = false ∧ dfp'.remaining_merges = dfp.remaining_merges - 1 := by
  unfold build_iteration at h
  simp only [Option.bind_eq_some] at h
  obtain ⟨next, hnext, _, _, _, _, _, _, _, _, _, _, h⟩ := h
  obtain ⟨d1, d2⟩ := get_next_decrements ops acc dfp next.2 fts next.1 hnext
  have ed : next.2 = dfp' := congrArg Prod.snd (Option.some.inj h)
  exact ⟨d1, by rw [← ed]; exact d2⟩

theorem done_eq_true_iff (dfp : MergeDFP) : dfp.done = true ↔ dfp.remaining_merges = 0 := by
  unfold MergeDFP.done
  exact decide_eq_true_iff

theorem build_loop_fuel (ops : Components State L TS HR D) (acc : GroupAccess TS)
    (st : Strategies L TS HR D) :
    ∀ (fuel : Nat) (fts : FactoredTransitionSystem L TS HR D) (dfp : MergeDFP) (it : Nat),
      0 ≤ dfp.remaining_merges → dfp.remaining_merges ≤ (fuel : Int) →
      build_loop ops acc st fuel fts dfp it ≠ Outcome.out_of_fuel := by
  intro fuel
  induction fuel with
  | zero =>
    intro fts dfp it h0 h1
    have hd : dfp.done = true := (done_eq_true_iff dfp).2 (by omega)
    unfold build_loop
    rw [if_pos hd]
    exact fun h => Outcome.noConfusion h
  | succ fuel ih =>
    intro fts dfp it h0 h1
    unfold build_loop
    by_cases hd : dfp.done = true
    · rw [if_pos hd]
      exact fun h => Outcome.noConfusion h
    · rw [if_neg hd]
      rcases hi : build_iteration ops acc st fts dfp with _ | ⟨f1, d1⟩
      · exact fun h => Outcome.noConfusion h
      · obtain ⟨_, e⟩ := build_iteration_decrements ops acc st fts f1 dfp d1 hi
        have hne : dfp.remaining_merges ≠ 0 := fun h => hd ((done_eq_true_iff dfp).2 h)
        by_cases hs : f1.solvable = true
        · simp only [hs, Bool.not_true, Bool.false_eq_true, if_false]
          exact ih f1 d1 (it + 1) (by omega) (by omega)
        · simp only [hs, Bool.not_false, if_true]
          exact fun h => Outcome.noConfusion h

theorem build_loop_finished (ops : Components State L TS HR D) (acc : GroupAccess TS)
    (st : Strategies L TS HR D) :
    ∀ (fuel : Nat) (fts fts' : FactoredTransitionSystem L TS HR D) (dfp dfp' : MergeDFP)
      (it it' : Nat),
      fts.SameNumberOfSlots → 0 ≤ dfp.remaining_merges →
      build_loop ops acc st fuel fts dfp it = Outcome.finished (fts', dfp', it') →
      fts'.solvable = true →
      dfp'.remaining_merges = 0 ∧ (it' : Int) = it + dfp.remaining_merges ∧
      (fts'.num_live : Int) + dfp.remaining_merges = fts.num_live ∧
      (fts'.transition_systems.length : Int)
        = fts.transition_systems.length + dfp.remaining_merges ∧
      (0 < dfp.remaining_merges →
        fts'.is_index_valid (fts'.transition_systems.length - 1) = some true) ∧
      (dfp.remaining_merges = 0 → fts' = fts) := by
  intro fuel
  induction fuel with
  | zero =>
    intro fts fts' dfp dfp' it it' _ h0 h hs
    unfold build_loop at h
    by_cases hd : dfp.done = true
    · rw [if_pos hd] at h
      have hr := (done_eq_true_iff dfp).1 hd
      injection h with h
      obtain ⟨rfl, rfl, rfl⟩ : fts = fts' ∧ dfp = dfp' ∧ it = it' := by
        simpa using h
      exact ⟨hr, by omega, by omega, by omega, fun hc => absurd hc (by omega), fun _ => rfl⟩
    · rw [if_neg hd] at h
      exact Outcome.noConfusion h
  | succ fuel ih =>
    intro fts fts' dfp dfp' it it' hslots h0 h hs
    unfold build_loop at h
    by_cases hd : dfp.done = true
    · rw [if_pos hd] at h
      have hr := (done_eq_true_iff dfp).1 hd
      injection h with h
      obtain ⟨rfl, rfl, rfl⟩ : fts = fts' ∧ dfp = dfp' ∧ it = it' := by
        simpa using h
      exact ⟨hr, by omega, by omega, by omega, fun hc => absurd hc (by omega), fun _ => rfl⟩
    · rw [if_neg hd] at h
      have hne : dfp.remaining_merges ≠ 0 := fun hz => hd ((done_eq_true_iff dfp).2 hz)
      rcases hi : build_iteration ops acc st fts dfp with _ | ⟨f1, d1⟩
      · rw [hi] at h
        exact Outcome.noConfusion h
      · rw [hi] at h
        by_cases hs1 : f1.solvable = true
        · simp only [hs1, Bool.not_true, Bool.false_eq_true, if_false] at h
          obtain ⟨_, e, b1, b2, b3, b4⟩ :=
            build_iteration_slots ops acc st fts f1 dfp d1 hslots hs1 hi
          obtain ⟨c1, c2, c3, c4, c5, c6⟩ := ih f1 fts' d1 dfp' (it + 1) it' b1 (by omega) h hs
          refine ⟨c1, by push_cast at c2; omega, by omega, by omega, ?_,
            fun hc => absurd hc hne⟩
          intro _
          by_cases hlast : d1.remaining_merges = 0
          · rw [c6 hlast, b2, Nat.add_sub_cancel]
            exact b3
          · exact c5 (by omega)
        · simp only [hs1, Bool.not_false, if_true] at h
          injection h with h
          have e : f1 = fts' := congrArg Prod.fst h
          rw [e] at hs1
          exact absurd hs hs1

end BuildLoop

section BuildLoop

variable {State L TS HR D : Type}

open FactoredTransitionSystem

theorem num_live_of_all_live (fts : FactoredTransitionSystem L TS HR D) (k : Nat)
    (hsize : fts.transition_systems.length = k)
    (hlive : ∀ i < k, fts.is_index_valid i = some true) : fts.num_live = k := by
  have : fts.live_indices = Finset.range k := by
    ext j
    rw [mem_live_indices, Finset.mem_range]
    constructor
    · intro h
      have := (mem_live_indices fts j).2 h
      unfold live_indices at this
      rw [Finset.mem_filter, Finset.mem_range] at this
      omega
    · exact hlive j
  unfold num_live
  rw [this, Finset.card_range]

/-- C15: the loop of `build_transition_system`, driven by `MergeDFP` after
`initialize` on a task with `k` variables whose `k` atomic components are all
live, when it ends with a solvable system (no merge produced an unsolvable
component): it has performed exactly `k - 1` iterations, `done()` is true,
exactly one component is live, and it sits at the last of the `2k - 1` indices.
The loop never needs more than `k - 1` iterations, and every call of
`get_next` that passes its assertions found `done()` false and lowers
`remaining_merges` by exactly one. -/
theorem build_loop_merges_all_components (ops : Components State L TS HR D)
    (acc : GroupAccess TS) (st : Strategies L TS HR D) (dfp0 dfp' : MergeDFP)
    (fts0 fts' : FactoredTransitionSystem L TS HR D) (k fuel it : Nat)
    (hk : 1 ≤ k) (hslots : fts0.SameNumberOfSlots)
    (hsize : fts0.transition_systems.length = k)
    (hlive : ∀ i < k, fts0.is_index_valid i = some true)
    (hrun : build_transition_system_loop ops acc st fuel fts0 (MergeDFP.init dfp0 k)
      = Outcome.finished (fts', dfp', it))
    (hsolvable : fts'.solvable = true) :
    it = k - 1 ∧ dfp'.done = true ∧ fts'.num_live = 1 ∧ fts'.size = 2 * k - 1 ∧
    fts'.is_index_valid (fts'.size - 1) = some true ∧
    (∀ fuel', k - 1 ≤ fuel' →
      build_transition_system_loop ops acc st fuel' fts0 (MergeDFP.init dfp0 k)
        ≠ Outcome.out_of_fuel) ∧
    (∀ (dfp dfp1 : MergeDFP) (fts : FactoredTransitionSystem L TS HR D) (next : Int × Int),
      MergeDFP.get_next ops acc dfp fts = some (next, dfp1) →
      dfp.done = false ∧ dfp1.remaining_merges = dfp.remaining_merges - 1) := by
  have hrem : (MergeDFP.init dfp0 k).remaining_merges = (k : Int) - 1 := rfl
  have hfuel : ∀ fuel', k - 1 ≤ fuel' →
      build_transition_system_loop ops acc st fuel' fts0 (MergeDFP.init dfp0 k)
        ≠ Outcome.out_of_fuel := by
    intro fuel' hf
    unfold build_transition_system_loop
    by_cases hs : fts0.solvable = true
    · rw [if_pos hs]
      exact build_loop_fuel ops acc st fuel' fts0 _ 0 (by rw [hrem]; omega) (by rw [hrem]; omega)
    · rw [if_neg hs]
      exact fun h => Outcome.noConfusion h
  have hnext : ∀ (dfp dfp1 : MergeDFP) (fts : FactoredTransitionSystem L TS HR D)
      (next : Int × Int), MergeDFP.get_next ops acc dfp fts = some (next, dfp1) →
      dfp.done = false ∧ dfp1.remaining_merges = dfp.remaining_merges - 1 :=
    fun dfp dfp1 fts next h => get_next_decrements ops acc dfp dfp1 fts next h
  unfold build_transition_system_loop at hrun
  by_cases hs : fts0.solvable = true
  · rw [if_pos hs] at hrun
    obtain ⟨c1, c2, c3, c4, c5, c6⟩ := build_loop_finished ops acc st fuel fts0 fts' _ dfp' 0 it
      hslots (by rw [hrem]; omega) hrun hsolvable
    rw [hrem] at c2 c3 c4 c5 c6
    have hn := num_live_of_all_live fts0 k hsize hlive
    rw [hn] at c3
    rw [hsize] at c4
    refine ⟨by omega, (done_eq_true_iff dfp').2 c1, by omega, ?_, ?_, hfuel, hnext⟩
    · show fts'.transition_systems.length = 2 * k - 1
      omega
    · show fts'.is_index_valid (fts'.transition_systems.length - 1) = some true
      by_cases h1 : k = 1
      · have hz : (k : Int) - 1 = 0 := by omega
        rw [c6 hz, hsize]
        exact hlive (k - 1) (by omega)
      · exact c5 (by omega)
  · rw [if_neg hs] at hrun
    injection hrun with hrun
    have e : fts0 = fts' := congrArg Prod.fst hrun
    rw [e] at hs
    exact absurd hsolvable hs

set_option maxRecDepth 100000 in
theorem build_loop_merges_all_components_witness :
    (1 ≤ 2 ∧ specPair.SameNumberOfSlots ∧ specPair.transition_systems.length = 2 ∧
      ∀ i < 2, specPair.is_index_valid i = some true) ∧
    ∃ (fts' : SpecFTS) (dfp' : MergeDFP) (it : Nat),
      build_transition_system_loop specComponents specAccess (idleStrategies _ _ _ _) 1 specPair
        (MergeDFP.init ⟨Order.DFP, false, -1, -1⟩ 2) = Outcome.finished (fts', dfp', it) ∧
      fts'.solvable = true ∧
      (it = 2 - 1 ∧ dfp'.done = true ∧ fts'.num_live = 1 ∧ fts'.size = 2 * 2 - 1 ∧
      fts'.is_index_valid (fts'.size - 1) = some true ∧
      (∀ fuel', 2 - 1 ≤ fuel' →
        build_transition_system_loop specComponents specAccess (idleStrategies _ _ _ _) fuel'
          specPair (MergeDFP.init ⟨Order.DFP, false, -1, -1⟩ 2) ≠ Outcome.out_of_fuel) ∧
      (∀ (dfp dfp1 : MergeDFP) (fts : SpecFTS) (next : Int × Int),
        MergeDFP.get_next specComponents specAccess dfp fts = some (next, dfp1) →
        dfp.done = false ∧ dfp1.remaining_merges = dfp.remaining_merges - 1)) := by
  have h : ∃ r : SpecFTS × MergeDFP × Nat,
      build_transition_system_loop specComponents specAccess (idleStrategies _ _ _ _) 1 specPair
        (MergeDFP.init ⟨Order.DFP, false, -1, -1⟩ 2) = Outcome.finished r ∧
      r.1.solvable = true := ⟨_, rfl, rfl⟩
  obtain ⟨⟨fts', dfp', it⟩, hrun, hsolv⟩ := h
  have hpre : 1 ≤ 2 ∧ specPair.SameNumberOfSlots ∧ specPair.transition_systems.length = 2 ∧
      ∀ i < 2, specPair.is_index_valid i = some true :=
    ⟨by decide, ⟨rfl, rfl⟩, rfl, by decide⟩
  exact ⟨hpre, fts', dfp', it, hrun, hsolv,
    build_loop_merges_all_components specComponents specAccess (idleStrategies _ _ _ _)
      ⟨Order.DFP, false, -1, -1⟩ dfp' specPair fts' 2 1 it hpre.1 hpre.2.1 hpre.2.2.1
      hpre.2.2.2 hrun hsolv⟩

end BuildLoop

/-! ## The leaves of the heuristic representations -/

section Leaves

variable {State L TS D : Type}

open FactoredTransitionSystem

theorem leaves_apply_abstraction_to_lookup_table (h : HeuristicRepresentation) (m : List Int) :
    (h.apply_abstraction_to_lookup_table m).leaves = h.leaves := by
  cases h <;> rfl

theorem covered_variables_cons (x : Option HeuristicRepresentation)
    (xs : List (Option HeuristicRepresentation)) :
    covered_variables (x :: xs) = slot_leaves x ++ covered_variables xs := by
  unfold covered_variables
  rw [List.flatMap_cons]

theorem covered_variables_append (xs ys : List (Option HeuristicRepresentation)) :
    covered_variables (xs ++ ys) = covered_variables xs ++ covered_variables ys := by
  unfold covered_variables
  rw [List.flatMap_append]

theorem covered_variables_set_same : ∀ (hrs : List (Option HeuristicRepresentation)) (i : Nat)
    (h h' : HeuristicRepresentation), hrs[i]? = some (some h) → h'.leaves = h.leaves →
    covered_variables (hrs.set i (some h')) = covered_variables hrs := by
  intro hrs
  induction hrs with
  | nil =>
    intro i h h' hi _
    simp at hi
  | cons x xs ih =>
    intro i h h' hi hl
    cases i with
    | zero =>
      have hx : x = some h := by simpa using hi
      subst hx
      rw [List.set_cons_zero, covered_variables_cons, covered_variables_cons]
      show h'.leaves ++ _ = h.leaves ++ _
      rw [hl]
    | succ i =>
      have hi' : xs[i]? = some (some h) := by simpa using hi
      rw [List.set_cons_succ, covered_variables_cons, covered_variables_cons, ih i h h' hi' hl]

theorem covered_variables_set_none : ∀ (hrs : List (Option HeuristicRepresentation)) (i : Nat)
    (h : HeuristicRepresentation), hrs[i]? = some (some h) →
    (h.leaves ++ covered_variables (hrs.set i none)).Perm (covered_variables hrs) := by
  intro hrs
  induction hrs with
  | nil =>
    intro i h hi
    simp at hi
  | cons x xs ih =>
    intro i h hi
    cases i with
    | zero =>
      have hx : x = some h := by simpa using hi
      subst hx
      rw [List.set_cons_zero, covered_variables_cons, covered_variables_cons]
      exact List.Perm.refl _
    | succ i =>
      have hi' : xs[i]? = some (some h) := by simpa using hi
      rw [List.set_cons_succ, covered_variables_cons, covered_variables_cons]
      have h1 := ih i h hi'
      have h2 : (h.leaves ++ (slot_leaves x ++ covered_variables (xs.set i none))).Perm
          (slot_leaves x ++ (h.leaves ++ covered_variables (xs.set i none))) := by
        rw [← List.append_assoc, ← List.append_assoc]
        exact List.Perm.append_right _ List.perm_append_comm
      exact h2.trans (List.Perm.append_left _ h1)

theorem leaves_Component_apply_abstraction_with
    (ops : Components State L TS HeuristicRepresentation D)
    (habs : ops.hr_apply_abstraction_to_lookup_table
      = HeuristicRepresentation.apply_abstraction_to_lookup_table)
    (c : Component TS HeuristicRepresentation D) (rel : StateEquivalenceRelation)
    (m : List Int) (silent : Bool) (r : Component TS HeuristicRepresentation D × Bool)
    (h : c.apply_abstraction_with ops rel m silent = some r) : r.1.hr.leaves = c.hr.leaves := by
  unfold Component.apply_abstraction_with at h
  simp only [Option.bind_eq_some] at h
  obtain ⟨_, _, h⟩ := h
  rw [← Option.some.inj h]
  by_cases hb : (ops.ts_apply_abstraction c.ts rel m silent).2 = true
  · simp only [hb, if_true, habs]
    exact leaves_apply_abstraction_to_lookup_table c.hr m
  · simp only [hb, if_false]
    rfl

theorem leaves_Component_apply_abstraction
    (ops : Components State L TS HeuristicRepresentation D)
    (habs : ops.hr_apply_abstraction_to_lookup_table
      = HeuristicRepresentation.apply_abstraction_to_lookup_table)
    (c : Component TS HeuristicRepresentation D) (rel : StateEquivalenceRelation)
    (silent : Bool) (r : Component TS HeuristicRepresentation D × Bool)
    (h : c.apply_abstraction ops rel silent = some r) : r.1.hr.leaves = c.hr.leaves := by
  unfold Component.apply_abstraction at h
  simp only [Option.bind_eq_some] at h
  obtain ⟨m, _, h⟩ := h
  exact leaves_Component_apply_abstraction_with ops habs c rel m silent r h

theorem leaves_Component_compute_distances_and_prune
    (ops : Components State L TS HeuristicRepresentation D)
    (habs : ops.hr_apply_abstraction_to_lookup_table
      = HeuristicRepresentation.apply_abstraction_to_lookup_table)
    (c : Component TS HeuristicRepresentation D) (silent : Bool)
    (r : Component TS HeuristicRepresentation D × List (Nat × Nat))
    (h : c.compute_distances_and_prune ops silent = some r) : r.1.hr.leaves = c.hr.leaves := by
  unfold Component.compute_distances_and_prune at h
  simp only [Option.bind_eq_some] at h
  obtain ⟨r', hd, _, _, h⟩ := h
  rw [← Option.some.inj h]
  unfold Component.discard_states at hd
  simp only [Option.bind_eq_some] at hd
  obtain ⟨_, _, ra, ha, hd⟩ := hd
  have hl := leaves_Component_apply_abstraction ops habs _ _ silent ra ha
  have hr : r'.1 = ra.1 := by
    cases silent
    · simp only [Bool.false_eq_true, if_false, Option.bind_eq_some] at hd
      obtain ⟨_, _, hd⟩ := hd
      rw [← Option.some.inj hd]
    · simp only [if_true] at hd
      rw [← Option.some.inj hd]
  rw [hr, hl]

end Leaves

section Leaves

variable {State L TS D : Type}

open FactoredTransitionSystem

theorem covered_variables_merge_product (ops : Components State L TS HeuristicRepresentation D)
    (hmerge : ops.hr_merge = HeuristicRepresentation.new_merge)
    (habs : ops.hr_apply_abstraction_to_lookup_table
      = HeuristicRepresentation.apply_abstraction_to_lookup_table)
    (fts mid : FactoredTransitionSystem L TS HeuristicRepresentation D) (i1 i2 k : Nat)
    (fin : Bool) (h : merge_product ops fts i1 i2 true fin = some (mid, k)) :
    (covered_variables mid.heuristic_representations).Perm
      (covered_variables fts.heuristic_representations) := by
  obtain ⟨_, c1, c2, c, r, hc1, hc2, hne, hc, hr, rfl⟩ :=
    merge_product_eq_some_pruned ops fts mid i1 i2 k true fin h
  have hdistinct : i1 ≠ i2 := hne rfl
  obtain ⟨_, a2, _⟩ := (get_component_eq_some_iff fts i1 c1).1 hc1
  obtain ⟨_, b2, _⟩ := (get_component_eq_some_iff fts i2 c2).1 hc2
  obtain ⟨_, k2, _⟩ := (get_component_eq_some_iff _ k c).1 hc
  have hl := leaves_Component_compute_distances_and_prune ops habs c _ r hr
  have e1 : covered_variables
      ((appended_system ops fts i1 i2 true fin c1 c2).put_component k r.1 r.2).heuristic_representations
      = covered_variables (appended_system ops fts i1 i2 true fin c1 c2).heuristic_representations :=
    covered_variables_set_same _ k c.hr r.1.hr k2 hl
  have e2 : covered_variables (appended_system ops fts i1 i2 true fin c1 c2).heuristic_representations
      = covered_variables ((fts.heuristic_representations.set i1 none).set i2 none)
        ++ (c1.hr.leaves ++ c2.hr.leaves) := by
    show covered_variables (consumed fts.heuristic_representations i1 i2 true ++ _) = _
    rw [covered_variables_append]
    simp only [consumed, if_true, hmerge]
    rw [covered_variables_cons]
    show _ ++ ((c1.hr.leaves ++ c2.hr.leaves) ++ covered_variables []) = _
    simp [covered_variables]
  rw [e1, e2]
  have b2' : (fts.heuristic_representations.set i1 none)[i2]? = some (some c2.hr) := by
    rw [List.getElem?_set_ne hdistinct]
    exact b2
  have p1 := covered_variables_set_none fts.heuristic_representations i1 c1.hr a2
  have p2 := covered_variables_set_none (fts.heuristic_representations.set i1 none) i2 c2.hr b2'
  have p3 : (c1.hr.leaves ++ (c2.hr.leaves
      ++ covered_variables ((fts.heuristic_representations.set i1 none).set i2 none))).Perm
      (covered_variables fts.heuristic_representations) :=
    (List.Perm.append_left _ p2).trans p1
  refine List.Perm.trans ?_ p3
  have e3 : c1.hr.leaves ++ (c2.hr.leaves
      ++ covered_variables ((fts.heuristic_representations.set i1 none).set i2 none))
      = (c1.hr.leaves ++ c2.hr.leaves)
        ++ covered_variables ((fts.heuristic_representations.set i1 none).set i2 none) :=
    (List.append_assoc _ _ _).symm
  rw [e3]
  exact List.perm_append_comm

theorem covered_variables_merge (ops : Components State L TS HeuristicRepresentation D)
    (hmerge : ops.hr_merge = HeuristicRepresentation.new_merge)
    (habs : ops.hr_apply_abstraction_to_lookup_table
      = HeuristicRepresentation.apply_abstraction_to_lookup_table)
    (fts fts' : FactoredTransitionSystem L TS HeuristicRepresentation D) (i1 i2 k : Nat)
    (fin : Bool) (h : merge ops fts i1 i2 true fin = some (fts', k)) :
    (covered_variables fts'.heuristic_representations).Perm
      (covered_variables fts.heuristic_representations) := by
  unfold merge at h
  rcases hp : merge_product ops fts i1 i2 true fin with _ | ⟨mid, k'⟩
  · rw [hp] at h
    cases h
  rw [hp] at h
  have hmid := covered_variables_merge_product ops hmerge habs fts mid i1 i2 k' fin hp
  simp only [Option.some_bind] at h
  cases fin
  · simp only [Bool.false_eq_true, if_false, Option.some.injEq, Prod.mk.injEq] at h
    rw [← h.1]
    exact hmid
  · simp only [if_true, Option.bind_eq_some] at h
    obtain ⟨t, _, h⟩ := h
    rcases hsolv : ops.ts_is_solvable t with _ | _
    · rw [hsolv] at h
      simp only [Bool.not_false, if_true, Option.bind_eq_some, Option.some.injEq,
        Prod.mk.injEq] at h
      obtain ⟨f, hf, rfl, _⟩ := h
      rw [(finalize_eq_some _ _ _ hf).2.1]
      exact hmid
    · rw [hsolv] at h
      simp only [Bool.not_true, Bool.false_eq_true, if_false, Option.some.injEq,
        Prod.mk.injEq] at h
      rw [← h.1]
      exact hmid

theorem covered_variables_run (ops : Components State L TS HeuristicRepresentation D)
    (hmerge : ops.hr_merge = HeuristicRepresentation.new_merge)
    (habs : ops.hr_apply_abstraction_to_lookup_table
      = HeuristicRepresentation.apply_abstraction_to_lookup_table)
    (fts : FactoredTransitionSystem L TS HeuristicRepresentation D) (op : Operation)
    (r : FactoredTransitionSystem L TS HeuristicRepresentation D × Option Nat)
    (hop : op.keeps_variables = true) (h : op.run ops fts = some r) :
    (covered_variables r.1.heuristic_representations).Perm
      (covered_variables fts.heuristic_representations) := by
  cases op with
  | merge i1 i2 inv fin =>
    have hinv : inv = true := hop
    subst hinv
    simp only [Operation.run, Option.map_eq_some'] at h
    obtain ⟨m, hm, rfl⟩ := h
    exact covered_variables_merge ops hmerge habs fts m.1 i1 i2 m.2 fin hm
  | copy i => cases hop
  | release_copies => cases hop
  | remove i => cases hop
  | apply_abstraction i rel silent =>
    simp only [Operation.run, Option.map_eq_some'] at h
    obtain ⟨a, ha, rfl⟩ := h
    rw [apply_abstraction_eq] at ha
    simp only [Option.bind_eq_some, Option.map_eq_some'] at ha
    obtain ⟨c, hc, ra, hra, rfl⟩ := ha
    obtain ⟨_, c2, _⟩ := (get_component_eq_some_iff fts i c).1 hc
    have hl := leaves_Component_apply_abstraction ops habs c rel silent ra hra
    rw [show (fts.put_component i ra.1 []).heuristic_representations
      = fts.heuristic_representations.set i (some ra.1.hr) from rfl,
      covered_variables_set_same _ i c.hr ra.1.hr c2 hl]
  | apply_label_reduction lm ci =>
    simp only [Operation.run, Option.map_eq_some'] at h
    obtain ⟨f, hf, rfl⟩ := h
    unfold apply_label_reduction at hf
    simp only [Option.bind_eq_some] at hf
    obtain ⟨l, _, hf⟩ := hf
    rw [← Option.some.inj hf]

theorem covered_variables_run_all (ops : Components State L TS HeuristicRepresentation D)
    (hmerge : ops.hr_merge = HeuristicRepresentation.new_merge)
    (habs : ops.hr_apply_abstraction_to_lookup_table
      = HeuristicRepresentation.apply_abstraction_to_lookup_table) :
    ∀ (seq : List Operation) (fts fts' : FactoredTransitionSystem L TS HeuristicRepresentation D)
      (assigned : List Nat), (∀ op ∈ seq, op.keeps_variables = true) →
      run_all ops seq fts = some (fts', assigned) →
      (covered_variables fts'.heuristic_representations).Perm
        (covered_variables fts.heuristic_representations) := by
  intro seq
  induction seq with
  | nil =>
    intro fts fts' assigned _ h
    have e : fts = fts' := congrArg Prod.fst (Option.some.inj h)
    rw [e]
  | cons op rest ih =>
    intro fts fts' assigned hall h
    simp only [run_all, Option.bind_eq_some, Option.map_eq_some'] at h
    obtain ⟨r, hr, r', hr', e⟩ := h
    have e1 : r'.1 = fts' := congrArg Prod.fst e
    have h1 := covered_variables_run ops hmerge habs fts op r
      (hall op (List.mem_cons_self _ _)) hr
    have h2 := ih r.1 r'.1 r'.2 (fun o ho => hall o (List.mem_cons_of_mem _ ho)) hr'
    rw [e1] at h2
    exact h2.trans h1

end Leaves

section Leaves

variable {State L TS HR D : Type}

open FactoredTransitionSystem

theorem merge_cases (ops : Components State L TS HR D)
    (fts fts' : FactoredTransitionSystem L TS HR D) (i1 i2 k : Nat) (inv fin : Bool)
    (h : merge ops fts i1 i2 inv fin = some (fts', k)) :
    fts'.solvable = false ∨
      (merge_product ops fts i1 i2 inv fin = some (fts', k) ∧ fts'.solvable = fts.solvable ∧
        fts'.final_index = fts.final_index) := by
  unfold merge at h
  rcases hp : merge_product ops fts i1 i2 inv fin with _ | ⟨mid, k'⟩
  · rw [hp] at h
    cases h
  rw [hp] at h
  obtain ⟨_, c1, c2, c, r, _, _, _, _, hmid⟩ := merge_product_eq_some ops fts mid i1 i2 k' inv fin hp
  have hs : mid.solvable = fts.solvable := by rw [hmid]; rfl
  have hf : mid.final_index = fts.final_index := by rw [hmid]; rfl
  simp only [Option.some_bind] at h
  cases fin
  · simp only [Bool.false_eq_true, if_false, Option.some.injEq, Prod.mk.injEq] at h
    obtain ⟨rfl, rfl⟩ := h
    exact Or.inr ⟨rfl, hs, hf⟩
  · simp only [if_true, Option.bind_eq_some] at h
    obtain ⟨t, _, h⟩ := h
    rcases hsolv : ops.ts_is_solvable t with _ | _
    · rw [hsolv] at h
      simp only [Bool.not_false, if_true, Option.bind_eq_some, Option.some.injEq,
        Prod.mk.injEq] at h
      obtain ⟨f, hf', rfl, _⟩ := h
      exact Or.inl (finalize_eq_some _ _ _ hf').2.2.2.1
    · rw [hsolv] at h
      simp only [Bool.not_true, Bool.false_eq_true, if_false, Option.some.injEq,
        Prod.mk.injEq] at h
      obtain ⟨rfl, rfl⟩ := h
      exact Or.inr ⟨rfl, hs, hf⟩

theorem run_keeps_unsolvable (ops : Components State L TS HR D)
    (fts : FactoredTransitionSystem L TS HR D) (op : Operation)
    (r : FactoredTransitionSystem L TS HR D × Option Nat)
    (hop : op.keeps_variables = true) (h : op.run ops fts = some r)
    (hs : fts.solvable = false) : r.1.solvable = false := by
  cases op with
  | merge i1 i2 inv fin =>
    simp only [Operation.run, Option.map_eq_some'] at h
    obtain ⟨m, hm, rfl⟩ := h
    rcases merge_cases ops fts m.1 i1 i2 m.2 inv fin hm with h1 | ⟨_, h1, _⟩
    · exact h1
    · exact h1.trans hs
  | copy i => cases hop
  | release_copies => cases hop
  | remove i => cases hop
  | apply_abstraction i rel silent =>
    simp only [Operation.run, Option.map_eq_some'] at h
    obtain ⟨a, ha, rfl⟩ := h
    rw [apply_abstraction_eq] at ha
    simp only [Option.bind_eq_some, Option.map_eq_some'] at ha
    obtain ⟨c, _, ra, _, rfl⟩ := ha
    exact hs
  | apply_label_reduction lm ci =>
    simp only [Operation.run, Option.map_eq_some'] at h
    obtain ⟨f, hf, rfl⟩ := h
    unfold apply_label_reduction at hf
    simp only [Option.bind_eq_some] at hf
    obtain ⟨l, _, hf⟩ := hf
    rw [← Option.some.inj hf]
    exact hs

theorem run_keeps_open (ops : Components State L TS HR D)
    (fts : FactoredTransitionSystem L TS HR D) (op : Operation)
    (r : FactoredTransitionSystem L TS HR D × Option Nat)
    (hop : op.keeps_variables = true) (h : op.run ops fts = some r)
    (hl : Lockstep fts) (hf : fts.final_index = -1) (hs : r.1.solvable = true) :
    Lockstep r.1 ∧ r.1.final_index = -1 := by
  cases op with
  | merge i1 i2 inv fin =>
    simp only [Operation.run, Option.map_eq_some'] at h
    obtain ⟨m, hm, rfl⟩ := h
    rcases merge_cases ops fts m.1 i1 i2 m.2 inv fin hm with h1 | ⟨hp, _, h2⟩
    · rw [hs] at h1
      cases h1
    · exact ⟨lockstep_merge_product ops fts m.1 i1 i2 m.2 inv fin hl hp, h2.trans hf⟩
  | copy i => cases hop
  | release_copies => cases hop
  | remove i => cases hop
  | apply_abstraction i rel silent =>
    simp only [Operation.run, Option.map_eq_some'] at h
    obtain ⟨a, ha, rfl⟩ := h
    rw [apply_abstraction_eq] at ha
    simp only [Option.bind_eq_some, Option.map_eq_some'] at ha
    obtain ⟨c, hc, ra, _, rfl⟩ := ha
    exact ⟨lockstep_put_component fts i c ra.1 [] hc hl, hf⟩
  | apply_label_reduction lm ci =>
    simp only [Operation.run, Option.map_eq_some'] at h
    obtain ⟨f, hf', rfl⟩ := h
    refine ⟨lockstep_apply_label_reduction ops fts f lm ci hl hf', ?_⟩
    unfold apply_label_reduction at hf'
    simp only [Option.bind_eq_some] at hf'
    obtain ⟨l, _, hf'⟩ := hf'
    rw [← Option.some.inj hf']
    exact hf

theorem run_all_keeps_unsolvable (ops : Components State L TS HR D) :
    ∀ (seq : List Operation) (fts fts' : FactoredTransitionSystem L TS HR D)
      (assigned : List Nat), (∀ op ∈ seq, op.keeps_variables = true) →
      run_all ops seq fts = some (fts', assigned) → fts.solvable = false →
      fts'.solvable = false := by
  intro seq
  induction seq with
  | nil =>
    intro fts fts' assigned _ h hs
    have e : fts = fts' := congrArg Prod.fst (Option.some.inj h)
    rw [← e]
    exact hs
  | cons op rest ih =>
    intro fts fts' assigned hall h hs
    simp only [run_all, Option.bind_eq_some, Option.map_eq_some'] at h
    obtain ⟨r, hr, r', hr', e⟩ := h
    have e1 : r'.1 = fts' := congrArg Prod.fst e
    have h1 := run_keeps_unsolvable ops fts op r (hall op (List.mem_cons_self _ _)) hr hs
    have h2 := ih r.1 r'.1 r'.2 (fun o ho => hall o (List.mem_cons_of_mem _ ho)) hr' h1
    rw [e1] at h2
    exact h2

theorem run_all_keeps_open (ops : Components State L TS HR D) :
    ∀ (seq : List Operation) (fts fts' : FactoredTransitionSystem L TS HR D)
      (assigned : List Nat), (∀ op ∈ seq, op.keeps_variables = true) →
      run_all ops seq fts = some (fts', assigned) → Lockstep fts → fts.final_index = -1 →
      fts'.solvable = true → Lockstep fts' ∧ fts'.final_index = -1 := by
  intro seq
  induction seq with
  | nil =>
    intro fts fts' assigned _ h hl hf _
    have e : fts = fts' := congrArg Prod.fst (Option.some.inj h)
    rw [← e]
    exact ⟨hl, hf⟩
  | cons op rest ih =>
    intro fts fts' assigned hall h hl hf hs
    simp only [run_all, Option.bind_eq_some, Option.map_eq_some'] at h
    obtain ⟨r, hr, r', hr', e⟩ := h
    have e1 : r'.1 = fts' := congrArg Prod.fst e
    have hrest : ∀ o ∈ rest, o.keeps_variables = true :=
      fun o ho => hall o (List.mem_cons_of_mem _ ho)
    have hs1 : r.1.solvable = true := by
      by_contra hc
      have := run_all_keeps_unsolvable ops rest r.1 r'.1 r'.2 hrest hr' (by simpa using hc)
      rw [e1, hs] at this
      cases this
    obtain ⟨g1, g2⟩ := run_keeps_open ops fts op r (hall op (List.mem_cons_self _ _)) hr hl hf hs1
    have h2 := ih r.1 r'.1 r'.2 hrest hr' g1 g2 (by rw [e1]; exact hs)
    rw [e1] at h2
    exact h2

end Leaves

section Leaves

variable {State L TS HR D : Type}

open FactoredTransitionSystem

theorem all_consumed_from_some (bound : Nat) (ds : List (Option D)) :
    ∀ (tss : List (Option TS)) (i : Nat), all_consumed_from bound ds i tss = some () →
      ∀ j, j < tss.length → i + j < bound → tss[j]? = some none := by
  intro tss
  induction tss with
  | nil =>
    intro i _ j hj _
    simp at hj
  | cons t rest ih =>
    intro i h j hj hb
    unfold all_consumed_from at h
    have hi : i < bound := by omega
    rw [if_pos hi] at h
    simp only [Option.bind_eq_some, check_eq_some_iff] at h
    obtain ⟨_, ht, h⟩ := h
    rcases hd : ds[i]? with _ | d
    · rw [hd] at h
      cases h
    · rw [hd] at h
      simp only [Option.bind_eq_some] at h
      obtain ⟨_, _, h⟩ := h
      cases j with
      | zero =>
        have : t = none := by simpa using ht
        rw [this]
        simp
      | succ j =>
        have := ih (i + 1) h j (by simpa using hj) (by omega)
        simpa using this

theorem finalize_regular_consumed (fts fts' : FactoredTransitionSystem L TS HR D)
    (h : finalize fts (-1) = some fts') :
    ∃ last, fts.transition_systems.length = last + 1 ∧
      all_consumed_from last fts.distances 0 fts.transition_systems = some () ∧
      fts.solvable = true ∧ fts'.final_index = (last : Int) ∧
      fts'.heuristic_representations = fts.heuristic_representations := by
  unfold finalize at h
  simp only [if_true, Option.bind_eq_some, check_eq_some_iff] at h
  obtain ⟨_, hs, h⟩ := h
  rcases hlen : fts.transition_systems.length with _ | last
  · rw [hlen] at h
    cases h
  · rw [hlen] at h
    simp only [Option.bind_eq_some] at h
    obtain ⟨_, hc, h⟩ := h
    rw [← Option.some.inj h]
    exact ⟨last, rfl, hc, hs, rfl, rfl⟩

theorem covered_variables_last : ∀ (hrs : List (Option HeuristicRepresentation)) (n : Nat),
    hrs.length = n + 1 → (∀ j < n, hrs[j]? = some none) →
    ∃ x, hrs[n]? = some x ∧ covered_variables hrs = slot_leaves x := by
  intro hrs
  induction hrs with
  | nil =>
    intro n hlen _
    simp at hlen
  | cons x xs ih =>
    intro n hlen hnone
    cases n with
    | zero =>
      have hxs : xs = [] := by
        cases xs with
        | nil => rfl
        | cons y ys => simp at hlen
      subst hxs
      refine ⟨x, rfl, ?_⟩
      rw [covered_variables_cons]
      simp [covered_variables]
    | succ m =>
      have hx : x = none := by
        have := hnone 0 (by omega)
        simpa using this
      subst hx
      obtain ⟨y, hy, hc⟩ := ih m (by simpa using hlen) (fun j hj => by
        have := hnone (j + 1) (by omega)
        simpa using this)
      refine ⟨y, by simpa using hy, ?_⟩
      rw [covered_variables_cons, hc]
      rfl

theorem covered_variables_leaves (domain_size : Nat → Nat) (k : Nat) :
    covered_variables ((List.range k).map fun v =>
      some (HeuristicRepresentation.new_leaf v (domain_size v))) = List.range k := by
  induction k with
  | zero => rfl
  | succ k ih =>
    rw [List.range_succ, List.map_append, covered_variables_append, ih]
    rfl

end Leaves

section Leaves

variable {State L TS D : Type}

open FactoredTransitionSystem

/-- C20: starting from one leaf heuristic representation per task variable,
after any sequence of invalidating merges (and abstractions and label
reductions) the leaves of the trees stored in `heuristic_representations`,
taken together, are the task variables, every variable exactly once; and after
a regular `finalize()` the representation at `final_index` has every task
variable at exactly one leaf. -/
theorem leaves_partition_variables (ops : Components State L TS HeuristicRepresentation D)
    (hmerge : ops.hr_merge = HeuristicRepresentation.new_merge)
    (habs : ops.hr_apply_abstraction_to_lookup_table
      = HeuristicRepresentation.apply_abstraction_to_lookup_table)
    (domain_size : Nat → Nat) (k : Nat)
    (fts0 fts : FactoredTransitionSystem L TS HeuristicRepresentation D)
    (seq : List Operation) (assigned : List Nat)
    (hk : 1 ≤ k)
    (hleaves : fts0.heuristic_representations
      = (List.range k).map fun v => some (HeuristicRepresentation.new_leaf v (domain_size v)))
    (hlock : Lockstep fts0) (hopen : fts0.final_index = -1)
    (hseq : ∀ op ∈ seq, op.keeps_variables = true)
    (hrun : run_all ops seq fts0 = some (fts, assigned)) :
    (covered_variables fts.heuristic_representations).Perm (List.range k) ∧
    ∀ fts', finalize fts (-1) = some fts' →
      ∃ h, deref fts'.heuristic_representations fts'.final_index.toNat = some h ∧
        h.leaves.Perm (List.range k) := by
  have hperm : (covered_variables fts.heuristic_representations).Perm (List.range k) := by
    have := covered_variables_run_all ops hmerge habs seq fts0 fts assigned hseq hrun
    rw [hleaves, covered_variables_leaves] at this
    exact this
  refine ⟨hperm, ?_⟩
  intro fts' hfin
  obtain ⟨last, hlen, hcons, hsolv, hfi, hhr⟩ := finalize_regular_consumed fts fts' hfin
  obtain ⟨⟨⟨n1, _⟩, hslots⟩, _⟩ :=
    run_all_keeps_open ops seq fts0 fts assigned hseq hrun hlock hopen hsolv
  have hnone : ∀ j < last, fts.heuristic_representations[j]? = some none := by
    intro j hj
    have ht := all_consumed_from_some last fts.distances fts.transition_systems 0 hcons j
      (by omega) (by omega)
    have hp : populated fts.transition_systems j = false := by
      rw [populated_eq_false_iff, deref_eq_none_iff]
      exact Or.inr ht
    rw [(hslots j).1] at hp
    exact getElem?_eq_some_none_of_not_populated _ j (by omega) hp
  obtain ⟨x, hx, hc⟩ := covered_variables_last fts.heuristic_representations last
    (by omega) hnone
  rw [hc] at hperm
  cases x with
  | none =>
    have hl := hperm.length_eq
    simp [slot_leaves] at hl
    omega
  | some h =>
    refine ⟨h, ?_, hperm⟩
    rw [hhr, hfi]
    exact (deref_eq_some_iff _ _ _).2 hx

set_option maxRecDepth 100000 in
theorem leaves_partition_variables_witness :
    (1 ≤ 2 ∧
      specPair.heuristic_representations
        = ((List.range 2).map fun v => some (HeuristicRepresentation.new_leaf v 2)) ∧
      Lockstep specPair ∧ specPair.final_index = -1 ∧
      ∀ op ∈ [Operation.merge 0 1 true true], op.keeps_variables = true) ∧
    ∃ (fts : SpecFTS) (assigned : List Nat),
      run_all specComponents [Operation.merge 0 1 true true] specPair = some (fts, assigned) ∧
      (finalize fts (-1)).isSome = true ∧
      ((covered_variables fts.heuristic_representations).Perm (List.range 2) ∧
      ∀ fts', finalize fts (-1) = some fts' →
        ∃ h, deref fts'.heuristic_representations fts'.final_index.toNat = some h ∧
          h.leaves.Perm (List.range 2)) := by
  have hrun : ∃ r : SpecFTS × List Nat,
      run_all specComponents [Operation.merge 0 1 true true] specPair = some r ∧
      (finalize r.1 (-1)).isSome = true := ⟨_, rfl, rfl⟩
  obtain ⟨⟨fts, assigned⟩, hrun, hfin⟩ := hrun
  have hpre : 1 ≤ 2 ∧
      specPair.heuristic_representations
        = ((List.range 2).map fun v => some (HeuristicRepresentation.new_leaf v 2)) ∧
      Lockstep specPair ∧ specPair.final_index = -1 ∧
      ∀ op ∈ [Operation.merge 0 1 true true], op.keeps_variables = true :=
    ⟨by decide, rfl, (lockstep_iff_shape specPair).2 ⟨rfl, rfl⟩, rfl, by decide⟩
  exact ⟨hpre, fts, assigned, hrun, hfin,
    leaves_partition_variables specComponents rfl rfl (fun _ => 2) 2 specPair fts
      [Operation.merge 0 1 true true] assigned hpre.1 hpre.2.1 hpre.2.2.1 hpre.2.2.2.1
      hpre.2.2.2.2 hrun⟩

end Leaves

/-! ## Abstractions and pruning on the transition systems modelled from the spec -/

section SpecTransitionSystems

variable {State L HR D : Type}

open FactoredTransitionSystem

theorem build_abstraction_mapping_identity (pruned : Int) (size : Nat) :
    ∃ m, build_abstraction_mapping pruned size (identity_relation size) = some m := by
  unfold build_abstraction_mapping identity_relation
  obtain ⟨m, hm, _⟩ := assign_classes_eq pruned ((List.range size).map fun s => [s]) 0
    (List.replicate size pruned)
    (by
      intro c hc
      obtain ⟨s, _, rfl⟩ := List.mem_map.1 hc
      exact List.nodup_singleton s)
    (by
      rw [List.pairwise_map]
      refine (List.nodup_range size).imp ?_
      intro a b hab
      simpa using Ne.symm hab)
    (by
      intro c hc s hs
      obtain ⟨t, ht, rfl⟩ := List.mem_map.1 hc
      have hst : s = t := by simpa using hs
      subst hst
      have hlt : s < size := List.mem_range.1 ht
      rw [List.getElem?_replicate]
      simp [hlt])
  exact ⟨m, hm⟩

/-- C11: for a valid component, `apply_abstraction` with the identity relation
(one singleton class per state, in state order) returns false ("did not
shrink") and leaves the system, and with it the size of the component, as it
is. -/
theorem apply_abstraction_identity_does_not_shrink
    (ops : Components State L TransitionSystem HR D)
    (hts : ops.ts_apply_abstraction = TransitionSystem.apply_abstraction)
    (hsize : ops.ts_get_size = TransitionSystem.get_size)
    (fts : FactoredTransitionSystem L TransitionSystem HR D) (index : Nat)
    (c : Component TransitionSystem HR D) (silent : Bool)
    (hc : fts.get_component index = some c)
    (hvalid : is_component_valid ops fts index = some true) :
    apply_abstraction ops fts index (identity_relation (ops.ts_get_size c.ts)) silent
      = some (fts, false) ∧
    ∀ fts' shrunk, apply_abstraction ops fts index (identity_relation (ops.ts_get_size c.ts))
        silent = some (fts', shrunk) →
      shrunk = false ∧
      (deref fts'.transition_systems index).map ops.ts_get_size = some (ops.ts_get_size c.ts) := by
  have hv : c.is_valid ops = true := by
    rw [is_component_valid_of_get_component ops fts index c hc] at hvalid
    exact Option.some.inj hvalid
  have hmain : apply_abstraction ops fts index (identity_relation (ops.ts_get_size c.ts)) silent
      = some (fts, false) := by
    rw [apply_abstraction_eq, hc]
    simp only [Option.some_bind]
    obtain ⟨m, hm⟩ := build_abstraction_mapping_identity ops.PRUNED_STATE (ops.ts_get_size c.ts)
    have hlen : ¬ (identity_relation (ops.ts_get_size c.ts)).length < c.ts.num_states := by
      rw [hsize]
      simp [identity_relation, TransitionSystem.get_size]
    have hr : ops.ts_apply_abstraction c.ts (identity_relation (ops.ts_get_size c.ts)) m silent
        = (c.ts, false) := by
      rw [hts]
      unfold TransitionSystem.apply_abstraction
      rw [if_neg hlen]
    unfold Component.apply_abstraction
    rw [hm]
    simp only [Option.some_bind]
    unfold Component.apply_abstraction_with
    simp only [hr, Bool.false_eq_true, if_false]
    have hsame : ({ c with ts := c.ts } : Component TransitionSystem HR D) = c := rfl
    rw [hsame, hv]
    simp only [check, if_true, Option.some_bind, Option.map_some']
    rw [put_component_self fts index c hc]
  refine ⟨hmain, ?_⟩
  intro fts' shrunk h
  rw [hmain] at h
  have e := Option.some.inj h
  have e1 : fts = fts' := congrArg Prod.fst e
  have e2 : false = shrunk := congrArg Prod.snd e
  subst e1 e2
  refine ⟨rfl, ?_⟩
  rw [(deref_eq_some_iff _ _ _).2 ((get_component_eq_some_iff fts index c).1 hc).1]
  rfl

theorem apply_abstraction_identity_does_not_shrink_witness :
    (specAtoms.get_component 0 = some ⟨binary_atom 3 0, HeuristicRepresentation.new_leaf 0 2,
        { init_distances := [0, 1], goal_distances := [1, 0], computed := true }⟩ ∧
      is_component_valid specComponents specAtoms 0 = some true) ∧
    (apply_abstraction specComponents specAtoms 0
        (identity_relation (specComponents.ts_get_size (binary_atom 3 0))) true
      = some (specAtoms, false) ∧
    ∀ fts' shrunk, apply_abstraction specComponents specAtoms 0
        (identity_relation (specComponents.ts_get_size (binary_atom 3 0))) true
        = some (fts', shrunk) →
      shrunk = false ∧
      (deref fts'.transition_systems 0).map specComponents.ts_get_size
        = some (specComponents.ts_get_size (binary_atom 3 0))) :=
  ⟨⟨by rfl, by rfl⟩,
    apply_abstraction_identity_does_not_shrink specComponents rfl rfl specAtoms 0
      ⟨binary_atom 3 0, HeuristicRepresentation.new_leaf 0 2,
        { init_distances := [0, 1], goal_distances := [1, 0], computed := true }⟩ true
      (by rfl) (by rfl)⟩

end SpecTransitionSystems

/-! ## Shortest paths by relaxation: the states that are reached -/

namespace Distances

theorem mem_finite_states (d : List (Option Nat)) (s : Nat) :
    s ∈ finite_states d ↔ ∃ k, d[s]? = some (some k) := by
  unfold finite_states
  rw [Finset.mem_filter, Finset.mem_range]
  constructor
  · rintro ⟨_, h⟩
    rcases hd : d[s]? with _ | _ | k
    · rw [hd] at h
      cases h
    · rw [hd] at h
      cases h
    · exact ⟨k, rfl⟩
  · rintro ⟨k, hk⟩
    refine ⟨FactoredTransitionSystem.lt_length_of_getElem?_eq_some d s _ hk, ?_⟩
    rw [hk]
    rfl

theorem finite_states_subset_range (d : List (Option Nat)) :
    finite_states d ⊆ Finset.range d.length :=
  Finset.filter_subset _ _

theorem relax_length (d : List (Option Nat)) (e : Edge) : (relax d e).length = d.length := by
  unfold relax
  split
  · simp
  · split <;> simp
  · rfl

theorem finite_states_set_some (d : List (Option Nat)) (t k : Nat) (ht : t < d.length) :
    finite_states (d.set t (some k)) = insert t (finite_states d) := by
  ext s
  rw [Finset.mem_insert, mem_finite_states, mem_finite_states]
  by_cases hst : t = s
  · subst hst
    rw [List.getElem?_set]
    simp [ht]
  · rw [List.getElem?_set_ne hst]
    constructor
    · exact fun h => Or.inr h
    · rintro (h | h)
      · exact absurd h.symm hst
      · exact h

theorem finite_states_relax (d : List (Option Nat)) (e : Edge) :
    finite_states (relax d e) = reach_step d.length (finite_states d) e := by
  unfold relax reach_step
  rcases hs : (d[e.src]?).join with _ | ds
  · have hns : e.src ∉ finite_states d := by
      rw [mem_finite_states]
      rintro ⟨k, hk⟩
      rw [hk] at hs
      cases hs
    simp [hns]
  · have hsrc : e.src ∈ finite_states d := by
      rw [mem_finite_states]
      rcases hd : d[e.src]? with _ | _ | k
      · rw [hd] at hs
        cases hs
      · rw [hd] at hs
        cases hs
      · exact ⟨k, rfl⟩
    rcases ht : d[e.target]? with _ | _ | dt
    · have hlt : ¬ e.target < d.length := by
        intro hlt
        rw [List.getElem?_eq_getElem hlt] at ht
        cases ht
      simp [hsrc, hlt]
    · have hlt := FactoredTransitionSystem.lt_length_of_getElem?_eq_some d _ _ ht
      simp only [hsrc, hlt, and_self, if_true]
      exact finite_states_set_some d e.target _ hlt
    · have hlt := FactoredTransitionSystem.lt_length_of_getElem?_eq_some d _ _ ht
      have hin : e.target ∈ finite_states d := (mem_finite_states d _).2 ⟨dt, ht⟩
      simp only [hsrc, hlt, and_self, if_true]
      rw [Finset.insert_eq_of_mem hin]
      split
      · rw [finite_states_set_some d e.target _ hlt, Finset.insert_eq_of_mem hin]
      · rfl

theorem relax_round_spec (es : List Edge) : ∀ d : List (Option Nat),
    (relax_round es d).length = d.length ∧
    finite_states (relax_round es d) = reach_round d.length es (finite_states d) := by
  induction es with
  | nil =>
    intro d
    exact ⟨rfl, rfl⟩
  | cons e rest ih =>
    intro d
    obtain ⟨h1, h2⟩ := ih (relax d e)
    have e1 : relax_round (e :: rest) d = relax_round rest (relax d e) := rfl
    have e2 : reach_round d.length (e :: rest) (finite_states d)
        = reach_round d.length rest (reach_step d.length (finite_states d) e) := rfl
    rw [e1, e2, h1, h2, relax_length, finite_states_relax]
    exact ⟨rfl, rfl⟩

theorem shortest_paths_spec (es : List Edge) : ∀ (rounds : Nat) (d : List (Option Nat)),
    (shortest_paths es rounds d).length = d.length ∧
    finite_states (shortest_paths es rounds d) = reach d.length es rounds (finite_states d) := by
  intro rounds
  induction rounds with
  | zero =>
    intro d
    exact ⟨rfl, rfl⟩
  | succ r ih =>
    intro d
    obtain ⟨h1, h2⟩ := ih (relax_round es d)
    obtain ⟨g1, g2⟩ := relax_round_spec es d
    have e1 : shortest_paths es (r + 1) d = shortest_paths es r (relax_round es d) := rfl
    have e2 : reach d.length es (r + 1) (finite_states d)
        = reach d.length es r (reach_round d.length es (finite_states d)) := rfl
    rw [e1, e2, h1, h2, g1, g2]
    exact ⟨rfl, rfl⟩

end Distances

namespace Distances

theorem subset_reach_step (n : Nat) (S : Finset Nat) (e : Edge) : S ⊆ reach_step n S e := by
  unfold reach_step
  split
  · exact Finset.subset_insert _ _
  · exact Finset.Subset.refl _

theorem subset_reach_round (n : Nat) (es : List Edge) :
    ∀ S : Finset Nat, S ⊆ reach_round n es S := by
  induction es with
  | nil => exact fun S => Finset.Subset.refl _
  | cons e rest ih =>
    intro S
    exact (subset_reach_step n S e).trans (ih (reach_step n S e))

theorem reach_round_target (n : Nat) (es : List Edge) :
    ∀ (S : Finset Nat) (e : Edge), e ∈ es → e.src ∈ S → e.target < n →
      e.target ∈ reach_round n es S := by
  induction es with
  | nil =>
    intro S e he
    exact absurd he (List.not_mem_nil e)
  | cons e0 rest ih =>
    intro S e he hs ht
    show e.target ∈ reach_round n rest (reach_step n S e0)
    rcases List.mem_cons.1 he with h | h
    · subst h
      apply subset_reach_round n rest
      unfold reach_step
      rw [if_pos ⟨hs, ht⟩]
      exact Finset.mem_insert_self _ _
    · exact ih _ e h (subset_reach_step n S e0 hs) ht

theorem reach_round_least (n : Nat) (es : List Edge) (C : Nat → Prop)
    (hC : closed_under n es C) :
    ∀ S : Finset Nat, (∀ s ∈ S, C s) → ∀ s ∈ reach_round n es S, C s := by
  have gen : ∀ (l : List Edge), (∀ e ∈ l, e ∈ es) →
      ∀ S : Finset Nat, (∀ s ∈ S, C s) → ∀ s ∈ reach_round n l S, C s := by
    intro l
    induction l with
    | nil =>
      intro _ S hS s hs
      exact hS s hs
    | cons e rest ih =>
      intro hl S hS s hs
      refine ih (fun x hx => hl x (List.mem_cons_of_mem _ hx)) (reach_step n S e) ?_ s hs
      intro t ht
      unfold reach_step at ht
      by_cases hc : e.src ∈ S ∧ e.target < n
      · rw [if_pos hc] at ht
        rcases Finset.mem_insert.1 ht with h | h
        · rw [h]
          exact hC e (hl e (List.mem_cons_self _ _)) (hS _ hc.1) hc.2
        · exact hS t h
      · rw [if_neg hc] at ht
        exact hS t ht
  exact gen es (fun _ h => h)

theorem reach_round_subset_range (n : Nat) (es : List Edge) (S : Finset Nat)
    (hS : S ⊆ Finset.range n) : reach_round n es S ⊆ Finset.range n := by
  intro s hs
  have hc : closed_under n es (fun s => s ∈ Finset.range n) :=
    fun e _ _ ht => Finset.mem_range.2 ht
  exact reach_round_least n es _ hc S (fun s hs => hS hs) s hs

theorem closed_of_reach_round_eq (n : Nat) (es : List Edge) (S : Finset Nat)
    (h : reach_round n es S = S) : closed_under n es (fun s => s ∈ S) := by
  intro e he hs ht
  have := reach_round_target n es S e he hs ht
  rw [h] at this
  exact this

theorem reach_round_eq_of_closed (n : Nat) (es : List Edge) (S : Finset Nat)
    (h : closed_under n es (fun s => s ∈ S)) : reach_round n es S = S :=
  Finset.Subset.antisymm (fun s hs => reach_round_least n es _ h S (fun _ ht => ht) s hs)
    (subset_reach_round n es S)

theorem reach_eq_of_closed (n : Nat) (es : List Edge) :
    ∀ (rounds : Nat) (S : Finset Nat), closed_under n es (fun s => s ∈ S) →
      reach n es rounds S = S := by
  intro rounds
  induction rounds with
  | zero => exact fun _ _ => rfl
  | succ r ih =>
    intro S h
    show reach n es r (reach_round n es S) = S
    rw [reach_round_eq_of_closed n es S h]
    exact ih S h

theorem subset_reach (n : Nat) (es : List Edge) :
    ∀ (rounds : Nat) (S : Finset Nat), S ⊆ reach n es rounds S := by
  intro rounds
  induction rounds with
  | zero => exact fun S => Finset.Subset.refl _
  | succ r ih =>
    intro S
    exact (subset_reach_round n es S).trans (ih (reach_round n es S))

theorem reach_least (n : Nat) (es : List Edge) (C : Nat → Prop) (hC : closed_under n es C) :
    ∀ (rounds : Nat) (S : Finset Nat), (∀ s ∈ S, C s) → ∀ s ∈ reach n es rounds S, C s := by
  intro rounds
  induction rounds with
  | zero => exact fun S hS s hs => hS s hs
  | succ r ih =>
    intro S hS s hs
    exact ih (reach_round n es S) (reach_round_least n es C hC S hS) s hs

theorem reach_subset_range (n : Nat) (es : List Edge) (rounds : Nat) (S : Finset Nat)
    (hS : S ⊆ Finset.range n) : reach n es rounds S ⊆ Finset.range n := by
  intro s hs
  have hc : closed_under n es (fun s => s ∈ Finset.range n) :=
    fun e _ _ ht => Finset.mem_range.2 ht
  exact reach_least n es _ hc rounds S (fun s hs => hS hs) s hs

theorem reach_closed_or_grows (n : Nat) (es : List Edge) :
    ∀ (rounds : Nat) (S : Finset Nat),
      closed_under n es (fun s => s ∈ reach n es rounds S) ∨
        S.card + rounds ≤ (reach n es rounds S).card := by
  intro rounds
  induction rounds with
  | zero =>
    intro S
    exact Or.inr (le_refl _)
  | succ r ih =>
    intro S
    show closed_under n es (fun s => s ∈ reach n es r (reach_round n es S)) ∨
      S.card + (r + 1) ≤ (reach n es r (reach_round n es S)).card
    by_cases heq : reach_round n es S = S
    · left
      have hcl := closed_of_reach_round_eq n es S heq
      rw [heq, reach_eq_of_closed n es r S hcl]
      exact hcl
    · have hss : S ⊂ reach_round n es S :=
        Finset.ssubset_iff_subset_ne.2 ⟨subset_reach_round n es S, fun h => heq h.symm⟩
      have hcard := Finset.card_lt_card hss
      rcases ih (reach_round n es S) with h | h
      · exact Or.inl h
      · right
        omega

/-- After as many rounds as there are states, the set of states with a finite
distance is closed under the edges. -/
theorem reach_closed (n : Nat) (es : List Edge) (S : Finset Nat) (hS : S ⊆ Finset.range n) :
    closed_under n es (fun s => s ∈ reach n es n S) := by
  rcases reach_closed_or_grows n es n S with h | h
  · exact h
  · have hsub := reach_subset_range n es n S hS
    have hle := Finset.card_le_card hsub
    rw [Finset.card_range] at hle
    have hfull : reach n es n S = Finset.range n := by
      apply Finset.eq_of_subset_of_card_le hsub
      rw [Finset.card_range]
      omega
    intro e _ _ ht
    show e.target ∈ reach n es n S
    rw [hfull]
    exact Finset.mem_range.2 ht

end Distances

namespace Distances

theorem mem_finite_states_sources (n : Nat) (f : Nat → Option Nat) (s : Nat) :
    s ∈ finite_states ((List.range n).map f) ↔ s < n ∧ ∃ k, f s = some k := by
  rw [mem_finite_states]
  by_cases hs : s < n
  · simp [hs]
  · have hnone : ((List.range n).map f)[s]? = none :=
      List.getElem?_eq_none (by simpa using hs)
    rw [hnone]
    simp [hs]

/-- What the shortest path computation reaches from the states with a finite
distance at the start: these states, and with them exactly the states that
every set closed under the edges holds that holds them. -/
theorem shortest_paths_reach (es : List Edge) (n : Nat) (f : Nat → Option Nat) :
    (shortest_paths es n ((List.range n).map f)).length = n ∧
    (∀ s, s < n → (∃ k, f s = some k) →
      s ∈ finite_states (shortest_paths es n ((List.range n).map f))) ∧
    closed_under n es (fun s => s ∈ finite_states (shortest_paths es n ((List.range n).map f))) ∧
    (∀ C : Nat → Prop, closed_under n es C → (∀ s, s < n → (∃ k, f s = some k) → C s) →
      ∀ s ∈ finite_states (shortest_paths es n ((List.range n).map f)), C s) := by
  obtain ⟨h1, h2⟩ := shortest_paths_spec es n ((List.range n).map f)
  have hlen : ((List.range n).map f).length = n := by simp
  rw [hlen] at h1 h2
  have hsub : finite_states ((List.range n).map f) ⊆ Finset.range n := by
    intro s hs
    exact Finset.mem_range.2 ((mem_finite_states_sources n f s).1 hs).1
  refine ⟨h1, ?_, ?_, ?_⟩
  · intro s hs hk
    rw [h2]
    exact subset_reach n es n _ ((mem_finite_states_sources n f s).2 ⟨hs, hk⟩)
  · rw [h2]
    exact reach_closed n es _ hsub
  · intro C hC hsrc s hs
    rw [h2] at hs
    refine reach_least n es C hC n _ ?_ s hs
    intro t ht
    obtain ⟨a, b⟩ := (mem_finite_states_sources n f t).1 ht
    exact hsrc t a b

theorem forward_distances_reach (ts : TransitionSystem) :
    (forward_distances ts).length = ts.num_states ∧
    (∀ s, s < ts.num_states → (s : Int) = ts.init_state →
      s ∈ finite_states (forward_distances ts)) ∧
    closed_under ts.num_states (edges ts) (fun s => s ∈ finite_states (forward_distances ts)) ∧
    (∀ C : Nat → Prop, closed_under ts.num_states (edges ts) C →
      (∀ s, s < ts.num_states → (s : Int) = ts.init_state → C s) →
      ∀ s ∈ finite_states (forward_distances ts), C s) := by
  obtain ⟨h1, h2, h3, h4⟩ := shortest_paths_reach (edges ts) ts.num_states
    (fun s => if (s : Int) = ts.init_state then some 0 else none)
  refine ⟨h1, ?_, h3, ?_⟩
  · intro s hs hi
    exact h2 s hs ⟨0, by simp [hi]⟩
  · intro C hC hsrc s hs
    refine h4 C hC ?_ s hs
    rintro t ht ⟨k, hk⟩
    by_cases hi : (t : Int) = ts.init_state
    · exact hsrc t ht hi
    · simp [hi] at hk

theorem backward_distances_reach (ts : TransitionSystem) :
    (backward_distances ts).length = ts.num_states ∧
    (∀ s, s < ts.num_states → (ts.goal_states[s]?).getD false = true →
      s ∈ finite_states (backward_distances ts)) ∧
    closed_under ts.num_states (reversed (edges ts))
      (fun s => s ∈ finite_states (backward_distances ts)) ∧
    (∀ C : Nat → Prop, closed_under ts.num_states (reversed (edges ts)) C →
      (∀ s, s < ts.num_states → (ts.goal_states[s]?).getD false = true → C s) →
      ∀ s ∈ finite_states (backward_distances ts), C s) := by
  obtain ⟨h1, h2, h3, h4⟩ := shortest_paths_reach (reversed (edges ts)) ts.num_states
    (fun s => if (ts.goal_states[s]?).getD false then some 0 else none)
  refine ⟨h1, ?_, h3, ?_⟩
  · intro s hs hi
    exact h2 s hs ⟨0, by simp [hi]⟩
  · intro C hC hsrc s hs
    refine h4 C hC ?_ s hs
    rintro t ht ⟨k, hk⟩
    by_cases hi : (ts.goal_states[t]?).getD false = true
    · exact hsrc t ht hi
    · simp [hi] at hk

end Distances

/-! ## Pruning on the transition systems modelled from the spec -/

section SpecPruning

open FactoredTransitionSystem Distances

theorem mem_insert_transition (t x : Transition) : ∀ l : List Transition,
    x ∈ insert_transition t l ↔ x = t ∨ x ∈ l := by
  intro l
  induction l with
  | nil => simp [insert_transition]
  | cons u rest ih =>
    unfold insert_transition
    by_cases h1 : t.lt u = true
    · simp [h1]
    · by_cases h2 : t = u
      · subst h2
        simp [h1]
      · simp only [h1, Bool.false_eq_true, if_false, h2, List.mem_cons, ih]
        tauto

theorem mem_sort_unique (x : Transition) : ∀ l : List Transition,
    x ∈ sort_unique l ↔ x ∈ l := by
  intro l
  induction l with
  | nil => simp [sort_unique]
  | cons t rest ih =>
    have e : sort_unique (t :: rest) = insert_transition t (sort_unique rest) := rfl
    rw [e, mem_insert_transition, ih, List.mem_cons]

theorem mem_edges (ts : TransitionSystem) (e : Edge) :
    e ∈ edges ts ↔ ∃ g ∈ ts.label_groups, ∃ t ∈ g.transitions,
      e = { src := t.src, target := t.target, cost := g.cost } := by
  unfold edges
  simp only [List.mem_flatMap, List.mem_map]
  constructor
  · rintro ⟨g, hg, t, ht, rfl⟩
    exact ⟨g, hg, t, ht, rfl⟩
  · rintro ⟨g, hg, t, ht, rfl⟩
    exact ⟨g, hg, t, ht, rfl⟩

theorem mem_reversed (es : List Edge) (e : Edge) :
    e ∈ reversed es ↔ ∃ e' ∈ es, e = { src := e'.target, target := e'.src, cost := e'.cost } := by
  unfold reversed
  simp only [List.mem_map]
  constructor
  · rintro ⟨e', he', rfl⟩
    exact ⟨e', he', rfl⟩
  · rintro ⟨e', he', rfl⟩
    exact ⟨e', he', rfl⟩

/-- An edge between two states that the abstraction mapping keeps is an edge of
the abstracted transition system, between their images. -/
theorem edge_of_abstraction (ts : TransitionSystem) (rel : StateEquivalenceRelation)
    (m : List Int) (silent : Bool) (hshrink : rel.length < ts.num_states)
    (e : Edge) (he : e ∈ edges ts) (ja jb : Nat)
    (ha : m[e.src]? = some (ja : Int)) (hb : m[e.target]? = some (jb : Int)) :
    ({ src := ja, target := jb, cost := e.cost } : Edge)
      ∈ edges (ts.apply_abstraction rel m silent).1 := by
  obtain ⟨g, hg, t, ht, rfl⟩ := (mem_edges ts e).1 he
  unfold TransitionSystem.apply_abstraction
  rw [if_pos hshrink]
  rw [mem_edges]
  refine ⟨LabelGroup.mk g.labels
      (sort_unique (g.transitions.filterMap (TransitionSystem.map_transition m))) g.cost,
    List.mem_map.2 ⟨g, hg, rfl⟩, Transition.mk ja jb, ?_, rfl⟩
  show _ ∈ sort_unique _
  rw [mem_sort_unique, List.mem_filterMap]
  refine ⟨t, ht, ?_⟩
  unfold TransitionSystem.map_transition
  have ha' : m[t.src]? = some (ja : Int) := ha
  have hb' : m[t.target]? = some (jb : Int) := hb
  rw [ha', hb']
  have hn : ¬ ((ja : Int) < 0 ∨ (jb : Int) < 0) := by omega
  simp only [hn, if_false, Int.toNat_ofNat]

/-- The states that `discard_states` keeps, in increasing order. -/
theorem discard_relation_eq_kept (mask : List Bool) :
    discard_relation mask
      = ((List.range mask.length).filter fun j => mask[j]? = some false).map fun j => [j] := by
  unfold discard_relation
  rw [discard_relation_from_eq]
  simp

/-- The abstraction mapping built for the relation of `discard_states` maps the
kept state at position `j` to `j`. -/
theorem build_abstraction_mapping_kept (pruned : Int) (mask : List Bool) (m : List Int)
    (h : build_abstraction_mapping pruned mask.length (discard_relation mask) = some m) :
    ∀ j s : Nat,
      ((List.range mask.length).filter fun j => mask[j]? = some false)[j]? = some s →
      m[s]? = some (j : Int) := by
  intro j s hj
  unfold build_abstraction_mapping at h
  rw [discard_relation_eq_kept] at h
  obtain ⟨m', hm', _, hget, _⟩ := assign_classes_eq pruned
    (((List.range mask.length).filter fun j => mask[j]? = some false).map fun j => [j]) 0
    (List.replicate mask.length pruned)
    (by
      intro c hc
      obtain ⟨s, _, rfl⟩ := List.mem_map.1 hc
      exact List.nodup_singleton s)
    (by
      rw [List.pairwise_map]
      refine ((List.nodup_range mask.length).filter _).imp ?_
      intro a b hab
      simpa using Ne.symm hab)
    (by
      intro c hc s hs
      obtain ⟨t, ht, rfl⟩ := List.mem_map.1 hc
      have hst : s = t := by simpa using hs
      subst hst
      have hlt : s < mask.length := List.mem_range.1 (List.mem_filter.1 ht).1
      rw [List.getElem?_replicate]
      simp [hlt])
  rw [hm'] at h
  have e : m' = m := Option.some.inj h
  subst e
  obtain ⟨hlt, hval⟩ := List.getElem?_eq_some.1 hj
  have hlt' : j < (((List.range mask.length).filter fun j => mask[j]? = some false).map
      fun j => [j]).length := by simpa using hlt
  have := hget j hlt' s (by simp [hval])
  simpa using this

end SpecPruning

section SpecPruning

open FactoredTransitionSystem Distances

theorem compute_distances_mask (ts : TransitionSystem) (d : Distances) (silent : Bool) :
    (d.compute_distances ts silent).2.length = ts.num_states ∧
    ∀ s, (d.compute_distances ts silent).2[s]? = some false ↔
      s ∈ finite_states (forward_distances ts) ∧ s ∈ finite_states (backward_distances ts) := by
  have hf := (forward_distances_reach ts).1
  have hb := (backward_distances_reach ts).1
  refine ⟨by simp [Distances.compute_distances, hf, hb], ?_⟩
  intro s
  rw [mem_finite_states, mem_finite_states]
  show (List.zipWith (fun g h => g.isNone || h.isNone) (forward_distances ts)
    (backward_distances ts))[s]? = some false ↔ _
  rw [List.getElem?_zipWith]
  rcases h1 : (forward_distances ts)[s]? with _ | _ | g <;>
    rcases h2 : (backward_distances ts)[s]? with _ | _ | h <;> simp

theorem mem_kept (ts : TransitionSystem) (d : Distances) (silent : Bool) (s : Nat) :
    s ∈ (List.range (d.compute_distances ts silent).2.length).filter
        (fun j => (d.compute_distances ts silent).2[j]? = some false) ↔
      s ∈ finite_states (forward_distances ts) ∧ s ∈ finite_states (backward_distances ts) := by
  obtain ⟨hlen, hmask⟩ := compute_distances_mask ts d silent
  rw [List.mem_filter, List.mem_range, hlen]
  constructor
  · rintro ⟨_, h⟩
    exact (hmask s).1 (by simpa using h)
  · intro h
    refine ⟨?_, by simpa using (hmask s).2 h⟩
    have := finite_states_subset_range _ h.1
    rw [(forward_distances_reach ts).1] at this
    exact Finset.mem_range.1 this

/-- After the states with an infinite g or h have been discarded, every state
of the abstracted transition system has a finite g. -/
theorem abstracted_forward_finite (ts : TransitionSystem) (d : Distances) (silent : Bool)
    (m : List Int)
    (hm : build_abstraction_mapping PRUNED_STATE (d.compute_distances ts silent).2.length
      (discard_relation (d.compute_distances ts silent).2) = some m)
    (hshrink : (discard_relation (d.compute_distances ts silent).2).length < ts.num_states) :
    ∀ j, j < (ts.apply_abstraction (discard_relation (d.compute_distances ts silent).2) m
        silent).1.num_states →
      j ∈ finite_states (forward_distances (ts.apply_abstraction
        (discard_relation (d.compute_distances ts silent).2) m silent).1) := by
  obtain ⟨_, fsrc, fclosed, fleast⟩ := forward_distances_reach ts
  obtain ⟨_, _, bclosed, _⟩ := backward_distances_reach ts
  obtain ⟨_, gsrc, gclosed, _⟩ := forward_distances_reach
    (ts.apply_abstraction (discard_relation (d.compute_distances ts silent).2) m silent).1
  have hkm := build_abstraction_mapping_kept PRUNED_STATE _ m hm
  have hnum : (ts.apply_abstraction (discard_relation (d.compute_distances ts silent).2) m
      silent).1.num_states
      = ((List.range (d.compute_distances ts silent).2.length).filter
        (fun j => (d.compute_distances ts silent).2[j]? = some false)).length := by
    unfold TransitionSystem.apply_abstraction
    rw [if_pos hshrink]
    show (discard_relation _).length = _
    rw [discard_relation_eq_kept, List.length_map]
  have hinit : ∀ s j : Nat, (s : Int) = ts.init_state → m[s]? = some (j : Int) →
      (j : Int) = (ts.apply_abstraction (discard_relation (d.compute_distances ts silent).2) m
        silent).1.init_state := by
    intro s j hs hj
    unfold TransitionSystem.apply_abstraction
    rw [if_pos hshrink]
    show (j : Int) = TransitionSystem.map_state m ts.init_state
    unfold TransitionSystem.map_state
    rw [← hs]
    have hn : ¬ ((s : Int) < 0) := by omega
    have hj' : ¬ ((j : Int) < 0) := by omega
    simp only [hn, if_false, Int.toNat_ofNat, hj, hj']
  have key : ∀ s ∈ finite_states (forward_distances ts),
      s < ts.num_states ∧ s ∈ finite_states (forward_distances ts) ∧
      (s ∈ finite_states (backward_distances ts) → ∀ j,
        ((List.range (d.compute_distances ts silent).2.length).filter
          (fun j => (d.compute_distances ts silent).2[j]? = some false))[j]? = some s →
        j ∈ finite_states (forward_distances (ts.apply_abstraction
          (discard_relation (d.compute_distances ts silent).2) m silent).1)) := by
    apply fleast
    · intro e he hC ht
      obtain ⟨ha, haG, hA⟩ := hC
      have hbG := fclosed e he haG ht
      refine ⟨ht, hbG, ?_⟩
      intro hbH jb hjb
      have haH : e.src ∈ finite_states (backward_distances ts) :=
        bclosed { src := e.target, target := e.src, cost := e.cost }
          ((mem_reversed _ _).2 ⟨e, he, rfl⟩) hbH ha
      obtain ⟨ja, hja⟩ := List.mem_iff_getElem?.1 ((mem_kept ts d silent e.src).2 ⟨haG, haH⟩)
      have hjaG := hA haH ja hja
      have hedge := edge_of_abstraction ts _ m silent hshrink e he ja jb (hkm ja _ hja)
        (hkm jb _ hjb)
      refine gclosed _ hedge hjaG ?_
      rw [hnum]
      exact (List.getElem?_eq_some.1 hjb).1
    · intro s hs hi
      refine ⟨hs, fsrc s hs hi, ?_⟩
      intro _ j hj
      refine gsrc j ?_ (hinit s j hi (hkm j s hj))
      rw [hnum]
      exact (List.getElem?_eq_some.1 hj).1
  intro j hj
  rw [hnum] at hj
  have hjs := List.getElem?_eq_getElem hj
  have hmem := (mem_kept ts d silent _).1 (List.getElem_mem hj)
  exact (key _ hmem.1).2.2 hmem.2 j hjs

end SpecPruning

section SpecPruning

open FactoredTransitionSystem Distances

/-- After the states with an infinite g or h have been discarded, every state
of the abstracted transition system has a finite h. -/
theorem abstracted_backward_finite (ts : TransitionSystem) (d : Distances) (silent : Bool)
    (m : List Int)
    (hm : build_abstraction_mapping PRUNED_STATE (d.compute_distances ts silent).2.length
      (discard_relation (d.compute_distances ts silent).2) = some m)
    (hshrink : (discard_relation (d.compute_distances ts silent).2).length < ts.num_states) :
    ∀ j, j < (ts.apply_abstraction (discard_relation (d.compute_distances ts silent).2) m
        silent).1.num_states →
      j ∈ finite_states (backward_distances (ts.apply_abstraction
        (discard_relation (d.compute_distances ts silent).2) m silent).1) := by
  obtain ⟨_, _, fclosed, _⟩ := forward_distances_reach ts
  obtain ⟨_, bsrc, bclosed, bleast⟩ := backward_distances_reach ts
  obtain ⟨_, gsrc, gclosed, _⟩ := backward_distances_reach
    (ts.apply_abstraction (discard_relation (d.compute_distances ts silent).2) m silent).1
  have hkm := build_abstraction_mapping_kept PRUNED_STATE _ m hm
  have hnum : (ts.apply_abstraction (discard_relation (d.compute_distances ts silent).2) m
      silent).1.num_states
      = ((List.range (d.compute_distances ts silent).2.length).filter
        (fun j => (d.compute_distances ts silent).2[j]? = some false)).length := by
    unfold TransitionSystem.apply_abstraction
    rw [if_pos hshrink]
    show (discard_relation _).length = _
    rw [discard_relation_eq_kept, List.length_map]
  have hgoal : ∀ s j : Nat, (ts.goal_states[s]?).getD false = true →
      ((List.range (d.compute_distances ts silent).2.length).filter
        (fun j => (d.compute_distances ts silent).2[j]? = some false))[j]? = some s →
      ((ts.apply_abstraction (discard_relation (d.compute_distances ts silent).2) m
        silent).1.goal_states[j]?).getD false = true := by
    intro s j hs hj
    unfold TransitionSystem.apply_abstraction
    rw [if_pos hshrink]
    show (((discard_relation _).map _)[j]?).getD false = true
    rw [discard_relation_eq_kept, List.map_map, List.getElem?_map, hj]
    simp [hs]
  have key : ∀ s ∈ finite_states (backward_distances ts),
      s < ts.num_states ∧ s ∈ finite_states (backward_distances ts) ∧
      (s ∈ finite_states (forward_distances ts) → ∀ j,
        ((List.range (d.compute_distances ts silent).2.length).filter
          (fun j => (d.compute_distances ts silent).2[j]? = some false))[j]? = some s →
        j ∈ finite_states (backward_distances (ts.apply_abstraction
          (discard_relation (d.compute_distances ts silent).2) m silent).1)) := by
    apply bleast
    · intro e' he' hC ht
      obtain ⟨e, he, rfl⟩ := (mem_reversed _ _).1 he'
      obtain ⟨hb, hbH, hB⟩ := hC
      have haH := bclosed _ he' hbH ht
      refine ⟨ht, haH, ?_⟩
      intro haG ja hja
      have hbG : e.target ∈ finite_states (forward_distances ts) := fclosed e he haG hb
      obtain ⟨jb, hjb⟩ := List.mem_iff_getElem?.1 ((mem_kept ts d silent e.target).2 ⟨hbG, hbH⟩)
      have hjbH := hB hbG jb hjb
      have hedge := edge_of_abstraction ts _ m silent hshrink e he ja jb (hkm ja _ hja)
        (hkm jb _ hjb)
      have hrev : ({ src := jb, target := ja, cost := e.cost } : Edge)
          ∈ reversed (edges (ts.apply_abstraction
            (discard_relation (d.compute_distances ts silent).2) m silent).1) :=
        (mem_reversed _ _).2 ⟨_, hedge, rfl⟩
      refine gclosed _ hrev hjbH ?_
      rw [hnum]
      exact (List.getElem?_eq_some.1 hja).1
    · intro s hs hi
      refine ⟨hs, bsrc s hs hi, ?_⟩
      intro _ j hj
      refine gsrc j ?_ (hgoal s j hi hj)
      rw [hnum]
      exact (List.getElem?_eq_some.1 hj).1
  intro j hj
  rw [hnum] at hj
  have hjs := List.getElem?_eq_getElem hj
  have hmem := (mem_kept ts d silent _).1 (List.getElem_mem hj)
  exact (key _ hmem.2).2.2 hmem.1 j hjs

end SpecPruning

section SpecPruning

open FactoredTransitionSystem Distances

theorem Transition.lt_of_not_lt (t u : Transition) (h1 : t.lt u = false) (h2 : t ≠ u) :
    u.lt t = true := by
  rcases t with ⟨a, b⟩
  rcases u with ⟨c, d⟩
  simp only [Transition.lt, Bool.or_eq_false_iff, Bool.and_eq_false_imp, decide_eq_false_iff_not,
    decide_eq_true_eq] at h1
  simp only [Transition.lt, Bool.or_eq_true, Bool.and_eq_true, decide_eq_true_eq]
  have hne : ¬ (a = c ∧ b = d) := by
    rintro ⟨rfl, rfl⟩
    exact h2 rfl
  by_cases hac : a = c
  · right
    have := h1.2 hac
    exact ⟨hac.symm, by omega⟩
  · left
    omega

theorem is_sorted_unique_cons (t u : Transition) (rest : List Transition) :
    is_sorted_unique (t :: u :: rest) = (t.lt u && is_sorted_unique (u :: rest)) := rfl

theorem is_sorted_unique_tail (t : Transition) (l : List Transition)
    (h : is_sorted_unique (t :: l) = true) : is_sorted_unique l = true := by
  cases l with
  | nil => rfl
  | cons u rest =>
    rw [is_sorted_unique_cons, Bool.and_eq_true] at h
    exact h.2

theorem is_sorted_unique_insert (t : Transition) : ∀ l : List Transition,
    is_sorted_unique l = true → is_sorted_unique (insert_transition t l) = true := by
  intro l
  induction l with
  | nil => exact fun _ => rfl
  | cons u rest ih =>
    intro h
    unfold insert_transition
    rcases h1 : t.lt u with _ | _
    · by_cases h2 : t = u
      · simp only [Bool.false_eq_true, if_false, h2, if_true]
        rw [← h2] at h ⊢
        exact h
      · simp only [Bool.false_eq_true, if_false, h2]
        have hut := Transition.lt_of_not_lt t u h1 h2
        have hrest := ih (is_sorted_unique_tail u rest h)
        cases rest with
        | nil =>
          show is_sorted_unique [u, t] = true
          rw [is_sorted_unique_cons, hut]
          rfl
        | cons v rest' =>
          have hsorted := h
          rw [is_sorted_unique_cons, Bool.and_eq_true] at h
          unfold insert_transition at hrest ⊢
          rcases h3 : t.lt v with _ | _
          · have hn : ¬ (false = true) := Bool.false_ne_true
            by_cases h4 : t = v
            · rw [if_neg hn, if_pos h4]
              exact hsorted
            · rw [h3, if_neg hn, if_neg h4] at hrest
              rw [if_neg hn, if_neg h4, is_sorted_unique_cons, h.1, hrest]
              rfl
          · rw [h3, if_pos rfl] at hrest
            rw [if_pos rfl, is_sorted_unique_cons, hut, hrest]
            rfl
    · simp only [if_true]
      rw [is_sorted_unique_cons, h1, h]
      rfl

theorem is_sorted_unique_sort_unique : ∀ l : List Transition,
    is_sorted_unique (sort_unique l) = true := by
  intro l
  induction l with
  | nil => rfl
  | cons t rest ih => exact is_sorted_unique_insert t _ ih

theorem build_abstraction_mapping_discard (pruned : Int) (mask : List Bool) :
    ∃ m, build_abstraction_mapping pruned mask.length (discard_relation mask) = some m := by
  unfold build_abstraction_mapping
  rw [discard_relation_eq_kept]
  obtain ⟨m', hm', _⟩ := assign_classes_eq pruned
    (((List.range mask.length).filter fun j => mask[j]? = some false).map fun j => [j]) 0
    (List.replicate mask.length pruned)
    (by
      intro c hc
      obtain ⟨s, _, rfl⟩ := List.mem_map.1 hc
      exact List.nodup_singleton s)
    (by
      rw [List.pairwise_map]
      refine ((List.nodup_range mask.length).filter _).imp ?_
      intro a b hab
      simpa using Ne.symm hab)
    (by
      intro c hc s hs
      obtain ⟨t, ht, rfl⟩ := List.mem_map.1 hc
      have hst : s = t := by simpa using hs
      subst hst
      have hlt : s < mask.length := List.mem_range.1 (List.mem_filter.1 ht).1
      rw [List.getElem?_replicate]
      simp [hlt])
  exact ⟨m', hm'⟩

theorem discard_relation_length_le (mask : List Bool) :
    (discard_relation mask).length ≤ mask.length := by
  rw [discard_relation_eq_kept, List.length_map]
  have := List.length_filter_le (fun j => decide (mask[j]? = some false)) (List.range mask.length)
  simpa using this

theorem all_kept_of_length (mask : List Bool)
    (h : ¬ (discard_relation mask).length < mask.length) :
    ∀ s, s < mask.length → mask[s]? = some false := by
  intro s hs
  rw [discard_relation_eq_kept, List.length_map] at h
  have hle := List.length_filter_le (fun j => decide (mask[j]? = some false))
    (List.range mask.length)
  have heq : ((List.range mask.length).filter fun j => decide (mask[j]? = some false)).length
      = (List.range mask.length).length := by
    rw [List.length_range] at hle ⊢
    omega
  have hsub := List.filter_sublist (p := fun j => decide (mask[j]? = some false))
    (List.range mask.length)
  have hall := hsub.eq_of_length heq
  have hmem : s ∈ (List.range mask.length).filter fun j => decide (mask[j]? = some false) := by
    rw [hall]
    exact List.mem_range.2 hs
  simpa using (List.mem_filter.1 hmem).2

end SpecPruning

section SpecPruning

open FactoredTransitionSystem Distances

theorem apply_abstraction_shrinks (ts : TransitionSystem) (rel : StateEquivalenceRelation)
    (m : List Int) (silent : Bool) (h : rel.length < ts.num_states) :
    (ts.apply_abstraction rel m silent).2 = true ∧
    (ts.apply_abstraction rel m silent).1.num_states = rel.length ∧
    (ts.apply_abstraction rel m silent).1.are_transitions_sorted_unique = true := by
  unfold TransitionSystem.apply_abstraction
  rw [if_pos h]
  refine ⟨rfl, rfl, ?_⟩
  unfold TransitionSystem.are_transitions_sorted_unique
  rw [List.all_eq_true]
  intro g hg
  obtain ⟨g0, _, rfl⟩ := List.mem_map.1 hg
  exact is_sorted_unique_sort_unique _

theorem apply_abstraction_same (ts : TransitionSystem) (rel : StateEquivalenceRelation)
    (m : List Int) (silent : Bool) (h : ¬ rel.length < ts.num_states) :
    ts.apply_abstraction rel m silent = (ts, false) := by
  unfold TransitionSystem.apply_abstraction
  rw [if_neg h]

theorem Component_apply_abstraction_with_shrinks
    (c : Component TransitionSystem HeuristicRepresentation Distances)
    (rel : StateEquivalenceRelation) (m : List Int) (silent : Bool)
    (h : rel.length < c.ts.num_states) :
    c.apply_abstraction_with specComponents rel m silent
      = some (⟨(c.ts.apply_abstraction rel m silent).1,
          c.hr.apply_abstraction_to_lookup_table m,
          Distances.of_transition_system (c.ts.apply_abstraction rel m silent).1⟩, true) := by
  obtain ⟨s1, _, s3⟩ := apply_abstraction_shrinks c.ts rel m silent h
  unfold Component.apply_abstraction_with
  simp only [show specComponents.ts_apply_abstraction c.ts rel m silent
    = c.ts.apply_abstraction rel m silent from rfl, s1, if_true]
  have hv : Component.is_valid specComponents
      (⟨(c.ts.apply_abstraction rel m silent).1,
        specComponents.hr_apply_abstraction_to_lookup_table c.hr m,
        (specComponents.dist_apply_abstraction c.dist (c.ts.apply_abstraction rel m silent).1
          rel silent).1⟩ : Component TransitionSystem HeuristicRepresentation Distances)
      = true := by
    show (true && (c.ts.apply_abstraction rel m silent).1.are_transitions_sorted_unique) = true
    rw [s3]
    rfl
  rw [hv]
  rfl

theorem Component_apply_abstraction_with_same
    (c : Component TransitionSystem HeuristicRepresentation Distances)
    (rel : StateEquivalenceRelation) (m : List Int) (silent : Bool)
    (h : ¬ rel.length < c.ts.num_states)
    (hvalid : c.is_valid specComponents = true) :
    c.apply_abstraction_with specComponents rel m silent = some (c, false) := by
  have hr := apply_abstraction_same c.ts rel m silent h
  unfold Component.apply_abstraction_with
  simp only [show specComponents.ts_apply_abstraction c.ts rel m silent
    = c.ts.apply_abstraction rel m silent from rfl, hr, Bool.false_eq_true, if_false]
  have hsame : ({ c with ts := c.ts } : Component TransitionSystem HeuristicRepresentation
    Distances) = c := rfl
  rw [hsame, hvalid]
  rfl

end SpecPruning

section SpecPruning

open FactoredTransitionSystem Distances

theorem Component_is_valid_spec
    (c : Component TransitionSystem HeuristicRepresentation Distances) :
    c.is_valid specComponents = (c.dist.computed && c.ts.are_transitions_sorted_unique) := rfl

/-- What `compute_distances_and_prune` makes of a component whose transitions
are sorted and duplicate-free, on the components modelled from the spec. -/
theorem Component_compute_distances_and_prune_spec
    (c : Component TransitionSystem HeuristicRepresentation Distances) (silent : Bool)
    (hsorted : c.ts.are_transitions_sorted_unique = true) :
    ∃ r, c.compute_distances_and_prune specComponents silent = some r ∧
      r.1.dist = Distances.of_transition_system r.1.ts ∧
      r.1.ts.are_transitions_sorted_unique = true ∧
      r.1.ts.num_states ≤ c.ts.num_states ∧
      ∀ s, s < r.1.ts.num_states →
        s ∈ finite_states (forward_distances r.1.ts) ∧
        s ∈ finite_states (backward_distances r.1.ts) := by
  obtain ⟨hlen, hmask⟩ := compute_distances_mask c.ts c.dist silent
  obtain ⟨m, hm⟩ := build_abstraction_mapping_discard PRUNED_STATE
    (c.dist.compute_distances c.ts silent).2
  have hstep : ∃ c' b, Component.apply_abstraction_with specComponents
        { c with dist := (c.dist.compute_distances c.ts silent).1 }
        (discard_relation (c.dist.compute_distances c.ts silent).2) m silent = some (c', b) ∧
      c'.dist = Distances.of_transition_system c'.ts ∧
      c'.ts.are_transitions_sorted_unique = true ∧
      c'.ts.num_states ≤ c.ts.num_states ∧
      ∀ s, s < c'.ts.num_states →
        s ∈ finite_states (forward_distances c'.ts) ∧
        s ∈ finite_states (backward_distances c'.ts) := by
    by_cases hshrink : (discard_relation (c.dist.compute_distances c.ts silent).2).length
        < c.ts.num_states
    · obtain ⟨_, s2, s3⟩ := apply_abstraction_shrinks c.ts _ m silent hshrink
      refine ⟨_, _, Component_apply_abstraction_with_shrinks
        { c with dist := (c.dist.compute_distances c.ts silent).1 } _ m silent hshrink,
        rfl, s3, ?_, ?_⟩
      · show (c.ts.apply_abstraction _ m silent).1.num_states ≤ c.ts.num_states
        rw [s2]
        exact le_of_lt hshrink
      · intro s hs
        exact ⟨abstracted_forward_finite c.ts c.dist silent m hm hshrink s hs,
          abstracted_backward_finite c.ts c.dist silent m hm hshrink s hs⟩
    · have hv : Component.is_valid specComponents
          ({ c with dist := (c.dist.compute_distances c.ts silent).1 } :
            Component TransitionSystem HeuristicRepresentation Distances) = true := by
        rw [Component_is_valid_spec]
        show (true && c.ts.are_transitions_sorted_unique) = true
        rw [hsorted]
        rfl
      refine ⟨_, _, Component_apply_abstraction_with_same
        { c with dist := (c.dist.compute_distances c.ts silent).1 } _ m silent hshrink hv,
        rfl, hsorted, le_refl _, ?_⟩
      intro s hs
      have hall := all_kept_of_length (c.dist.compute_distances c.ts silent).2
        (by rw [hlen]; exact hshrink) s (by rw [hlen]; exact hs)
      exact (hmask s).1 hall
  obtain ⟨c', b, hawith, p1, p2, p3, p4⟩ := hstep
  have hvalid : c'.is_valid specComponents = true := by
    rw [Component_is_valid_spec, p1, p2]
    rfl
  have hcheck : decide ((c.dist.compute_distances c.ts silent).2.length = c.ts.num_states)
      = true := decide_eq_true hlen
  have hsize : decide (c'.ts.num_states ≤ c.ts.num_states) = true := decide_eq_true p3
  have hab : Component.apply_abstraction specComponents
      { c with dist := (c.dist.compute_distances c.ts silent).1 }
      (discard_relation (c.dist.compute_distances c.ts silent).2) silent = some (c', b) := by
    unfold Component.apply_abstraction
    have : build_abstraction_mapping specComponents.PRUNED_STATE (specComponents.ts_get_size c.ts)
        (discard_relation (c.dist.compute_distances c.ts silent).2) = some m := by
      rw [← hm]
      show build_abstraction_mapping PRUNED_STATE c.ts.num_states _ = _
      rw [hlen]
    rw [this]
    exact hawith
  have hds : ∃ stat, Component.discard_states specComponents
      { c with dist := (c.dist.compute_distances c.ts silent).1 }
      (c.dist.compute_distances c.ts silent).2 silent = some (c', stat) := by
    unfold Component.discard_states
    rw [hab]
    show ∃ stat, ((check (decide ((c.dist.compute_distances c.ts silent).2.length
      = c.ts.num_states))).bind fun _ => (some (c', b)).bind fun r =>
        if silent = true then some (r.1, [])
        else (check (decide (r.1.ts.num_states ≤ c.ts.num_states))).bind fun _ =>
          some (r.1, [(r.1.ts.num_states, c.ts.num_states)])) = some (c', stat)
    rw [hcheck]
    cases silent
    · refine ⟨[(c'.ts.num_states, c.ts.num_states)], ?_⟩
      simp only [check, if_true, Option.some_bind, Bool.false_eq_true, if_false, hsize]
    · exact ⟨[], rfl⟩
  obtain ⟨stat, hds⟩ := hds
  refine ⟨(c', stat), ?_, p1, p2, p3, p4⟩
  unfold Component.compute_distances_and_prune
  show (Component.discard_states specComponents
    { c with dist := (c.dist.compute_distances c.ts silent).1 }
    (c.dist.compute_distances c.ts silent).2 silent).bind _ = _
  rw [hds]
  simp only [Option.some_bind, hvalid, check, if_true]

end SpecPruning

section SpecPruning

open FactoredTransitionSystem Distances

/-- C12: on the components modelled from the spec, `compute_distances_and_prune`
on a live component with sorted, duplicate-free transitions returns, and
afterwards every state of the component has a finite forward distance g and a
finite goal distance h (the stored distances are these numbers), the distances
are computed, the transitions are sorted and duplicate-free, and the component
has at most as many states as before. -/
theorem compute_distances_and_prune_leaves_finite_states (fts : SpecFTS) (index : Nat)
    (c : Component TransitionSystem HeuristicRepresentation Distances) (silent : Bool)
    (hc : fts.get_component index = some c)
    (hsorted : specComponents.ts_are_transitions_sorted_unique c.ts = true) :
    ∃ fts' c', compute_distances_and_prune specComponents fts index silent = some fts' ∧
      fts'.get_component index = some c' ∧
      (∀ s, s < specComponents.ts_get_size c'.ts →
        (∃ g : Nat, (forward_distances c'.ts)[s]? = some (some g) ∧
          c'.dist.init_distances[s]? = some (g : Int)) ∧
        (∃ h : Nat, (backward_distances c'.ts)[s]? = some (some h) ∧
          c'.dist.goal_distances[s]? = some (h : Int))) ∧
      specComponents.dist_are_distances_computed c'.dist = true ∧
      specComponents.ts_are_transitions_sorted_unique c'.ts = true ∧
      specComponents.ts_get_size c'.ts ≤ specComponents.ts_get_size c.ts := by
  obtain ⟨r, hr, p1, p2, p3, p4⟩ := Component_compute_distances_and_prune_spec c silent hsorted
  refine ⟨fts.put_component index r.1 r.2, r.1, ?_,
    get_component_put_component fts index c r.1 r.2 hc, ?_, ?_, p2, p3⟩
  · rw [compute_distances_and_prune_eq, hc]
    simp only [Option.some_bind, hr, Option.map_some']
  · intro s hs
    obtain ⟨hg, hh⟩ := p4 s hs
    obtain ⟨g, hg⟩ := (mem_finite_states _ s).1 hg
    obtain ⟨h, hh⟩ := (mem_finite_states _ s).1 hh
    refine ⟨⟨g, hg, ?_⟩, ⟨h, hh, ?_⟩⟩
    · rw [p1]
      show ((forward_distances r.1.ts).map to_int)[s]? = _
      rw [List.getElem?_map, hg]
      rfl
    · rw [p1]
      show ((backward_distances r.1.ts).map to_int)[s]? = _
      rw [List.getElem?_map, hh]
      rfl
  · rw [p1]
    rfl

theorem compute_distances_and_prune_leaves_finite_states_witness :
    (specDangling.get_component 0 = some ⟨dangling_atom, HeuristicRepresentation.new_leaf 0 3,
        Distances.create dangling_atom⟩ ∧
      specComponents.ts_are_transitions_sorted_unique dangling_atom = true ∧
      (compute_distances_and_prune specComponents specDangling 0 true).map
        (fun f => f.transition_systems.map fun t => t.map fun ts => ts.num_states)
        = some [some 2]) ∧
    ∃ fts' c', compute_distances_and_prune specComponents specDangling 0 true = some fts' ∧
      fts'.get_component 0 = some c' ∧
      (∀ s, s < specComponents.ts_get_size c'.ts →
        (∃ g : Nat, (forward_distances c'.ts)[s]? = some (some g) ∧
          c'.dist.init_distances[s]? = some (g : Int)) ∧
        (∃ h : Nat, (backward_distances c'.ts)[s]? = some (some h) ∧
          c'.dist.goal_distances[s]? = some (h : Int))) ∧
      specComponents.dist_are_distances_computed c'.dist = true ∧
      specComponents.ts_are_transitions_sorted_unique c'.ts = true ∧
      specComponents.ts_get_size c'.ts ≤ specComponents.ts_get_size dangling_atom :=
  ⟨⟨by rfl, by rfl, by rfl⟩,
    compute_distances_and_prune_leaves_finite_states specDangling 0
      ⟨dangling_atom, HeuristicRepresentation.new_leaf 0 3, Distances.create dangling_atom⟩ true
      (by rfl) (by rfl)⟩

end SpecPruning

/-! ## The frame of `apply_abstraction` -/

namespace FactoredTransitionSystem

variable {State L TS HR D : Type}

/-- C24: `apply_abstraction` returns exactly the boolean that the transition
system's `apply_abstraction` returned; the distances and the lookup table of
the heuristic representation of the component get the abstraction applied when
that boolean is true, and stay as they are when it is false; in both cases the
slots of every other index, the labels, `final_index`, `solvable` and the
pruning statistic are left as they are. -/
theorem apply_abstraction_returns_flag_and_frames (ops : Components State L TS HR D)
    (fts fts' : FactoredTransitionSystem L TS HR D) (index : Nat)
    (rel : StateEquivalenceRelation) (silent shrunk : Bool)
    (h : apply_abstraction ops fts index rel silent = some (fts', shrunk)) :
    ∃ (c c' : Component TS HR D) (m : List Int),
      fts.get_component index = some c ∧ fts'.get_component index = some c' ∧
      build_abstraction_mapping ops.PRUNED_STATE (ops.ts_get_size c.ts) rel = some m ∧
      shrunk = (ops.ts_apply_abstraction c.ts rel m silent).2 ∧
      c'.ts = (ops.ts_apply_abstraction c.ts rel m silent).1 ∧
      (shrunk = true →
        c'.dist = (ops.dist_apply_abstraction c.dist c'.ts rel silent).1 ∧
        c'.hr = ops.hr_apply_abstraction_to_lookup_table c.hr m) ∧
      (shrunk = false → c'.dist = c.dist ∧ c'.hr = c.hr) ∧
      (∀ j, j ≠ index → fts'.transition_systems[j]? = fts.transition_systems[j]? ∧
        fts'.heuristic_representations[j]? = fts.heuristic_representations[j]? ∧
        fts'.distances[j]? = fts.distances[j]?) ∧
      fts'.transition_systems.length = fts.transition_systems.length ∧
      fts'.heuristic_representations.length = fts.heuristic_representations.length ∧
      fts'.distances.length = fts.distances.length ∧
      fts'.labels = fts.labels ∧ fts'.final_index = fts.final_index ∧
      fts'.solvable = fts.solvable ∧
      fts'.relative_pruning_per_iteration = fts.relative_pruning_per_iteration := by
  rw [apply_abstraction_eq] at h
  simp only [Option.bind_eq_some, Option.map_eq_some'] at h
  obtain ⟨c, hc, r, hr, e⟩ := h
  have e1 : fts' = fts.put_component index r.1 [] := (congrArg Prod.fst e).symm
  have e2 : shrunk = r.2 := (congrArg Prod.snd e).symm
  unfold Component.apply_abstraction at hr
  simp only [Option.bind_eq_some] at hr
  obtain ⟨m, hm, hr⟩ := hr
  unfold Component.apply_abstraction_with at hr
  simp only [Option.bind_eq_some] at hr
  obtain ⟨_, _, hr⟩ := hr
  have hr' := Option.some.inj hr
  subst e1
  refine ⟨c, r.1, m, hc, get_component_put_component fts index c r.1 [] hc, hm, ?_, ?_, ?_, ?_,
    ?_, ?_, ?_, ?_, rfl, rfl, rfl, ?_⟩
  · rw [e2, ← hr']
  · rw [← hr']
    by_cases hb : (ops.ts_apply_abstraction c.ts rel m silent).2 = true
    · simp only [hb, if_true]
    · rw [if_neg hb]
  · intro hs
    rw [e2, ← hr'] at hs
    have hb : (ops.ts_apply_abstraction c.ts rel m silent).2 = true := hs
    rw [← hr']
    simp only [hb, if_true]
    exact ⟨trivial, trivial⟩
  · intro hs
    rw [e2, ← hr'] at hs
    have hb : (ops.ts_apply_abstraction c.ts rel m silent).2 = false := hs
    rw [← hr']
    simp only [hb, Bool.false_eq_true, if_false]
    exact ⟨trivial, trivial⟩
  · intro j hj
    simp only [put_component]
    exact ⟨List.getElem?_set_ne (Ne.symm hj), List.getElem?_set_ne (Ne.symm hj),
      List.getElem?_set_ne (Ne.symm hj)⟩
  · simp [put_component]
  · simp [put_component]
  · simp [put_component]
  · simp [put_component]

theorem apply_abstraction_returns_flag_and_frames_witness :
    ∃ (fts' : SampleFTS) (shrunk : Bool),
      apply_abstraction sampleComponents sampleConstructed 0 [[0, 1]] true
        = some (fts', shrunk) ∧ shrunk = true ∧
      ∃ (c c' : Component SampleTS SampleHR SampleDist) (m : List Int),
        sampleConstructed.get_component 0 = some c ∧ fts'.get_component 0 = some c' ∧
        build_abstraction_mapping sampleComponents.PRUNED_STATE
          (sampleComponents.ts_get_size c.ts) [[0, 1]] = some m ∧
        shrunk = (sampleComponents.ts_apply_abstraction c.ts [[0, 1]] m true).2 ∧
        c'.ts = (sampleComponents.ts_apply_abstraction c.ts [[0, 1]] m true).1 ∧
        (shrunk = true →
          c'.dist = (sampleComponents.dist_apply_abstraction c.dist c'.ts [[0, 1]] true).1 ∧
          c'.hr = sampleComponents.hr_apply_abstraction_to_lookup_table c.hr m) ∧
        (shrunk = false → c'.dist = c.dist ∧ c'.hr = c.hr) ∧
        (∀ j, j ≠ 0 →
          fts'.transition_systems[j]? = sampleConstructed.transition_systems[j]? ∧
          fts'.heuristic_representations[j]? = sampleConstructed.heuristic_representations[j]? ∧
          fts'.distances[j]? = sampleConstructed.distances[j]?) ∧
        fts'.transition_systems.length = sampleConstructed.transition_systems.length ∧
        fts'.heuristic_representations.length
          = sampleConstructed.heuristic_representations.length ∧
        fts'.distances.length = sampleConstructed.distances.length ∧
        fts'.labels = sampleConstructed.labels ∧
        fts'.final_index = sampleConstructed.final_index ∧
        fts'.solvable = sampleConstructed.solvable ∧
        fts'.relative_pruning_per_iteration
          = sampleConstructed.relative_pruning_per_iteration := by
  have h : ∃ r : SampleFTS × Bool,
      apply_abstraction sampleComponents sampleConstructed 0 [[0, 1]] true = some r ∧
      r.2 = true := ⟨_, rfl, rfl⟩
  obtain ⟨⟨fts', shrunk⟩, h, hs⟩ := h
  exact ⟨fts', shrunk, h, hs,
    apply_abstraction_returns_flag_and_frames sampleComponents sampleConstructed fts' 0
      [[0, 1]] true shrunk h⟩

end FactoredTransitionSystem

/-! ## What `apply_label_reduction` does -/

namespace FactoredTransitionSystem

variable {State L TS HR D : Type}

theorem reduce_all_iff (ops : Components State L TS HR D) :
    ∀ (lm : LabelMapping) (l l' : L),
      reduce_all ops l lm = some l' ↔
        (∀ k (hk : k < lm.length), lm[k].1 = ops.labels_get_size
          ((lm.take k).foldl (fun l e => ops.labels_reduce_labels l e.2) l)) ∧
        l' = lm.foldl (fun l e => ops.labels_reduce_labels l e.2) l := by
  intro lm
  induction lm with
  | nil =>
    intro l l'
    simp only [reduce_all, Option.some.injEq, List.length_nil, List.foldl_nil]
    constructor
    · intro h
      exact ⟨fun k hk => absurd hk (Nat.not_lt_zero k), h.symm⟩
    · intro h
      exact h.2.symm
  | cons e es ih =>
    intro l l'
    simp only [reduce_all, Option.bind_eq_some, check_eq_some_iff, decide_eq_true_eq,
      List.foldl_cons]
    constructor
    · rintro ⟨_, he, h⟩
      obtain ⟨h1, h2⟩ := (ih _ l').1 h
      refine ⟨?_, h2⟩
      intro k hk
      cases k with
      | zero => exact he
      | succ k => exact h1 k (by simpa using hk)
    · rintro ⟨h1, h2⟩
      refine ⟨(), h1 0 (by simp), (ih _ l').2 ⟨?_, h2⟩⟩
      intro k hk
      exact h1 (k + 1) (by simpa using hk)

theorem getElem?_relabel_from (ops : Components State L TS HR D) (lm : LabelMapping) (ci : Int) :
    ∀ (tss : List (Option TS)) (k j : Nat),
      (relabel_from ops lm ci k tss)[j]? = (tss[j]?).map fun t =>
        t.map fun ts => ops.ts_apply_label_reduction ts lm (decide (((k + j : Nat) : Int) ≠ ci)) := by
  intro tss
  induction tss with
  | nil =>
    intro k j
    rfl
  | cons t rest ih =>
    intro k j
    cases j with
    | zero =>
      simp only [relabel_from, List.getElem?_cons_zero, Option.map_some', Nat.add_zero]
    | succ j =>
      simp only [relabel_from, List.getElem?_cons_succ]
      rw [ih (k + 1) j]
      have e : k + 1 + j = k + (j + 1) := by omega
      rw [e]

/-- C26: `apply_label_reduction` passes its assertions exactly when every
entry's new label number equals the label count at the moment the entry is
reached; it then has called `reduce_labels` once per entry, in list order, and
has applied the whole mapping to every live transition system, with the flag
false for the component at `combinable_index` and true for every other one; a
null slot stays null, and nothing else changes. -/
theorem apply_label_reduction_relabels_live_systems (ops : Components State L TS HR D)
    (fts : FactoredTransitionSystem L TS HR D) (label_mapping : LabelMapping)
    (combinable_index : Int) :
    ((apply_label_reduction ops fts label_mapping combinable_index).isSome = true ↔
      ∀ k (hk : k < label_mapping.length), label_mapping[k].1 = ops.labels_get_size
        ((label_mapping.take k).foldl (fun l e => ops.labels_reduce_labels l e.2) fts.labels)) ∧
    ∀ fts', apply_label_reduction ops fts label_mapping combinable_index = some fts' →
      fts'.labels
        = label_mapping.foldl (fun l e => ops.labels_reduce_labels l e.2) fts.labels ∧
      fts'.transition_systems.length = fts.transition_systems.length ∧
      (∀ (i : Nat) ts, fts.transition_systems[i]? = some (some ts) →
        fts'.transition_systems[i]? = some (some
          (ops.ts_apply_label_reduction ts label_mapping (decide ((i : Int) ≠ combinable_index)))) ∧
        (decide ((i : Int) ≠ combinable_index) = false ↔ (i : Int) = combinable_index)) ∧
      (∀ i : Nat, fts.transition_systems[i]? = some none →
        fts'.transition_systems[i]? = some none) ∧
      fts'.heuristic_representations = fts.heuristic_representations ∧
      fts'.distances = fts.distances ∧ fts'.final_index = fts.final_index ∧
      fts'.solvable = fts.solvable ∧
      fts'.relative_pruning_per_iteration = fts.relative_pruning_per_iteration := by
  constructor
  · unfold apply_label_reduction
    constructor
    · intro h
      rcases hr : reduce_all ops fts.labels label_mapping with _ | l
      · rw [hr] at h
        cases h
      · exact ((reduce_all_iff ops label_mapping fts.labels l).1 hr).1
    · intro h
      rw [(reduce_all_iff ops label_mapping fts.labels _).2 ⟨h, rfl⟩]
      rfl
  · intro fts' h
    unfold apply_label_reduction at h
    simp only [Option.bind_eq_some] at h
    obtain ⟨l, hl, h⟩ := h
    rw [← Option.some.inj h]
    refine ⟨((reduce_all_iff ops label_mapping fts.labels l).1 hl).2,
      length_relabel_from ops label_mapping combinable_index _ 0, ?_, ?_, rfl, rfl, rfl, rfl, rfl⟩
    · intro i ts hi
      refine ⟨?_, by simp⟩
      show (relabel_from ops label_mapping combinable_index 0 fts.transition_systems)[i]? = _
      rw [getElem?_relabel_from, hi, Nat.zero_add]
      rfl
    · intro i hi
      show (relabel_from ops label_mapping combinable_index 0 fts.transition_systems)[i]? = _
      rw [getElem?_relabel_from, hi]
      rfl

end FactoredTransitionSystem

namespace FactoredTransitionSystem

theorem apply_label_reduction_relabels_live_systems_witness :
    apply_label_reduction sampleComponents sampleConstructed [(2, [0, 1])] 0
      = some { sampleReduced with
          transition_systems := relabel_from sampleComponents [(2, [0, 1])] 0 0
            sampleConstructed.transition_systems } ∧
    ∀ (i : Nat) ts, sampleConstructed.transition_systems[i]? = some (some ts) →
      (relabel_from sampleComponents [(2, [0, 1])] 0 0
          sampleConstructed.transition_systems)[i]?
        = some (some (sampleComponents.ts_apply_label_reduction ts [(2, [0, 1])]
            (decide ((i : Int) ≠ 0)))) ∧
      (decide ((i : Int) ≠ 0) = false ↔ (i : Int) = 0) :=
  ⟨by rfl,
    ((apply_label_reduction_relabels_live_systems sampleComponents sampleConstructed
      [(2, [0, 1])] 0).2 _ (by rfl)).2.2.1⟩

end FactoredTransitionSystem

/-! ## A merge that keeps its inputs -/

namespace FactoredTransitionSystem

variable {State L TS HR D : Type}

/-- C27, counterexample: `merge(0, 1, false, true)` on the system whose second
component has lost all its states finds the product unsolvable and finalizes:
the transition system vector is emptied and the distances at index 0 are
dropped, although the merge did not invalidate its inputs. -/
theorem merge_non_invalidating_finalizes :
    ∃ fts', merge sampleComponents samplePrunedOpen 0 1 false true = some (fts', 2) ∧
      samplePrunedOpen.is_index_valid 0 = some true ∧
      samplePrunedOpen.is_index_valid 1 = some true ∧
      samplePrunedOpen.transition_systems.length = 2 ∧
      fts'.transition_systems = [] ∧
      fts'.transition_systems[0]? ≠ samplePrunedOpen.transition_systems[0]? ∧
      samplePrunedOpen.distances[0]? = some (some { computed := true, h := [1, 0] }) ∧
      fts'.distances[0]? = some none ∧
      fts'.solvable = false ∧ samplePrunedOpen.solvable = true :=
  ⟨_, by rfl, by rfl, by rfl, by rfl, by rfl, by decide, by rfl, by rfl, by rfl, by rfl⟩

/-- C27, amended: a non-invalidating merge of a system with `n` slots that does
not finalize (no `finalize_if_unsolvable`, or a solvable product) returns `n`,
leaves every slot below `n` of the three vectors as it was, appends exactly one
slot to each vector, which makes `n` a valid index, passes `silent = true` and
appends nothing to the pruning statistic; labels, `final_index` and `solvable`
are unchanged. -/
theorem merge_non_invalidating_keeps_components (ops : Components State L TS HR D)
    (fts mid : FactoredTransitionSystem L TS HR D) (index1 index2 k n : Nat) (fin : Bool)
    (hslots : fts.SameNumberOfSlots) (hsize : fts.transition_systems.length = n)
    (hproduct : merge_product ops fts index1 index2 false fin = some (mid, k))
    (hsolvable : fin = false ∨
      (deref mid.transition_systems k).map ops.ts_is_solvable = some true) :
    merge ops fts index1 index2 false fin = some (mid, n) ∧
    mid.transition_systems.length = n + 1 ∧ mid.heuristic_representations.length = n + 1 ∧
    mid.distances.length = n + 1 ∧
    (∀ j, j < n → mid.transition_systems[j]? = fts.transition_systems[j]? ∧
      mid.heuristic_representations[j]? = fts.heuristic_representations[j]? ∧
      mid.distances[j]? = fts.distances[j]?) ∧
    mid.is_index_valid n = some true ∧
    (∀ j, j < n → mid.is_index_valid j = fts.is_index_valid j) ∧
    (!false || !fin) = true ∧
    mid.relative_pruning_per_iteration = fts.relative_pruning_per_iteration ∧
    mid.labels = fts.labels ∧ mid.final_index = fts.final_index ∧
    mid.solvable = fts.solvable := by
  obtain ⟨hk, _, _, _, _, _, hl, hf, hs, n1, n2, n3, c, hc, g1, g2, g3⟩ :=
    merge_product_slots ops fts mid index1 index2 k n false fin hslots hsize hproduct
  subst hk
  have hframe : ∀ j, j < k → mid.transition_systems[j]? = fts.transition_systems[j]? ∧
      mid.heuristic_representations[j]? = fts.heuristic_representations[j]? ∧
      mid.distances[j]? = fts.distances[j]? := by
    intro j hj
    have hne : j ≠ k := by omega
    refine ⟨?_, ?_, ?_⟩
    · rw [g1, if_neg hne]
      rfl
    · rw [g2, if_neg hne]
      rfl
    · rw [g3, if_neg hne]
      rfl
  refine ⟨?_, n1, n2, n3, hframe, is_index_valid_of_get_component mid k c hc, ?_, by simp, ?_,
    hl, hf, hs⟩
  · unfold merge
    rw [hproduct]
    simp only [Option.some_bind]
    cases fin
    · rfl
    · rcases hsolvable with hfalse | hsolvable
      · cases hfalse
      · rcases hd : deref mid.transition_systems k with _ | t
        · rw [hd] at hsolvable
          cases hsolvable
        · rw [hd] at hsolvable
          have ht : ops.ts_is_solvable t = true := by simpa using hsolvable
          simp [ht]
  · intro j hj
    obtain ⟨a, b, c⟩ := hframe j hj
    apply is_index_valid_congr
    · exact a
    · exact b
    · exact c
  · obtain ⟨_, c1, c2, c', r, _, _, _, _, hr, hmid⟩ :=
      merge_product_eq_some_pruned ops fts mid index1 index2 k false fin hproduct
    have hsilent : (!false || !fin) = true := by simp
    rw [hsilent] at hr
    have hnil := Component_compute_distances_and_prune_silent ops c' r hr
    rw [hmid, hnil]
    simp [put_component, appended_system]

theorem merge_non_invalidating_keeps_components_witness :
    sampleConstructed.SameNumberOfSlots ∧ sampleConstructed.transition_systems.length = 2 ∧
    ∃ mid, merge_product sampleComponents sampleConstructed 0 1 false true = some (mid, 2) ∧
      (deref mid.transition_systems 2).map sampleComponents.ts_is_solvable = some true ∧
      merge sampleComponents sampleConstructed 0 1 false true = some (mid, 2) ∧
      (∀ j, j < 2 → mid.transition_systems[j]? = sampleConstructed.transition_systems[j]? ∧
        mid.heuristic_representations[j]? = sampleConstructed.heuristic_representations[j]? ∧
        mid.distances[j]? = sampleConstructed.distances[j]?) ∧
      mid.relative_pruning_per_iteration = sampleConstructed.relative_pruning_per_iteration := by
  have h : ∃ r, merge_product sampleComponents sampleConstructed 0 1 false true = some r ∧
      r.2 = 2 ∧ (deref r.1.transition_systems 2).map sampleComponents.ts_is_solvable = some true :=
    ⟨_, rfl, rfl, rfl⟩
  obtain ⟨⟨mid, k⟩, hp, hk, hs⟩ := h
  simp only at hk hs
  subst hk
  have hslots : sampleConstructed.SameNumberOfSlots := ⟨rfl, rfl⟩
  have t := merge_non_invalidating_keeps_components sampleComponents sampleConstructed mid 0 1 2 2
    true hslots rfl hp (Or.inr hs)
  exact ⟨hslots, rfl, mid, hp, hs, t.1, t.2.2.2.2.1, t.2.2.2.2.2.2.2.2.1⟩

end FactoredTransitionSystem

/-! ## The heuristic value -/

namespace FactoredTransitionSystem

variable {State L TS HR D : Type}

/-- A cost that `get_cost` returns is `-1` or a goal distance stored at
`final_index`. -/
theorem get_cost_eq_some (ops : Components State L TS HR D)
    (fts : FactoredTransitionSystem L TS HR D) (state : State) (cost : Int)
    (h : get_cost ops fts state = some cost) :
    cost = -1 ∨ ∃ d s, deref fts.distances fts.final_index.toNat = some d ∧
      cost = ops.dist_get_goal_distance d s := by
  unfold get_cost at h
  simp only [Option.bind_eq_some] at h
  obtain ⟨_, _, h⟩ := h
  split at h
  · cases h
  · simp only [Option.bind_eq_some] at h
    obtain ⟨d, hd, _, _, hr, _, h⟩ := h
    split at h
    · left
      exact (Option.some.inj h).symm
    · simp only [Option.bind_eq_some] at h
      obtain ⟨_, _, h⟩ := h
      right
      exact ⟨d, _, hd, (Option.some.inj h).symm⟩

end FactoredTransitionSystem

namespace MergeAndShrinkHeuristic

/-- C22: `compute_heuristic` returns a value exactly when `get_cost` does; it
returns `DEAD_END` exactly when `get_cost` returns `-1` and the value of
`get_cost` otherwise; when the goal distances stored at `final_index` are not
negative, the value is `DEAD_END` or at least 0, which is what the assertion of
`Heuristic::evaluate` tests. -/
theorem compute_heuristic_is_dead_end_or_cost {GlobalState State L TS HR D : Type}
    (ops : Components State L TS HR D) (convert_global_state : GlobalState → State)
    (fts : FactoredTransitionSystem L TS HR D) (global_state : GlobalState) :
    (compute_heuristic ops convert_global_state fts global_state).isSome
      = (FactoredTransitionSystem.get_cost ops fts (convert_global_state global_state)).isSome ∧
    ∀ cost,
      FactoredTransitionSystem.get_cost ops fts (convert_global_state global_state) = some cost →
      (cost = -1 → compute_heuristic ops convert_global_state fts global_state = some DEAD_END) ∧
      (cost ≠ -1 → compute_heuristic ops convert_global_state fts global_state = some cost) ∧
      (compute_heuristic ops convert_global_state fts global_state = some DEAD_END
        ↔ cost = -1) ∧
      ((∀ d, deref fts.distances fts.final_index.toNat = some d →
          ∀ s, 0 ≤ ops.dist_get_goal_distance d s) →
        ∃ v, compute_heuristic ops convert_global_state fts global_state = some v ∧
          (v = DEAD_END ∨ 0 ≤ v) ∧ check (decide (v = DEAD_END ∨ 0 ≤ v)) = some ()) := by
  constructor
  · unfold compute_heuristic
    rcases hc : FactoredTransitionSystem.get_cost ops fts (convert_global_state global_state)
      with _ | cost
    · simp only [hc]
      rfl
    · simp only [hc, Option.some_bind]
      split <;> rfl
  · intro cost hcost
    have hval : compute_heuristic ops convert_global_state fts global_state
        = some (if cost = -1 then DEAD_END else cost) := by
      unfold compute_heuristic
      simp only [hcost, Option.some_bind]
      split <;> rfl
    refine ⟨?_, ?_, ?_, ?_⟩
    · intro h
      rw [hval, if_pos h]
    · intro h
      rw [hval, if_neg h]
    · rw [hval]
      constructor
      · intro h
        by_contra hne
        rw [if_neg hne] at h
        exact hne (Option.some.inj h)
      · intro h
        rw [if_pos h]
    · intro hnonneg
      refine ⟨_, hval, ?_⟩
      have hrange : (if cost = -1 then DEAD_END else cost) = DEAD_END
          ∨ 0 ≤ (if cost = -1 then DEAD_END else cost) := by
        rcases FactoredTransitionSystem.get_cost_eq_some ops fts _ cost hcost with h | ⟨d, s, hd, h⟩
        · left
          rw [if_pos h]
        · by_cases hc : cost = -1
          · left
            rw [if_pos hc]
          · right
            rw [if_neg hc, h]
            exact hnonneg d hd s
      refine ⟨hrange, ?_⟩
      simp only [decide_eq_true hrange]
      rfl

theorem compute_heuristic_is_dead_end_or_cost_witness :
    FactoredTransitionSystem.get_cost sampleComponents sampleFinal 0 = some 2 ∧
    FactoredTransitionSystem.get_cost sampleComponents samplePrunedFinal 0 = some (-1) ∧
    compute_heuristic sampleComponents (fun (s : Nat) => s) sampleFinal 0 = some 2 ∧
    compute_heuristic sampleComponents (fun (s : Nat) => s) samplePrunedFinal 0
      = some DEAD_END :=
  ⟨by rfl, by rfl,
    ((compute_heuristic_is_dead_end_or_cost sampleComponents (fun (s : Nat) => s) sampleFinal
      0).2 2 (by rfl)).2.1 (by decide),
    ((compute_heuristic_is_dead_end_or_cost sampleComponents (fun (s : Nat) => s)
      samplePrunedFinal 0).2 (-1) (by rfl)).1 rfl⟩

end MergeAndShrinkHeuristic

namespace Heuristic

variable {S State Op : Type}

theorem mem_cache_store [DecidableEq State] (info : EvaluationInfo Op) (state : State) :
    ∀ (cache : List (State × EvaluationInfo Op)) (e : State × EvaluationInfo Op),
      e ∈ cache_store cache state info → e ∈ cache ∨ e = (state, info) := by
  intro cache
  induction cache with
  | nil =>
    intro e he
    right
    simpa [cache_store] using he
  | cons c rest ih =>
    intro e he
    unfold cache_store at he
    split at he
    · rcases List.mem_cons.1 he with h | h
      · right
        exact h
      · left
        exact List.mem_cons_of_mem _ h
    · rcases List.mem_cons.1 he with h | h
      · left
        rw [h]
        exact List.mem_cons_self _ _
      · rcases ih e h with h1 | h1
        · left
          exact List.mem_cons_of_mem _ h1
        · right
          exact h1

theorem cache_find_mem [DecidableEq State] (state : State) (info : EvaluationInfo Op) :
    ∀ (cache : List (State × EvaluationInfo Op)),
      cache_find cache state = some info → (state, info) ∈ cache := by
  intro cache
  induction cache with
  | nil =>
    intro h
    cases h
  | cons c rest ih =>
    intro h
    unfold cache_find at h
    split at h
    · rename_i hc
      have h2 : c.2 = info := Option.some.inj h
      have h3 : c = (state, info) := by
        rw [← hc, ← h2]
      rw [h3]
      exact List.mem_cons_self _ _
    · exact List.mem_cons_of_mem _ (ih h)

/-- A successful `evaluate` stores `DEAD_END` or a value that is not negative,
and keeps the cache in range. -/
theorem evaluate_in_range [DecidableEq State] (members : HeuristicMembers S State Op)
    (h h' : Heuristic S State Op) (state : State) (hc : h.CacheInRange)
    (he : evaluate members h state = some h') :
    (h'.heuristic = DEAD_END ∨ 0 ≤ h'.heuristic) ∧ h'.CacheInRange := by
  unfold evaluate at he
  split at he
  · rename_i info hfind
    have hmem : (state, info) ∈ h.state_cache := by
      by_cases hu : h.use_cache = true
      · rw [if_pos hu] at hfind
        exact cache_find_mem state info _ hfind
      · rw [if_neg hu] at hfind
        cases hfind
    rw [← Option.some.inj he]
    exact ⟨hc _ hmem, hc⟩
  · unfold evaluate_fresh at he
    simp only [Option.bind_eq_some, check_eq_some_iff, decide_eq_true_eq] at he
    obtain ⟨r, _, _, hr, _, _, he⟩ := he
    rw [← Option.some.inj he]
    refine ⟨hr, ?_⟩
    intro e hmem
    by_cases hu : h.use_cache = true
    · simp only [hu, if_true] at hmem
      rcases mem_cache_store _ state _ e hmem with h1 | h1
      · exact hc e h1
      · rw [h1]
        exact hr
    · simp only [hu] at hmem
      exact hc e hmem

theorem evaluate_all_in_range [DecidableEq State] (members : HeuristicMembers S State Op) :
    ∀ (states : List State) (h h' : Heuristic S State Op), h.CacheInRange →
      (h.heuristic = DEAD_END ∨ 0 ≤ h.heuristic) →
      evaluate_all members h states = some h' →
      (h'.heuristic = DEAD_END ∨ 0 ≤ h'.heuristic) ∧ h'.CacheInRange := by
  intro states
  induction states with
  | nil =>
    intro h h' hc hr he
    rw [← Option.some.inj he]
    exact ⟨hr, hc⟩
  | cons state rest ih =>
    intro h h' hc _ he
    unfold evaluate_all at he
    simp only [Option.bind_eq_some] at he
    obtain ⟨h1, e1, e2⟩ := he
    obtain ⟨a, b⟩ := evaluate_in_range members h h1 state hc e1
    exact ih h1 h' b a e2

/-- C23: after any sequence of calls of `evaluate` on a new heuristic,
`is_dead_end` is true exactly when the stored value is `DEAD_END`; after at
least one call the stored value is `DEAD_END` or not negative;
`get_heuristic` returns the stored value when it is not negative and fails its
assertion when it is `DEAD_END` or when nothing has been evaluated; every value
that `get_heuristic` returns is not negative and comes from a state that is no
dead end. -/
theorem get_heuristic_never_returns_dead_end [DecidableEq State]
    (members : HeuristicMembers S State Op) (derived : S) (use_caching : Bool)
    (states : List State) (h' : Heuristic S State Op)
    (hni : members.NOT_INITIALIZED < 0)
    (hrun : evaluate_all members (create members derived use_caching) states = some h') :
    (h'.is_dead_end = true ↔ h'.heuristic = DEAD_END) ∧
    (states ≠ [] → h'.heuristic = DEAD_END ∨ 0 ≤ h'.heuristic) ∧
    (states ≠ [] → h'.is_dead_end = false → h'.get_heuristic = some h'.heuristic) ∧
    (0 ≤ h'.heuristic → h'.get_heuristic = some h'.heuristic) ∧
    (h'.heuristic = DEAD_END → h'.get_heuristic = none) ∧
    (states = [] → h'.get_heuristic = none) ∧
    (∀ v, h'.get_heuristic = some v →
      0 ≤ v ∧ v = h'.heuristic ∧ v ≠ DEAD_END ∧ h'.is_dead_end = false) := by
  have hdead : (h'.is_dead_end = true ↔ h'.heuristic = DEAD_END) := by
    unfold is_dead_end
    exact decide_eq_true_iff
  have hrange : states ≠ [] → h'.heuristic = DEAD_END ∨ 0 ≤ h'.heuristic := by
    intro hne
    cases states with
    | nil => exact absurd rfl hne
    | cons state rest =>
      unfold evaluate_all at hrun
      simp only [Option.bind_eq_some] at hrun
      obtain ⟨h1, e1, e2⟩ := hrun
      have hc : (create members derived use_caching).CacheInRange := by
        intro e he
        cases he
      obtain ⟨a, b⟩ := evaluate_in_range members _ h1 state hc e1
      exact (evaluate_all_in_range members rest h1 h' b a e2).1
  have hget : 0 ≤ h'.heuristic → h'.get_heuristic = some h'.heuristic := by
    intro h0
    unfold get_heuristic
    simp [check, h0]
  have hfail : h'.heuristic < 0 → h'.get_heuristic = none := by
    intro h0
    unfold get_heuristic
    have : ¬ 0 ≤ h'.heuristic := by omega
    simp [check, this]
  refine ⟨hdead, hrange, ?_, hget, ?_, ?_, ?_⟩
  · intro hne hnd
    rcases hrange hne with h0 | h0
    · rw [hdead.2 h0] at hnd
      cases hnd
    · exact hget h0
  · intro h0
    apply hfail
    rw [h0]
    decide
  · intro hnil
    subst hnil
    have e : h' = create members derived use_caching := (Option.some.inj hrun).symm
    apply hfail
    rw [e]
    exact hni
  · intro v hv
    by_cases h0 : 0 ≤ h'.heuristic
    · rw [hget h0] at hv
      have e : h'.heuristic = v := Option.some.inj hv
      have hnd : v ≠ DEAD_END := by
        intro hd
        rw [e, hd] at h0
        exact absurd h0 (by decide)
      refine ⟨by rw [← e]; exact h0, e.symm, hnd, ?_⟩
      cases hb : h'.is_dead_end
      · rfl
      · exact absurd (e ▸ hdead.1 hb) hnd
    · rw [hfail (by omega)] at hv
      cases hv

theorem get_heuristic_never_returns_dead_end_witness :
    sampleHeuristic.NOT_INITIALIZED < 0 ∧
    ∃ h1 h2 : Heuristic SampleFTS Nat Nat,
      evaluate_all sampleHeuristic (create sampleHeuristic sampleFinal true) [3, 0] = some h1 ∧
      evaluate_all sampleHeuristic (create sampleHeuristic samplePrunedFinal true) [0]
        = some h2 ∧
      h1.heuristic = 2 ∧ h1.is_dead_end = false ∧ h1.get_heuristic = some 2 ∧
      h2.heuristic = DEAD_END ∧ h2.is_dead_end = true ∧ h2.get_heuristic = none := by
  have e1 : ∃ h1, evaluate_all sampleHeuristic (create sampleHeuristic sampleFinal true) [3, 0]
      = some h1 ∧ h1.heuristic = 2 := ⟨_, rfl, rfl⟩
  have e2 : ∃ h2, evaluate_all sampleHeuristic (create sampleHeuristic samplePrunedFinal true) [0]
      = some h2 ∧ h2.heuristic = DEAD_END := ⟨_, rfl, rfl⟩
  obtain ⟨h1, r1, v1⟩ := e1
  obtain ⟨h2, r2, v2⟩ := e2
  have t1 := get_heuristic_never_returns_dead_end sampleHeuristic sampleFinal true [3, 0] h1
    (by decide) r1
  have t2 := get_heuristic_never_returns_dead_end sampleHeuristic samplePrunedFinal true [0] h2
    (by decide) r2
  have g1 : h1.get_heuristic = some 2 := by
    have := t1.2.2.2.1 (by rw [v1]; decide)
    rw [v1] at this
    exact this
  exact ⟨by decide, h1, h2, r1, r2, v1, (t1.2.2.2.2.2.2 2 g1).2.2.2, g1, v2, t2.1.2 v2,
    t2.2.2.2.2.1 v2⟩

end Heuristic

/-! ## Vertex ids of the symmetry graph -/

namespace GraphCreator

variable {G A : Type}

theorem foldl_push_eq_replicate (a : Nat) :
    ∀ (n : Nat) (v : List Nat),
      (List.range n).foldl (fun v _ => v ++ [a]) v = v ++ List.replicate n a := by
  intro n
  induction n with
  | zero =>
    intro v
    simp
  | succ n ih =>
    intro v
    rw [List.range_succ, List.foldl_append, ih, List.replicate_succ']
    simp

theorem add_abstraction_vertex_spec (dg : Digraph G) (hids : dg.ConsecutiveIds)
    (members : GraphMembers A) (bsp : Bool) (k : Nat) (a : Option A) (p : Progress G)
    (hk : dg.get_nof_vertices p.g = k) :
    ∃ p', add_abstraction_vertex dg members bsp k a p = some p' ∧
      dg.get_nof_vertices p'.g = k + 1 ∧ dg.edges p'.g = dg.edges p.g ∧ p'.idx = k ∧
      p'.num_of_nodes = p.num_of_nodes + abs_states members a ∧
      p'.symmetry_generator_info.dom_sum_by_var
        = p.symmetry_generator_info.dom_sum_by_var ++ [p.num_of_nodes] ∧
      p'.symmetry_generator_info.var_by_val
        = p.symmetry_generator_info.var_by_val ++ List.replicate (abs_states members a) k ∧
      p'.symmetry_generator_info.num_abstractions
        = p.symmetry_generator_info.num_abstractions := by
  unfold add_abstraction_vertex
  by_cases hb : (bsp || a.isNone) = true
  · simp only [hb, if_true, hids.add_vertex_id, hk, decide_True, check_true, Option.some_bind]
    exact ⟨_, rfl, by rw [hids.add_vertex_count, hk], hids.add_vertex_edges _ _, rfl, rfl, rfl,
      foldl_push_eq_replicate k _ _, rfl⟩
  · have hb2 : (bsp || a.isNone) = false := by
      cases hc : (bsp || a.isNone)
      · rfl
      · exact absurd hc hb
    simp only [hb2, Bool.false_eq_true, if_false, hids.add_vertex_id, hk, decide_True, check_true,
      Option.some_bind]
    exact ⟨_, rfl, by rw [hids.add_vertex_count, hk], hids.add_vertex_edges _ _, rfl, rfl, rfl,
      foldl_push_eq_replicate k _ _, rfl⟩

/-- What the first loop does from index `k` on, on a graph that has `k`
vertices. -/
theorem add_abstraction_vertices_spec (dg : Digraph G) (hids : dg.ConsecutiveIds)
    (members : GraphMembers A) (bsp : Bool) :
    ∀ (rest : List (Option A)) (k : Nat) (p : Progress G), dg.get_nof_vertices p.g = k →
      ∃ p', add_abstraction_vertices dg members bsp k rest p = some p' ∧
        dg.get_nof_vertices p'.g = k + rest.length ∧ dg.edges p'.g = dg.edges p.g ∧
        (rest ≠ [] → p'.idx + 1 = k + rest.length) ∧
        p'.num_of_nodes = p.num_of_nodes + (rest.map (abs_states members)).sum ∧
        p'.symmetry_generator_info.dom_sum_by_var
          = p.symmetry_generator_info.dom_sum_by_var ++
            (List.range rest.length).map
              (fun i => p.num_of_nodes + ((rest.take i).map (abs_states members)).sum) ∧
        p'.symmetry_generator_info.var_by_val
          = p.symmetry_generator_info.var_by_val ++
            (rest.enumFrom k).flatMap (fun e => List.replicate (abs_states members e.2) e.1) ∧
        p'.symmetry_generator_info.num_abstractions
          = p.symmetry_generator_info.num_abstractions := by
  intro rest
  induction rest with
  | nil =>
    intro k p hk
    exact ⟨p, rfl, by simpa using hk, rfl, fun h => absurd rfl h, by simp, by simp, by simp, rfl⟩
  | cons a rest ih =>
    intro k p hk
    obtain ⟨p1, e1, c1, g1, i1, n1, d1, v1, a1⟩ :=
      add_abstraction_vertex_spec dg hids members bsp k a p hk
    obtain ⟨p2, e2, c2, g2, i2, n2, d2, v2, a2⟩ := ih (k + 1) p1 c1
    refine ⟨p2, ?_, ?_, ?_, ?_, ?_, ?_, ?_, ?_⟩
    · unfold add_abstraction_vertices
      rw [e1]
      exact e2
    · rw [c2, List.length_cons]
      omega
    · rw [g2, g1]
    · intro _
      cases rest with
      | nil =>
        have e3 : p2 = p1 := (Option.some.inj e2).symm
        rw [e3, i1]
        rfl
      | cons b rest2 =>
        have h3 := i2 (List.cons_ne_nil _ _)
        simp only [List.length_cons] at h3 ⊢
        omega
    · rw [n2, n1, List.map_cons, List.sum_cons]
      omega
    · rw [d2, d1, n1, List.length_cons, List.range_succ_eq_map, List.map_cons, List.map_map,
        List.append_assoc]
      simp [Nat.add_assoc]
    · rw [v2, v1, List.enumFrom_cons, List.flatMap_cons, List.append_assoc]
    · rw [a2, a1]

/-- What the inner loop of the second loop does on a graph. -/
theorem add_state_vertices_spec (dg : Digraph G) (hids : dg.ConsecutiveIds)
    (color abs_ind : Nat) :
    ∀ (n : Nat) (p : G × Nat),
      dg.get_nof_vertices (add_state_vertices dg color abs_ind n p).1
        = dg.get_nof_vertices p.1 + n ∧
      dg.edges (add_state_vertices dg color abs_ind n p).1
        = dg.edges p.1 ++ (List.range n).map (fun s => (abs_ind, dg.get_nof_vertices p.1 + s)) := by
  intro n
  induction n with
  | zero =>
    intro p
    simp [add_state_vertices]
  | succ n ih =>
    intro p
    obtain ⟨h1, h2⟩ := ih p
    have hstep : add_state_vertices dg color abs_ind (n + 1) p
        = (dg.add_edge (dg.add_vertex (add_state_vertices dg color abs_ind n p).1 color).1 abs_ind
            (dg.add_vertex (add_state_vertices dg color abs_ind n p).1 color).2,
          (dg.add_vertex (add_state_vertices dg color abs_ind n p).1 color).2) := by
      unfold add_state_vertices
      rw [List.range_succ, List.foldl_append]
      rfl
    rw [hstep]
    simp only [hids.add_edge_count, hids.add_vertex_count, hids.add_edge_edges,
      hids.add_vertex_edges, hids.add_vertex_id, h1, h2, List.range_succ, List.map_append,
      List.map_cons, List.map_nil, List.append_assoc]
    exact ⟨by omega, trivial⟩

/-- What the second loop does from index `pre.length` on, when the vertices of
all abstractions and of the states of the abstractions in `pre` exist. -/
theorem add_all_state_vertices_spec (dg : Digraph G) (hids : dg.ConsecutiveIds)
    (members : GraphMembers A) (color total : Nat) :
    ∀ (rest pre : List (Option A)) (p : G × Nat),
      dg.get_nof_vertices p.1 = total + (pre.map (abs_states members)).sum →
      dg.get_nof_vertices (add_all_state_vertices dg members color pre.length rest p).1
        = total + ((pre ++ rest).map (abs_states members)).sum ∧
      dg.edges (add_all_state_vertices dg members color pre.length rest p).1
        = dg.edges p.1 ++ (rest.enumFrom pre.length).flatMap fun e =>
            (List.range (abs_states members e.2)).map fun s =>
              (e.1, total + (((pre ++ rest).take e.1).map (abs_states members)).sum + s) := by
  intro rest
  induction rest with
  | nil =>
    intro pre p hp
    simp [add_all_state_vertices, hp]
  | cons a rest ih =>
    intro pre p hp
    have hsplit : pre ++ a :: rest = (pre ++ [a]) ++ rest := by simp
    have htake : ((pre ++ a :: rest).take pre.length) = pre := by simp
    cases a with
    | none =>
      have hp2 : dg.get_nof_vertices p.1 = total + ((pre ++ [none]).map (abs_states members)).sum := by
        rw [hp]
        simp [abs_states]
      obtain ⟨h1, h2⟩ := ih (pre ++ [none]) p hp2
      have hl : (pre ++ [none]).length = pre.length + 1 := by simp
      rw [hl] at h1 h2
      rw [hsplit]
      refine ⟨h1, ?_⟩
      show dg.edges (add_all_state_vertices dg members color (pre.length + 1) rest p).1 = _
      rw [h2, List.enumFrom_cons, List.flatMap_cons]
      simp [abs_states]
    | some x =>
      obtain ⟨s1, s2⟩ := add_state_vertices_spec dg hids color pre.length (members.size x) p
      have hp2 : dg.get_nof_vertices (add_state_vertices dg color pre.length (members.size x) p).1
          = total + ((pre ++ [some x]).map (abs_states members)).sum := by
        rw [s1, hp]
        simp [abs_states, Nat.add_assoc]
      obtain ⟨h1, h2⟩ := ih (pre ++ [some x]) _ hp2
      have hl : (pre ++ [some x]).length = pre.length + 1 := by simp
      rw [hl] at h1 h2
      rw [hsplit]
      refine ⟨h1, ?_⟩
      show dg.edges (add_all_state_vertices dg members color (pre.length + 1) rest
        (add_state_vertices dg color pre.length (members.size x) p)).1 = _
      rw [h2, s2, List.enumFrom_cons, List.flatMap_cons, List.append_assoc, hp]
      have htake2 : ((pre ++ [some x]) ++ rest).take pre.length = pre := by simp
      simp only [htake2]
      rfl

/-- C30: on a graph that hands out vertex ids consecutively from 0 and with
`symmetry_generator_info` reset, `create_bliss_graph` passes its assertions; for
every abstraction `a` the first loop leaves `idx = a` after its vertex has been
added; `dom_sum_by_var[a]` is `N` plus the sizes of the abstractions below `a`
(a null abstraction counting 0); `var_by_val` holds, abstraction by
abstraction, one entry `a` per abstract state; `num_abs_and_states` is `N` plus
the number of abstract states, which is the number of vertices; and the edges
added are, in order, those from `a` to `dom_sum_by_var[a] + s` for every state
`s` of every abstraction `a` that is not null. -/
theorem create_bliss_graph_numbers_vertices (dg : Digraph G) (members : GraphMembers A)
    (build_stabilized_pdg : Bool) (abstractions : List (Option A))
    (symmetry_generator_info : SymmetryGeneratorInfo)
    (hids : dg.ConsecutiveIds)
    (hreset : symmetry_generator_info.dom_sum_by_var = [] ∧
      symmetry_generator_info.var_by_val = []) :
    ∃ r, create_bliss_graph dg members build_stabilized_pdg abstractions symmetry_generator_info
        = some r ∧
      r.symmetry_generator_info.num_abstractions = abstractions.length ∧
      (∀ a, a < abstractions.length →
        ∃ p, add_abstraction_vertices dg members build_stabilized_pdg 0 (abstractions.take (a + 1))
            { g := dg.empty, idx := 0, num_of_nodes := abstractions.length,
              node_color_added_val := 0,
              symmetry_generator_info :=
                { symmetry_generator_info with num_abstractions := abstractions.length } }
          = some p ∧ p.idx = a) ∧
      r.symmetry_generator_info.dom_sum_by_var.length = abstractions.length ∧
      (∀ a, a < abstractions.length →
        r.symmetry_generator_info.dom_sum_by_var[a]?
          = some (abstractions.length + ((abstractions.take a).map (abs_states members)).sum)) ∧
      r.symmetry_generator_info.var_by_val
        = abstractions.enum.flatMap (fun e => List.replicate (abs_states members e.2) e.1) ∧
      r.symmetry_generator_info.var_by_val.length = (abstractions.map (abs_states members)).sum ∧
      r.symmetry_generator_info.num_abs_and_states
        = abstractions.length + (abstractions.map (abs_states members)).sum ∧
      dg.get_nof_vertices r.g
        = abstractions.length + (abstractions.map (abs_states members)).sum ∧
      dg.edges r.g = abstractions.enum.flatMap fun e =>
        (List.range (abs_states members e.2)).map fun s =>
          (e.1, abstractions.length + ((abstractions.take e.1).map (abs_states members)).sum + s) := by
  obtain ⟨p1, e1, c1, g1, _, n1, d1, v1, a1⟩ :=
    add_abstraction_vertices_spec dg hids members build_stabilized_pdg abstractions 0
      { g := dg.empty, idx := 0, num_of_nodes := abstractions.length, node_color_added_val := 0,
        symmetry_generator_info :=
          { symmetry_generator_info with num_abstractions := abstractions.length } }
      hids.empty_vertices
  simp only [hreset.1, hreset.2, List.nil_append, Nat.zero_add] at c1 g1 n1 d1 v1 a1
  have hp : dg.get_nof_vertices (p1.g, p1.idx).1
      = abstractions.length + (([] : List (Option A)).map (abs_states members)).sum := by
    simpa using c1
  obtain ⟨s1, s2⟩ := add_all_state_vertices_spec dg hids members
    (members.ABS_STATE_VERTEX + p1.node_color_added_val) abstractions.length abstractions [] _ hp
  simp only [List.length_nil, List.nil_append] at s1 s2
  unfold create_bliss_graph
  simp only [e1, Option.some_bind]
  refine ⟨_, rfl, ?_, ?_, ?_, ?_, ?_, ?_, ?_, ?_, ?_⟩
  · exact a1
  · intro a ha
    obtain ⟨p, e, _, _, i, _⟩ :=
      add_abstraction_vertices_spec dg hids members build_stabilized_pdg
        (abstractions.take (a + 1)) 0
        { g := dg.empty, idx := 0, num_of_nodes := abstractions.length,
          node_color_added_val := 0,
          symmetry_generator_info :=
            { symmetry_generator_info with num_abstractions := abstractions.length } }
        hids.empty_vertices
    refine ⟨p, e, ?_⟩
    have hlen : (abstractions.take (a + 1)).length = a + 1 := by
      rw [List.length_take]
      omega
    have hne : abstractions.take (a + 1) ≠ [] := by
      intro h
      rw [h] at hlen
      cases hlen
    have := i hne
    rw [hlen] at this
    omega
  · show p1.symmetry_generator_info.dom_sum_by_var.length = _
    rw [d1]
    simp
  · intro a ha
    show p1.symmetry_generator_info.dom_sum_by_var[a]? = _
    rw [d1, List.getElem?_map, List.getElem?_range ha]
    rfl
  · show p1.symmetry_generator_info.var_by_val = _
    rw [v1]
    rfl
  · show p1.symmetry_generator_info.var_by_val.length = _
    rw [v1]
    have hgen : ∀ (l : List (Option A)) (k : Nat),
        ((l.enumFrom k).flatMap (fun e => List.replicate (abs_states members e.2) e.1)).length
          = (l.map (abs_states members)).sum := by
      intro l
      induction l with
      | nil =>
        intro k
        rfl
      | cons x l ih =>
        intro k
        rw [List.enumFrom_cons, List.flatMap_cons, List.length_append, ih, List.length_replicate,
          List.map_cons, List.sum_cons]
    exact hgen abstractions 0
  · show p1.num_of_nodes = _
    exact n1
  · exact s1
  · show dg.edges (add_all_state_vertices dg members
      (members.ABS_STATE_VERTEX + p1.node_color_added_val) 0 abstractions (p1.g, p1.idx)).1 = _
    rw [s2, g1, hids.empty_edges]
    rfl

theorem listDigraph_consecutiveIds : listDigraph.ConsecutiveIds :=
  ⟨rfl, rfl, fun _ _ => rfl, fun g c => by simp [listDigraph], fun _ _ => rfl, fun _ _ _ => rfl,
    fun _ _ _ => rfl⟩

theorem create_bliss_graph_numbers_vertices_witness :
    listDigraph.ConsecutiveIds ∧
    (emptyInfo.dom_sum_by_var = [] ∧ emptyInfo.var_by_val = []) ∧
    ∃ r, create_bliss_graph listDigraph sizeMembers false [some 2, none, some 3] emptyInfo
        = some r ∧
      r.symmetry_generator_info.dom_sum_by_var = [3, 5, 5] ∧
      r.symmetry_generator_info.var_by_val = [0, 0, 2, 2, 2] ∧
      r.symmetry_generator_info.num_abs_and_states = 8 ∧
      listDigraph.edges r.g = [(0, 3), (0, 4), (2, 5), (2, 6), (2, 7)] := by
  obtain ⟨r, h, _, _, _, _, h5, _, h7, _, h9⟩ :=
    create_bliss_graph_numbers_vertices listDigraph sizeMembers false [some 2, none, some 3]
      emptyInfo listDigraph_consecutiveIds ⟨rfl, rfl⟩
  have hr : create_bliss_graph listDigraph sizeMembers false [some 2, none, some 3] emptyInfo
      = some r → r.symmetry_generator_info.dom_sum_by_var = [3, 5, 5] := by
    intro e
    have e2 : some r = create_bliss_graph listDigraph sizeMembers false [some 2, none, some 3]
      emptyInfo := e.symm
    have e3 := Option.some.inj (e2.trans (by rfl))
    rw [e3]
    rfl
  exact ⟨listDigraph_consecutiveIds, ⟨rfl, rfl⟩, r, h, hr h, h5.trans (by rfl), h7.trans (by rfl),
    h9.trans (by rfl)⟩

end GraphCreator

/-! ## The product of two transition systems -/

namespace TransitionSystem

theorem has_transition_iff (ts : TransitionSystem) (label src target : Nat) :
    ts.has_transition label src target = true ↔
      ∃ g ∈ ts.label_groups, label ∈ g.labels ∧
        ({ src := src, target := target } : Transition) ∈ g.transitions := by
  unfold has_transition
  simp [List.any_eq_true]

theorem pair_number_injective (n a b c d : Nat) (hb : b < n) (hd : d < n)
    (h : a * n + b = c * n + d) : a = c ∧ b = d := by
  have hn : 0 < n := by omega
  have h1 : (a * n + b) / n = a := by
    rw [Nat.add_comm, Nat.add_mul_div_right _ _ hn, Nat.div_eq_of_lt hb, Nat.zero_add]
  have h2 : (c * n + d) / n = c := by
    rw [Nat.add_comm, Nat.add_mul_div_right _ _ hn, Nat.div_eq_of_lt hd, Nat.zero_add]
  have hac : a = c := by rw [← h1, ← h2, h]
  subst hac
  exact ⟨rfl, by omega⟩

theorem mem_product_transitions (n2 : Nat) (t1 t2 : List Transition) (t : Transition) :
    t ∈ product_transitions n2 t1 t2 ↔ ∃ x ∈ t1, ∃ y ∈ t2,
      t = { src := x.src * n2 + y.src, target := x.target * n2 + y.target } := by
  unfold product_transitions
  simp only [List.mem_flatMap, List.mem_map]
  constructor
  · rintro ⟨x, hx, y, hy, e⟩
    exact ⟨x, hx, y, hy, e.symm⟩
  · rintro ⟨x, hx, y, hy, e⟩
    exact ⟨x, hx, y, hy, e.symm⟩

theorem mem_merge_label_groups (labels : LabelTable) (ts1 ts2 : TransitionSystem) (silent : Bool)
    (g : LabelGroup) :
    g ∈ (merge labels ts1 ts2 silent).label_groups ↔
      ∃ g1 ∈ ts1.label_groups, ∃ g2 ∈ ts2.label_groups,
        (g1.labels.filter fun l => g2.labels.contains l) ≠ [] ∧
        g = { labels := g1.labels.filter fun l => g2.labels.contains l,
              transitions := sort_unique
                (product_transitions ts2.num_states g1.transitions g2.transitions),
              cost := g1.cost } := by
  unfold merge
  simp only [List.mem_flatMap, List.mem_filterMap]
  constructor
  · rintro ⟨g1, h1, g2, h2, e⟩
    refine ⟨g1, h1, g2, h2, ?_⟩
    split at e
    · cases e
    · rename_i hne
      refine ⟨?_, (Option.some.inj e).symm⟩
      intro hnil
      apply hne
      rw [hnil]
      rfl
  · rintro ⟨g1, h1, g2, h2, hne, e⟩
    refine ⟨g1, h1, g2, h2, ?_⟩
    have hemp : (g1.labels.filter fun l => g2.labels.contains l).isEmpty = false := by
      cases hc : (g1.labels.filter fun l => g2.labels.contains l) with
      | nil => exact absurd hc hne
      | cons _ _ => rfl
    simp only [hemp, Bool.false_eq_true, if_false]
    rw [e]

/-- The transitions of the product under a label. -/
theorem merge_has_transition (labels : LabelTable) (ts1 ts2 : TransitionSystem) (silent : Bool)
    (hrange : ∀ g ∈ ts2.label_groups, ∀ t ∈ g.transitions,
      t.src < ts2.num_states ∧ t.target < ts2.num_states)
    (label a b c d : Nat) (hb : b < ts2.num_states) (hd : d < ts2.num_states) :
    (merge labels ts1 ts2 silent).has_transition label
        (a * ts2.num_states + b) (c * ts2.num_states + d) = true ↔
      ts1.has_transition label a c = true ∧ ts2.has_transition label b d = true := by
  rw [has_transition_iff, has_transition_iff, has_transition_iff]
  constructor
  · rintro ⟨g, hg, hl, ht⟩
    obtain ⟨g1, h1, g2, h2, _, e⟩ := (mem_merge_label_groups labels ts1 ts2 silent g).1 hg
    rw [e] at hl ht
    have hl : label ∈ g1.labels ∧ label ∈ g2.labels := by
      simpa [List.mem_filter] using hl
    have ht2 := (mem_sort_unique _ _).1 ht
    obtain ⟨x, hx, y, hy, exy⟩ := (mem_product_transitions _ _ _ _).1 ht2
    have e1 : a * ts2.num_states + b = x.src * ts2.num_states + y.src :=
      congrArg Transition.src exy
    have e2 : c * ts2.num_states + d = x.target * ts2.num_states + y.target :=
      congrArg Transition.target exy
    obtain ⟨r1, r2⟩ := hrange g2 h2 y hy
    obtain ⟨s1, s2⟩ := pair_number_injective _ _ _ _ _ hb r1 e1
    obtain ⟨s3, s4⟩ := pair_number_injective _ _ _ _ _ hd r2 e2
    have ex : x = { src := a, target := c } := by
      cases x
      simp only at s1 s3
      rw [s1, s3]
    have ey : y = { src := b, target := d } := by
      cases y
      simp only at s2 s4
      rw [s2, s4]
    exact ⟨⟨g1, h1, hl.1, ex ▸ hx⟩, ⟨g2, h2, hl.2, ey ▸ hy⟩⟩
  · rintro ⟨⟨g1, h1, l1, t1⟩, ⟨g2, h2, l2, t2⟩⟩
    have hmem : label ∈ g1.labels.filter fun l => g2.labels.contains l := by
      simpa [List.mem_filter] using And.intro l1 l2
    refine ⟨_, (mem_merge_label_groups labels ts1 ts2 silent _).2
      ⟨g1, h1, g2, h2, List.ne_nil_of_mem hmem, rfl⟩, hmem, ?_⟩
    apply (mem_sort_unique _ _).2
    exact (mem_product_transitions _ _ _ _).2 ⟨_, t1, _, t2, rfl⟩

/-- C21: the transition system that `merge` appends for the systems `ts1` with
`m` states and `ts2` with `n` states is the one built by
`TransitionSystem::merge`; it has `m * n` states, the pairs `(a, b)` with
`a < m` and `b < n` being numbered `a * n + b` one to one; for every label it
has a transition from `(a, b)` to `(c, d)` exactly when `ts1` has one from `a`
to `c` and `ts2` has one from `b` to `d` under that label (the transitions of
`ts2` lie within its states). -/
theorem merge_is_synchronized_product (fts fts2 : SpecFTS) (index1 index2 : Nat)
    (invalidating_merge finalize_if_unsolvable : Bool) (ts1 ts2 : TransitionSystem)
    (hts1 : deref fts.transition_systems index1 = some ts1)
    (hts2 : deref fts.transition_systems index2 = some ts2)
    (hrange : ∀ g ∈ ts2.label_groups, ∀ t ∈ g.transitions,
      t.src < ts2.num_states ∧ t.target < ts2.num_states)
    (happend : FactoredTransitionSystem.merge_append specComponents fts index1 index2
      invalidating_merge finalize_if_unsolvable = some fts2) :
    ∃ ts, fts2.transition_systems.getLast? = some (some ts) ∧
      ts = merge fts.labels ts1 ts2 (!invalidating_merge || !finalize_if_unsolvable) ∧
      ts.num_states = ts1.num_states * ts2.num_states ∧
      (∀ a b, a < ts1.num_states → b < ts2.num_states →
        a * ts2.num_states + b < ts.num_states) ∧
      (∀ s, s < ts.num_states → ∃ a b, a < ts1.num_states ∧ b < ts2.num_states ∧
        s = a * ts2.num_states + b) ∧
      (∀ a b c d, b < ts2.num_states → d < ts2.num_states →
        a * ts2.num_states + b = c * ts2.num_states + d → a = c ∧ b = d) ∧
      ∀ label a b c d, b < ts2.num_states → d < ts2.num_states →
        (ts.has_transition label (a * ts2.num_states + b) (c * ts2.num_states + d) = true ↔
          ts1.has_transition label a c = true ∧ ts2.has_transition label b d = true) := by
  obtain ⟨c1, c2, hc1, hc2, _, rfl⟩ := FactoredTransitionSystem.merge_append_eq_some
    specComponents fts fts2 index1 index2 invalidating_merge finalize_if_unsolvable happend
  have e1 : c1.ts = ts1 := by
    have h := ((FactoredTransitionSystem.get_component_eq_some_iff fts index1 c1).1 hc1).1
    rw [(deref_eq_some_iff _ _ _).1 hts1] at h
    exact (Option.some.inj (Option.some.inj h)).symm
  have e2 : c2.ts = ts2 := by
    have h := ((FactoredTransitionSystem.get_component_eq_some_iff fts index2 c2).1 hc2).1
    rw [(deref_eq_some_iff _ _ _).1 hts2] at h
    exact (Option.some.inj (Option.some.inj h)).symm
  refine ⟨merge fts.labels ts1 ts2 (!invalidating_merge || !finalize_if_unsolvable), ?_, rfl, rfl,
    ?_, ?_, ?_, ?_⟩
  · show (consumed fts.transition_systems index1 index2
      invalidating_merge ++ [some (merge fts.labels c1.ts c2.ts
        (!invalidating_merge || !finalize_if_unsolvable))]).getLast? = _
    rw [e1, e2]
    simp
  · intro a b ha hb
    show a * ts2.num_states + b < ts1.num_states * ts2.num_states
    calc a * ts2.num_states + b < a * ts2.num_states + ts2.num_states := by omega
      _ = (a + 1) * ts2.num_states := by rw [Nat.add_mul, Nat.one_mul]
      _ ≤ ts1.num_states * ts2.num_states := Nat.mul_le_mul_right _ ha
  · intro s hs
    have hs2 : s < ts1.num_states * ts2.num_states := hs
    have hn : 0 < ts2.num_states := by
      rcases Nat.eq_zero_or_pos ts2.num_states with h | h
      · rw [h] at hs2
        simp at hs2
      · exact h
    refine ⟨s / ts2.num_states, s % ts2.num_states, ?_, Nat.mod_lt _ hn, ?_⟩
    · exact (Nat.div_lt_iff_lt_mul hn).2 hs2
    · rw [Nat.mul_comm]
      exact (Nat.div_add_mod s ts2.num_states).symm
  · intro a b c d hb hd h
    exact pair_number_injective _ a b c d hb hd h
  · intro label a b c d hb hd
    exact merge_has_transition fts.labels ts1 ts2 _ hrange label a b c d hb hd

theorem merge_is_synchronized_product_witness :
    deref (independent_atoms 2).transition_systems 0 = some (binary_atom 2 0) ∧
    deref (independent_atoms 2).transition_systems 1 = some (binary_atom 2 1) ∧
    (∀ g ∈ (binary_atom 2 1).label_groups, ∀ t ∈ g.transitions,
      t.src < (binary_atom 2 1).num_states ∧ t.target < (binary_atom 2 1).num_states) ∧
    ∃ fts2 ts, FactoredTransitionSystem.merge_append specComponents (independent_atoms 2) 0 1
        true true = some fts2 ∧
      fts2.transition_systems.getLast? = some (some ts) ∧ ts.num_states = 4 ∧
      (ts.has_transition 0 (0 * 2 + 1) (1 * 2 + 1) = true ↔
        (binary_atom 2 0).has_transition 0 0 1 = true ∧
          (binary_atom 2 1).has_transition 0 1 1 = true) := by
  have hr : ∀ g ∈ (binary_atom 2 1).label_groups, ∀ t ∈ g.transitions,
      t.src < (binary_atom 2 1).num_states ∧ t.target < (binary_atom 2 1).num_states := by
    decide
  have h : ∃ fts2, FactoredTransitionSystem.merge_append specComponents (independent_atoms 2) 0 1
      true true = some fts2 := ⟨_, rfl⟩
  obtain ⟨fts2, hf⟩ := h
  obtain ⟨ts, h1, _, h3, _, _, _, h7⟩ := merge_is_synchronized_product (independent_atoms 2) fts2
    0 1 true true (binary_atom 2 0) (binary_atom 2 1) (by rfl) (by rfl) hr hf
  exact ⟨by rfl, by rfl, hr, fts2, ts, hf, h1, h3, h7 0 0 1 1 1 (by decide) (by decide)⟩

end TransitionSystem

/-! ## MergeDFP: irrelevant label groups -/

namespace MergeDFP

variable {State L TS HR D : Type}

/-- For duplicate-free transitions whose sources are states, the test of
`compute_label_ranks` (as many transitions as states, all of them self-loops)
holds exactly when the transitions are the self-loops of all states. -/
theorem irrelevant_iff_self_loops (size : Nat) (g : LabelGroup) (hnodup : g.transitions.Nodup)
    (hrange : ∀ t ∈ g.transitions, t.src < size) :
    irrelevant size g = true ↔
      ∀ t : Transition, t ∈ g.transitions ↔ (t.target = t.src ∧ t.src < size) := by
  have hinj : (∀ t ∈ g.transitions, t.target = t.src) →
      (g.transitions.map Transition.src).Nodup := by
    intro hself
    apply List.Nodup.map_on _ hnodup
    intro x hx y hy hxy
    have h1 := hself x hx
    have h2 := hself y hy
    cases x
    cases y
    simp only at h1 h2 hxy
    rw [Transition.mk.injEq]
    exact ⟨hxy, by rw [h1, h2, hxy]⟩
  unfold irrelevant
  simp only [Bool.and_eq_true, decide_eq_true_eq, List.all_eq_true]
  constructor
  · rintro ⟨hlen, hself⟩
    have hnd := hinj hself
    have hsub : (g.transitions.map Transition.src).toFinset ⊆ Finset.range size := by
      intro s hs
      rw [List.mem_toFinset, List.mem_map] at hs
      obtain ⟨t, ht, rfl⟩ := hs
      exact Finset.mem_range.2 (hrange t ht)
    have hcard : (g.transitions.map Transition.src).toFinset.card = size := by
      rw [List.toFinset_card_of_nodup hnd, List.length_map, hlen]
    have heq : (g.transitions.map Transition.src).toFinset = Finset.range size :=
      Finset.eq_of_subset_of_card_le hsub (by rw [hcard, Finset.card_range])
    intro t
    constructor
    · intro ht
      exact ⟨hself t ht, hrange t ht⟩
    · rintro ⟨h1, h2⟩
      have hmem : t.src ∈ (g.transitions.map Transition.src).toFinset := by
        rw [heq]
        exact Finset.mem_range.2 h2
      rw [List.mem_toFinset, List.mem_map] at hmem
      obtain ⟨u, hu, hsrc⟩ := hmem
      have hu2 := hself u hu
      have e : u = t := by
        cases u
        cases t
        simp only at hsrc hu2 h1
        rw [Transition.mk.injEq]
        exact ⟨hsrc, by rw [hu2, h1, hsrc]⟩
      rw [← e]
      exact hu
  · intro h
    have hself : ∀ t ∈ g.transitions, t.target = t.src := fun t ht => ((h t).1 ht).1
    have hnd := hinj hself
    have heq : (g.transitions.map Transition.src).toFinset = Finset.range size := by
      ext s
      rw [List.mem_toFinset, List.mem_map, Finset.mem_range]
      constructor
      · rintro ⟨t, ht, rfl⟩
        exact ((h t).1 ht).2
      · intro hs
        exact ⟨{ src := s, target := s }, (h _).2 ⟨rfl, hs⟩, rfl⟩
    refine ⟨?_, hself⟩
    have hcard := List.toFinset_card_of_nodup hnd
    rw [heq, Finset.card_range, List.length_map] at hcard
    exact hcard.symm

theorem group_rank_eq_neg_one_iff (ops : Components State L TS HR D) (d : D) (size : Nat)
    (g : LabelGroup) (hinf : 0 ≤ ops.INF)
    (hnonneg : ∀ t ∈ g.transitions, 0 ≤ ops.dist_get_goal_distance d (t.target : Int)) :
    group_rank ops d size g = -1 ↔ irrelevant size g = true := by
  constructor
  · intro h
    rcases hrel : irrelevant size g with _ | _
    · rw [group_rank_of_relevant ops d size g hrel] at h
      rcases (foldl_min_spec (fun t => ops.dist_get_goal_distance d (t.target : Int))
        g.transitions ops.INF).2.2 with h1 | ⟨t, ht, h1⟩
      · rw [h1] at h
        omega
      · rw [h1] at h
        have := hnonneg t ht
        omega
    · rfl
  · exact group_rank_of_irrelevant ops d size g

/-- C25: for a live component whose label groups have duplicate-free
transitions (as sorted, duplicate-free lists are) with both endpoints among its
states, `compute_label_ranks` gives the labels of a group rank -1 exactly when
the transitions of the group are the self-loops of all states of the component;
and the two tests of the code (as many transitions as states, every transition
a self-loop) hold exactly in that case. (The labels of the groups are label
numbers, no label is in two groups, and `INF` and the goal distances of the
targets are not negative.) -/
theorem compute_label_ranks_irrelevant_iff_self_loops (ops : Components State L TS HR D)
    (acc : GroupAccess TS) (fts : FactoredTransitionSystem L TS HR D) (index : Nat)
    (c : Component TS HR D)
    (hlive : fts.get_component index = some c)
    (hlabels : ∀ g ∈ acc.ts_label_groups c.ts, ∀ l ∈ g.labels,
      (l : Int) < FactoredTransitionSystem.get_num_labels ops fts)
    (hgroups : ((acc.ts_label_groups c.ts).flatMap LabelGroup.labels).Nodup)
    (hnodup : ∀ g ∈ acc.ts_label_groups c.ts, g.transitions.Nodup)
    (hrange : ∀ g ∈ acc.ts_label_groups c.ts, ∀ t ∈ g.transitions,
      t.src < ops.ts_get_size c.ts ∧ t.target < ops.ts_get_size c.ts)
    (hinf : 0 ≤ ops.INF)
    (hnonneg : ∀ g ∈ acc.ts_label_groups c.ts, ∀ t ∈ g.transitions,
      0 ≤ ops.dist_get_goal_distance c.dist (t.target : Int)) :
    ∃ ranks, compute_label_ranks ops acc fts index [] = some ranks ∧
      ∀ g ∈ acc.ts_label_groups c.ts,
        ((g.transitions.length = ops.ts_get_size c.ts ∧
            ∀ t ∈ g.transitions, t.target = t.src) ↔
          ∀ t : Transition, t ∈ g.transitions ↔
            (t.target = t.src ∧ t.src < ops.ts_get_size c.ts)) ∧
        ∀ l ∈ g.labels,
          (ranks[l]? = some (-1) ↔
            ∀ t : Transition, t ∈ g.transitions ↔
              (t.target = t.src ∧ t.src < ops.ts_get_size c.ts)) := by
  obtain ⟨h1, _, h3⟩ := (FactoredTransitionSystem.get_component_eq_some_iff fts index c).1 hlive
  have hresize : resize [] (FactoredTransitionSystem.get_num_labels ops fts).toNat (-1)
      = List.replicate (FactoredTransitionSystem.get_num_labels ops fts).toNat (-1) := by
    simp [resize]
  have hlt : ∀ g ∈ acc.ts_label_groups c.ts, ∀ l ∈ g.labels,
      l < (List.replicate (FactoredTransitionSystem.get_num_labels ops fts).toNat
        (-1 : Int)).length := by
    intro g hg l hl
    have := hlabels g hg l hl
    rw [List.length_replicate]
    omega
  obtain ⟨ranks, r1, _, r3, _⟩ := rank_groups_spec ops c.dist (ops.ts_get_size c.ts)
    (acc.ts_label_groups c.ts) _ hlt hgroups
  refine ⟨ranks, ?_, ?_⟩
  · unfold compute_label_ranks
    rw [(deref_eq_some_iff _ _ _).2 h1, (deref_eq_some_iff _ _ _).2 h3]
    simp only [Option.some_bind, hresize]
    exact r1
  · intro g hg
    have hiff := irrelevant_iff_self_loops (ops.ts_get_size c.ts) g (hnodup g hg)
      (fun t ht => (hrange g hg t ht).1)
    constructor
    · rw [← hiff]
      unfold irrelevant
      simp only [Bool.and_eq_true, decide_eq_true_eq, List.all_eq_true]
    · intro l hl
      rw [r3 g hg l hl, ← hiff, ← group_rank_eq_neg_one_iff ops c.dist (ops.ts_get_size c.ts) g
        hinf (hnonneg g hg)]
      constructor
      · intro h
        exact Option.some.inj h
      · intro h
        rw [h]

theorem compute_label_ranks_irrelevant_iff_self_loops_witness :
    (specAtoms.get_component 0 = some ⟨binary_atom 3 0, HeuristicRepresentation.new_leaf 0 2,
        { init_distances := [0, 1], goal_distances := [1, 0], computed := true }⟩ ∧
      compute_label_ranks specComponents specAccess specAtoms 0 [] = some [0, -1, -1]) ∧
    ∃ ranks, compute_label_ranks specComponents specAccess specAtoms 0 [] = some ranks ∧
      ∀ g ∈ specAccess.ts_label_groups (binary_atom 3 0),
        ((g.transitions.length = specComponents.ts_get_size (binary_atom 3 0) ∧
            ∀ t ∈ g.transitions, t.target = t.src) ↔
          ∀ t : Transition, t ∈ g.transitions ↔
            (t.target = t.src ∧ t.src < specComponents.ts_get_size (binary_atom 3 0))) ∧
        ∀ l ∈ g.labels,
          (ranks[l]? = some (-1) ↔
            ∀ t : Transition, t ∈ g.transitions ↔
              (t.target = t.src ∧ t.src < specComponents.ts_get_size (binary_atom 3 0))) :=
  ⟨⟨by rfl, by rfl⟩,
    compute_label_ranks_irrelevant_iff_self_loops specComponents specAccess specAtoms 0
      ⟨binary_atom 3 0, HeuristicRepresentation.new_leaf 0 2,
        { init_distances := [0, 1], goal_distances := [1, 0], computed := true }⟩
      (by rfl) (by decide) (by decide) (by decide) (by decide) (by decide) (by decide)⟩

end MergeDFP

/-! ## The index of the final transition system -/

section FinalIndex

open FactoredTransitionSystem

set_option maxRecDepth 100000 in
/-- C29, the case that `build_transition_system` misses: for the solvable task
with one variable the only component is live at index 0 and `done()` holds at
once, so the loop body never runs and `final_index` keeps its initial value -1;
`fts->get_ts(final_index)` then reads outside the vector, whatever the
strategies are, while `finalize()`, called next, takes index 0 as the final
index. For the task with two variables `final_index` is 2, the index of the
only live component, and the size reported is 4. -/
theorem final_index_unset_without_merge :
    specSingle.solvable = true ∧ specSingle.transition_systems.length = 1 ∧
    specSingle.is_index_valid 0 = some true ∧ dfpOne.done = true ∧
    (∀ (st : Strategies LabelTable TransitionSystem HeuristicRepresentation Distances)
      (fuel : Nat),
      build_loop_index specComponents specAccess st fuel specSingle dfpOne (-1)
        = Outcome.finished (specSingle, dfpOne, -1)) ∧
    get_ts_at specSingle (-1) = none ∧
    (∀ (st : Strategies LabelTable TransitionSystem HeuristicRepresentation Distances)
      (fuel : Nat),
      build_transition_system_size specComponents specAccess st fuel specSingle dfpOne
        = Outcome.failed) ∧
    (finalize specSingle (-1)).map (fun fts => fts.final_index) = some 0 ∧
    ∃ r, build_transition_system_size specComponents specAccess (idleStrategies _ _ _ _) 1
        specPair dfpTwo = Outcome.finished r ∧
      r.2.1 = 2 ∧ r.2.2 = some 4 ∧ r.1.is_index_valid 2 = some true ∧
      r.1.is_index_valid 0 = some false ∧ r.1.is_index_valid 1 = some false := by
  refine ⟨by rfl, by rfl, by rfl, by rfl, ?_, by rfl, ?_, by rfl, ⟨_, rfl, rfl, rfl, rfl, rfl, rfl⟩⟩
  · intro st fuel
    cases fuel <;> rfl
  · intro st fuel
    cases fuel <;> rfl

end FinalIndex

/-! ## MergeDFP: `get_next` finds a pair -/

namespace MergeDFP

variable {State L TS HR D : Type}

theorem is_index_valid_defined (fts : FactoredTransitionSystem L TS HR D)
    (hslots : fts.SameNumberOfSlots) (i : Nat) : ∃ b, fts.is_index_valid i = some b := by
  rw [FactoredTransitionSystem.is_index_valid_eq_slot_valid]
  by_cases hi : i < fts.transition_systems.length
  · have h2 : i < fts.heuristic_representations.length := by rw [← hslots.1]; exact hi
    have h3 : i < fts.distances.length := by rw [← hslots.2]; exact h2
    rw [List.getElem?_eq_getElem hi, List.getElem?_eq_getElem h2, List.getElem?_eq_getElem h3]
    rcases fts.transition_systems[i] with _ | _ <;>
      rcases fts.heuristic_representations[i] with _ | _ <;>
      rcases fts.distances[i] with _ | _ <;> exact ⟨_, rfl⟩
  · have h2 : ¬ i < fts.heuristic_representations.length := by rw [← hslots.1]; exact hi
    have h3 : ¬ i < fts.distances.length := by rw [← hslots.2]; exact h2
    rw [List.getElem?_eq_none (by omega), List.getElem?_eq_none (by omega),
      List.getElem?_eq_none (by omega)]
    exact ⟨_, rfl⟩

theorem rank_groups_succeeds (ops : Components State L TS HR D) (d : D) (size : Nat) :
    ∀ (groups : List LabelGroup) (ranks : List Int),
      (∀ g ∈ groups, ∀ l ∈ g.labels, l < ranks.length) →
      ∃ ranks', rank_groups ops d size groups ranks = some ranks' := by
  intro groups
  induction groups with
  | nil =>
    intro ranks _
    exact ⟨ranks, rfl⟩
  | cons g rest ih =>
    intro ranks hlt
    obtain ⟨ranks1, a1, a2, _, _⟩ :=
      assign_rank_spec (group_rank ops d size g) g.labels ranks (hlt g (List.mem_cons_self _ _))
    have hrest : ∀ g' ∈ rest, ∀ l ∈ g'.labels, l < ranks1.length := by
      intro g' hg' l hl
      rw [a2]
      exact hlt g' (List.mem_cons_of_mem _ hg') l hl
    obtain ⟨ranks2, b1⟩ := ih ranks1 hrest
    refine ⟨ranks2, ?_⟩
    simp only [rank_groups, a1, Option.some_bind]
    exact b1

theorem compute_label_ranks_succeeds (ops : Components State L TS HR D) (acc : GroupAccess TS)
    (fts : FactoredTransitionSystem L TS HR D) (index : Nat) (c : Component TS HR D)
    (hlive : fts.get_component index = some c)
    (hlabels : ∀ g ∈ acc.ts_label_groups c.ts, ∀ l ∈ g.labels,
      (l : Int) < FactoredTransitionSystem.get_num_labels ops fts) :
    ∃ ranks, compute_label_ranks ops acc fts index [] = some ranks := by
  obtain ⟨h1, _, h3⟩ := (FactoredTransitionSystem.get_component_eq_some_iff fts index c).1 hlive
  have hlt : ∀ g ∈ acc.ts_label_groups c.ts, ∀ l ∈ g.labels,
      l < (resize [] (FactoredTransitionSystem.get_num_labels ops fts).toNat (-1)).length := by
    intro g hg l hl
    have := hlabels g hg l hl
    simp only [resize, List.take_nil, List.length_nil, Nat.sub_zero, List.nil_append,
      List.length_replicate]
    omega
  obtain ⟨ranks, r1⟩ := rank_groups_succeeds ops c.dist (ops.ts_get_size c.ts)
    (acc.ts_label_groups c.ts) _ hlt
  refine ⟨ranks, ?_⟩
  unfold compute_label_ranks
  rw [(deref_eq_some_iff _ _ _).2 h1, (deref_eq_some_iff _ _ _).2 h3]
  simp only [Option.some_bind]
  exact r1

theorem collect_active_succeeds (ops : Components State L TS HR D) (acc : GroupAccess TS)
    (fts : FactoredTransitionSystem L TS HR D) (hslots : fts.SameNumberOfSlots)
    (hlabels : ∀ k c, fts.get_component k = some c →
      ∀ g ∈ acc.ts_label_groups c.ts, ∀ l ∈ g.labels,
        (l : Int) < FactoredTransitionSystem.get_num_labels ops fts) :
    ∀ l : List Nat, ∃ entries, collect_active ops acc fts (l.map Int.ofNat) = some entries := by
  intro l
  induction l with
  | nil => exact ⟨[], rfl⟩
  | cons i rest ih =>
    obtain ⟨entries, he⟩ := ih
    have hnn : ¬ (Int.ofNat i < 0) := not_lt.2 (Int.ofNat_nonneg i)
    have htn : (Int.ofNat i).toNat = i := rfl
    obtain ⟨b, hb⟩ := is_index_valid_defined fts hslots i
    simp only [List.map_cons, collect_active, is_active_at, hnn, if_false,
      FactoredTransitionSystem.is_active, htn, hb, Option.some_bind]
    cases b
    · exact ⟨entries, by simpa using he⟩
    · obtain ⟨c, hc⟩ := (FactoredTransitionSystem.is_index_valid_eq_true_iff fts i).1 hb
      obtain ⟨ranks, hr⟩ := compute_label_ranks_succeeds ops acc fts i c hc (hlabels i c hc)
      refine ⟨(Int.ofNat i, ranks) :: entries, ?_⟩
      simp only [if_true, hr, Option.some_bind, he, Option.map_some']

/-- With the border within the slots, the traversal list is built without a
failing access and holds exactly the active indices, each once. -/
theorem sorted_active_entries_spec (ops : Components State L TS HR D) (acc : GroupAccess TS)
    (dfp : MergeDFP) (fts : FactoredTransitionSystem L TS HR D)
    (hborder0 : 0 ≤ dfp.border_atomics_composites)
    (hborder : dfp.border_atomics_composites ≤ (fts.size : Int))
    (hslots : fts.SameNumberOfSlots)
    (hlabels : ∀ k c, fts.get_component k = some c →
      ∀ g ∈ acc.ts_label_groups c.ts, ∀ l ∈ g.labels,
        (l : Int) < FactoredTransitionSystem.get_num_labels ops fts) :
    ∃ entries, sorted_active_entries ops acc dfp fts = some entries ∧
      (entries.map Prod.fst).Nodup ∧
      (∀ i : Nat, Int.ofNat i ∈ entries.map Prod.fst ↔ fts.is_active i = some true) := by
  obtain ⟨entries, hentries⟩ := collect_active_succeeds ops acc fts hslots hlabels
    (described_order dfp.order dfp.border_atomics_composites fts.size)
  have hmap := collect_active_indices ops acc fts _ entries hentries
  refine ⟨entries, ?_, ?_, ?_⟩
  · unfold sorted_active_entries
    rw [visiting_order_eq dfp fts.size hborder0 hborder]
    exact hentries
  · rw [hmap]
    apply List.Nodup.map
    · intro a b hab
      exact Int.ofNat.inj hab
    · exact (nodup_described_order _ _ _).filter _
  · intro i
    rw [hmap, List.mem_map]
    constructor
    · rintro ⟨j, hj, hji⟩
      have : j = i := Int.ofNat.inj hji
      subst this
      simpa using (List.mem_filter.1 hj).2
    · intro h
      refine ⟨i, ?_, rfl⟩
      rw [List.mem_filter, mem_described_order]
      refine ⟨?_, by simpa using h⟩
      exact (Finset.mem_range.1 (Finset.mem_filter.1
        ((FactoredTransitionSystem.mem_live_indices fts i).2 h)).1)

theorem ordered_pairs_complete {α : Type} : ∀ (l : List α) (a b : α),
    a ∈ l → b ∈ l → a ≠ b → (a, b) ∈ ordered_pairs l ∨ (b, a) ∈ ordered_pairs l := by
  intro l
  induction l with
  | nil =>
    intro a b ha
    cases ha
  | cons x rest ih =>
    intro a b ha hb hab
    unfold ordered_pairs
    rcases List.mem_cons.1 ha with h1 | h1
    · rcases List.mem_cons.1 hb with h2 | h2
      · exact absurd (h1.trans h2.symm) hab
      · left
        rw [h1]
        exact List.mem_append_left _ (List.mem_map.2 ⟨b, h2, rfl⟩)
    · rcases List.mem_cons.1 hb with h2 | h2
      · right
        rw [h2]
        exact List.mem_append_left _ (List.mem_map.2 ⟨a, h1, rfl⟩)
      · rcases ih a b h1 h2 hab with h | h
        · exact Or.inl (List.mem_append_right _ h)
        · exact Or.inr (List.mem_append_right _ h)

theorem ordered_pairs_distinct {α β : Type} (f : α → β) : ∀ (l : List α),
    (l.map f).Nodup → ∀ p ∈ ordered_pairs l, f p.1 ≠ f p.2 := by
  intro l
  induction l with
  | nil =>
    intro _ p hp
    cases hp
  | cons x rest ih =>
    intro hnd p hp
    rw [List.map_cons, List.nodup_cons] at hnd
    unfold ordered_pairs at hp
    rcases List.mem_append.1 hp with h | h
    · obtain ⟨b, hb, rfl⟩ := List.mem_map.1 h
      intro heq
      apply hnd.1
      show f x ∈ rest.map f
      rw [heq]
      exact List.mem_map.2 ⟨b, hb, rfl⟩
    · exact ih hnd.2 p h

theorem record_pair_first_valid (inf : Int) (e1 e2 : Int × List Int) (s : Search) :
    (record_pair inf e1 e2 s).first_valid_pair_index1 = e1.1 ∧
    (record_pair inf e1 e2 s).first_valid_pair_index2 = e2.1 := by
  by_cases h : pair_weight_from inf e1.2 e2.2 < s.minimum_weight
  · unfold record_pair
    simp [h]
  · exact (record_pair_not_improving inf e1 e2 s h).2.2.2

/-- After the loops either no pair has improved on the initial weight, or the
chosen pair is one of the candidates; and the fall-back pair is a candidate. -/
theorem fold_record_pair_result (inf : Int) :
    ∀ (cs : List ((Int × List Int) × (Int × List Int))) (s : Search),
      (((cs.foldl (fun s p => record_pair inf p.1 p.2 s) s).next_index1 = s.next_index1 ∧
        (cs.foldl (fun s p => record_pair inf p.1 p.2 s) s).next_index2 = s.next_index2 ∧
        (cs.foldl (fun s p => record_pair inf p.1 p.2 s) s).minimum_weight = s.minimum_weight) ∨
        ∃ c ∈ cs, (cs.foldl (fun s p => record_pair inf p.1 p.2 s) s).next_index1 = c.1.1 ∧
          (cs.foldl (fun s p => record_pair inf p.1 p.2 s) s).next_index2 = c.2.1) ∧
      (cs ≠ [] → ∃ c ∈ cs,
        (cs.foldl (fun s p => record_pair inf p.1 p.2 s) s).first_valid_pair_index1 = c.1.1 ∧
        (cs.foldl (fun s p => record_pair inf p.1 p.2 s) s).first_valid_pair_index2 = c.2.1) := by
  intro cs
  induction cs with
  | nil =>
    intro s
    exact ⟨Or.inl ⟨rfl, rfl, rfl⟩, fun h => absurd rfl h⟩
  | cons c rest ih =>
    intro s
    obtain ⟨i1, i2⟩ := ih (record_pair inf c.1 c.2 s)
    simp only [List.foldl_cons]
    constructor
    · rcases i1 with ⟨a, b, m⟩ | ⟨c', hc', a, b⟩
      · by_cases himp : pair_weight_from inf c.1.2 c.2.2 < s.minimum_weight
        · obtain ⟨r1, r2, _⟩ := record_pair_improving inf c.1 c.2 s himp
          exact Or.inr ⟨c, List.mem_cons_self _ _, a.trans r1, b.trans r2⟩
        · obtain ⟨r1, r2, r3, _⟩ := record_pair_not_improving inf c.1 c.2 s himp
          exact Or.inl ⟨a.trans r1, b.trans r2, m.trans r3⟩
      · exact Or.inr ⟨c', List.mem_cons_of_mem _ hc', a, b⟩
    · intro _
      by_cases hrest : rest = []
      · subst hrest
        exact ⟨c, List.mem_cons_self _ _, record_pair_first_valid inf c.1 c.2 s⟩
      · obtain ⟨c', hc', a, b⟩ := i2 hrest
        exact ⟨c', List.mem_cons_of_mem _ hc', a, b⟩

theorem choose_pair_of_fallback (inf : Int) (entries : List (Int × List Int)) (s : Search)
    (h1 : s.next_index1 = -1) (h2 : s.next_index2 = -1) (hw : s.minimum_weight = inf)
    (f1 : 0 ≤ s.first_valid_pair_index1) (f2 : 0 ≤ s.first_valid_pair_index2) :
    choose_pair inf entries s = some (s.first_valid_pair_index1, s.first_valid_pair_index2) := by
  have n1 : s.first_valid_pair_index1 ≠ -1 := by omega
  have n2 : s.first_valid_pair_index2 ≠ -1 := by omega
  unfold choose_pair
  simp [h1, h2, hw, n1, n2, check]

/-- C28, counterexample: in a task without labels the vectors of label ranks
are empty, and `get_next` fails the assertion `!label_ranks1.empty()`, although
two components are active and goal relevant. -/
theorem get_next_fails_without_labels :
    dfpTwo.initialized = true ∧ dfpTwo.done = false ∧
    specIdle.is_active 0 = some true ∧ specIdle.is_active 1 = some true ∧
    goal_relevant specAccess specIdle 0 = true ∧
    goal_relevant specAccess specIdle 1 = true ∧
    FactoredTransitionSystem.get_num_labels specComponents specIdle = 0 ∧
    sorted_active_entries specComponents specAccess dfpTwo specIdle = some [(0, []), (1, [])] ∧
    get_next specComponents specAccess dfpTwo specIdle = none := by
  refine ⟨by rfl, by rfl, by rfl, by rfl, by rfl, by rfl, by rfl, by rfl, by rfl⟩

/-- C28, amended: when the strategy is initialized and not done, the border
between atomic and composite indices lies within the slots, the three vectors
have the same number of slots, there is at least one label, the labels of the
groups of the live components are label numbers, and two distinct components
are active of which one is goal relevant, `get_next` returns a pair of two
distinct active indices of which at least one is goal relevant; no access of
the call leaves the traversal list or a vector of label ranks. -/
theorem get_next_returns_active_goal_relevant_pair (ops : Components State L TS HR D)
    (acc : GroupAccess TS) (dfp : MergeDFP) (fts : FactoredTransitionSystem L TS HR D)
    (i j : Nat)
    (hinit : dfp.initialized = true) (hdone : dfp.done = false)
    (hborder0 : 0 ≤ dfp.border_atomics_composites)
    (hborder : dfp.border_atomics_composites ≤ (fts.size : Int))
    (hslots : fts.SameNumberOfSlots)
    (hnum : 0 < FactoredTransitionSystem.get_num_labels ops fts)
    (hlabels : ∀ k c, fts.get_component k = some c →
      ∀ g ∈ acc.ts_label_groups c.ts, ∀ l ∈ g.labels,
        (l : Int) < FactoredTransitionSystem.get_num_labels ops fts)
    (hij : i ≠ j) (hi : fts.is_active i = some true) (hj : fts.is_active j = some true)
    (hrel : goal_relevant acc fts (Int.ofNat i) = true) :
    ∃ i1 i2 : Nat,
      get_next ops acc dfp fts
        = some ((Int.ofNat i1, Int.ofNat i2),
            { dfp with remaining_merges := dfp.remaining_merges - 1 }) ∧
      i1 ≠ i2 ∧ fts.is_active i1 = some true ∧ fts.is_active i2 = some true ∧
      (goal_relevant acc fts (Int.ofNat i1) = true ∨
        goal_relevant acc fts (Int.ofNat i2) = true) := by
  obtain ⟨entries, hentries, hnd, hact⟩ :=
    sorted_active_entries_spec ops acc dfp fts hborder0 hborder hslots hlabels
  have hmem := sorted_active_entries_mem ops acc dfp fts entries hentries
  have hn : 0 < (FactoredTransitionSystem.get_num_labels ops fts).toNat := by omega
  have hwf : ∀ e ∈ entries, (∃ r, is_goal_relevant_at acc fts e.1 = some r) ∧
      e.2.length = (FactoredTransitionSystem.get_num_labels ops fts).toNat :=
    fun e he => ⟨(hmem e he).2.1, (hmem e he).2.2.1⟩
  have houter := outer_loop_eq acc fts ops.INF _ hn entries
    { next_index1 := -1, next_index2 := -1, first_valid_pair_index1 := -1,
      first_valid_pair_index2 := -1, minimum_weight := ops.INF } hwf
  -- every candidate is a pair of two distinct active indices, one goal relevant
  have hcand : ∀ c ∈ candidates acc fts entries, ∃ i1 i2 : Nat,
      c.1.1 = Int.ofNat i1 ∧ c.2.1 = Int.ofNat i2 ∧ i1 ≠ i2 ∧
      fts.is_active i1 = some true ∧ fts.is_active i2 = some true ∧
      (goal_relevant acc fts (Int.ofNat i1) = true ∨
        goal_relevant acc fts (Int.ofNat i2) = true) := by
    intro c hc
    obtain ⟨hop, hcd⟩ := List.mem_filter.1 hc
    obtain ⟨m1, m2⟩ := mem_ordered_pairs entries c hop
    have p1 : 0 ≤ c.1.1 := (hmem c.1 m1).1
    have p2 : 0 ≤ c.2.1 := (hmem c.2 m2).1
    have e1 : c.1.1 = Int.ofNat c.1.1.toNat := (Int.toNat_of_nonneg p1).symm
    have e2 : c.2.1 = Int.ofNat c.2.1.toNat := (Int.toNat_of_nonneg p2).symm
    have hne : c.1.1 ≠ c.2.1 := ordered_pairs_distinct Prod.fst entries hnd c hop
    refine ⟨c.1.1.toNat, c.2.1.toNat, e1, e2, ?_, ?_, ?_, ?_⟩
    · intro h
      apply hne
      rw [e1, e2, h]
    · apply (hact _).1
      rw [← e1]
      exact List.mem_map.2 ⟨c.1, m1, rfl⟩
    · apply (hact _).1
      rw [← e2]
      exact List.mem_map.2 ⟨c.2, m2, rfl⟩
    · rw [← e1, ← e2]
      simpa [candidate] using hcd
  -- there is a candidate
  have hne : candidates acc fts entries ≠ [] := by
    obtain ⟨ei, hei, hfi⟩ := List.mem_map.1 ((hact i).2 hi)
    obtain ⟨ej, hej, hfj⟩ := List.mem_map.1 ((hact j).2 hj)
    have hdiff : ei ≠ ej := by
      intro h
      apply hij
      have : Int.ofNat i = Int.ofNat j := by rw [← hfi, ← hfj, h]
      exact Int.ofNat.inj this
    have hreli : goal_relevant acc fts ei.1 = true := by rw [hfi]; exact hrel
    rcases ordered_pairs_complete entries ei ej hei hej hdiff with h | h
    · exact List.ne_nil_of_mem (List.mem_filter.2 ⟨h, by simp [candidate, hreli]⟩)
    · exact List.ne_nil_of_mem (List.mem_filter.2 ⟨h, by simp [candidate, hreli]⟩)
  obtain ⟨r1, r2⟩ := fold_record_pair_result ops.INF (candidates acc fts entries)
    ⟨-1, -1, -1, -1, ops.INF⟩
  obtain ⟨cf, hcf, f1, f2⟩ := r2 hne
  have hget : ∀ next, choose_pair ops.INF entries
      ((candidates acc fts entries).foldl (fun s p => record_pair ops.INF p.1 p.2 s)
        ⟨-1, -1, -1, -1, ops.INF⟩) = some next →
      get_next ops acc dfp fts
        = some (next, { dfp with remaining_merges := dfp.remaining_merges - 1 }) := by
    intro next hnext
    unfold get_next
    rw [hinit, hentries]
    simp only [hdone, Bool.not_false, check, if_true, Option.some_bind, houter, hnext]
  rcases r1 with ⟨a, b, m⟩ | ⟨c, hc, a, b⟩
  · obtain ⟨i1, i2, e1, e2, hd, a1, a2, hg⟩ := hcand cf hcf
    refine ⟨i1, i2, ?_, hd, a1, a2, hg⟩
    rw [← e1, ← e2, ← f1, ← f2]
    apply hget
    apply choose_pair_of_fallback ops.INF entries _ a b m
    · rw [f1, e1]
      exact Int.ofNat_nonneg _
    · rw [f2, e2]
      exact Int.ofNat_nonneg _
  · obtain ⟨i1, i2, e1, e2, hd, a1, a2, hg⟩ := hcand c hc
    refine ⟨i1, i2, ?_, hd, a1, a2, hg⟩
    rw [← e1, ← e2, ← a, ← b]
    apply hget
    apply choose_pair_of_found ops.INF entries _
    · rw [a, e1]
      exact Int.ofNat_nonneg _
    · rw [b, e2]
      exact Int.ofNat_nonneg _

set_option maxRecDepth 100000 in
theorem get_next_returns_active_goal_relevant_pair_witness :
    (dfpThree.initialized = true ∧ dfpThree.done = false ∧
      0 ≤ dfpThree.border_atomics_composites ∧
      dfpThree.border_atomics_composites ≤ (specAtoms.size : Int) ∧
      specAtoms.SameNumberOfSlots ∧
      0 < FactoredTransitionSystem.get_num_labels specComponents specAtoms ∧
      (0 : Nat) ≠ 1 ∧ specAtoms.is_active 0 = some true ∧ specAtoms.is_active 1 = some true ∧
      goal_relevant specAccess specAtoms (Int.ofNat 0) = true) ∧
    (get_next specComponents specAccess dfpThree specAtoms).map Prod.fst = some (1, 2) ∧
    ∃ i1 i2 : Nat,
      get_next specComponents specAccess dfpThree specAtoms
        = some ((Int.ofNat i1, Int.ofNat i2),
            { dfpThree with remaining_merges := dfpThree.remaining_merges - 1 }) ∧
      i1 ≠ i2 ∧ specAtoms.is_active i1 = some true ∧ specAtoms.is_active i2 = some true ∧
      (goal_relevant specAccess specAtoms (Int.ofNat i1) = true ∨
        goal_relevant specAccess specAtoms (Int.ofNat i2) = true) := by
  have hlabels : ∀ k c, specAtoms.get_component k = some c →
      ∀ g ∈ specAccess.ts_label_groups c.ts, ∀ l ∈ g.labels,
        (l : Int) < FactoredTransitionSystem.get_num_labels specComponents specAtoms := by
    intro k c hc
    have hk : k < 3 := by
      have h1 := ((FactoredTransitionSystem.get_component_eq_some_iff specAtoms k c).1 hc).1
      have h2 := FactoredTransitionSystem.lt_length_of_getElem?_eq_some _ _ _ h1
      exact h2
    have hts := ((FactoredTransitionSystem.get_component_eq_some_iff specAtoms k c).1 hc).1
    rcases k with _ | _ | _ | k
    · have e : c.ts = binary_atom 3 0 := (Option.some.inj (Option.some.inj hts)).symm
      rw [e]
      decide
    · have e : c.ts = binary_atom 3 1 := (Option.some.inj (Option.some.inj hts)).symm
      rw [e]
      decide
    · have e : c.ts = binary_atom 3 2 := (Option.some.inj (Option.some.inj hts)).symm
      rw [e]
      decide
    · omega
  exact ⟨⟨by rfl, by rfl, by decide, by decide, ⟨rfl, rfl⟩, by decide, by decide, by rfl, by rfl,
      by rfl⟩, by rfl,
    get_next_returns_active_goal_relevant_pair specComponents specAccess dfpThree specAtoms 0 1
      (by rfl) (by rfl) (by decide) (by decide) ⟨rfl, rfl⟩ (by decide) hlabels (by decide)
      (by rfl) (by rfl) (by rfl)⟩

end MergeDFP

end MergeAndShrink
